import Mathlib

/-!
# Bimap: a shallow embedding of `map.h` and `bimap.h`

The C++ objects live in one address space.  A pointer to a `map_base_node` is
modelled by `Ptr`; the memory holding every `map_base_node` subobject (the two
heads of every bimap and the two role bases of every pair node) is a `Heap`.
Reading or writing through an invalid pointer is undefined behaviour in the
source and yields `none` here.  Loops take a `fuel` bound on their number of
iterations and yield `none` when it is exhausted.
-/

namespace bimap_details

/-- The two roles of a pair node (`struct Left_Tag; struct Right_Tag;`). -/
inductive Tag
  | Left_Tag
  | Right_Tag
  deriving DecidableEq, Repr

/-- The opposite role. -/
def Tag.other : Tag → Tag
  | .Left_Tag => .Right_Tag
  | .Right_Tag => .Left_Tag

/-- Addresses of `map_base_node` subobjects: the null pointer, the `head` member of the
map with role `t` inside bimap object `b`, and the role-`t` base of pair node `i`. -/
inductive Ptr
  | nullptr
  | head (b : Nat) (t : Tag)
  | node (i : Nat) (t : Tag)
  deriving DecidableEq, Repr

/-- The link triple `struct map_base_node { left, right, parent }`. -/
structure map_base_node where
  left : Ptr
  right : Ptr
  parent : Ptr
  deriving DecidableEq, Repr

/-- Memory of `map_base_node` subobjects; `none` means no live object at the address. -/
abbrev Heap := Ptr → Option map_base_node

/-- Reading the object behind a pointer; the null pointer never holds one. -/
def Heap.deref (h : Heap) : Ptr → Option map_base_node
  | .nullptr => none
  | p => h p

/-- Overwriting the object behind a pointer. -/
def Heap.store (h : Heap) (p : Ptr) (n : map_base_node) : Heap :=
  fun q => if q = p then some n else h q

/-- The field read `p->left`. -/
def Heap.left (h : Heap) (p : Ptr) : Option Ptr := (h.deref p).map (fun n => n.left)

/-- The field read `p->right`. -/
def Heap.right (h : Heap) (p : Ptr) : Option Ptr := (h.deref p).map (fun n => n.right)

/-- The field read `p->parent`. -/
def Heap.parent (h : Heap) (p : Ptr) : Option Ptr := (h.deref p).map (fun n => n.parent)

/-- The field write `p->left = q`. -/
def Heap.set_left (h : Heap) (p q : Ptr) : Option Heap :=
  (h.deref p).map (fun n => h.store p { n with left := q })

/-- The field write `p->right = q`. -/
def Heap.set_right (h : Heap) (p q : Ptr) : Option Heap :=
  (h.deref p).map (fun n => h.store p { n with right := q })

/-- The field write `p->parent = q`. -/
def Heap.set_parent (h : Heap) (p q : Ptr) : Option Heap :=
  (h.deref p).map (fun n => h.store p { n with parent := q })

/-- The `this` object of a `map<Key, Comparator, Tag>`: the address of its `head` member,
its comparator, and the read `static_cast<node_t*>(p)->value` of a key behind a pointer. -/
structure map (K : Type) where
  head : Ptr
  cmp : K → K → Bool
  value : Ptr → Option K

/-- The inner loop `while (m_ptr->left) m_ptr = m_ptr->left;`. -/
def descend_left (h : Heap) : Nat → Ptr → Option Ptr
  | 0, _ => none
  | fuel + 1, m_ptr => do
    let l ← h.left m_ptr
    if l = .nullptr then some m_ptr else descend_left h fuel l

/-- The inner loop `while (m_ptr && m_ptr->right == prev) { prev = m_ptr; m_ptr = m_ptr->parent; }`
of `operator++`, returning the final `(prev, m_ptr)`. -/
def climb_from_right (h : Heap) : Nat → Ptr → Ptr → Option (Ptr × Ptr)
  | 0, _, _ => none
  | fuel + 1, prev, m_ptr =>
    if m_ptr = .nullptr then some (prev, m_ptr)
    else do
      let r ← h.right m_ptr
      if r = prev then do
        let up ← h.parent m_ptr
        climb_from_right h fuel m_ptr up
      else some (prev, m_ptr)

/-- The pre-increment `map::iterator::operator++`. -/
def iterator_incr (h : Heap) (fuel : Nat) (m_ptr : Ptr) : Option Ptr := do
  let r ← h.right m_ptr
  if r ≠ .nullptr then descend_left h fuel r
  else do
    let up ← h.parent m_ptr
    let (prev, m) ← climb_from_right h fuel m_ptr up
    if m = .nullptr then some prev else some m

/-- The inner loop `while (m_ptr->right) m_ptr = m_ptr->right;` of `operator--`. -/
def descend_right (h : Heap) : Nat → Ptr → Option Ptr
  | 0, _ => none
  | fuel + 1, m_ptr => do
    let r ← h.right m_ptr
    if r = .nullptr then some m_ptr else descend_right h fuel r

/-- The inner loop `while (m_ptr && m_ptr->left == prev) { prev = m_ptr; m_ptr = m_ptr->parent; }`
of `operator--`, returning the final `(prev, m_ptr)`. -/
def climb_from_left (h : Heap) : Nat → Ptr → Ptr → Option (Ptr × Ptr)
  | 0, _, _ => none
  | fuel + 1, prev, m_ptr =>
    if m_ptr = .nullptr then some (prev, m_ptr)
    else do
      let l ← h.left m_ptr
      if l = prev then do
        let up ← h.parent m_ptr
        climb_from_left h fuel m_ptr up
      else some (prev, m_ptr)

/-- The pre-decrement `map::iterator::operator--`. -/
def iterator_decr (h : Heap) (fuel : Nat) (m_ptr : Ptr) : Option Ptr := do
  let l ← h.left m_ptr
  if l ≠ .nullptr then descend_right h fuel l
  else do
    let up ← h.parent m_ptr
    let (prev, m) ← climb_from_left h fuel m_ptr up
    if m = .nullptr then some prev else some m

/-- The descent loop of `map::insert`, returning the final `(prev, left)`. -/
def insert_loop (h : Heap) (cmp : K → K → Bool) (value : Ptr → Option K) (key : K) :
    Nat → Ptr → Bool → Ptr → Option (Ptr × Bool)
  | 0, _, _, _ => none
  | fuel + 1, prev, left, now =>
    if now = .nullptr then some (prev, left)
    else do
      let v ← value now
      if cmp key v then do
        let nxt ← h.left now
        insert_loop h cmp value key fuel now true nxt
      else do
        let nxt ← h.right now
        insert_loop h cmp value key fuel now false nxt

/-- The descent loop of `map::find` (the comparator is a pure function, so the discarded call
`cmp(now->value, now->value)` has no effect). -/
def find_loop (h : Heap) (cmp : K → K → Bool) (value : Ptr → Option K) (head : Ptr) (key : K) :
    Nat → Ptr → Option Ptr
  | 0, _ => none
  | fuel + 1, now =>
    if now = .nullptr then some head
    else do
      let v ← value now
      if cmp key v then do
        let nxt ← h.left now
        find_loop h cmp value head key fuel nxt
      else if cmp v key then do
        let nxt ← h.right now
        find_loop h cmp value head key fuel nxt
      else some now

/-- The descent loop of `map::lower_bound`, carrying `prev_gt`; after the loop the result is
`prev_gt ? iterator(prev_gt) : end()`. -/
def lower_bound_loop (h : Heap) (cmp : K → K → Bool) (value : Ptr → Option K) (head : Ptr)
    (key : K) : Nat → Ptr → Ptr → Option Ptr
  | 0, _, _ => none
  | fuel + 1, prev_gt, now =>
    if now = .nullptr then some (if prev_gt ≠ .nullptr then prev_gt else head)
    else do
      let v ← value now
      if cmp key v then do
        let nxt ← h.left now
        lower_bound_loop h cmp value head key fuel now nxt
      else if cmp v key then do
        let nxt ← h.right now
        lower_bound_loop h cmp value head key fuel prev_gt nxt
      else some now

namespace map

/-- The position `map::begin()`. -/
def begin_ (m : map K) (h : Heap) (fuel : Nat) : Option Ptr := do
  let root ← h.left m.head
  if root = .nullptr then some m.head else descend_left h fuel root

/-- The position `map::end()`. -/
def end_ (m : map K) : Ptr := m.head

/-- The member `map::insert(node_t* node)`: links `node` below the leaf the descent ends at. -/
def insert (m : map K) (h : Heap) (fuel : Nat) (node : Ptr) : Option (Heap × Ptr) := do
  let root ← h.left m.head
  if root = .nullptr then do
    let h1 ← h.set_left m.head node
    let h2 ← h1.set_parent node m.head
    some (h2, node)
  else do
    let key ← m.value node
    let (prev, left) ← insert_loop h m.cmp m.value key fuel .nullptr false root
    let h1 ← if left then h.set_left prev node else h.set_right prev node
    let h2 ← h1.set_parent node prev
    some (h2, node)

/-- The member `map::find(key)`. -/
def find (m : map K) (h : Heap) (fuel : Nat) (key : K) : Option Ptr := do
  let root ← h.left m.head
  find_loop h m.cmp m.value m.head key fuel root

/-- The member `map::lower_bound(key)`. -/
def lower_bound (m : map K) (h : Heap) (fuel : Nat) (key : K) : Option Ptr := do
  let root ← h.left m.head
  lower_bound_loop h m.cmp m.value m.head key fuel .nullptr root

/-- The member `map::upper_bound(key)`. -/
def upper_bound (m : map K) (h : Heap) (fuel : Nat) (key : K) : Option Ptr := do
  let lower ← m.lower_bound h fuel key
  if lower = m.end_ then some m.end_
  else do
    let v ← m.value lower
    if m.cmp key v then some lower else iterator_incr h fuel lower

/-- The member `map::link_parent(old, new_)`. -/
def link_parent (h : Heap) (old new_ : Ptr) : Option Heap := do
  let par ← h.parent old
  let pl ← h.left par
  let h1 ← if pl = old then h.set_left par new_ else h.set_right par new_
  if new_ ≠ .nullptr then do
    let par1 ← h1.parent old
    h1.set_parent new_ par1
  else some h1

/-- The member `map::erase(iterator it)`, returning the heap and the detached node. -/
def erase (h : Heap) : Nat → Ptr → Option (Heap × Ptr)
  | 0, _ => none
  | fuel + 1, it => do
    let old := it
    let ol ← h.left old
    let or_ ← h.right old
    let h1 ←
      if ol ≠ .nullptr ∧ or_ ≠ .nullptr then do
        let it1 ← iterator_incr h fuel it
        let (g, new_) ← erase h fuel it1
        let l0 ← g.left old
        let g1 ← g.set_left new_ l0
        let r0 ← g1.right old
        let g2 ← g1.set_right new_ r0
        let p0 ← g2.parent old
        let g3 ← if p0 ≠ .nullptr then do
            let l1 ← g2.left old
            g2.set_parent l1 new_
          else some g2
        let r1 ← g3.right old
        let g4 ← if r1 ≠ .nullptr then g3.set_parent r1 new_ else some g3
        link_parent g4 old new_
      else if ol ≠ .nullptr then link_parent h old ol
      else if or_ ≠ .nullptr then link_parent h old or_
      else link_parent h old .nullptr
    let h2 ← h1.set_parent old .nullptr
    let h3 ← h2.set_right old .nullptr
    let h4 ← h3.set_left old .nullptr
    some (h4, old)

/-- The member `map::swap(other)`: the new heap, then the comparators of `this` and of `other`. -/
def swap (m other : map K) (h : Heap) : Option (Heap × (K → K → Bool) × (K → K → Bool)) := do
  let root ← h.left m.head
  let oroot ← h.left other.head
  let h1 ← h.set_left m.head oroot
  let l1 ← h1.left m.head
  let h2 ← if l1 ≠ .nullptr then h1.set_parent l1 m.head else some h1
  let h3 ← h2.set_left other.head root
  let l3 ← h3.left other.head
  let h4 ← if l3 ≠ .nullptr then h3.set_parent l3 other.head else some h3
  some (h4, other.cmp, m.cmp)

/-- The member `map::operator=(map&& other)`: the new heap and the comparator of `this`. -/
def move_assign (m other : map K) (h : Heap) : Option (Heap × (K → K → Bool)) := do
  let oroot ← h.left other.head
  let h1 ← h.set_left m.head oroot
  let h2 ← h1.set_left other.head .nullptr
  some (h2, other.cmp)

/-- The member `map::set_flip_head(node)`. -/
def set_flip_head (m : map K) (h : Heap) (node : Ptr) : Option Heap :=
  h.set_right m.head node

end map

end bimap_details

open bimap_details

/-- The modulus of `std::size_t`. -/
def SIZE_MOD : Nat := 18446744073709551616

/-- The whole memory: the link heap, the two values of every live pair node, the allocation
counter, and for every bimap object its `_size` and its two comparators. -/
structure World (α β : Type) where
  heap : Heap
  first : Nat → Option α
  second : Nat → Option β
  next : Nat
  size : Nat → Nat
  cmp_left : Nat → α → α → Bool
  cmp_right : Nat → β → β → Bool

/-- The outcome of a checked lookup: the value found, or the exception
`std::out_of_range("No such element in bimap")`. -/
inductive Lookup (γ : Type)
  | value (v : γ)
  | out_of_range
  deriving DecidableEq, Repr

/-- Pointwise overwrite of a table indexed by naturals. -/
def upd (f : Nat → γ) (i : Nat) (v : γ) : Nat → γ := fun j => if j = i then v else f j

namespace World

/-- The read `static_cast<left_node*>(p)->value`. -/
def left_value (w : World α β) : Ptr → Option α
  | .node i .Left_Tag => w.first i
  | _ => none

/-- The read `static_cast<right_node*>(p)->value`. -/
def right_value (w : World α β) : Ptr → Option β
  | .node i .Right_Tag => w.second i
  | _ => none

/-- The member `left_map` of bimap object `b`. -/
def left_map (w : World α β) (b : Nat) : map α :=
  { head := .head b .Left_Tag, cmp := w.cmp_left b, value := w.left_value }

/-- The member `right_map` of bimap object `b`. -/
def right_map (w : World α β) (b : Nat) : map β :=
  { head := .head b .Right_Tag, cmp := w.cmp_right b, value := w.right_value }

/-- The expression `new node_t(left, right)`: a fresh pair node with all six links null. -/
def new_node (w : World α β) (l : α) (r : β) : World α β × Nat :=
  ({ w with
      heap := (w.heap.store (.node w.next .Left_Tag) ⟨.nullptr, .nullptr, .nullptr⟩).store
        (.node w.next .Right_Tag) ⟨.nullptr, .nullptr, .nullptr⟩
      first := upd w.first w.next (some l)
      second := upd w.second w.next (some r)
      next := w.next + 1 }, w.next)

/-- The statement `delete static_cast<node_t*>(p)` for a right-role pointer `p`. -/
def delete_node (w : World α β) : Ptr → Option (World α β)
  | .node i .Right_Tag =>
    if (w.heap (.node i .Left_Tag)).isSome ∧ (w.heap (.node i .Right_Tag)).isSome then
      some { w with
        heap := fun q => if q = .node i .Left_Tag ∨ q = .node i .Right_Tag then none else w.heap q
        first := upd w.first i none
        second := upd w.second i none }
    else none
  | _ => none

end World

namespace bimap

/-- The member `bimap::iterator::flip()` of an iterator of role `t`. -/
def flip (h : Heap) (t : Tag) (m_ptr : Ptr) : Option Ptr := do
  let par ← h.parent m_ptr
  if par = .nullptr then h.right m_ptr
  else match m_ptr with
    | .node i t1 => if t1 = t then some (.node i t.other) else none
    | _ => none

/-- The member `bimap::iterator::to_map_it()` of an iterator of role `t`. -/
def to_map_it (h : Heap) (t : Tag) (m_ptr : Ptr) : Option Ptr := do
  let par ← h.parent m_ptr
  if par = .nullptr then h.right m_ptr
  else match m_ptr with
    | .node i t1 => if t1 = t then some (.node i t) else none
    | _ => none

/-- The private member `link_heads()`. -/
def link_heads (w : World α β) (b : Nat) : Option (World α β) := do
  let h1 ← (w.left_map b).set_flip_head w.heap (.head b .Right_Tag)
  let h2 ← (w.right_map b).set_flip_head h1 (.head b .Left_Tag)
  some { w with heap := h2 }

/-- The member initialisers shared by the constructors: `_size = 0` and two maps with a null
root and the given comparators. -/
def init_members (w : World α β) (b : Nat) (compare_left : α → α → Bool)
    (compare_right : β → β → Bool) : World α β :=
  { w with
    heap := (w.heap.store (.head b .Left_Tag) ⟨.nullptr, .nullptr, .nullptr⟩).store
      (.head b .Right_Tag) ⟨.nullptr, .nullptr, .nullptr⟩
    size := upd w.size b 0
    cmp_left := upd w.cmp_left b compare_left
    cmp_right := upd w.cmp_right b compare_right }

/-- The constructor `bimap(CompareLeft, CompareRight)` building bimap object `b`. -/
def ctor (w : World α β) (b : Nat) (compare_left : α → α → Bool)
    (compare_right : β → β → Bool) : Option (World α β) :=
  link_heads (init_members w b compare_left compare_right) b

/-- The member `size()`. -/
def size (w : World α β) (b : Nat) : Nat := w.size b

/-- The member `empty()`. -/
def empty (w : World α β) (b : Nat) : Bool := w.size b == 0

/-- The member `begin_left()`. -/
def begin_left (w : World α β) (fuel : Nat) (b : Nat) : Option Ptr :=
  (w.left_map b).begin_ w.heap fuel

/-- The member `end_left()`. -/
def end_left (b : Nat) : Ptr := .head b .Left_Tag

/-- The member `begin_right()`. -/
def begin_right (w : World α β) (fuel : Nat) (b : Nat) : Option Ptr :=
  (w.right_map b).begin_ w.heap fuel

/-- The member `end_right()`. -/
def end_right (b : Nat) : Ptr := .head b .Right_Tag

/-- The member `find_left(left)`. -/
def find_left (w : World α β) (fuel : Nat) (b : Nat) (left : α) : Option Ptr :=
  (w.left_map b).find w.heap fuel left

/-- The member `find_right(right)`. -/
def find_right (w : World α β) (fuel : Nat) (b : Nat) (right : β) : Option Ptr :=
  (w.right_map b).find w.heap fuel right

/-- The member `lower_bound_left(left)`. -/
def lower_bound_left (w : World α β) (fuel : Nat) (b : Nat) (left : α) : Option Ptr :=
  (w.left_map b).lower_bound w.heap fuel left

/-- The member `upper_bound_left(left)`. -/
def upper_bound_left (w : World α β) (fuel : Nat) (b : Nat) (left : α) : Option Ptr :=
  (w.left_map b).upper_bound w.heap fuel left

/-- The member `lower_bound_right(left)`. -/
def lower_bound_right (w : World α β) (fuel : Nat) (b : Nat) (left : β) : Option Ptr :=
  (w.right_map b).lower_bound w.heap fuel left

/-- The member `upper_bound_right(left)`. -/
def upper_bound_right (w : World α β) (fuel : Nat) (b : Nat) (left : β) : Option Ptr :=
  (w.right_map b).upper_bound w.heap fuel left

/-- The member `insert(left, right)`, returning the new memory and the left position. -/
def insert (w : World α β) (fuel : Nat) (b : Nat) (left : α) (right : β) :
    Option (World α β × Ptr) := do
  let fl ← if empty w b then some false else
    (find_left w fuel b left).map (fun it => decide (it ≠ end_left b))
  let fr ← if empty w b || fl then some false else
    (find_right w fuel b right).map (fun it => decide (it ≠ end_right b))
  if fl || fr then some (w, end_left b)
  else do
    let (w1, i) := w.new_node left right
    let (h2, ans) ← (w1.left_map b).insert w1.heap fuel (.node i .Left_Tag)
    let (h3, _) ← (w1.right_map b).insert h2 fuel (.node i .Right_Tag)
    some ({ w1 with heap := h3, size := upd w1.size b ((w1.size b + 1) % SIZE_MOD) }, ans)

/-- The member `erase_left(left_iterator it)`. -/
def erase_left_it (w : World α β) (fuel : Nat) (b : Nat) (it : Ptr) :
    Option (World α β × Ptr) := do
  let current := it
  let current_flip ← flip w.heap .Left_Tag it
  let it1 ← iterator_incr w.heap fuel it
  let cur ← to_map_it w.heap .Left_Tag current
  let (h1, _) ← map.erase w.heap fuel cur
  let _ ← to_map_it h1 .Right_Tag current_flip
  let cur_flip ← to_map_it h1 .Right_Tag current_flip
  let (h2, to_delete) ← map.erase h1 fuel cur_flip
  let w2 ← ({ w with heap := h2 } : World α β).delete_node to_delete
  some ({ w2 with size := upd w2.size b ((w2.size b + (SIZE_MOD - 1)) % SIZE_MOD) }, it1)

/-- The member `erase_left(left_t const& left)`. -/
def erase_left (w : World α β) (fuel : Nat) (b : Nat) (left : α) :
    Option (World α β × Bool) := do
  let it ← find_left w fuel b left
  if it = end_left b then some (w, false)
  else do
    let (w1, _) ← erase_left_it w fuel b it
    some (w1, true)

/-- The member `erase_right(right_iterator it)`. -/
def erase_right_it (w : World α β) (fuel : Nat) (b : Nat) (it : Ptr) :
    Option (World α β × Ptr) := do
  let current := it
  let copy_current := it
  let it1 ← iterator_incr w.heap fuel it
  let cf ← flip w.heap .Right_Tag current
  let cur ← to_map_it w.heap .Left_Tag cf
  let (h1, _) ← map.erase w.heap fuel cur
  let cur_right ← to_map_it h1 .Right_Tag copy_current
  let (h2, to_delete) ← map.erase h1 fuel cur_right
  let w2 ← ({ w with heap := h2 } : World α β).delete_node to_delete
  some ({ w2 with size := upd w2.size b ((w2.size b + (SIZE_MOD - 1)) % SIZE_MOD) }, it1)

/-- The member `erase_right(right_t const& right)`. -/
def erase_right (w : World α β) (fuel : Nat) (b : Nat) (right : β) :
    Option (World α β × Bool) := do
  let it ← find_right w fuel b right
  if it = end_right b then some (w, false)
  else do
    let (w1, _) ← erase_right_it w fuel b it
    some (w1, true)

/-- The loop of `erase_left(first, last)`. -/
def erase_left_loop (fuel : Nat) (b : Nat) (last : Ptr) :
    Nat → World α β → Ptr → Option (World α β × Ptr)
  | 0, _, _ => none
  | n + 1, w, first =>
    if first ≠ last then do
      let (w1, first1) ← erase_left_it w fuel b first
      erase_left_loop fuel b last n w1 first1
    else some (w, last)

/-- The member `erase_left(left_iterator first, left_iterator last)`. -/
def erase_left_range (w : World α β) (fuel : Nat) (b : Nat) (first last : Ptr) :
    Option (World α β × Ptr) :=
  erase_left_loop fuel b last fuel w first

/-- The loop of `erase_right(first, last)`. -/
def erase_right_loop (fuel : Nat) (b : Nat) (last : Ptr) :
    Nat → World α β → Ptr → Option (World α β × Ptr)
  | 0, _, _ => none
  | n + 1, w, first =>
    if first ≠ last then do
      let (w1, first1) ← erase_right_it w fuel b first
      erase_right_loop fuel b last n w1 first1
    else some (w, last)

/-- The member `erase_right(right_iterator first, right_iterator last)`. -/
def erase_right_range (w : World α β) (fuel : Nat) (b : Nat) (first last : Ptr) :
    Option (World α β × Ptr) :=
  erase_right_loop fuel b last fuel w first

/-- The private member `clear()`. -/
def clear (w : World α β) (fuel : Nat) (b : Nat) : Option (World α β) := do
  let first ← begin_left w fuel b
  let (w1, _) ← erase_left_range w fuel b first (end_left b)
  some w1

/-- The member `at_left(key)`; `Lookup.out_of_range` is the thrown `std::out_of_range`. -/
def at_left (w : World α β) (fuel : Nat) (b : Nat) (key : α) : Option (Lookup β) := do
  let ans ← find_left w fuel b key
  if ans = end_left b then some .out_of_range
  else do
    let f ← flip w.heap .Left_Tag ans
    let v ← w.right_value f
    some (.value v)

/-- The member `at_right(key)`; `Lookup.out_of_range` is the thrown `std::out_of_range`. -/
def at_right (w : World α β) (fuel : Nat) (b : Nat) (key : β) : Option (Lookup α) := do
  let ans ← find_right w fuel b key
  if ans = end_right b then some .out_of_range
  else do
    let f ← flip w.heap .Right_Tag ans
    let v ← w.left_value f
    some (.value v)

/-- The member `at_left_or_default(key)`; `default` is `right_t{}`. -/
def at_left_or_default [Inhabited β] (w : World α β) (fuel : Nat) (b : Nat) (key : α) :
    Option (World α β × β) := do
  let it ← find_left w fuel b key
  if it ≠ end_left b then do
    let f ← flip w.heap .Left_Tag it
    let v ← w.right_value f
    some (w, v)
  else do
    let dflt : β := default
    let (w1, _) ← erase_right w fuel b dflt
    let (w2, it2) ← insert w1 fuel b key dflt
    let f ← flip w2.heap .Left_Tag it2
    let v ← w2.right_value f
    some (w2, v)

/-- The member `at_right_or_default(key)`; `default` is `left_t{}`. -/
def at_right_or_default [Inhabited α] (w : World α β) (fuel : Nat) (b : Nat) (key : β) :
    Option (World α β × α) := do
  let it ← find_right w fuel b key
  if it ≠ end_right b then do
    let f ← flip w.heap .Right_Tag it
    let v ← w.left_value f
    some (w, v)
  else do
    let dflt : α := default
    let (w1, _) ← erase_left w fuel b dflt
    let (w2, it2) ← insert w1 fuel b dflt key
    let v ← w2.left_value it2
    some (w2, v)

/-- The private member `equal_left(first, second)`. -/
def equal_left (w : World α β) (b : Nat) (first second : α) : Bool :=
  !(w.cmp_left b first second) && !(w.cmp_left b second first)

/-- The private member `equal_right(first, second)`. -/
def equal_right (w : World α β) (b : Nat) (first second : β) : Bool :=
  !(w.cmp_right b first second) && !(w.cmp_right b second first)

/-- The loop of `operator==`. -/
def eq_loop (w : World α β) (fuel : Nat) (a b : Nat) : Nat → Ptr → Ptr → Option Bool
  | 0, _, _ => none
  | n + 1, first, second =>
    if first ≠ end_left a ∧ second ≠ end_left b then do
      let x ← w.left_value first
      let y ← w.left_value second
      let same ← if equal_left w a x y then do
          let ff ← flip w.heap .Left_Tag first
          let u ← w.right_value ff
          let sf ← flip w.heap .Left_Tag second
          let v ← w.right_value sf
          some (equal_right w a u v)
        else some false
      if same then do
        let first1 ← iterator_incr w.heap fuel first
        let second1 ← iterator_incr w.heap fuel second
        eq_loop w fuel a b n first1 second1
      else some false
    else some true

/-- The friend `operator==(a, b)`. -/
def eq (w : World α β) (fuel : Nat) (a b : Nat) : Option Bool :=
  if size w a ≠ size w b then some false
  else do
    let first ← begin_left w fuel a
    let second ← begin_left w fuel b
    eq_loop w fuel a b fuel first second

/-- The friend `operator!=(a, b)`. -/
def ne (w : World α β) (fuel : Nat) (a b : Nat) : Option Bool :=
  (eq w fuel a b).map (fun r => !r)

/-- The member `swap(other)` of bimap object `b`. -/
def swap (w : World α β) (b other : Nat) : Option (World α β) := do
  let (h1, cl, ocl) ← (w.left_map b).swap (w.left_map other) w.heap
  let (h2, cr, ocr) ← (w.right_map b).swap (w.right_map other) h1
  some { w with
    heap := h2
    cmp_left := upd (upd w.cmp_left b cl) other ocl
    cmp_right := upd (upd w.cmp_right b cr) other ocr
    size := upd (upd w.size b (w.size other)) other (w.size b) }

/-- The move constructor `bimap(bimap&& other)` building bimap object `b`; the two comparator
arguments are the default-constructed `CompareLeft()` and `CompareRight()`. -/
def move_ctor (w : World α β) (b other : Nat) (compare_left : α → α → Bool)
    (compare_right : β → β → Bool) : Option (World α β) :=
  swap (init_members w b compare_left compare_right) other b

/-- The move assignment `operator=(bimap&& other)` of bimap object `b`. -/
def move_assign (w : World α β) (fuel : Nat) (b other : Nat) : Option (World α β) :=
  if b = other ∨ empty w other then some w
  else do
    let w1 ← clear w fuel b
    let w2 : World α β := { w1 with size := upd w1.size b (size w1 other) }
    let (h3, cl) ← (w2.left_map b).move_assign (w2.left_map other) w2.heap
    let w3 : World α β := { w2 with heap := h3, cmp_left := upd w2.cmp_left b cl }
    let (h4, cr) ← (w3.right_map b).move_assign (w3.right_map other) w3.heap
    some { w3 with heap := h4, cmp_right := upd w3.cmp_right b cr }

/-- The loop `for (auto it = other.begin_left(); it != other.end_left(); ++it)` of the copy
constructor.  No exception is modelled (`new` always succeeds), so the `catch` branch is never
taken. -/
def copy_loop (fuel : Nat) (b other : Nat) : Nat → World α β → Ptr → Option (World α β)
  | 0, _, _ => none
  | n + 1, w, it =>
    if it ≠ end_left other then do
      let x ← w.left_value it
      let f ← flip w.heap .Left_Tag it
      let y ← w.right_value f
      let (w1, _) ← insert w fuel b x y
      let it1 ← iterator_incr w1.heap fuel it
      copy_loop fuel b other n w1 it1
    else some w

/-- The copy constructor `bimap(bimap const& other)` building bimap object `b`. -/
def copy_ctor (w : World α β) (fuel : Nat) (b other : Nat) : Option (World α β) := do
  let w0 := init_members w b (w.cmp_left other) (w.cmp_right other)
  let first ← begin_left w0 fuel other
  let w1 ← copy_loop fuel b other fuel w0 first
  link_heads w1 b

/-- The destructor `~bimap()`. -/
def dtor (w : World α β) (fuel : Nat) (b : Nat) : Option (World α β) :=
  clear w fuel b

/-- The copy assignment `operator=(bimap const& other)` of bimap object `b`; `tmp` is the
address of the local `bimap tmp(other)`, destroyed on return. -/
def copy_assign (w : World α β) (fuel : Nat) (b other tmp : Nat) : Option (World α β) :=
  if b = other ∨ empty w other then some w
  else do
    let w1 ← copy_ctor w fuel tmp other
    let w2 ← swap w1 b tmp
    dtor w2 fuel tmp

end bimap

/-!
## Specification vocabulary

Comparator laws, stored pairs (by reachability along child links), the shape a tree of the
engine represents, and the invariant of a bimap object.
-/

namespace bimap_details

/-- A strict weak ordering: irreflexive, transitive, with transitive incomparability. -/
structure StrictWeakOrder (cmp : K → K → Bool) : Prop where
  irrefl : ∀ a, cmp a a = false
  trans : ∀ a b c, cmp a b = true → cmp b c = true → cmp a c = true
  incomp_trans : ∀ a b c, cmp a b = false → cmp b a = false → cmp b c = false →
    cmp c b = false → cmp a c = false ∧ cmp c a = false

/-- Equivalence under a comparator: neither value is less than the other. -/
def equiv (cmp : K → K → Bool) (a b : K) : Bool := !(cmp a b) && !(cmp b a)

/-- Reachability along child links: `Reach h q p` when `p` is `q` or lies below `q`. -/
inductive Reach (h : Heap) : Ptr → Ptr → Prop
  | here (p : Ptr) (n : map_base_node) : h.deref p = some n → Reach h p p
  | left (q c p : Ptr) : h.left q = some c → Reach h c p → Reach h q p
  | right (q c p : Ptr) : h.right q = some c → Reach h c p → Reach h q p

/-- The shape of a tree of the engine: the node addresses with their keys. -/
inductive Shape (K : Type)
  | nil
  | node (l : Shape K) (p : Ptr) (k : K) (r : Shape K)

namespace Shape

/-- The address of the root, or null for the empty tree. -/
def root : Shape K → Ptr
  | nil => .nullptr
  | node _ p _ _ => p

/-- The node addresses in ascending (in-order) position. -/
def ptrs : Shape K → List Ptr
  | nil => []
  | node l p _ r => l.ptrs ++ p :: r.ptrs

/-- The keys in ascending (in-order) position. -/
def keys : Shape K → List K
  | nil => []
  | node l _ k r => l.keys ++ k :: r.keys

/-- The in-order list of addresses with keys. -/
def toList : Shape K → List (Ptr × K)
  | nil => []
  | node l p k r => l.toList ++ (p, k) :: r.toList

/-- The number of nodes. -/
def size : Shape K → Nat
  | nil => 0
  | node l _ _ r => l.size + 1 + r.size

/-- The shape after `map::insert` links node `p` with key `key`. -/
def ins (cmp : K → K → Bool) (key : K) (p : Ptr) : Shape K → Shape K
  | nil => node nil p key nil
  | node l q k r => if cmp key k then node (ins cmp key p l) q k r else node l q k (ins cmp key p r)

/-- The leftmost node of a non-empty tree. -/
def leftmost : Shape K → Option (Ptr × K)
  | nil => none
  | node nil p k _ => some (p, k)
  | node l _ _ _ => leftmost l

/-- Whether the tree is empty. -/
def isNil : Shape K → Bool
  | nil => true
  | node _ _ _ _ => false

/-- The shape after `map::erase` unlinks the node at address `p`: a node with two children
is replaced by the leftmost node of its right subtree, any other node by its only child. -/
def erase : Shape K → Ptr → Shape K
  | nil, _ => nil
  | node l q k r, p =>
    if q = p then
      if l.isNil then r
      else if r.isNil then l
      else
        match leftmost r with
        | some (s, ks) => node l s ks (erase r s)
        | none => nil
    else if p ∈ l.ptrs then node (erase l p) q k r
    else node l q k (erase r p)

/-- The first position in ascending order whose key is not less than `key`, or `d`. -/
def lower_pos (cmp : K → K → Bool) (key : K) (t : Shape K) (d : Ptr) : Ptr :=
  ((t.toList.find? (fun x => !cmp x.2 key)).map Prod.fst).getD d

/-- The first position in ascending order whose key `key` is less than, or `d`. -/
def upper_pos (cmp : K → K → Bool) (key : K) (t : Shape K) (d : Ptr) : Ptr :=
  ((t.toList.find? (fun x => cmp key x.2)).map Prod.fst).getD d

/-- The binary-search-tree property: in every node the left subtree holds only smaller keys
and the right subtree only larger keys. -/
def bst (cmp : K → K → Bool) : Shape K → Prop
  | nil => True
  | node l _ k r =>
    (∀ x ∈ l.keys, cmp x k = true) ∧ (∀ x ∈ r.keys, cmp k x = true) ∧ bst cmp l ∧ bst cmp r

end Shape

/-- The heap holds the tree `t` below `par`: every node carries its key, its two children's
roots and its parent. -/
def Rep (h : Heap) (value : Ptr → Option K) : Ptr → Shape K → Prop
  | _, .nil => True
  | par, .node l p k r =>
    h.deref p = some ⟨l.root, r.root, par⟩ ∧ value p = some k ∧
      Rep h value p l ∧ Rep h value p r

/-- The invariant of one map: its head holds the root of a tree that the heap represents,
without sharing, in strictly ascending key order. -/
structure MapInv (m : map K) (h : Heap) (t : Shape K) : Prop where
  head : ∃ fl, h.deref m.head = some ⟨t.root, fl, .nullptr⟩ ∧ fl ∉ t.ptrs
  rep : Rep h m.value m.head t
  nodup : t.ptrs.Nodup
  head_notin : m.head ∉ t.ptrs
  sorted : t.keys.Pairwise (fun a b => m.cmp a b = true)

/-- A valid binary search tree of the engine: the head holds the root and has no parent, its
`right` slot names no node of the tree, every child's parent link points back to the node
whose child slot holds it (the root's to the head), and the keys obey the search-tree
property. -/
structure ValidBST (m : map K) (h : Heap) (t : Shape K) : Prop where
  head : ∃ fl, h.deref m.head = some ⟨t.root, fl, .nullptr⟩ ∧ fl ∉ t.ptrs
  rep : Rep h m.value m.head t
  bst : t.bst m.cmp

/-- The successor of `p` in a list of positions, `d` after the last one. -/
def nextIn : List Ptr → Ptr → Ptr → Ptr
  | [], _, d => d
  | x :: xs, p, d => if x = p then xs.headD d else nextIn xs p d

/-- The predecessor of `p` in a list of positions, `d` before the first one. -/
def prevIn : List Ptr → Ptr → Ptr → Ptr
  | [], _, d => d
  | x :: xs, p, d => if x = p then d else prevIn xs p x

/-- The last position of a list, `d` when there is none. -/
def lastOr : List Ptr → Ptr → Ptr
  | [], d => d
  | x :: xs, _ => lastOr xs x

/-- The address of the other role of the same pair node. -/
def Ptr.flipTag : Ptr → Ptr
  | .nullptr => .nullptr
  | .head b t => .head b t.other
  | .node i t => .node i t.other

end bimap_details

open bimap_details

/-- The comparator `std::less<int>` on naturals. -/
def nat_less : Nat → Nat → Bool := fun a b => decide (a < b)

/-- The comparator `std::less<int>`. -/
def int_less : Int → Int → Bool := fun a b => decide (a < b)

/-- The comparator `std::less<std::string>`: lexicographic order of the characters. -/
def string_less : String → String → Bool := fun a b => decide (a.data < b.data)

/-- A map of naturals under `std::less` whose node `i` holds the key `10 * (i + 1)`. -/
def demo_map : map Nat :=
  { head := .head 0 .Left_Tag
    cmp := nat_less
    value := fun p => match p with
      | .node i .Left_Tag => some (10 * (i + 1))
      | _ => none }

/-- A heap holding the tree of `demo_shape` below the head of `demo_map`, and the fresh
node 3. -/
def demo_heap : Heap := fun p =>
  if p = .head 0 .Left_Tag then some ⟨.node 1 .Left_Tag, .nullptr, .nullptr⟩
  else if p = .node 1 .Left_Tag then
    some ⟨.node 0 .Left_Tag, .node 2 .Left_Tag, .head 0 .Left_Tag⟩
  else if p = .node 0 .Left_Tag then some ⟨.nullptr, .nullptr, .node 1 .Left_Tag⟩
  else if p = .node 2 .Left_Tag then some ⟨.nullptr, .nullptr, .node 1 .Left_Tag⟩
  else if p = .node 3 .Left_Tag then some ⟨.nullptr, .nullptr, .nullptr⟩
  else none

/-- The tree with root key 20 and the two leaves 10 and 30. -/
def demo_shape : Shape Nat :=
  .node (.node .nil (.node 0 .Left_Tag) 10 .nil) (.node 1 .Left_Tag) 20
    (.node .nil (.node 2 .Left_Tag) 30 .nil)

/-- A memory holding no object at all. -/
def World.init : World α β :=
  { heap := fun _ => none
    first := fun _ => none
    second := fun _ => none
    next := 0
    size := fun _ => 0
    cmp_left := fun _ _ _ => false
    cmp_right := fun _ _ _ => false }

/-- The pair held by the pair node behind a left position. -/
def World.pair_at (w : World α β) : Ptr → Option (α × β)
  | .node i .Left_Tag =>
    match w.first i, w.second i with
    | some l, some r => some (l, r)
    | _, _ => none
  | _ => none

namespace bimap

/-- The pairs of a left tree in ascending order of position. -/
def content (w : World α β) (tl : Shape α) : List (α × β) := tl.ptrs.filterMap w.pair_at

/-- The sequence of calls `insert(l, r)` over a list of pairs, recording for every call the
returned position and, when it is not `end_left()`, the value `*it` read right after the call. -/
def insert_all (fuel b : Nat) : World α β → List (α × β) → Option (World α β × List (Ptr × Option α))
  | w, [] => some (w, [])
  | w, x :: xs => do
    let (w1, it) ← insert w fuel b x.1 x.2
    let (w2, its) ← insert_all fuel b w1 xs
    some (w2, (it, if it = end_left b then none else w1.left_value it) :: its)

/-- A bimap object `b` constructed in an empty memory and filled by `insert_all`. -/
def build (fuel b : Nat) (cl : α → α → Bool) (cr : β → β → Bool) (xs : List (α × β)) :
    Option (World α β) := do
  let w1 ← ctor World.init b cl cr
  let (w2, _) ← insert_all fuel b w1 xs
  some w2

/-- Stepping `n` times with `operator++`. -/
def incr_n (h : Heap) (fuel : Nat) : Nat → Ptr → Option Ptr
  | 0, p => some p
  | n + 1, p => (iterator_incr h fuel p).bind (incr_n h fuel n)

/-- Stepping `n` times with `operator--`. -/
def decr_n (h : Heap) (fuel : Nat) : Nat → Ptr → Option Ptr
  | 0, p => some p
  | n + 1, p => (iterator_decr h fuel p).bind (decr_n h fuel n)

/-- The bimap object 0 built from `(2, 20)`, `(1, 30)`, `(3, 10)` with `std::less` on both
sides. -/
def demo_nat : World Nat Nat :=
  (build 8 0 nat_less nat_less [(2, 20), (1, 30), (3, 10)]).getD World.init

/-- The bimap object 0 built from `(1, "a")`, `(2, "b")`, `(3, "c")`. -/
def demo_str : World Nat String :=
  (build 8 0 nat_less string_less [(1, "a"), (2, "b"), (3, "c")]).getD World.init

/-- The empty bimap object 0 of integers with `std::less` on both sides. -/
def demo_empty : World Int Int := (ctor World.init 0 int_less int_less).getD World.init

/-- The bimap object 0 of `demo_nat` next to a freshly constructed empty bimap object 1. -/
def demo_pair : World Nat Nat := (ctor demo_nat 1 nat_less nat_less).getD World.init

/-- The pair `(l, r)` is stored in bimap `b`: some pair node holding it is reachable from the
root of the left tree. -/
def Stored (w : World α β) (b : Nat) (l : α) (r : β) : Prop :=
  ∃ i root, w.heap.left (end_left b) = some root ∧ Reach w.heap root (.node i .Left_Tag) ∧
    w.first i = some l ∧ w.second i = some r

/-- The representation invariant of bimap `b` with explicit tree shapes. -/
structure Abs (w : World α β) (b : Nat) (tl : Shape α) (tr : Shape β) : Prop where
  swo_left : StrictWeakOrder (w.cmp_left b)
  swo_right : StrictWeakOrder (w.cmp_right b)
  left : MapInv (w.left_map b) w.heap tl
  right : MapInv (w.right_map b) w.heap tr
  same : (tl.ptrs.map Ptr.flipTag).Perm tr.ptrs
  size_eq : w.size b = tl.size
  size_lt : w.size b < SIZE_MOD
  alloc : ∀ i t, Ptr.node i t ∈ tl.ptrs → i < w.next
  flip_left : ∀ i t, w.heap.right (end_left b) ≠ some (.node i t)
  flip_right : ∀ i t, w.heap.right (end_right b) ≠ some (.node i t)

/-- The part of the representation invariant that does not speak of the comparators being
strict weak orderings. -/
structure Core (w : World α β) (b : Nat) (tl : Shape α) (tr : Shape β) : Prop where
  left : MapInv (w.left_map b) w.heap tl
  right : MapInv (w.right_map b) w.heap tr
  same : (tl.ptrs.map Ptr.flipTag).Perm tr.ptrs
  size_eq : w.size b = tl.size
  size_lt : w.size b < SIZE_MOD
  alloc : ∀ i t, Ptr.node i t ∈ tl.ptrs → i < w.next
  flip_left : ∀ i t, w.heap.right (end_left b) ≠ some (.node i t)
  flip_right : ∀ i t, w.heap.right (end_right b) ≠ some (.node i t)

/-- What erasing the stored pair node `i` of bimap `b` does to the memory. -/
structure Erased (w w3 : World α β) (b i : Nat) (tl : Shape α) (tr : Shape β) : Prop where
  abs : Abs w3 b (tl.erase (.node i .Left_Tag)) (tr.erase (.node i .Right_Tag))
  next_eq : w3.next = w.next
  first_eq : w3.first = upd w.first i none
  second_eq : w3.second = upd w.second i none
  cmp_left_eq : w3.cmp_left = w.cmp_left
  cmp_right_eq : w3.cmp_right = w.cmp_right
  size_eq : w3.size = upd w.size b (w.size b - 1)
  size_pos : 0 < w.size b
  frame : ∀ x, x ∉ tl.ptrs → x ∉ tr.ptrs → x ≠ end_left b → x ≠ end_right b →
    w3.heap.deref x = w.heap.deref x
  right_left : w3.heap.right (end_left b) = w.heap.right (end_left b)
  right_right : w3.heap.right (end_right b) = w.heap.right (end_right b)

/-- What inserting a pair into bimap `b` as the fresh pair node `w.next` does to the memory. -/
structure Inserted (w w1 : World α β) (b : Nat) (l : α) (r : β) (tl : Shape α) (tr : Shape β) :
    Prop where
  abs : Abs w1 b (tl.ins (w.cmp_left b) l (.node w.next .Left_Tag))
    (tr.ins (w.cmp_right b) r (.node w.next .Right_Tag))
  next_eq : w1.next = w.next + 1
  first_eq : w1.first = upd w.first w.next (some l)
  second_eq : w1.second = upd w.second w.next (some r)
  cmp_left_eq : w1.cmp_left = w.cmp_left
  cmp_right_eq : w1.cmp_right = w.cmp_right
  size_eq : w1.size = upd w.size b (w.size b + 1)
  frame : ∀ x, x ∉ tl.ptrs → x ∉ tr.ptrs → x ≠ .node w.next .Left_Tag →
    x ≠ .node w.next .Right_Tag → x ≠ end_left b → x ≠ end_right b →
    w1.heap.deref x = w.heap.deref x
  right_left : w1.heap.right (end_left b) = w.heap.right (end_left b)
  right_right : w1.heap.right (end_right b) = w.heap.right (end_right b)

/-- The well-formed bimaps: both comparators are strict weak orderings, both trees are valid
binary search trees over the same pair nodes, and `_size` counts them. -/
def Valid (w : World α β) (b : Nat) : Prop := ∃ tl tr, Abs w b tl tr

/-- The heads of bimap `b` are cross-linked as `link_heads()` leaves them. -/
def Linked (w : World α β) (b : Nat) : Prop :=
  w.heap.right (end_left b) = some (end_right b) ∧ w.heap.right (end_right b) = some (end_left b)

/-- The bimaps reached from a freshly constructed one by inserts and erases by key. -/
inductive Reachable : World α β → Nat → Prop
  | ctor (w : World α β) (b : Nat) (cl : α → α → Bool) (cr : β → β → Bool) (w1 : World α β) :
      StrictWeakOrder cl → StrictWeakOrder cr → ctor w b cl cr = some w1 → Reachable w1 b
  | insert (w : World α β) (b fuel : Nat) (l : α) (r : β) (w1 : World α β) (it : Ptr) :
      Reachable w b → w.size b < fuel → w.size b + 1 < SIZE_MOD →
      insert w fuel b l r = some (w1, it) → Reachable w1 b
  | erase_left (w : World α β) (b fuel : Nat) (l : α) (w1 : World α β) (res : Bool) :
      Reachable w b → w.size b < fuel →
      erase_left w fuel b l = some (w1, res) → Reachable w1 b
  | erase_right (w : World α β) (b fuel : Nat) (r : β) (w1 : World α β) (res : Bool) :
      Reachable w b → w.size b < fuel →
      erase_right w fuel b r = some (w1, res) → Reachable w1 b

/-- The left position `p` is reached from `begin_left()` by `j` increments. -/
def LeftPos (w : World α β) (fuel b j : Nat) (p : Ptr) : Prop :=
  ∃ first, begin_left w fuel b = some first ∧ incr_n w.heap fuel j first = some p

/-- The right position `p` is reached from `begin_right()` by `j` increments. -/
def RightPos (w : World α β) (fuel b j : Nat) (p : Ptr) : Prop :=
  ∃ first, begin_right w fuel b = some first ∧ incr_n w.heap fuel j first = some p

/-- The bimaps reached from a freshly constructed one by `insert`, `erase_left` and
`erase_right` by position, by key and by range, `at_left_or_default` and
`at_right_or_default`.  Positions handed to an erase are positions of the bimap. -/
inductive Built [Inhabited α] [Inhabited β] : World α β → Nat → Prop
  | ctor (w : World α β) (b : Nat) (cl : α → α → Bool) (cr : β → β → Bool) (w1 : World α β) :
      StrictWeakOrder cl → StrictWeakOrder cr → ctor w b cl cr = some w1 → Built w1 b
  | insert (w : World α β) (b fuel : Nat) (l : α) (r : β) (w1 : World α β) (it : Ptr) :
      Built w b → w.size b < fuel → w.size b + 1 < SIZE_MOD →
      insert w fuel b l r = some (w1, it) → Built w1 b
  | erase_left_it (w : World α β) (b fuel j : Nat) (it : Ptr) (w1 : World α β) (nxt : Ptr) :
      Built w b → w.size b < fuel → j < w.size b → LeftPos w fuel b j it →
      erase_left_it w fuel b it = some (w1, nxt) → Built w1 b
  | erase_right_it (w : World α β) (b fuel j : Nat) (it : Ptr) (w1 : World α β) (nxt : Ptr) :
      Built w b → w.size b < fuel → j < w.size b → RightPos w fuel b j it →
      erase_right_it w fuel b it = some (w1, nxt) → Built w1 b
  | erase_left (w : World α β) (b fuel : Nat) (l : α) (w1 : World α β) (res : Bool) :
      Built w b → w.size b < fuel →
      erase_left w fuel b l = some (w1, res) → Built w1 b
  | erase_right (w : World α β) (b fuel : Nat) (r : β) (w1 : World α β) (res : Bool) :
      Built w b → w.size b < fuel →
      erase_right w fuel b r = some (w1, res) → Built w1 b
  | erase_left_range (w : World α β) (b fuel j n : Nat) (first last : Ptr) (w1 : World α β)
      (res : Ptr) :
      Built w b → w.size b < fuel → j + n ≤ w.size b → LeftPos w fuel b j first →
      incr_n w.heap fuel n first = some last →
      erase_left_range w fuel b first last = some (w1, res) → Built w1 b
  | erase_right_range (w : World α β) (b fuel j n : Nat) (first last : Ptr) (w1 : World α β)
      (res : Ptr) :
      Built w b → w.size b < fuel → j + n ≤ w.size b → RightPos w fuel b j first →
      incr_n w.heap fuel n first = some last →
      erase_right_range w fuel b first last = some (w1, res) → Built w1 b
  | at_left_or_default (w : World α β) (b fuel : Nat) (key : α) (w1 : World α β) (v : β) :
      Built w b → w.size b < fuel → w.size b + 1 < SIZE_MOD →
      at_left_or_default w fuel b key = some (w1, v) → Built w1 b
  | at_right_or_default (w : World α β) (b fuel : Nat) (key : β) (w1 : World α β) (v : α) :
      Built w b → w.size b < fuel → w.size b + 1 < SIZE_MOD →
      at_right_or_default w fuel b key = some (w1, v) → Built w1 b

end bimap

/-!
## Heap reads and writes
-/

namespace bimap_details

theorem deref_nullptr (h : Heap) : h.deref .nullptr = none := rfl

theorem deref_ne_null {h : Heap} {p : Ptr} {n : map_base_node} (hp : h.deref p = some n) :
    p ≠ .nullptr := by
  rintro rfl
  simp [deref_nullptr] at hp

theorem deref_store (h : Heap) (p q : Ptr) (n : map_base_node) (hp : p ≠ .nullptr) :
    (h.store p n).deref q = if q = p then some n else h.deref q := by
  cases q with
  | nullptr =>
    have : Ptr.nullptr ≠ p := fun e => hp e.symm
    simp [Heap.deref, this]
  | head b t => simp [Heap.deref, Heap.store]
  | node i t => simp [Heap.deref, Heap.store]

theorem left_of_deref {h : Heap} {p : Ptr} {n : map_base_node} (hp : h.deref p = some n) :
    h.left p = some n.left := by simp [Heap.left, hp]

theorem right_of_deref {h : Heap} {p : Ptr} {n : map_base_node} (hp : h.deref p = some n) :
    h.right p = some n.right := by simp [Heap.right, hp]

theorem parent_of_deref {h : Heap} {p : Ptr} {n : map_base_node} (hp : h.deref p = some n) :
    h.parent p = some n.parent := by simp [Heap.parent, hp]

theorem set_left_of_deref {h : Heap} {p : Ptr} {n : map_base_node} (hp : h.deref p = some n)
    (q : Ptr) : h.set_left p q = some (h.store p ⟨q, n.right, n.parent⟩) := by
  simp [Heap.set_left, hp]

theorem set_right_of_deref {h : Heap} {p : Ptr} {n : map_base_node} (hp : h.deref p = some n)
    (q : Ptr) : h.set_right p q = some (h.store p ⟨n.left, q, n.parent⟩) := by
  simp [Heap.set_right, hp]

theorem set_parent_of_deref {h : Heap} {p : Ptr} {n : map_base_node} (hp : h.deref p = some n)
    (q : Ptr) : h.set_parent p q = some (h.store p ⟨n.left, n.right, q⟩) := by
  simp [Heap.set_parent, hp]

/-!
## Shapes
-/

namespace Shape

@[simp] theorem root_nil : (nil : Shape K).root = .nullptr := rfl

@[simp] theorem root_node (l : Shape K) (p : Ptr) (k : K) (r : Shape K) :
    (node l p k r).root = p := rfl

theorem ptrs_toList (t : Shape K) : t.toList.map Prod.fst = t.ptrs := by
  induction t with
  | nil => rfl
  | node l p k r ihl ihr => simp [toList, ptrs, ihl, ihr]

theorem keys_toList (t : Shape K) : t.toList.map Prod.snd = t.keys := by
  induction t with
  | nil => rfl
  | node l p k r ihl ihr => simp [toList, keys, ihl, ihr]

theorem size_eq_length (t : Shape K) : t.size = t.ptrs.length := by
  induction t with
  | nil => rfl
  | node l p k r ihl ihr => simp [size, ptrs, ihl, ihr]; omega

theorem mem_ptrs_of_mem_toList {t : Shape K} {p : Ptr} {k : K} (hm : (p, k) ∈ t.toList) :
    p ∈ t.ptrs := by
  rw [← ptrs_toList]
  exact List.mem_map_of_mem Prod.fst hm

theorem mem_keys_of_mem_toList {t : Shape K} {p : Ptr} {k : K} (hm : (p, k) ∈ t.toList) :
    k ∈ t.keys := by
  rw [← keys_toList]
  exact List.mem_map_of_mem Prod.snd hm

theorem exists_key_of_mem_ptrs {t : Shape K} {p : Ptr} (hm : p ∈ t.ptrs) :
    ∃ k, (p, k) ∈ t.toList := by
  rw [← ptrs_toList] at hm
  obtain ⟨⟨q, k⟩, hqk, rfl⟩ := List.mem_map.1 hm
  exact ⟨k, hqk⟩

theorem exists_ptr_of_mem_keys {t : Shape K} {k : K} (hm : k ∈ t.keys) :
    ∃ p, (p, k) ∈ t.toList := by
  rw [← keys_toList] at hm
  obtain ⟨⟨q, k1⟩, hqk, rfl⟩ := List.mem_map.1 hm
  exact ⟨q, hqk⟩

theorem root_mem_ptrs (l : Shape K) (p : Ptr) (k : K) (r : Shape K) :
    (node l p k r).root ∈ (node l p k r).ptrs := by
  simp [ptrs]

end Shape

/-!
## The representation predicate
-/

theorem Rep.deref_of_mem {h : Heap} {value : Ptr → Option K} {par : Ptr} {t : Shape K}
    (hr : Rep h value par t) {p : Ptr} (hm : p ∈ t.ptrs) : ∃ n, h.deref p = some n := by
  induction t generalizing par with
  | nil => simp [Shape.ptrs] at hm
  | node l q k r ihl ihr =>
    obtain ⟨hq, -, hl, hrr⟩ := hr
    simp only [Shape.ptrs, List.mem_append, List.mem_cons] at hm
    rcases hm with hm | rfl | hm
    · exact ihl hl hm
    · exact ⟨_, hq⟩
    · exact ihr hrr hm

theorem Rep.ne_null_of_mem {h : Heap} {value : Ptr → Option K} {par : Ptr} {t : Shape K}
    (hr : Rep h value par t) {p : Ptr} (hm : p ∈ t.ptrs) : p ≠ .nullptr := by
  obtain ⟨n, hn⟩ := hr.deref_of_mem hm
  exact deref_ne_null hn

theorem Rep.null_notin {h : Heap} {value : Ptr → Option K} {par : Ptr} {t : Shape K}
    (hr : Rep h value par t) : Ptr.nullptr ∉ t.ptrs :=
  fun hm => hr.ne_null_of_mem hm rfl

theorem Rep.value_of_mem {h : Heap} {value : Ptr → Option K} {par : Ptr} {t : Shape K}
    (hr : Rep h value par t) {p : Ptr} {k : K} (hm : (p, k) ∈ t.toList) (hn : t.ptrs.Nodup) :
    value p = some k := by
  induction t generalizing par with
  | nil => simp [Shape.toList] at hm
  | node l q k1 r ihl ihr =>
    obtain ⟨-, hv, hl, hrr⟩ := hr
    simp only [Shape.ptrs] at hn
    have hnl := (List.nodup_append.1 hn).1
    have hnr := (List.nodup_cons.1 (List.nodup_append.1 hn).2.1).2
    simp only [Shape.toList, List.mem_append, List.mem_cons, Prod.mk.injEq] at hm
    rcases hm with hm | ⟨rfl, rfl⟩ | hm
    · exact ihl hl hm hnl
    · exact hv
    · exact ihr hrr hm hnr

theorem Rep.value_some_of_mem {h : Heap} {value : Ptr → Option K} {par : Ptr} {t : Shape K}
    (hr : Rep h value par t) {p : Ptr} (hm : p ∈ t.ptrs) : ∃ k, value p = some k := by
  induction t generalizing par with
  | nil => simp [Shape.ptrs] at hm
  | node l q k r ihl ihr =>
    obtain ⟨-, hv, hl, hrr⟩ := hr
    simp only [Shape.ptrs, List.mem_append, List.mem_cons] at hm
    rcases hm with hm | rfl | hm
    · exact ihl hl hm
    · exact ⟨_, hv⟩
    · exact ihr hrr hm

theorem Rep.congr {h h1 : Heap} {value value1 : Ptr → Option K} {par : Ptr} {t : Shape K}
    (hr : Rep h value par t) (hh : ∀ p ∈ t.ptrs, h1.deref p = h.deref p)
    (hv : ∀ p ∈ t.ptrs, value1 p = value p) : Rep h1 value1 par t := by
  induction t generalizing par with
  | nil => trivial
  | node l q k r ihl ihr =>
    obtain ⟨hq, hvq, hl, hrr⟩ := hr
    have hmem : ∀ x, x ∈ l.ptrs ∨ x = q ∨ x ∈ r.ptrs → x ∈ (Shape.node l q k r).ptrs := by
      intro x hx
      simpa [Shape.ptrs] using hx
    refine ⟨?_, ?_, ?_, ?_⟩
    · rw [hh q (hmem q (Or.inr (Or.inl rfl)))]; exact hq
    · rw [hv q (hmem q (Or.inr (Or.inl rfl)))]; exact hvq
    · exact ihl hl (fun x hx => hh x (hmem x (Or.inl hx))) (fun x hx => hv x (hmem x (Or.inl hx)))
    · exact ihr hrr (fun x hx => hh x (hmem x (Or.inr (Or.inr hx))))
        (fun x hx => hv x (hmem x (Or.inr (Or.inr hx))))

/-- Changing only the parent link of the root re-hangs a represented tree. -/
theorem Rep.reparent {h h1 : Heap} {value : Ptr → Option K} {par par1 : Ptr} {t : Shape K}
    (hr : Rep h value par t) (hn : t.ptrs.Nodup)
    (hh : ∀ p ∈ t.ptrs, p ≠ t.root → h1.deref p = h.deref p)
    (hroot : ∀ n, h.deref t.root = some n → h1.deref t.root = some ⟨n.left, n.right, par1⟩) :
    Rep h1 value par1 t := by
  cases t with
  | nil => trivial
  | node l q k r =>
    obtain ⟨hq, hvq, hl, hrr⟩ := hr
    simp only [Shape.ptrs] at hn
    have hql : q ∉ l.ptrs := fun hm =>
      (List.nodup_append.1 hn).2.2 hm (List.mem_cons_self q _)
    have hqr : q ∉ r.ptrs := (List.nodup_cons.1 (List.nodup_append.1 hn).2.1).1
    refine ⟨?_, hvq, ?_, ?_⟩
    · simpa using hroot _ hq
    · refine hl.congr (fun x hx => hh x ?_ ?_) (fun _ _ => rfl)
      · simp [Shape.ptrs, hx]
      · rintro rfl; exact hql hx
    · refine hrr.congr (fun x hx => hh x ?_ ?_) (fun _ _ => rfl)
      · simp [Shape.ptrs, hx]
      · rintro rfl; exact hqr hx

theorem Rep.root_eq_null_iff {h : Heap} {value : Ptr → Option K} {par : Ptr} {t : Shape K}
    (hr : Rep h value par t) : t.root = .nullptr ↔ t = .nil := by
  cases t with
  | nil => simp
  | node l q k r =>
    simp only [Shape.root_node, reduceCtorEq, iff_false]
    exact deref_ne_null hr.1

/-- Reachability from the root of a represented tree is membership in its address list. -/
theorem Rep.reach_iff {h : Heap} {value : Ptr → Option K} {par : Ptr} {t : Shape K}
    (hr : Rep h value par t) (p : Ptr) : Reach h t.root p ↔ p ∈ t.ptrs := by
  constructor
  · intro hreach
    generalize hq : t.root = q at hreach
    induction hreach generalizing t par with
    | here p n hp =>
      cases t with
      | nil => simp at hq; subst hq; simp [deref_nullptr] at hp
      | node l x k r => simp at hq; subst hq; simp [Shape.ptrs]
    | left q c p hc _ ih =>
      cases t with
      | nil => simp at hq; subst hq; simp [Heap.left, deref_nullptr] at hc
      | node l x k r =>
        simp at hq; subst hq
        obtain ⟨hx, -, hl, -⟩ := hr
        rw [left_of_deref hx] at hc
        simp at hc
        have := ih hl hc
        simp [Shape.ptrs, this]
    | right q c p hc _ ih =>
      cases t with
      | nil => simp at hq; subst hq; simp [Heap.right, deref_nullptr] at hc
      | node l x k r =>
        simp at hq; subst hq
        obtain ⟨hx, -, -, hrr⟩ := hr
        rw [right_of_deref hx] at hc
        simp at hc
        have := ih hrr hc
        simp [Shape.ptrs, this]
  · intro hm
    induction t generalizing par with
    | nil => simp [Shape.ptrs] at hm
    | node l q k r ihl ihr =>
      obtain ⟨hq, -, hl, hrr⟩ := hr
      simp only [Shape.ptrs, List.mem_append, List.mem_cons] at hm
      rcases hm with hm | rfl | hm
      · exact Reach.left _ _ _ (left_of_deref hq) (ihl hl hm)
      · exact Reach.here _ _ hq
      · exact Reach.right _ _ _ (right_of_deref hq) (ihr hrr hm)

end bimap_details

/-!
## `map::find`
-/

namespace bimap_details

theorem equiv_false_of_lt {cmp : K → K → Bool} {a b : K} (hab : cmp a b = true) :
    equiv cmp a b = false := by simp [equiv, hab]

theorem equiv_false_of_gt {cmp : K → K → Bool} {a b : K} (hab : cmp b a = true) :
    equiv cmp a b = false := by simp [equiv, hab]

theorem find_loop_spec {h : Heap} {cmp : K → K → Bool} {value : Ptr → Option K} {par : Ptr}
    {t : Shape K} (hd : Ptr) (key : K) (hr : Rep h value par t)
    (hs : t.keys.Pairwise (fun a b => cmp a b = true))
    (htr : ∀ a b c, cmp a b = true → cmp b c = true → cmp a c = true)
    (fuel : Nat) (hf : t.size < fuel) :
    ∃ res, find_loop h cmp value hd key fuel t.root = some res ∧
      ((res = hd ∧ ∀ k ∈ t.keys, equiv cmp key k = false) ∨
       (∃ k, (res, k) ∈ t.toList ∧ equiv cmp key k = true)) := by
  induction t generalizing par fuel with
  | nil =>
    obtain ⟨f, rfl⟩ : ∃ f, fuel = f + 1 := ⟨fuel - 1, by omega⟩
    exact ⟨hd, by simp [find_loop, Shape.root], Or.inl ⟨rfl, by simp [Shape.keys]⟩⟩
  | node l q k r ihl ihr =>
    obtain ⟨f, rfl⟩ : ∃ f, fuel = f + 1 := ⟨fuel - 1, by omega⟩
    obtain ⟨hq, hv, hl, hrr⟩ := hr
    simp only [Shape.size] at hf
    simp only [Shape.keys, List.pairwise_append, List.pairwise_cons] at hs
    obtain ⟨hsl, ⟨hkr, hsr⟩, hlr⟩ := hs
    have hqn : q ≠ .nullptr := deref_ne_null hq
    by_cases h1 : cmp key k = true
    · obtain ⟨res, hres, hcase⟩ := ihl hl hsl f (by omega)
      refine ⟨res, ?_, ?_⟩
      · simp [find_loop, hqn, hv, h1, left_of_deref hq, hres]
      · rcases hcase with ⟨rfl, hno⟩ | ⟨k1, hk1, he⟩
        · left
          refine ⟨rfl, ?_⟩
          intro k1 hk1
          simp only [Shape.keys, List.mem_append, List.mem_cons] at hk1
          rcases hk1 with hk1 | rfl | hk1
          · exact hno k1 hk1
          · exact equiv_false_of_lt h1
          · exact equiv_false_of_lt (htr _ _ _ h1 (hkr k1 hk1))
        · right
          exact ⟨k1, by simp [Shape.toList, hk1], he⟩
    · by_cases h2 : cmp k key = true
      · obtain ⟨res, hres, hcase⟩ := ihr hrr hsr f (by omega)
        refine ⟨res, ?_, ?_⟩
        · simp [find_loop, hqn, hv, h1, h2, right_of_deref hq, hres]
        · rcases hcase with ⟨rfl, hno⟩ | ⟨k1, hk1, he⟩
          · left
            refine ⟨rfl, ?_⟩
            intro k1 hk1
            simp only [Shape.keys, List.mem_append, List.mem_cons] at hk1
            rcases hk1 with hk1 | rfl | hk1
            · exact equiv_false_of_gt (htr _ _ _ (hlr k1 hk1 k (List.mem_cons_self _ _)) h2)
            · exact equiv_false_of_gt h2
            · exact hno k1 hk1
          · right
            exact ⟨k1, by simp [Shape.toList, hk1], he⟩
      · refine ⟨q, ?_, Or.inr ⟨k, by simp [Shape.toList], ?_⟩⟩
        · simp [find_loop, hqn, hv, h1, h2]
        · simp only [Bool.not_eq_true] at h1 h2
          simp [equiv, h1, h2]

/-- On a valid map, `find` returns the head when no stored key is equivalent to `key`, and
otherwise a node whose key is equivalent. -/
theorem map.find_spec {m : map K} {h : Heap} {t : Shape K} (hinv : MapInv m h t)
    (htr : ∀ a b c, m.cmp a b = true → m.cmp b c = true → m.cmp a c = true)
    (key : K) (fuel : Nat) (hf : t.size < fuel) :
    ∃ res, m.find h fuel key = some res ∧
      ((res = m.head ∧ ∀ k ∈ t.keys, equiv m.cmp key k = false) ∨
       (∃ k, (res, k) ∈ t.toList ∧ equiv m.cmp key k = true)) := by
  obtain ⟨fl, hhead, -⟩ := hinv.head
  obtain ⟨res, hres, hcase⟩ := find_loop_spec m.head key hinv.rep hinv.sorted htr fuel hf
  exact ⟨res, by simp [map.find, left_of_deref hhead, hres], hcase⟩

/-!
## `map::insert`
-/

namespace Shape

theorem ins_root_of_node (cmp : K → K → Bool) (key : K) (p : Ptr) (l : Shape K) (q : Ptr) (k : K)
    (r : Shape K) : (ins cmp key p (node l q k r)).root = q := by
  simp only [ins]
  split <;> rfl

theorem ins_ptrs_perm (cmp : K → K → Bool) (key : K) (p : Ptr) (t : Shape K) :
    (ins cmp key p t).ptrs.Perm (p :: t.ptrs) := by
  induction t with
  | nil => simp [ins, ptrs]
  | node l q k r ihl ihr =>
    simp only [ins]
    split
    · simp only [ptrs]
      exact (ihl.append_right _).trans (by simp)
    · simp only [ptrs]
      refine ((ihr.cons q).append_left l.ptrs).trans ?_
      have := @List.perm_middle _ p (l.ptrs ++ [q]) r.ptrs
      simpa using this

theorem ins_toList_perm (cmp : K → K → Bool) (key : K) (p : Ptr) (t : Shape K) :
    (ins cmp key p t).toList.Perm ((p, key) :: t.toList) := by
  induction t with
  | nil => simp [ins, toList]
  | node l q k r ihl ihr =>
    simp only [ins]
    split
    · simp only [toList]
      exact (ihl.append_right _).trans (by simp)
    · simp only [toList]
      refine ((ihr.cons (q, k)).append_left l.toList).trans ?_
      have := @List.perm_middle _ (p, key) (l.toList ++ [(q, k)]) r.toList
      simpa using this

theorem ins_size (cmp : K → K → Bool) (key : K) (p : Ptr) (t : Shape K) :
    (ins cmp key p t).size = t.size + 1 := by
  rw [size_eq_length, size_eq_length, (ins_ptrs_perm cmp key p t).length_eq]
  rfl

theorem mem_ins_keys (cmp : K → K → Bool) (key : K) (p : Ptr) (t : Shape K) (a : K) :
    a ∈ (ins cmp key p t).keys ↔ a = key ∨ a ∈ t.keys := by
  rw [← keys_toList, ← keys_toList, ((ins_toList_perm cmp key p t).map Prod.snd).mem_iff]
  simp

theorem ins_keys_pairwise {cmp : K → K → Bool} (key : K) (p : Ptr) {t : Shape K}
    (htr : ∀ a b c, cmp a b = true → cmp b c = true → cmp a c = true)
    (hs : t.keys.Pairwise (fun a b => cmp a b = true))
    (hne : ∀ k ∈ t.keys, equiv cmp key k = false) :
    (ins cmp key p t).keys.Pairwise (fun a b => cmp a b = true) := by
  induction t with
  | nil => simp [ins, keys]
  | node l q k r ihl ihr =>
    simp only [keys, List.pairwise_append, List.pairwise_cons] at hs
    obtain ⟨hsl, ⟨hkr, hsr⟩, hlr⟩ := hs
    have hnl : ∀ k1 ∈ l.keys, equiv cmp key k1 = false := fun k1 hk1 =>
      hne k1 (by simp [keys, hk1])
    have hnr : ∀ k1 ∈ r.keys, equiv cmp key k1 = false := fun k1 hk1 =>
      hne k1 (by simp [keys, hk1])
    have hnk : equiv cmp key k = false := hne k (by simp [keys])
    simp only [ins]
    split
    · rename_i hlt
      simp only [keys, List.pairwise_append, List.pairwise_cons]
      refine ⟨ihl hsl hnl, ⟨hkr, hsr⟩, ?_⟩
      intro a ha b hb
      rw [mem_ins_keys] at ha
      rcases ha with rfl | ha
      · rcases List.mem_cons.1 hb with rfl | hb
        · exact hlt
        · exact htr _ _ _ hlt (hkr b hb)
      · exact hlr a ha b hb
    · rename_i hlt
      have hgt : cmp k key = true := by
        simp only [Bool.not_eq_true] at hlt
        simpa [equiv, hlt] using hnk
      simp only [keys, List.pairwise_append, List.pairwise_cons]
      refine ⟨hsl, ⟨?_, ihr hsr hnr⟩, ?_⟩
      · intro a ha
        rw [mem_ins_keys] at ha
        rcases ha with rfl | ha
        · exact hgt
        · exact hkr a ha
      · intro a ha b hb
        rcases List.mem_cons.1 hb with rfl | hb
        · exact hlr a ha _ (List.mem_cons_self _ _)
        · rw [mem_ins_keys] at hb
          rcases hb with rfl | hb
          · exact htr _ _ _ (hlr a ha k (List.mem_cons_self _ _)) hgt
          · exact hlr a ha b (List.mem_cons_of_mem _ hb)

end Shape

/-- The descent of `map::insert` through a represented non-empty tree ends at the node under
which the abstract insertion hangs the new node. -/
theorem insert_loop_spec {h : Heap} (cmp : K → K → Bool) {value : Ptr → Option K}
    (key : K) (p : Ptr) (pn : map_base_node)
    (hpl : pn.left = .nullptr) (hpr : pn.right = .nullptr) (hpv : value p = some key)
    (t : Shape K) (par : Ptr) (hr : Rep h value par t) (hn : t.ptrs.Nodup)
    (hp : p ∉ t.ptrs) (hne : t ≠ .nil)
    (fuel : Nat) (hf : t.size < fuel) (prev0 : Ptr) (left0 : Bool) :
    ∃ prev left n, insert_loop h cmp value key fuel prev0 left0 t.root = some (prev, left) ∧
      prev ∈ t.ptrs ∧ h.deref prev = some n ∧
      ∀ h1 : Heap, (∀ x, h1.deref x =
          if x = p then some ⟨pn.left, pn.right, prev⟩
          else if x = prev then
            some (if left then ⟨p, n.right, n.parent⟩ else ⟨n.left, p, n.parent⟩)
          else h.deref x) →
        Rep h1 value par (Shape.ins cmp key p t) := by
  induction t generalizing par fuel prev0 left0 with
  | nil => exact absurd rfl hne
  | node l q k r ihl ihr =>
    obtain ⟨f, rfl⟩ : ∃ f, fuel = f + 1 := ⟨fuel - 1, by omega⟩
    obtain ⟨hq, hv, hl, hrr⟩ := hr
    simp only [Shape.size] at hf
    simp only [Shape.ptrs] at hn
    have hnl := (List.nodup_append.1 hn).1
    have hnr := (List.nodup_cons.1 (List.nodup_append.1 hn).2.1).2
    have hql : q ∉ l.ptrs := fun hm =>
      (List.nodup_append.1 hn).2.2 hm (List.mem_cons_self q _)
    have hqr : q ∉ r.ptrs := (List.nodup_cons.1 (List.nodup_append.1 hn).2.1).1
    have hdisj : ∀ x, x ∈ l.ptrs → x ∉ r.ptrs := fun x hx hx1 =>
      (List.nodup_append.1 hn).2.2 hx (List.mem_cons_of_mem _ hx1)
    simp only [Shape.ptrs, List.mem_append, List.mem_cons, not_or] at hp
    obtain ⟨hpl1, hpq, hpr1⟩ := hp
    have hqn : q ≠ .nullptr := deref_ne_null hq
    have hqp : q ≠ p := fun e => hpq e.symm
    by_cases h1 : cmp key k = true
    · cases l with
      | nil =>
        obtain ⟨f1, rfl⟩ : ∃ f1, f = f1 + 1 := ⟨f - 1, by omega⟩
        refine ⟨q, true, _, ?_, by simp [Shape.ptrs], hq, ?_⟩
        · simp [insert_loop, hqn, hv, h1, left_of_deref hq]
        · intro h1' hh
          simp only [Shape.ins, h1, if_true]
          refine ⟨?_, hv, ⟨?_, hpv, trivial, trivial⟩, ?_⟩
          · rw [hh q]; simp [hqp]
          · rw [hh p]; simp [hpl, hpr]
          · refine hrr.congr (fun x hx => ?_) (fun _ _ => rfl)
            have hxp : x ≠ p := fun e => hpr1 (e ▸ hx)
            have hxq : x ≠ q := fun e => hqr (e ▸ hx)
            rw [hh x]; simp [hxp, hxq]
      | node a b c d =>
        obtain ⟨prev, left, n, hloop, hprev, hnprev, hrep⟩ :=
          ihl q hl hnl hpl1 (by simp) f (by omega) q true
        refine ⟨prev, left, n, ?_, by simp [Shape.ptrs] at hprev ⊢; tauto, hnprev, ?_⟩
        · simpa [insert_loop, hqn, hv, h1, left_of_deref hq] using hloop
        · intro h1' hh
          rw [show Shape.ins cmp key p (.node (.node a b c d) q k r)
              = .node (Shape.ins cmp key p (.node a b c d)) q k r from by
            rw [Shape.ins]; simp only [h1, if_true]]
          have hqprev : q ≠ prev := fun e => hql (e ▸ hprev)
          refine ⟨?_, hv, ?_, ?_⟩
          · rw [hh q, Shape.ins_root_of_node]; simp [hqp, hqprev, hq]
          · exact hrep h1' hh
          · refine hrr.congr (fun x hx => ?_) (fun _ _ => rfl)
            have hxp : x ≠ p := fun e => hpr1 (e ▸ hx)
            have hxprev : x ≠ prev := fun e => hdisj prev hprev (e ▸ hx)
            rw [hh x]; simp [hxp, hxprev]
    · cases r with
      | nil =>
        obtain ⟨f1, rfl⟩ : ∃ f1, f = f1 + 1 := ⟨f - 1, by omega⟩
        refine ⟨q, false, _, ?_, by simp [Shape.ptrs], hq, ?_⟩
        · simp [insert_loop, hqn, hv, h1, right_of_deref hq]
        · intro h1' hh
          simp only [Shape.ins, h1]
          refine ⟨?_, hv, ?_, ⟨?_, hpv, trivial, trivial⟩⟩
          · rw [hh q]; simp [hqp]
          · refine hl.congr (fun x hx => ?_) (fun _ _ => rfl)
            have hxp : x ≠ p := fun e => hpl1 (e ▸ hx)
            have hxq : x ≠ q := fun e => hql (e ▸ hx)
            rw [hh x]; simp [hxp, hxq]
          · rw [hh p]; simp [hpl, hpr]
      | node a b c d =>
        obtain ⟨prev, left, n, hloop, hprev, hnprev, hrep⟩ :=
          ihr q hrr hnr hpr1 (by simp) f (by omega) q false
        refine ⟨prev, left, n, ?_, by simp [Shape.ptrs] at hprev ⊢; tauto, hnprev, ?_⟩
        · simpa [insert_loop, hqn, hv, h1, right_of_deref hq] using hloop
        · intro h1' hh
          rw [show Shape.ins cmp key p (.node l q k (.node a b c d))
              = .node l q k (Shape.ins cmp key p (.node a b c d)) from by
            rw [Shape.ins]; simp only [h1]; rfl]
          have hqprev : q ≠ prev := fun e => hqr (e ▸ hprev)
          refine ⟨?_, hv, ?_, ?_⟩
          · rw [hh q, Shape.ins_root_of_node]; simp [hqp, hqprev, hq]
          · refine hl.congr (fun x hx => ?_) (fun _ _ => rfl)
            have hxp : x ≠ p := fun e => hpl1 (e ▸ hx)
            have hxprev : x ≠ prev := fun e => hdisj x hx (e ▸ hprev)
            rw [hh x]; simp [hxp, hxprev]
          · exact hrep h1' hh

/-- On a valid map, `insert` of a fresh node with a key equivalent to no stored key succeeds,
keeps the map valid with the node added, and touches only the tree, the node and the head. -/
theorem map.insert_node_spec {m : map K} {h : Heap} {t : Shape K} (hinv : MapInv m h t)
    (htr : ∀ a b c, m.cmp a b = true → m.cmp b c = true → m.cmp a c = true)
    (p : Ptr) (key : K) (hpd : h.deref p = some ⟨.nullptr, .nullptr, .nullptr⟩)
    (hpv : m.value p = some key) (hp : p ∉ t.ptrs) (hph : p ≠ m.head)
    (hfl : h.right m.head ≠ some p)
    (hne : ∀ k ∈ t.keys, equiv m.cmp key k = false) (fuel : Nat) (hf : t.size < fuel) :
    ∃ h1, m.insert h fuel p = some (h1, p) ∧ MapInv m h1 (Shape.ins m.cmp key p t) ∧
      (∀ x, x ∉ t.ptrs → x ≠ p → x ≠ m.head → h1.deref x = h.deref x) ∧
      h1.right m.head = h.right m.head := by
  obtain ⟨fl, hhead, hflt⟩ := hinv.head
  have hpn : p ≠ .nullptr := deref_ne_null hpd
  have hhn : m.head ≠ .nullptr := deref_ne_null hhead
  have hhp : m.head ≠ p := fun e => hph e.symm
  have hflp : fl ≠ p := by
    intro e
    apply hfl
    rw [right_of_deref hhead, e]
  have hperm := Shape.ins_ptrs_perm m.cmp key p t
  have hnodup : (Shape.ins m.cmp key p t).ptrs.Nodup :=
    hperm.nodup_iff.2 (List.nodup_cons.2 ⟨hp, hinv.nodup⟩)
  have hhead_notin : m.head ∉ (Shape.ins m.cmp key p t).ptrs := by
    rw [hperm.mem_iff]
    simp only [List.mem_cons, not_or]
    exact ⟨fun e => hph e.symm, hinv.head_notin⟩
  have hfl_notin : fl ∉ (Shape.ins m.cmp key p t).ptrs := by
    rw [hperm.mem_iff]
    simp only [List.mem_cons, not_or]
    exact ⟨hflp, hflt⟩
  have hsorted := Shape.ins_keys_pairwise key p htr hinv.sorted hne
  cases t with
  | nil =>
    have hd1 : (h.store m.head ⟨p, fl, .nullptr⟩).deref p
        = some ⟨.nullptr, .nullptr, .nullptr⟩ := by
      rw [deref_store _ _ _ _ hhn]; simp [hph, hpd]
    refine ⟨(h.store m.head ⟨p, fl, .nullptr⟩).store p ⟨.nullptr, .nullptr, m.head⟩,
      ?_, ⟨⟨fl, ?_, hfl_notin⟩, ?_, hnodup, hhead_notin, hsorted⟩, ?_, ?_⟩
    · simp [map.insert, left_of_deref hhead, set_left_of_deref hhead,
        set_parent_of_deref hd1]
    · rw [deref_store _ _ _ _ hpn, deref_store _ _ _ _ hhn]
      simp [Shape.ins, hhp]
    · refine ⟨?_, hpv, trivial, trivial⟩
      rw [deref_store _ _ _ _ hpn]; simp
    · intro x _ hxp hxh
      rw [deref_store _ _ _ _ hpn, deref_store _ _ _ _ hhn]; simp [hxp, hxh]
    · simp only [Heap.right]
      rw [deref_store _ _ _ _ hpn, deref_store _ _ _ _ hhn]
      simp [hhp, hhead]
  | node l q k r =>
    obtain ⟨prev, left, n, hloop, hprev, hnprev, hrep⟩ :=
      insert_loop_spec m.cmp key p ⟨.nullptr, .nullptr, .nullptr⟩ rfl rfl hpv
        (.node l q k r) m.head hinv.rep hinv.nodup hp (by simp) fuel hf .nullptr false
    rw [Shape.root_node] at hloop
    have hprevn : prev ≠ .nullptr := deref_ne_null hnprev
    have hpprev : p ≠ prev := fun e => hp (e ▸ hprev)
    have hhprev : m.head ≠ prev := fun e => hinv.head_notin (e ▸ hprev)
    have hqn : q ≠ .nullptr := deref_ne_null hinv.rep.1
    obtain ⟨n1, hn1⟩ : ∃ n1 : map_base_node, n1 =
        if left then ⟨p, n.right, n.parent⟩ else ⟨n.left, p, n.parent⟩ := ⟨_, rfl⟩
    have hd1 : (h.store prev n1).deref p = some ⟨.nullptr, .nullptr, .nullptr⟩ := by
      rw [deref_store _ _ _ _ hprevn]; simp [hpprev, hpd]
    have hpoint : ∀ x, ((h.store prev n1).store p ⟨.nullptr, .nullptr, prev⟩).deref x =
        if x = p then some ⟨.nullptr, .nullptr, prev⟩
        else if x = prev then
          some (if left then ⟨p, n.right, n.parent⟩ else ⟨n.left, p, n.parent⟩)
        else h.deref x := by
      intro x
      rw [deref_store _ _ _ _ hpn, deref_store _ _ _ _ hprevn, hn1]
    refine ⟨(h.store prev n1).store p ⟨.nullptr, .nullptr, prev⟩,
      ?_, ⟨⟨fl, ?_, hfl_notin⟩, hrep _ hpoint, hnodup, hhead_notin, hsorted⟩, ?_, ?_⟩
    · simp only [map.insert, left_of_deref hhead, Shape.root_node, Option.bind_eq_bind,
        Option.some_bind, hqn, if_false, hpv, hloop]
      cases left
      · simp only [Bool.false_eq_true, if_false] at hn1 ⊢
        subst hn1
        simp [set_right_of_deref hnprev, set_parent_of_deref hd1]
      · simp only [if_true] at hn1 ⊢
        subst hn1
        simp [set_left_of_deref hnprev, set_parent_of_deref hd1]
    · rw [hpoint, Shape.ins_root_of_node]
      simp [hhp, hhprev, hhead]
    · intro x hx hxp hxh
      have hxprev : x ≠ prev := fun e => hx (e ▸ hprev)
      rw [hpoint]; simp [hxp, hxprev]
    · simp only [Heap.right]
      rw [hpoint]
      simp [hhp, hhprev]

end bimap_details

/-!
## `map::begin` and `operator++`
-/

namespace bimap_details

theorem nextIn_append_left {xs : List Ptr} {p : Ptr} (hp : p ∈ xs) (ys : List Ptr) (d : Ptr) :
    nextIn (xs ++ ys) p d = nextIn xs p (ys.headD d) := by
  induction xs with
  | nil => simp at hp
  | cons x xs ih =>
    by_cases hx : x = p
    · subst hx
      cases xs <;> simp [nextIn]
    · have hp1 : p ∈ xs := by
        rcases List.mem_cons.1 hp with e | hm
        · exact absurd e.symm hx
        · exact hm
      simp [nextIn, hx, ih hp1]

theorem nextIn_append_right {xs : List Ptr} {p : Ptr} (hp : p ∉ xs) (ys : List Ptr) (d : Ptr) :
    nextIn (xs ++ ys) p d = nextIn ys p d := by
  induction xs with
  | nil => rfl
  | cons x xs ih =>
    simp only [List.mem_cons, not_or] at hp
    have hx : x ≠ p := fun e => hp.1 e.symm
    simp [nextIn, hx, ih hp.2]

theorem descend_left_spec {h : Heap} {value : Ptr → Option K} (t : Shape K) (par : Ptr)
    (hr : Rep h value par t) (hne : t ≠ .nil) (fuel : Nat) (hf : t.size ≤ fuel) (d : Ptr) :
    descend_left h fuel t.root = some (t.ptrs.headD d) := by
  induction t generalizing par fuel with
  | nil => exact absurd rfl hne
  | node l q k r ihl _ =>
    simp only [Shape.size] at hf
    obtain ⟨f, rfl⟩ : ∃ f, fuel = f + 1 := ⟨fuel - 1, by omega⟩
    obtain ⟨hq, -, hl, -⟩ := hr
    cases l with
    | nil => simp [descend_left, left_of_deref hq, Shape.ptrs]
    | node a b c e =>
      have hb : b ≠ .nullptr := deref_ne_null hl.1
      have := ihl q hl (by simp) f (by omega)
      simp only [Shape.root_node] at this
      simp only [descend_left, left_of_deref hq, Shape.root_node, Option.bind_eq_bind,
        Option.some_bind, hb, if_false, this]
      simp only [Shape.ptrs]
      cases a.ptrs <;> simp

/-- On a valid map, `begin` is the first position in ascending order, or the head. -/
theorem map.begin_spec {m : map K} {h : Heap} {t : Shape K} (hinv : MapInv m h t)
    (fuel : Nat) (hf : t.size ≤ fuel) :
    m.begin_ h fuel = some (t.ptrs.headD m.head) := by
  obtain ⟨fl, hhead, -⟩ := hinv.head
  cases t with
  | nil => simp [map.begin_, left_of_deref hhead, Shape.ptrs]
  | node l q k r =>
    have hq : q ≠ .nullptr := deref_ne_null hinv.rep.1
    have := descend_left_spec (.node l q k r) m.head hinv.rep (by simp) fuel hf m.head
    simpa [map.begin_, left_of_deref hhead, hq] using this

theorem climb_from_right_mono {h : Heap} {c : Nat} {prev m : Ptr} {res : Ptr × Ptr}
    (hc : climb_from_right h c prev m = some res) (c1 : Nat) (hle : c ≤ c1) :
    climb_from_right h c1 prev m = some res := by
  induction c generalizing prev m c1 with
  | zero => simp [climb_from_right] at hc
  | succ c ih =>
    obtain ⟨c2, rfl⟩ : ∃ c2, c1 = c2 + 1 := ⟨c1 - 1, by omega⟩
    simp only [climb_from_right] at hc ⊢
    by_cases hm : m = .nullptr
    · simpa [hm] using hc
    · simp only [hm, if_false] at hc ⊢
      cases hr : h.right m with
      | none => simp [hr] at hc
      | some r =>
        simp only [hr, Option.bind_eq_bind, Option.some_bind] at hc ⊢
        by_cases hrp : r = prev
        · simp only [hrp, if_true] at hc ⊢
          cases hu : h.parent m with
          | none => simp [hu] at hc
          | some u =>
            simp only [hu, Option.some_bind] at hc ⊢
            exact ih hc c2 (by omega)
        · simpa [hrp] using hc

theorem incr_spec_aux {h : Heap} {value : Ptr → Option K} (t : Shape K) (par : Ptr)
    (hr : Rep h value par t) (hn : t.ptrs.Nodup) (nxt x : Ptr) (c : Nat)
    (hc : climb_from_right h c t.root par = some (x, nxt)) (hnx : nxt ≠ .nullptr)
    (fuel : Nat) (hf : c + t.size ≤ fuel) (p : Ptr) (hp : p ∈ t.ptrs) :
    iterator_incr h fuel p = some (nextIn t.ptrs p nxt) := by
  induction t generalizing par nxt x c with
  | nil => simp [Shape.ptrs] at hp
  | node l q k r ihl ihr =>
    obtain ⟨hq, hv, hl, hrr⟩ := hr
    simp only [Shape.size] at hf
    simp only [Shape.ptrs] at hn
    have hnl := (List.nodup_append.1 hn).1
    have hnr := (List.nodup_cons.1 (List.nodup_append.1 hn).2.1).2
    have hql : q ∉ l.ptrs := fun hm =>
      (List.nodup_append.1 hn).2.2 hm (List.mem_cons_self q _)
    have hqr : q ∉ r.ptrs := (List.nodup_cons.1 (List.nodup_append.1 hn).2.1).1
    have hdisj : ∀ y, y ∈ l.ptrs → y ∉ r.ptrs := fun y hy hy1 =>
      (List.nodup_append.1 hn).2.2 hy (List.mem_cons_of_mem _ hy1)
    have hqn : q ≠ .nullptr := deref_ne_null hq
    simp only [Shape.root_node] at hc
    simp only [Shape.ptrs, List.mem_append, List.mem_cons] at hp
    rcases hp with hp | rfl | hp
    · -- the position lies in the left subtree: the climb stops at `q`
      have hlne : l ≠ .nil := by rintro rfl; simp [Shape.ptrs] at hp
      have hlroot : l.root ∈ l.ptrs := by
        cases l with
        | nil => exact absurd rfl hlne
        | node a b c1 e => exact Shape.root_mem_ptrs _ _ _ _
      have hrl : r.root ≠ l.root := by
        cases r with
        | nil => simpa using (hl.ne_null_of_mem hlroot).symm
        | node a b c1 e =>
          intro e1
          exact hdisj _ hlroot (e1 ▸ Shape.root_mem_ptrs _ _ _ _)
      have hc1 : climb_from_right h 1 l.root q = some (l.root, q) := by
        simp [climb_from_right, hqn, right_of_deref hq, hrl]
      rw [ihl q hl hnl q l.root 1 hc1 hqn (by omega) hp, Shape.ptrs,
        nextIn_append_left hp]
      simp
    · -- the position is the root of this subtree
      rw [Shape.ptrs, nextIn_append_right hql]
      cases r with
      | nil =>
        have := climb_from_right_mono hc fuel (by omega)
        simp [iterator_incr, right_of_deref hq, parent_of_deref hq, this, hnx, nextIn,
          Shape.ptrs]
      | node a b c1 e =>
        have hb : b ≠ .nullptr := deref_ne_null hrr.1
        have := descend_left_spec (.node a b c1 e) p hrr (by simp) fuel (by omega) nxt
        simp only [Shape.root_node] at this
        simp [iterator_incr, right_of_deref hq, hb, this, nextIn]
    · -- the position lies in the right subtree: the climb continues above `q`
      have hpl : p ∉ l.ptrs := fun hm => hdisj p hm hp
      have hqp : q ≠ p := fun e => hqr (e ▸ hp)
      have hrne : r ≠ .nil := by rintro rfl; simp [Shape.ptrs] at hp
      have hc1 : climb_from_right h (c + 1) r.root q = some (x, nxt) := by
        simp [climb_from_right, hqn, right_of_deref hq, parent_of_deref hq, hc]
      rw [ihr q hrr hnr nxt x (c + 1) hc1 hnx (by omega) hp, Shape.ptrs,
        nextIn_append_right hpl]
      simp [nextIn, hqp]

/-- On a valid map, `operator++` moves to the next position in ascending order, and from the
last one to the head. -/
theorem map.incr_spec {m : map K} {h : Heap} {t : Shape K} (hinv : MapInv m h t)
    (fuel : Nat) (hf : t.size < fuel) (p : Ptr) (hp : p ∈ t.ptrs) :
    iterator_incr h fuel p = some (nextIn t.ptrs p m.head) := by
  obtain ⟨fl, hhead, hfl⟩ := hinv.head
  have hhn : m.head ≠ .nullptr := deref_ne_null hhead
  have hroot : t.root ∈ t.ptrs := by
    cases t with
    | nil => simp [Shape.ptrs] at hp
    | node a b c1 e => exact Shape.root_mem_ptrs _ _ _ _
  have hflr : fl ≠ t.root := fun e => hfl (e ▸ hroot)
  have hc : climb_from_right h 1 t.root m.head = some (t.root, m.head) := by
    simp [climb_from_right, hhn, right_of_deref hhead, hflr]
  exact incr_spec_aux t m.head hinv.rep hinv.nodup m.head t.root 1 hc hhn fuel (by omega) p hp

end bimap_details

/-!
## The shape after `map::erase`
-/

namespace bimap_details

namespace Shape

theorem leftmost_eq_head (t : Shape K) : t.leftmost = t.toList.head? := by
  induction t with
  | nil => rfl
  | node l q k r ihl _ =>
    cases l with
    | nil => simp [leftmost, toList]
    | node a b c d =>
      have h1 : (node (node a b c d) q k r).leftmost = (node a b c d).leftmost := rfl
      rw [h1, ihl]
      simp only [toList]
      cases a.toList <;> simp

theorem filter_toList_of_notin {t : Shape K} {p : Ptr} (hp : p ∉ t.ptrs) :
    t.toList.filter (fun x => x.1 != p) = t.toList := by
  rw [List.filter_eq_self]
  rintro ⟨x, k⟩ hx
  have : x ≠ p := fun e => hp (e ▸ mem_ptrs_of_mem_toList hx)
  simpa using this

theorem erase_toList (t : Shape K) (p : Ptr) (hn : t.ptrs.Nodup) :
    (t.erase p).toList = t.toList.filter (fun x => x.1 != p) := by
  induction t generalizing p with
  | nil => rfl
  | node l q k r ihl ihr =>
    simp only [ptrs] at hn
    have hnl := (List.nodup_append.1 hn).1
    have hnr := (List.nodup_cons.1 (List.nodup_append.1 hn).2.1).2
    have hql : q ∉ l.ptrs := fun hm =>
      (List.nodup_append.1 hn).2.2 hm (List.mem_cons_self q _)
    have hqr : q ∉ r.ptrs := (List.nodup_cons.1 (List.nodup_append.1 hn).2.1).1
    have hdisj : ∀ y, y ∈ l.ptrs → y ∉ r.ptrs := fun y hy hy1 =>
      (List.nodup_append.1 hn).2.2 hy (List.mem_cons_of_mem _ hy1)
    by_cases hqp : q = p
    · subst hqp
      have hfl := filter_toList_of_notin hql
      have hfr := filter_toList_of_notin hqr
      have hgoal : (node l q k r).toList.filter (fun x => x.1 != q) = l.toList ++ r.toList := by
        simp only [toList, List.filter_append, List.filter_cons, hfl, hfr]
        simp
      rw [hgoal]
      cases l with
      | nil => simp [erase, isNil, toList]
      | node a b c d =>
        cases r with
        | nil => simp [erase, isNil, toList]
        | node a1 b1 c1 d1 =>
          have hlm := leftmost_eq_head (node a1 b1 c1 d1)
          cases hrl : (node a1 b1 c1 d1).toList with
          | nil => simp [toList] at hrl
          | cons hd rest =>
            obtain ⟨s, ks⟩ := hd
            rw [hrl] at hlm
            simp only [List.head?_cons] at hlm
            have hptrs : (node a1 b1 c1 d1).ptrs = s :: rest.map Prod.fst := by
              rw [← ptrs_toList, hrl]; rfl
            have hs : s ∉ rest.map Prod.fst := by
              have := hptrs ▸ hnr
              exact (List.nodup_cons.1 this).1
            have hfilt : rest.filter (fun x => x.1 != s) = rest := by
              rw [List.filter_eq_self]
              rintro ⟨y, ky⟩ hy
              have : y ≠ s := fun e => hs (e ▸ List.mem_map_of_mem Prod.fst hy)
              simpa using this
            have ih := ihr s hnr
            rw [hrl] at ih
            simp only [List.filter_cons, bne_self_eq_false, Bool.false_eq_true, if_false,
              hfilt] at ih
            rw [erase]
            simp only [if_true, hlm, isNil, Bool.false_eq_true, if_false]
            rw [toList, ih]
    · by_cases hpl : p ∈ l.ptrs
      · have hpr : p ∉ r.ptrs := hdisj p hpl
        rw [erase]
        simp only [hqp, if_false, hpl, if_true, toList, List.filter_append,
          List.filter_cons, ihl p hnl, filter_toList_of_notin hpr]
        simp [hqp]
      · rw [erase]
        simp only [hqp, if_false, hpl, toList, List.filter_append,
          List.filter_cons, ihr p hnr, filter_toList_of_notin hpl]
        simp [hqp]

theorem erase_ptrs (t : Shape K) (p : Ptr) (hn : t.ptrs.Nodup) :
    (t.erase p).ptrs = t.ptrs.erase p := by
  rw [hn.erase_eq_filter, ← ptrs_toList, ← ptrs_toList, erase_toList t p hn, List.filter_map]
  rfl

theorem erase_ptrs_nodup (t : Shape K) (p : Ptr) (hn : t.ptrs.Nodup) :
    (t.erase p).ptrs.Nodup := by
  rw [erase_ptrs t p hn]
  exact hn.erase p

theorem mem_erase_ptrs (t : Shape K) (p : Ptr) (hn : t.ptrs.Nodup) (x : Ptr) :
    x ∈ (t.erase p).ptrs ↔ x ≠ p ∧ x ∈ t.ptrs := by
  rw [erase_ptrs t p hn]
  exact hn.mem_erase_iff

theorem erase_size (t : Shape K) (p : Ptr) (hn : t.ptrs.Nodup) (hp : p ∈ t.ptrs) :
    (t.erase p).size + 1 = t.size := by
  rw [size_eq_length, size_eq_length, erase_ptrs t p hn, List.length_erase_of_mem hp]
  have : 0 < t.ptrs.length := List.length_pos_of_mem hp
  omega

theorem erase_keys_sublist (t : Shape K) (p : Ptr) (hn : t.ptrs.Nodup) :
    (t.erase p).keys.Sublist t.keys := by
  rw [← keys_toList, ← keys_toList, erase_toList t p hn]
  exact (List.filter_sublist _).map _

theorem mem_erase_toList (t : Shape K) (p : Ptr) (hn : t.ptrs.Nodup) (x : Ptr × K) :
    x ∈ (t.erase p).toList ↔ x ∈ t.toList ∧ x.1 ≠ p := by
  rw [erase_toList t p hn]
  simp

theorem leftmost_spec (t : Shape K) (hne : t ≠ .nil) :
    ∃ s ks, t.leftmost = some (s, ks) ∧ (s, ks) ∈ t.toList ∧ ∀ d, t.ptrs.headD d = s := by
  have h1 := leftmost_eq_head t
  cases ht : t.toList with
  | nil =>
    cases t with
    | nil => exact absurd rfl hne
    | node l q k r => simp [toList] at ht
  | cons hd rest =>
    obtain ⟨s, ks⟩ := hd
    refine ⟨s, ks, by rw [h1, ht]; rfl, by simp, ?_⟩
    intro d
    rw [← ptrs_toList, ht]
    rfl

end Shape

/-!
## `map::link_parent` and `map::erase`
-/

theorem map.link_parent_spec {h : Heap} {old new_ par : Ptr} {nd pn : map_base_node}
    (hold : h.deref old = some nd) (hpar : nd.parent = par) (hp : h.deref par = some pn)
    (hnew : new_ = .nullptr ∨ ∃ nn, h.deref new_ = some nn) (hpo : par ≠ old)
    (hpn : par ≠ new_) :
    ∃ h1, map.link_parent h old new_ = some h1 ∧ ∀ x, h1.deref x =
      if x = new_ then (h.deref new_).map (fun nn => ⟨nn.left, nn.right, par⟩)
      else if x = par then
        some (if pn.left = old then ⟨new_, pn.right, pn.parent⟩ else ⟨pn.left, new_, pn.parent⟩)
      else h.deref x := by
  subst hpar
  have hparn : nd.parent ≠ .nullptr := deref_ne_null hp
  obtain ⟨n1, hn1⟩ : ∃ n1 : map_base_node, n1 =
      if pn.left = old then ⟨new_, pn.right, pn.parent⟩ else ⟨pn.left, new_, pn.parent⟩ :=
    ⟨_, rfl⟩
  have hold1 : (h.store nd.parent n1).deref old = some nd := by
    rw [deref_store _ _ _ _ hparn]; simp [hpo.symm, hold]
  rcases hnew with rfl | ⟨nn, hnn⟩
  · refine ⟨h.store nd.parent n1, ?_, ?_⟩
    · by_cases hc : pn.left = old
      · simp only [hc, if_true] at hn1
        simp [map.link_parent, parent_of_deref hold, left_of_deref hp, hc,
          set_left_of_deref hp, hn1]
      · simp only [hc, if_false] at hn1
        simp [map.link_parent, parent_of_deref hold, left_of_deref hp, hc,
          set_right_of_deref hp, hn1]
    · intro x
      rw [deref_store _ _ _ _ hparn, ← hn1]
      by_cases hx : x = .nullptr
      · subst hx; simp [deref_nullptr, hparn.symm]
      · simp [hx]
  · have hnewn : new_ ≠ .nullptr := deref_ne_null hnn
    have hnew1 : (h.store nd.parent n1).deref new_ = some nn := by
      rw [deref_store _ _ _ _ hparn]; simp [hpn.symm, hnn]
    refine ⟨(h.store nd.parent n1).store new_ ⟨nn.left, nn.right, nd.parent⟩, ?_, ?_⟩
    · by_cases hc : pn.left = old
      · simp only [hc, if_true] at hn1
        subst hn1
        simp [map.link_parent, parent_of_deref hold, left_of_deref hp, hc,
          set_left_of_deref hp, hnewn, parent_of_deref hold1, set_parent_of_deref hnew1]
      · simp only [hc, if_false] at hn1
        subst hn1
        simp [map.link_parent, parent_of_deref hold, left_of_deref hp, hc,
          set_right_of_deref hp, hnewn, parent_of_deref hold1, set_parent_of_deref hnew1]
    · intro x
      rw [deref_store _ _ _ _ hnewn, deref_store _ _ _ _ hparn, ← hn1, hnn]
      rfl

end bimap_details

namespace bimap_details

/-- The final statement `old->left = old->right = old->parent = nullptr` of `map::erase`. -/
theorem map.erase_tail {h : Heap} {q : Ptr} {n : map_base_node} (hq : h.deref q = some n) :
    ∃ h4, ((h.set_parent q .nullptr).bind fun h2 =>
        (h2.set_right q .nullptr).bind fun h3 =>
          (h3.set_left q .nullptr).bind fun h4 => some (h4, q)) = some (h4, q) ∧
      ∀ x, h4.deref x = if x = q then some ⟨.nullptr, .nullptr, .nullptr⟩ else h.deref x := by
  have hqn : q ≠ .nullptr := deref_ne_null hq
  have d1 : (h.store q ⟨n.left, n.right, .nullptr⟩).deref q
      = some ⟨n.left, n.right, .nullptr⟩ := by
    rw [deref_store _ _ _ _ hqn]; simp
  have d2 : ((h.store q ⟨n.left, n.right, .nullptr⟩).store q ⟨n.left, .nullptr, .nullptr⟩).deref q
      = some ⟨n.left, .nullptr, .nullptr⟩ := by
    rw [deref_store _ _ _ _ hqn]; simp
  refine ⟨((h.store q ⟨n.left, n.right, .nullptr⟩).store q
    ⟨n.left, .nullptr, .nullptr⟩).store q ⟨.nullptr, .nullptr, .nullptr⟩, ?_, ?_⟩
  · rw [set_parent_of_deref hq, Option.some_bind, set_right_of_deref d1, Option.some_bind,
      set_left_of_deref d2, Option.some_bind]
  · intro x
    simp only [deref_store _ _ _ _ hqn]
    by_cases hx : x = q <;> simp [hx]

/-- Erasing a node with at most one child hangs that child (or nothing) in its place. -/
theorem map.erase_simple {h : Heap} {value : Ptr → Option K} (q par : Ptr)
    (pn : map_base_node) (tc : Shape K) (lr rr : Ptr)
    (hq : h.deref q = some ⟨lr, rr, par⟩)
    (hlr : (lr = tc.root ∧ rr = .nullptr) ∨ (lr = .nullptr ∧ rr = tc.root))
    (hc : Rep h value q tc) (hnc : tc.ptrs.Nodup) (hqc : q ∉ tc.ptrs) (hparc : par ∉ tc.ptrs)
    (hpq : par ≠ q) (hp : h.deref par = some pn) (f : Nat) :
    ∃ h1, map.erase h (f + 1) q = some (h1, q) ∧ Rep h1 value par tc ∧
      h1.deref par = some (if pn.left = q then ⟨tc.root, pn.right, pn.parent⟩
        else ⟨pn.left, tc.root, pn.parent⟩) ∧
      h1.deref q = some ⟨.nullptr, .nullptr, .nullptr⟩ ∧
      ∀ x, x ∉ tc.ptrs → x ≠ q → x ≠ par → h1.deref x = h.deref x := by
  have hqn : q ≠ .nullptr := deref_ne_null hq
  have hparn : par ≠ .nullptr := deref_ne_null hp
  have hnew : tc.root = .nullptr ∨ ∃ nn, h.deref tc.root = some nn := by
    cases tc with
    | nil => exact Or.inl rfl
    | node a b c d => exact Or.inr ⟨_, hc.1⟩
  have hpc : par ≠ tc.root := by
    cases tc with
    | nil => exact hparn
    | node a b c d =>
      intro e
      exact hparc (e ▸ Shape.root_mem_ptrs _ _ _ _)
  have hqroot : q ≠ tc.root := by
    cases tc with
    | nil => exact hqn
    | node a b c d =>
      intro e
      exact hqc (e ▸ Shape.root_mem_ptrs _ _ _ _)
  obtain ⟨g, hg, hgp⟩ := map.link_parent_spec hq rfl hp hnew hpq hpc
  have hgq : g.deref q = some ⟨lr, rr, par⟩ := by
    rw [hgp]; simp [hqroot, hpq.symm, hq]
  obtain ⟨h4, h4e, h4p⟩ := map.erase_tail hgq
  have herase : map.erase h (f + 1) q = some (h4, q) := by
    rw [map.erase]
    simp only [left_of_deref hq, right_of_deref hq, Option.bind_eq_bind, Option.some_bind]
    rcases hlr with ⟨h1, h2⟩ | ⟨h1, h2⟩
    · subst h1 h2
      by_cases h3 : tc.root = .nullptr
      · simp only [h3, ne_eq, not_true_eq_false, and_self, if_false]
        rw [h3] at hg
        rw [hg, Option.some_bind, h4e]
      · simp only [h3, ne_eq, not_true_eq_false, and_false, if_false, not_false_eq_true,
          if_true]
        rw [hg, Option.some_bind, h4e]
    · subst h1 h2
      by_cases h3 : tc.root = .nullptr
      · simp only [h3, ne_eq, not_true_eq_false, and_self, if_false]
        rw [h3] at hg
        rw [hg, Option.some_bind, h4e]
      · simp only [h3, ne_eq, not_true_eq_false, false_and, if_false, not_false_eq_true,
          if_true]
        rw [hg, Option.some_bind, h4e]
  refine ⟨h4, herase, ?_, ?_, ?_, ?_⟩
  · refine hc.reparent hnc ?_ ?_
    · intro x hx hxr
      have hxq : x ≠ q := fun e => hqc (e ▸ hx)
      have hxp : x ≠ par := fun e => hparc (e ▸ hx)
      rw [h4p, hgp]; simp [hxq, hxp, hxr]
    · intro n hn
      have hrn : tc.root ≠ .nullptr := deref_ne_null hn
      rw [h4p, hgp]; simp [hqroot.symm, hn]
  · rw [h4p, hgp]; simp [hpq, hpc]
  · rw [h4p]; simp
  · intro x hx hxq hxp
    rw [h4p, hgp]
    by_cases hxr : x = tc.root
    · cases tc with
      | nil => subst hxr; simp [deref_nullptr, hqn.symm]
      | node a b c d => exact absurd (hxr ▸ Shape.root_mem_ptrs _ _ _ _) hx
    · simp [hxq, hxp, hxr]

end bimap_details

namespace bimap_details

/-- Erasing a node with two children promotes the leftmost node `s` of its right subtree,
given what the nested `erase(++it)` of `s` leaves behind. -/
theorem map.erase_two {h : Heap} {value : Ptr → Option K} (la : Shape K) (lb : Ptr) (lc : K)
    (ld : Shape K) (r : Shape K) (q par : Ptr) (k : K) (pn : map_base_node)
    (hr : Rep h value par (.node (.node la lb lc ld) q k r))
    (hn : (Shape.node (.node la lb lc ld) q k r).ptrs.Nodup)
    (hpar : par ∉ (Shape.node (.node la lb lc ld) q k r).ptrs) (hp : h.deref par = some pn)
    (hrne : r ≠ .nil) (s : Ptr) (ks : K) (hs : (s, ks) ∈ r.toList)
    (hhead : ∀ d, r.ptrs.headD d = s) (f : Nat) (hf : r.size ≤ f)
    (g : Heap) (r1 : Shape K) (hg : map.erase h f s = some (g, s)) (hgr : Rep g value q r1)
    (hsub : ∀ x ∈ r1.ptrs, x ∈ r.ptrs ∧ x ≠ s) (hnr1 : r1.ptrs.Nodup)
    (hgq : g.deref q = some ⟨lb, r1.root, par⟩)
    (hgs : g.deref s = some ⟨.nullptr, .nullptr, .nullptr⟩)
    (hgf : ∀ x, x ∉ r.ptrs → x ≠ q → g.deref x = h.deref x) :
    ∃ h1, map.erase h (f + 1) q = some (h1, q) ∧
      Rep h1 value par (.node (.node la lb lc ld) s ks r1) ∧
      h1.deref par = some (if pn.left = q then ⟨s, pn.right, pn.parent⟩
        else ⟨pn.left, s, pn.parent⟩) ∧
      h1.deref q = some ⟨.nullptr, .nullptr, .nullptr⟩ ∧
      ∀ x, x ∉ (Shape.node (.node la lb lc ld) q k r).ptrs → x ≠ par →
        h1.deref x = h.deref x := by
  obtain ⟨hq, hvq, hl, hrr⟩ := hr
  rw [Shape.root_node] at hq
  have hlb : h.deref lb = some ⟨la.root, ld.root, q⟩ := hl.1
  simp only [Shape.ptrs] at hn hpar
  have hnl := (List.nodup_append.1 hn).1
  have hnr := (List.nodup_cons.1 (List.nodup_append.1 hn).2.1).2
  have hql : q ∉ (Shape.node la lb lc ld).ptrs := fun hm =>
    (List.nodup_append.1 hn).2.2 (by simpa [Shape.ptrs] using hm) (List.mem_cons_self q _)
  have hqr : q ∉ r.ptrs := (List.nodup_cons.1 (List.nodup_append.1 hn).2.1).1
  have hdisj : ∀ y, y ∈ (Shape.node la lb lc ld).ptrs → y ∉ r.ptrs := fun y hy hy1 =>
    (List.nodup_append.1 hn).2.2 (by simpa [Shape.ptrs] using hy) (List.mem_cons_of_mem _ hy1)
  have hparl : par ∉ (Shape.node la lb lc ld).ptrs := fun hm =>
    hpar (by simp only [Shape.ptrs] at hm; exact List.mem_append_left _ hm)
  have hparr : par ∉ r.ptrs := fun hm => hpar (by simp [hm])
  have hparq : par ≠ q := fun e => hpar (by simp [e])
  have hlbmem : lb ∈ (Shape.node la lb lc ld).ptrs := Shape.root_mem_ptrs _ _ _ _
  have hsmem : s ∈ r.ptrs := Shape.mem_ptrs_of_mem_toList hs
  have hqn : q ≠ .nullptr := deref_ne_null hq
  have hsn : s ≠ .nullptr := deref_ne_null hgs
  have hlbn : lb ≠ .nullptr := deref_ne_null hlb
  have hparn : par ≠ .nullptr := deref_ne_null hp
  have hqs : q ≠ s := fun e => hqr (e ▸ hsmem)
  have hlbs : lb ≠ s := fun e => hdisj lb hlbmem (e ▸ hsmem)
  have hpars : par ≠ s := fun e => hparr (e ▸ hsmem)
  have hlbq : lb ≠ q := fun e => hql (e ▸ hlbmem)
  have hparlb : par ≠ lb := fun e => hparl (e ▸ hlbmem)
  have hrootn : r.root ≠ .nullptr := fun e => hrne (hrr.root_eq_null_iff.1 e)
  have hvs : value s = some ks := hrr.value_of_mem hs hnr
  have hincr : iterator_incr h f q = some s := by
    have := descend_left_spec r q hrr hrne f hf .nullptr
    rw [hhead] at this
    simp [iterator_incr, right_of_deref hq, hrootn, this]
  have hglb : g.deref lb = some ⟨la.root, ld.root, q⟩ := by
    rw [hgf lb (hdisj lb hlbmem) hlbq]; exact hlb
  have hgpar : g.deref par = some pn := by
    rw [hgf par hparr hparq]; exact hp
  -- facts on the root of what is left of the right subtree
  have hr1 : r1.root = .nullptr ∨ (r1.root ∈ r1.ptrs ∧
      ∃ n : map_base_node, g.deref r1.root = some ⟨n.left, n.right, q⟩) := by
    cases r1 with
    | nil => exact Or.inl rfl
    | node a b c d => exact Or.inr ⟨Shape.root_mem_ptrs _ _ _ _, ⟨⟨a.root, d.root, q⟩, hgr.1⟩⟩
  have hr1s : r1.root ≠ s := by
    rcases hr1 with e | ⟨hm, -⟩
    · rw [e]; exact hsn.symm
    · exact (hsub _ hm).2
  have hr1q : r1.root ≠ q := by
    rcases hr1 with e | ⟨hm, -⟩
    · rw [e]; exact hqn.symm
    · exact fun e => hqr (e ▸ (hsub _ hm).1)
  have hr1lb : r1.root ≠ lb := by
    rcases hr1 with e | ⟨hm, -⟩
    · rw [e]; exact hlbn.symm
    · exact fun e => hdisj lb hlbmem (e ▸ (hsub _ hm).1)
  have hr1par : r1.root ≠ par := by
    rcases hr1 with e | ⟨hm, -⟩
    · rw [e]; exact hparn.symm
    · exact fun e => hparr (e ▸ (hsub _ hm).1)
  -- the heaps after each assignment
  obtain ⟨g1, hg1⟩ : ∃ g1, g1 = g.store s ⟨lb, .nullptr, .nullptr⟩ := ⟨_, rfl⟩
  have e1 : g.set_left s lb = some g1 := by rw [hg1]; exact set_left_of_deref hgs lb
  have d1 : ∀ x, g1.deref x = if x = s then some ⟨lb, .nullptr, .nullptr⟩ else g.deref x := by
    intro x; rw [hg1, deref_store _ _ _ _ hsn]
  obtain ⟨g2, hg2⟩ : ∃ g2, g2 = g1.store s ⟨lb, r1.root, .nullptr⟩ := ⟨_, rfl⟩
  have d1s : g1.deref s = some ⟨lb, .nullptr, .nullptr⟩ := by rw [d1]; simp
  have d1q : g1.deref q = some ⟨lb, r1.root, par⟩ := by rw [d1]; simp [hqs, hgq]
  have e2 : g1.set_right s r1.root = some g2 := by
    rw [hg2]; exact set_right_of_deref d1s r1.root
  have d2 : ∀ x, g2.deref x = if x = s then some ⟨lb, r1.root, .nullptr⟩ else g.deref x := by
    intro x; rw [hg2, deref_store _ _ _ _ hsn, d1]
    by_cases hx : x = s <;> simp [hx]
  obtain ⟨g3, hg3⟩ : ∃ g3, g3 = g2.store lb ⟨la.root, ld.root, s⟩ := ⟨_, rfl⟩
  have d2lb : g2.deref lb = some ⟨la.root, ld.root, q⟩ := by rw [d2]; simp [hlbs, hglb]
  have e3 : g2.set_parent lb s = some g3 := by
    rw [hg3]; exact set_parent_of_deref d2lb s
  have d3 : ∀ x, g3.deref x = if x = lb then some ⟨la.root, ld.root, s⟩ else g2.deref x := by
    intro x; rw [hg3, deref_store _ _ _ _ hlbn]
  obtain ⟨g4, e4, d4⟩ : ∃ g4,
      (if r1.root ≠ .nullptr then g3.set_parent r1.root s else some g3) = some g4 ∧
      ∀ x, g4.deref x = if x = r1.root then
        (g.deref r1.root).map (fun n => ⟨n.left, n.right, s⟩) else g3.deref x := by
    rcases hr1 with e | ⟨hm, n, hdn⟩
    · refine ⟨g3, by simp [e], ?_⟩
      intro x
      by_cases hx : x = .nullptr
      · subst hx; simp [e, deref_nullptr]
      · simp [e, hx]
    · have hne : r1.root ≠ .nullptr := deref_ne_null hdn
      have hd3 : g3.deref r1.root = some ⟨n.left, n.right, q⟩ := by
        rw [d3, d2]; simp [hr1lb, hr1s, hdn]
      refine ⟨g3.store r1.root ⟨n.left, n.right, s⟩, ?_, ?_⟩
      · simp [hne, set_parent_of_deref hd3]
      · intro x
        rw [deref_store _ _ _ _ hne, hdn]
        rfl
  have d4q : g4.deref q = some ⟨lb, r1.root, par⟩ := by
    rw [d4, d3, d2]; simp [hr1q.symm, hlbq.symm, hqs, hgq]
  have d4par : g4.deref par = some pn := by
    rw [d4, d3, d2]; simp [hr1par.symm, hparlb, hpars, hgpar]
  have d4s : g4.deref s = some ⟨lb, r1.root, .nullptr⟩ := by
    rw [d4, d3, d2]; simp [hr1s.symm, hlbs.symm]
  obtain ⟨g5, e5, d5⟩ := map.link_parent_spec d4q rfl d4par (Or.inr ⟨_, d4s⟩) hparq hpars
  have d5q : g5.deref q = some ⟨lb, r1.root, par⟩ := by
    rw [d5]; simp [hqs, hparq.symm, d4q]
  obtain ⟨h4, e6, d6⟩ := map.erase_tail d5q
  have herase : map.erase h (f + 1) q = some (h4, q) := by
    rw [map.erase]
    simp only [left_of_deref hq, right_of_deref hq, Option.bind_eq_bind, Option.some_bind,
      ne_eq, hlbn, hrootn, not_false_eq_true, and_self, if_true, hincr, hg,
      left_of_deref hgq, e1, right_of_deref d1q, e2]
    have d2q : g2.deref q = some ⟨lb, r1.root, par⟩ := by rw [d2]; simp [hqs, hgq]
    have d3q : g3.deref q = some ⟨lb, r1.root, par⟩ := by rw [d3]; simp [hlbq.symm, d2q]
    simp only [parent_of_deref d2q, left_of_deref d2q, Option.some_bind, ne_eq, hparn,
      not_false_eq_true, if_true, e3, right_of_deref d3q]
    by_cases hc : r1.root = .nullptr
    · simp only [hc, ne_eq, not_true_eq_false, if_false] at e4 ⊢
      simp only [Option.some.injEq] at e4
      subst e4
      rw [e5, Option.some_bind, e6]
    · simp only [ne_eq, hc, not_false_eq_true, if_true] at e4 ⊢
      rw [e4, Option.some_bind, e5, Option.some_bind, e6]
  have hfinal : ∀ x, h4.deref x =
      if x = q then some ⟨.nullptr, .nullptr, .nullptr⟩
      else if x = s then some ⟨lb, r1.root, par⟩
      else if x = par then
        some (if pn.left = q then ⟨s, pn.right, pn.parent⟩ else ⟨pn.left, s, pn.parent⟩)
      else if x = r1.root then (g.deref r1.root).map (fun n => ⟨n.left, n.right, s⟩)
      else if x = lb then some ⟨la.root, ld.root, s⟩
      else g.deref x := by
    intro x
    rw [d6, d5, d4s, d4, d3, d2]
    by_cases h1 : x = q
    · simp [h1]
    · by_cases h2 : x = s
      · simp [h1, h2]
      · simp [h1, h2]
  refine ⟨h4, herase, ⟨?_, hvs, ?_, ?_⟩, ?_, ?_, ?_⟩
  · rw [hfinal]; simp [hqs.symm]
  · refine hl.reparent hnl ?_ ?_
    · intro x hx hxr
      simp only [Shape.root_node] at hxr
      have hxq : x ≠ q := fun e => hql (e ▸ hx)
      have hxs : x ≠ s := fun e => hdisj x hx (e ▸ hsmem)
      have hxpar : x ≠ par := fun e => hparl (e ▸ hx)
      have hxr1 : x ≠ r1.root := by
        rcases hr1 with e | ⟨hm, -⟩
        · rw [e]; exact hl.ne_null_of_mem hx
        · exact fun e => hdisj x hx (e ▸ (hsub _ hm).1)
      rw [hfinal, hgf x (hdisj x hx) hxq]
      simp [hxq, hxs, hxpar, hxr1, hxr]
    · intro n hdn
      simp only [Shape.root_node] at hdn ⊢
      rw [hlb] at hdn
      simp only [Option.some.injEq] at hdn
      subst hdn
      rw [hfinal]
      simp [hlbq, hlbs, hparlb.symm, hr1lb.symm]
  · refine hgr.reparent hnr1 ?_ ?_
    · intro x hx hxr
      have hxq : x ≠ q := fun e => hqr (e ▸ (hsub x hx).1)
      have hxs : x ≠ s := (hsub x hx).2
      have hxpar : x ≠ par := fun e => hparr (e ▸ (hsub x hx).1)
      have hxlb : x ≠ lb := fun e => hdisj lb hlbmem (e ▸ (hsub x hx).1)
      rw [hfinal]
      simp [hxq, hxs, hxpar, hxlb, hxr]
    · intro n hdn
      rw [hfinal, hdn]
      simp [hr1q, hr1s, hr1par]
  · rw [hfinal]; simp [hparq, hpars]
  · rw [hfinal]; simp
  · intro x hx hxpar
    simp only [Shape.ptrs, List.mem_append, List.mem_cons, not_or] at hx
    obtain ⟨⟨hxla, hxlb, hxld⟩, hxq, hxr⟩ := hx
    have hxs : x ≠ s := fun e => hxr (e ▸ hsmem)
    rw [hfinal, hgf x hxr hxq]
    by_cases hxr1 : x = r1.root
    · rcases hr1 with e | ⟨hm, -⟩
      · rw [hxr1, e]; simp [deref_nullptr, hqn.symm, hsn.symm, hparn.symm]
      · exact absurd (hxr1 ▸ (hsub _ hm).1) hxr
    · simp [hxq, hxs, hxpar, hxr1, hxlb]

end bimap_details

namespace bimap_details

/-- Erasing any node of a represented tree hanging in a slot of `par` leaves the heap
representing the erased shape in the same slot, and clears the node. -/
theorem map.erase_spec_aux {h : Heap} {value : Ptr → Option K} (t : Shape K) (par : Ptr)
    (pn : map_base_node) (hr : Rep h value par t) (hn : t.ptrs.Nodup) (hpar : par ∉ t.ptrs)
    (hp : h.deref par = some pn)
    (hslot : pn.left = t.root ∨ (pn.left ∉ t.ptrs ∧ pn.right = t.root))
    (p : Ptr) (hmem : p ∈ t.ptrs) (fuel : Nat) (hf : t.size < fuel) :
    ∃ h1, map.erase h fuel p = some (h1, p) ∧ Rep h1 value par (t.erase p) ∧
      h1.deref par = some (if pn.left = t.root then ⟨(t.erase p).root, pn.right, pn.parent⟩
        else ⟨pn.left, (t.erase p).root, pn.parent⟩) ∧
      h1.deref p = some ⟨.nullptr, .nullptr, .nullptr⟩ ∧
      ∀ x, x ∉ t.ptrs → x ≠ par → h1.deref x = h.deref x := by
  induction t generalizing par pn p fuel with
  | nil => simp [Shape.ptrs] at hmem
  | node l q k r ihl ihr =>
    obtain ⟨f, rfl⟩ : ∃ f, fuel = f + 1 := ⟨fuel - 1, by omega⟩
    have hr0 := hr
    obtain ⟨hq, hv, hl, hrr⟩ := hr
    simp only [Shape.size] at hf
    have hn0 := hn
    simp only [Shape.ptrs] at hn
    have hnl := (List.nodup_append.1 hn).1
    have hnr := (List.nodup_cons.1 (List.nodup_append.1 hn).2.1).2
    have hql : q ∉ l.ptrs := fun hm =>
      (List.nodup_append.1 hn).2.2 hm (List.mem_cons_self q _)
    have hqr : q ∉ r.ptrs := (List.nodup_cons.1 (List.nodup_append.1 hn).2.1).1
    have hdisj : ∀ y, y ∈ l.ptrs → y ∉ r.ptrs := fun y hy hy1 =>
      (List.nodup_append.1 hn).2.2 hy (List.mem_cons_of_mem _ hy1)
    have hpar0 := hpar
    simp only [Shape.ptrs, List.mem_append, List.mem_cons, not_or] at hpar
    obtain ⟨hparl, hparq, hparr⟩ := hpar
    have hqn : q ≠ .nullptr := deref_ne_null hq
    have hlroot : l.root ∉ r.ptrs := by
      cases l with
      | nil => exact hrr.null_notin
      | node a b c d => exact hdisj _ (Shape.root_mem_ptrs _ _ _ _)
    simp only [Shape.root_node] at hslot ⊢
    by_cases hqp : q = p
    · subst hqp
      cases l with
      | nil =>
        obtain ⟨h1, he, hrep, hdp, hdq, hfr⟩ := map.erase_simple q par pn r .nullptr r.root hq
          (Or.inr ⟨rfl, rfl⟩) hrr hnr hqr hparr hparq hp f
        have hte : (Shape.node .nil q k r).erase q = r := by
          rw [Shape.erase]; simp [Shape.isNil]
        rw [hte]
        refine ⟨h1, he, hrep, hdp, hdq, ?_⟩
        intro x hx hxp
        simp only [Shape.ptrs, List.mem_append, List.mem_cons, not_or] at hx
        exact hfr x hx.2.2 hx.2.1 hxp
      | node la lb lc ld =>
        cases r with
        | nil =>
          obtain ⟨h1, he, hrep, hdp, hdq, hfr⟩ := map.erase_simple q par pn
            (.node la lb lc ld) lb .nullptr hq
            (Or.inl ⟨rfl, rfl⟩) hl hnl hql hparl hparq hp f
          have hte : (Shape.node (.node la lb lc ld) q k .nil).erase q = .node la lb lc ld := by
            rw [Shape.erase]; simp [Shape.isNil]
          rw [hte]
          refine ⟨h1, he, hrep, hdp, hdq, ?_⟩
          intro x hx hxp
          simp only [Shape.ptrs, List.mem_append, List.mem_cons, not_or] at hx
          refine hfr x ?_ hx.2.1 hxp
          simp only [Shape.ptrs, List.mem_append, List.mem_cons, not_or]
          exact hx.1
        | node ra rb rc rd =>
          obtain ⟨s, ks, hlm, hsm, hhead⟩ :=
            Shape.leftmost_spec (.node ra rb rc rd) (by simp)
          have hsmem : s ∈ (Shape.node ra rb rc rd).ptrs := Shape.mem_ptrs_of_mem_toList hsm
          have hrootne : lb ≠ rb := by
            intro e
            exact hlroot (by rw [Shape.root_node, e]; exact Shape.root_mem_ptrs _ _ _ _)
          obtain ⟨g, hge, hgr, hgq, hgs, hgf⟩ := ihr q ⟨lb, rb, par⟩ hrr hnr hqr hq
            (Or.inr ⟨hlroot, rfl⟩) s hsmem f (by simp only [Shape.size] at hf ⊢; omega)
          simp only [Shape.root_node, hrootne, if_false] at hgq
          obtain ⟨h1, he, hrep, hdp, hdq, hfr⟩ := map.erase_two la lb lc ld
            (.node ra rb rc rd) q par k pn hr0 hn0 hpar0 hp (by simp) s ks hsm hhead f
            (by simp only [Shape.size] at hf ⊢; omega) g
            ((Shape.node ra rb rc rd).erase s) hge hgr
            (fun x hx => by
              have := (Shape.mem_erase_ptrs _ s hnr x).1 hx
              exact ⟨this.2, this.1⟩)
            (Shape.erase_ptrs_nodup _ s hnr) hgq hgs hgf
          have hte : (Shape.node (.node la lb lc ld) q k (.node ra rb rc rd)).erase q
              = .node (.node la lb lc ld) s ks ((Shape.node ra rb rc rd).erase s) := by
            rw [Shape.erase]
            simp only [if_true, hlm, Shape.isNil, Bool.false_eq_true, if_false]
          rw [hte]
          exact ⟨h1, he, hrep, hdp, hdq, hfr⟩
    · simp only [Shape.ptrs, List.mem_append, List.mem_cons] at hmem
      have hpq : p ≠ q := fun e => hqp e.symm
      by_cases hpl : p ∈ l.ptrs
      · obtain ⟨h1, he, hrep, hdq, hdp, hfr⟩ := ihl q ⟨l.root, r.root, par⟩ hl hnl hql hq
          (Or.inl rfl) p hpl (f + 1) (by omega)
        simp only [if_true] at hdq
        have hte : (Shape.node l q k r).erase p = .node (l.erase p) q k r := by
          rw [Shape.erase]; simp only [hqp, if_false, hpl, if_true]
        rw [hte]
        refine ⟨h1, he, ⟨hdq, hv, hrep, ?_⟩, ?_, hdp, ?_⟩
        · refine hrr.congr (fun x hx => hfr x (fun hm => hdisj x hm hx) ?_) (fun _ _ => rfl)
          exact fun e => hqr (e ▸ hx)
        · rw [hfr par hparl hparq, hp]
          simp only [Shape.root_node]
          congr 1
          rcases hslot with e | ⟨-, e⟩
          · rw [if_pos e]; cases pn; simp_all
          · by_cases hc : pn.left = q
            · rw [if_pos hc]; cases pn; simp_all
            · rw [if_neg hc]; cases pn; simp_all
        · intro x hx hxp
          simp only [Shape.ptrs, List.mem_append, List.mem_cons, not_or] at hx
          exact hfr x hx.1 hx.2.1
      · have hpr : p ∈ r.ptrs := by
          rcases hmem with hm | hm | hm
          · exact absurd hm hpl
          · exact absurd hm hpq
          · exact hm
        have hrootne : l.root ≠ r.root := by
          intro e
          apply hlroot
          rw [e]
          cases r with
          | nil => simp [Shape.ptrs] at hpr
          | node a b c d => exact Shape.root_mem_ptrs _ _ _ _
        obtain ⟨h1, he, hrep, hdq, hdp, hfr⟩ := ihr q ⟨l.root, r.root, par⟩ hrr hnr hqr hq
          (Or.inr ⟨hlroot, rfl⟩) p hpr (f + 1) (by omega)
        simp only [hrootne, if_false] at hdq
        have hte : (Shape.node l q k r).erase p = .node l q k (r.erase p) := by
          rw [Shape.erase]; simp only [hqp, if_false, hpl]
        rw [hte]
        refine ⟨h1, he, ⟨hdq, hv, ?_, hrep⟩, ?_, hdp, ?_⟩
        · refine hl.congr (fun x hx => hfr x (hdisj x hx) ?_) (fun _ _ => rfl)
          exact fun e => hql (e ▸ hx)
        · rw [hfr par hparr hparq, hp]
          simp only [Shape.root_node]
          congr 1
          rcases hslot with e | ⟨-, e⟩
          · rw [if_pos e]; cases pn; simp_all
          · by_cases hc : pn.left = q
            · rw [if_pos hc]; cases pn; simp_all
            · rw [if_neg hc]; cases pn; simp_all
        · intro x hx hxp
          simp only [Shape.ptrs, List.mem_append, List.mem_cons, not_or] at hx
          exact hfr x hx.2.2 hx.2.1

/-- On a valid map, `erase` of a stored node succeeds, keeps the map valid with the node
removed, clears the node's links and touches only the tree and the head. -/
theorem map.erase_spec {m : map K} {h : Heap} {t : Shape K} (hinv : MapInv m h t)
    (p : Ptr) (hp : p ∈ t.ptrs) (fuel : Nat) (hf : t.size < fuel) :
    ∃ h1, map.erase h fuel p = some (h1, p) ∧ MapInv m h1 (t.erase p) ∧
      h1.deref p = some ⟨.nullptr, .nullptr, .nullptr⟩ ∧
      (∀ x, x ∉ t.ptrs → x ≠ m.head → h1.deref x = h.deref x) ∧
      h1.right m.head = h.right m.head := by
  obtain ⟨fl, hhead, hfl⟩ := hinv.head
  obtain ⟨h1, he, hrep, hdh, hdp, hfr⟩ := map.erase_spec_aux t m.head ⟨t.root, fl, .nullptr⟩
    hinv.rep hinv.nodup hinv.head_notin hhead (Or.inl rfl) p hp fuel hf
  simp only [if_true] at hdh
  refine ⟨h1, he, ⟨⟨fl, hdh, ?_⟩, hrep, Shape.erase_ptrs_nodup t p hinv.nodup, ?_, ?_⟩,
    hdp, hfr, ?_⟩
  · exact fun hm => hfl ((Shape.mem_erase_ptrs t p hinv.nodup fl).1 hm).2
  · exact fun hm => hinv.head_notin ((Shape.mem_erase_ptrs t p hinv.nodup _).1 hm).2
  · exact hinv.sorted.sublist (Shape.erase_keys_sublist t p hinv.nodup)
  · rw [right_of_deref hdh, right_of_deref hhead]

end bimap_details

/-!
## The bimap facade: invariant bookkeeping
-/

open bimap_details

namespace bimap_details

theorem MapInv.transport {m m1 : map K} {h h1 : Heap} {t : Shape K} (hinv : MapInv m h t)
    (hhead : m1.head = m.head) (hcmp : m1.cmp = m.cmp)
    (hd : h1.deref m.head = h.deref m.head)
    (hh : ∀ p ∈ t.ptrs, h1.deref p = h.deref p)
    (hv : ∀ p ∈ t.ptrs, m1.value p = m.value p) : MapInv m1 h1 t := by
  obtain ⟨fl, hfl, hflt⟩ := hinv.head
  refine ⟨⟨fl, ?_, hflt⟩, ?_, hinv.nodup, ?_, ?_⟩
  · rw [hhead, hd]; exact hfl
  · rw [hhead]; exact hinv.rep.congr hh hv
  · rw [hhead]; exact hinv.head_notin
  · rw [hcmp]; exact hinv.sorted

theorem MapInv.parent_ne_null {m : map K} {h : Heap} {t : Shape K} (hinv : MapInv m h t)
    {p : Ptr} (hp : p ∈ t.ptrs) : ∃ n, h.deref p = some n ∧ n.parent ≠ .nullptr := by
  obtain ⟨fl, hfl, -⟩ := hinv.head
  have hhn : m.head ≠ .nullptr := deref_ne_null hfl
  have key : ∀ (t : Shape K) (par : Ptr), par ≠ .nullptr → Rep h m.value par t → p ∈ t.ptrs →
      ∃ n, h.deref p = some n ∧ n.parent ≠ .nullptr := by
    intro t
    induction t with
    | nil => intro par _ _ hm; simp [Shape.ptrs] at hm
    | node l q k r ihl ihr =>
      intro par hpar hr hm
      obtain ⟨hq, -, hl, hrr⟩ := hr
      have hqn : q ≠ .nullptr := deref_ne_null hq
      simp only [Shape.ptrs, List.mem_append, List.mem_cons] at hm
      rcases hm with hm | rfl | hm
      · exact ihl q hqn hl hm
      · exact ⟨_, hq, hpar⟩
      · exact ihr q hqn hrr hm
  exact key t m.head hhn hinv.rep hp

theorem equiv_self {cmp : K → K → Bool} (hs : StrictWeakOrder cmp) (a : K) :
    equiv cmp a a = true := by simp [equiv, hs.irrefl]

theorem equiv_symm {cmp : K → K → Bool} {a b : K} (h : equiv cmp a b = true) :
    equiv cmp b a = true := by
  simp only [equiv, Bool.and_eq_true, Bool.not_eq_true'] at h ⊢
  exact ⟨h.2, h.1⟩

theorem equiv_trans {cmp : K → K → Bool} (hs : StrictWeakOrder cmp) {a b c : K}
    (h1 : equiv cmp a b = true) (h2 : equiv cmp b c = true) : equiv cmp a c = true := by
  simp only [equiv, Bool.and_eq_true, Bool.not_eq_true'] at h1 h2 ⊢
  exact hs.incomp_trans a b c h1.1 h1.2 h2.1 h2.2

/-- In a strictly ascending list two equivalent entries are the same entry. -/
theorem eq_of_equiv_of_pairwise {cmp : K → K → Bool}
    {xs : List (Ptr × K)} (hp : (xs.map Prod.snd).Pairwise (fun a b => cmp a b = true))
    {x y : Ptr × K} (hx : x ∈ xs) (hy : y ∈ xs) (he : equiv cmp x.2 y.2 = true) : x = y := by
  induction xs with
  | nil => simp at hx
  | cons z zs ih =>
    simp only [List.map_cons, List.pairwise_cons, List.mem_map, forall_exists_index,
      and_imp] at hp
    simp only [equiv, Bool.and_eq_true, Bool.not_eq_true'] at he
    rcases List.mem_cons.1 hx with rfl | hx1
    · rcases List.mem_cons.1 hy with rfl | hy1
      · rfl
      · have := hp.1 y.2 y hy1 rfl
        rw [he.1] at this
        exact absurd this (by simp)
    · rcases List.mem_cons.1 hy with rfl | hy1
      · have := hp.1 x.2 x hx1 rfl
        rw [he.2] at this
        exact absurd this (by simp)
      · exact ih hp.2 hx1 hy1

theorem Ptr.flipTag_injective : Function.Injective Ptr.flipTag := by
  intro a b hab
  cases a with
  | nullptr => cases b <;> simp [Ptr.flipTag] at hab ⊢
  | head i t =>
    cases b <;> simp [Ptr.flipTag] at hab ⊢
    obtain ⟨h1, h2⟩ := hab
    refine ⟨h1, ?_⟩
    cases t <;> rename_i t1 <;> cases t1 <;> simp [Tag.other] at h2 ⊢
  | node i t =>
    cases b <;> simp [Ptr.flipTag] at hab ⊢
    obtain ⟨h1, h2⟩ := hab
    refine ⟨h1, ?_⟩
    cases t <;> rename_i t1 <;> cases t1 <;> simp [Tag.other] at h2 ⊢

end bimap_details

namespace World

theorem left_value_some {w : World α β} {p : Ptr} {v : α} (h : w.left_value p = some v) :
    ∃ i, p = .node i .Left_Tag ∧ w.first i = some v := by
  cases p with
  | nullptr => simp [left_value] at h
  | head b t => simp [left_value] at h
  | node i t =>
    cases t with
    | Left_Tag => exact ⟨i, rfl, h⟩
    | Right_Tag => simp [left_value] at h

theorem right_value_some {w : World α β} {p : Ptr} {v : β} (h : w.right_value p = some v) :
    ∃ i, p = .node i .Right_Tag ∧ w.second i = some v := by
  cases p with
  | nullptr => simp [right_value] at h
  | head b t => simp [right_value] at h
  | node i t =>
    cases t with
    | Left_Tag => simp [right_value] at h
    | Right_Tag => exact ⟨i, rfl, h⟩

end World

namespace bimap

theorem Abs.left_form {w : World α β} {b : Nat} {tl : Shape α} {tr : Shape β}
    (ha : Abs w b tl tr) {p : Ptr} (hp : p ∈ tl.ptrs) : ∃ i, p = .node i .Left_Tag := by
  obtain ⟨v, hv⟩ := ha.left.rep.value_some_of_mem hp
  obtain ⟨i, hi, -⟩ := World.left_value_some hv
  exact ⟨i, hi⟩

theorem Abs.right_form {w : World α β} {b : Nat} {tl : Shape α} {tr : Shape β}
    (ha : Abs w b tl tr) {p : Ptr} (hp : p ∈ tr.ptrs) : ∃ i, p = .node i .Right_Tag := by
  obtain ⟨v, hv⟩ := ha.right.rep.value_some_of_mem hp
  obtain ⟨i, hi, -⟩ := World.right_value_some hv
  exact ⟨i, hi⟩

theorem Abs.mem_right_iff {w : World α β} {b : Nat} {tl : Shape α} {tr : Shape β}
    (ha : Abs w b tl tr) (i : Nat) :
    Ptr.node i .Right_Tag ∈ tr.ptrs ↔ Ptr.node i .Left_Tag ∈ tl.ptrs := by
  rw [← ha.same.mem_iff, List.mem_map]
  constructor
  · rintro ⟨p, hp, hpe⟩
    obtain ⟨j, rfl⟩ := ha.left_form hp
    simp only [Ptr.flipTag, Tag.other, Ptr.node.injEq, and_true] at hpe
    subst hpe
    exact hp
  · intro hp
    exact ⟨_, hp, rfl⟩

theorem Abs.alloc_right {w : World α β} {b : Nat} {tl : Shape α} {tr : Shape β}
    (ha : Abs w b tl tr) (i : Nat) (t : Tag) (hp : Ptr.node i t ∈ tr.ptrs) : i < w.next := by
  obtain ⟨j, hj⟩ := ha.right_form hp
  simp only [Ptr.node.injEq] at hj
  obtain ⟨rfl, rfl⟩ := hj
  exact ha.alloc i .Left_Tag ((ha.mem_right_iff i).1 hp)

theorem Abs.size_right {w : World α β} {b : Nat} {tl : Shape α} {tr : Shape β}
    (ha : Abs w b tl tr) : tr.size = tl.size := by
  rw [Shape.size_eq_length, Shape.size_eq_length, ← ha.same.length_eq, List.length_map]

theorem Abs.trans_left {w : World α β} {b : Nat} {tl : Shape α} {tr : Shape β}
    (ha : Abs w b tl tr) : ∀ x y z, (w.left_map b).cmp x y = true →
      (w.left_map b).cmp y z = true → (w.left_map b).cmp x z = true := ha.swo_left.trans

theorem Abs.trans_right {w : World α β} {b : Nat} {tl : Shape α} {tr : Shape β}
    (ha : Abs w b tl tr) : ∀ x y z, (w.right_map b).cmp x y = true →
      (w.right_map b).cmp y z = true → (w.right_map b).cmp x z = true := ha.swo_right.trans

/-- The left value of a stored node is the key the left tree records for it. -/
theorem Abs.first_of_mem {w : World α β} {b : Nat} {tl : Shape α} {tr : Shape β}
    (ha : Abs w b tl tr) {i : Nat} {l : α} (hm : (Ptr.node i .Left_Tag, l) ∈ tl.toList) :
    w.first i = some l :=
  ha.left.rep.value_of_mem hm ha.left.nodup

theorem Abs.second_of_mem {w : World α β} {b : Nat} {tl : Shape α} {tr : Shape β}
    (ha : Abs w b tl tr) {i : Nat} {r : β} (hm : (Ptr.node i .Right_Tag, r) ∈ tr.toList) :
    w.second i = some r :=
  ha.right.rep.value_of_mem hm ha.right.nodup

/-- A pair is stored exactly when one pair node carries its left value in the left tree and
its right value in the right tree. -/
theorem Abs.stored_iff {w : World α β} {b : Nat} {tl : Shape α} {tr : Shape β}
    (ha : Abs w b tl tr) (l : α) (r : β) :
    Stored w b l r ↔ ∃ i, (Ptr.node i .Left_Tag, l) ∈ tl.toList ∧
      (Ptr.node i .Right_Tag, r) ∈ tr.toList := by
  obtain ⟨fl, hfl, -⟩ := ha.left.head
  constructor
  · rintro ⟨i, root, hroot, hreach, hf, hs⟩
    have hroot1 : root = tl.root := by
      have := left_of_deref hfl
      simp only [World.left_map] at this
      rw [end_left, this] at hroot
      simpa using hroot.symm
    subst hroot1
    have hmem := (ha.left.rep.reach_iff _).1 hreach
    obtain ⟨k, hk⟩ := Shape.exists_key_of_mem_ptrs hmem
    have hk1 := ha.first_of_mem hk
    rw [hf] at hk1
    simp only [Option.some.injEq] at hk1
    subst hk1
    have hmemr := (ha.mem_right_iff i).2 hmem
    obtain ⟨k2, hk2⟩ := Shape.exists_key_of_mem_ptrs hmemr
    have hk3 := ha.second_of_mem hk2
    rw [hs] at hk3
    simp only [Option.some.injEq] at hk3
    subst hk3
    exact ⟨i, hk, hk2⟩
  · rintro ⟨i, hl, hr⟩
    refine ⟨i, tl.root, ?_, ?_, ha.first_of_mem hl, ha.second_of_mem hr⟩
    · have := left_of_deref hfl
      simpa [World.left_map, end_left] using this
    · exact (ha.left.rep.reach_iff _).2 (Shape.mem_ptrs_of_mem_toList hl)

end bimap

/-!
## The bimap facade: constructor, lookups, insert
-/

open bimap_details

theorem size_mod_pos : 0 < SIZE_MOD := by decide

namespace bimap

/-- The constructor yields a valid empty bimap with cross-linked heads. -/
theorem ctor_spec (w : World α β) (b : Nat) (cl : α → α → Bool) (cr : β → β → Bool)
    (hcl : StrictWeakOrder cl) (hcr : StrictWeakOrder cr) :
    ∃ w1, ctor w b cl cr = some w1 ∧ Abs w1 b .nil .nil ∧ Linked w1 b ∧
      w1.next = w.next ∧ w1.first = w.first ∧ w1.second = w.second ∧
      (∀ x, x ≠ end_left b → x ≠ end_right b → w1.heap.deref x = w.heap.deref x) ∧
      (∀ a, a ≠ b → w1.size a = w.size a ∧ w1.cmp_left a = w.cmp_left a ∧
        w1.cmp_right a = w.cmp_right a) ∧
      w1.cmp_left b = cl ∧ w1.cmp_right b = cr ∧ w1.size b = 0 := by
  have hL : Ptr.head b .Left_Tag ≠ .nullptr := by simp
  have hR : Ptr.head b .Right_Tag ≠ .nullptr := by simp
  have hLR : Ptr.head b .Left_Tag ≠ .head b .Right_Tag := by simp
  let z : map_base_node := ⟨.nullptr, .nullptr, .nullptr⟩
  let h0 : Heap := (w.heap.store (.head b .Left_Tag) z).store (.head b .Right_Tag) z
  have d0L : h0.deref (.head b .Left_Tag) = some z := by
    simp only [h0, deref_store _ _ _ _ hR, deref_store _ _ _ _ hL]; simp
  let h1 : Heap := h0.store (.head b .Left_Tag) ⟨.nullptr, .head b .Right_Tag, .nullptr⟩
  have d1R : h1.deref (.head b .Right_Tag) = some z := by
    simp only [h1, h0, deref_store _ _ _ _ hR, deref_store _ _ _ _ hL]; simp
  let h2 : Heap := h1.store (.head b .Right_Tag) ⟨.nullptr, .head b .Left_Tag, .nullptr⟩
  have hd : ∀ x, h2.deref x =
      if x = .head b .Right_Tag then some ⟨.nullptr, .head b .Left_Tag, .nullptr⟩
      else if x = .head b .Left_Tag then some ⟨.nullptr, .head b .Right_Tag, .nullptr⟩
      else w.heap.deref x := by
    intro x
    simp only [h2, h1, h0, deref_store _ _ _ _ hR, deref_store _ _ _ _ hL]
    by_cases h1 : x = .head b .Right_Tag
    · simp [h1]
    · by_cases h2 : x = .head b .Left_Tag
      · simp [h2]
      · simp [h1, h2]
  refine ⟨{ init_members w b cl cr with heap := h2 }, ?_, ?_, ?_, rfl, rfl, rfl, ?_, ?_,
    by simp [init_members, upd], by simp [init_members, upd], by simp [init_members, upd]⟩
  · simp only [ctor, link_heads, map.set_flip_head, World.left_map, World.right_map,
      init_members]
    rw [set_right_of_deref d0L]
    simp only [Option.bind_eq_bind, Option.some_bind]
    rw [set_right_of_deref d1R]
    rfl
  · refine ⟨?_, ?_, ⟨⟨.head b .Right_Tag, ?_, by simp [Shape.ptrs]⟩, trivial, by simp [Shape.ptrs],
      by simp [Shape.ptrs], by simp [Shape.keys]⟩,
      ⟨⟨.head b .Left_Tag, ?_, by simp [Shape.ptrs]⟩, trivial, by simp [Shape.ptrs],
      by simp [Shape.ptrs], by simp [Shape.keys]⟩, by simp [Shape.ptrs], ?_, ?_, ?_, ?_, ?_⟩
    · simpa [init_members, upd] using hcl
    · simpa [init_members, upd] using hcr
    · show h2.deref (.head b .Left_Tag) = _
      rw [hd]; simp
    · show h2.deref (.head b .Right_Tag) = _
      rw [hd]; simp
    · simp [init_members, upd, Shape.size]
    · simp [init_members, upd, size_mod_pos]
    · intro i t hm; simp [Shape.ptrs] at hm
    · intro i t
      show Heap.right h2 (.head b .Left_Tag) ≠ _
      simp [Heap.right, hd]
    · intro i t
      show Heap.right h2 (.head b .Right_Tag) ≠ _
      simp [Heap.right, hd]
  · constructor
    · show Heap.right h2 (.head b .Left_Tag) = _
      simp [Heap.right, hd, end_right]
    · show Heap.right h2 (.head b .Right_Tag) = _
      simp [Heap.right, hd, end_left]
  · intro x hx1 hx2
    show h2.deref x = _
    rw [hd]
    simp only [end_left, end_right] at hx1 hx2
    simp [hx1, hx2]
  · intro a hab
    simp [init_members, upd, hab]

theorem Abs.find_left_spec {w : World α β} {b : Nat} {tl : Shape α} {tr : Shape β}
    (ha : Abs w b tl tr) (key : α) (fuel : Nat) (hf : w.size b < fuel) :
    ∃ res, find_left w fuel b key = some res ∧
      ((res = end_left b ∧ ∀ k ∈ tl.keys, equiv (w.cmp_left b) key k = false) ∨
       (∃ i k, res = .node i .Left_Tag ∧ (Ptr.node i .Left_Tag, k) ∈ tl.toList ∧
          equiv (w.cmp_left b) key k = true)) := by
  obtain ⟨res, hres, hcase⟩ :=
    map.find_spec ha.left ha.trans_left key fuel (by rw [← ha.size_eq]; exact hf)
  refine ⟨res, hres, ?_⟩
  rcases hcase with ⟨rfl, hno⟩ | ⟨k, hk, he⟩
  · exact Or.inl ⟨rfl, hno⟩
  · obtain ⟨i, rfl⟩ := ha.left_form (Shape.mem_ptrs_of_mem_toList hk)
    exact Or.inr ⟨i, k, rfl, hk, he⟩

theorem Abs.find_right_spec {w : World α β} {b : Nat} {tl : Shape α} {tr : Shape β}
    (ha : Abs w b tl tr) (key : β) (fuel : Nat) (hf : w.size b < fuel) :
    ∃ res, find_right w fuel b key = some res ∧
      ((res = end_right b ∧ ∀ k ∈ tr.keys, equiv (w.cmp_right b) key k = false) ∨
       (∃ i k, res = .node i .Right_Tag ∧ (Ptr.node i .Right_Tag, k) ∈ tr.toList ∧
          equiv (w.cmp_right b) key k = true)) := by
  obtain ⟨res, hres, hcase⟩ :=
    map.find_spec ha.right ha.trans_right key fuel
      (by rw [ha.size_right, ← ha.size_eq]; exact hf)
  refine ⟨res, hres, ?_⟩
  rcases hcase with ⟨rfl, hno⟩ | ⟨k, hk, he⟩
  · exact Or.inl ⟨rfl, hno⟩
  · obtain ⟨i, rfl⟩ := ha.right_form (Shape.mem_ptrs_of_mem_toList hk)
    exact Or.inr ⟨i, k, rfl, hk, he⟩

/-- Flipping a stored left position gives the right role of the same pair node. -/
theorem Abs.flip_left_node {w : World α β} {b : Nat} {tl : Shape α} {tr : Shape β}
    (ha : Abs w b tl tr) {i : Nat} (hm : Ptr.node i .Left_Tag ∈ tl.ptrs) :
    flip w.heap .Left_Tag (.node i .Left_Tag) = some (.node i .Right_Tag) := by
  obtain ⟨n, hn, hpar⟩ := ha.left.parent_ne_null hm
  simp [flip, parent_of_deref hn, hpar, Tag.other]

theorem Abs.flip_right_node {w : World α β} {b : Nat} {tl : Shape α} {tr : Shape β}
    (ha : Abs w b tl tr) {i : Nat} (hm : Ptr.node i .Right_Tag ∈ tr.ptrs) :
    flip w.heap .Right_Tag (.node i .Right_Tag) = some (.node i .Left_Tag) := by
  obtain ⟨n, hn, hpar⟩ := ha.right.parent_ne_null hm
  simp [flip, parent_of_deref hn, hpar, Tag.other]

/-- On a valid bimap `at_left(key)` throws when no stored left value is equivalent to `key`
and otherwise returns the right value of the pair whose left value is equivalent. -/
theorem Abs.at_left_spec {w : World α β} {b : Nat} {tl : Shape α} {tr : Shape β}
    (ha : Abs w b tl tr) (key : α) (fuel : Nat) (hf : w.size b < fuel) :
    ((∀ k ∈ tl.keys, equiv (w.cmp_left b) key k = false) ∧
      at_left w fuel b key = some .out_of_range) ∨
    (∃ i k r, (Ptr.node i .Left_Tag, k) ∈ tl.toList ∧ (Ptr.node i .Right_Tag, r) ∈ tr.toList ∧
      equiv (w.cmp_left b) key k = true ∧ at_left w fuel b key = some (.value r)) := by
  obtain ⟨res, hres, hcase⟩ := ha.find_left_spec key fuel hf
  rcases hcase with ⟨rfl, hno⟩ | ⟨i, k, rfl, hk, he⟩
  · exact Or.inl ⟨hno, by simp [at_left, hres]⟩
  · right
    have hm := Shape.mem_ptrs_of_mem_toList hk
    have hmr := (ha.mem_right_iff i).2 hm
    obtain ⟨r, hr⟩ := Shape.exists_key_of_mem_ptrs hmr
    refine ⟨i, k, r, hk, hr, he, ?_⟩
    have hs := ha.second_of_mem hr
    simp [at_left, hres, end_left, ha.flip_left_node hm, World.right_value, hs]

theorem Abs.at_right_spec {w : World α β} {b : Nat} {tl : Shape α} {tr : Shape β}
    (ha : Abs w b tl tr) (key : β) (fuel : Nat) (hf : w.size b < fuel) :
    ((∀ k ∈ tr.keys, equiv (w.cmp_right b) key k = false) ∧
      at_right w fuel b key = some .out_of_range) ∨
    (∃ i k l, (Ptr.node i .Right_Tag, k) ∈ tr.toList ∧ (Ptr.node i .Left_Tag, l) ∈ tl.toList ∧
      equiv (w.cmp_right b) key k = true ∧ at_right w fuel b key = some (.value l)) := by
  obtain ⟨res, hres, hcase⟩ := ha.find_right_spec key fuel hf
  rcases hcase with ⟨rfl, hno⟩ | ⟨i, k, rfl, hk, he⟩
  · exact Or.inl ⟨hno, by simp [at_right, hres]⟩
  · right
    have hm := Shape.mem_ptrs_of_mem_toList hk
    have hml := (ha.mem_right_iff i).1 hm
    obtain ⟨l, hl⟩ := Shape.exists_key_of_mem_ptrs hml
    refine ⟨i, k, l, hk, hl, he, ?_⟩
    have hs := ha.first_of_mem hl
    simp [at_right, hres, end_right, ha.flip_right_node hm, World.left_value, hs]

end bimap

open bimap_details

namespace bimap

/-- On a valid bimap, `insert` of a pair whose values are equivalent to no stored value
allocates one pair node, links it into both trees and increments `_size`. -/
theorem Abs.insert_spec {w : World α β} {b : Nat} {tl : Shape α} {tr : Shape β}
    (ha : Abs w b tl tr) (l : α) (r : β)
    (hl : ∀ k ∈ tl.keys, equiv (w.cmp_left b) l k = false)
    (hr : ∀ k ∈ tr.keys, equiv (w.cmp_right b) r k = false)
    (fuel : Nat) (hf : w.size b < fuel) (hsz : w.size b + 1 < SIZE_MOD) :
    ∃ w1, insert w fuel b l r = some (w1, .node w.next .Left_Tag) ∧
      Inserted w w1 b l r tl tr := by
  -- the guard finds no equivalent value on either side
  have hfindL : find_left w fuel b l = some (end_left b) := by
    obtain ⟨res, hres, hcase⟩ := ha.find_left_spec l fuel hf
    rcases hcase with ⟨rfl, -⟩ | ⟨i, k, -, hk, he⟩
    · exact hres
    · rw [hl k (Shape.mem_keys_of_mem_toList hk)] at he
      exact absurd he (by simp)
  have hfindR : find_right w fuel b r = some (end_right b) := by
    obtain ⟨res, hres, hcase⟩ := ha.find_right_spec r fuel hf
    rcases hcase with ⟨rfl, -⟩ | ⟨i, k, -, hk, he⟩
    · exact hres
    · rw [hr k (Shape.mem_keys_of_mem_toList hk)] at he
      exact absurd he (by simp)
  -- the fresh node
  obtain ⟨pL, hpL⟩ : ∃ pL, pL = Ptr.node w.next .Left_Tag := ⟨_, rfl⟩
  obtain ⟨pR, hpR⟩ : ∃ pR, pR = Ptr.node w.next .Right_Tag := ⟨_, rfl⟩
  have hpLn : pL ≠ .nullptr := by simp [hpL]
  have hpRn : pR ≠ .nullptr := by simp [hpR]
  have hpLR : pL ≠ pR := by simp [hpL, hpR]
  have hpLtl : pL ∉ tl.ptrs := by
    intro hm; rw [hpL] at hm; exact absurd (ha.alloc _ _ hm) (by omega)
  have hpRtl : pR ∉ tl.ptrs := by
    intro hm; rw [hpR] at hm; exact absurd (ha.alloc _ _ hm) (by omega)
  have hpLtr : pL ∉ tr.ptrs := by
    intro hm; rw [hpL] at hm; exact absurd (ha.alloc_right _ _ hm) (by omega)
  have hpRtr : pR ∉ tr.ptrs := by
    intro hm; rw [hpR] at hm; exact absurd (ha.alloc_right _ _ hm) (by omega)
  have htl_tr : ∀ x, x ∈ tl.ptrs → x ∉ tr.ptrs := by
    intro x hx hx1
    obtain ⟨i, rfl⟩ := ha.left_form hx
    obtain ⟨j, hj⟩ := ha.right_form hx1
    simp at hj
  have hheadL_tl : end_left b ∉ tl.ptrs := ha.left.head_notin
  have hheadR_tr : end_right b ∉ tr.ptrs := ha.right.head_notin
  have hheadL_tr : end_left b ∉ tr.ptrs := by
    intro hm; obtain ⟨j, hj⟩ := ha.right_form hm; simp [end_left] at hj
  have hheadR_tl : end_right b ∉ tl.ptrs := by
    intro hm; obtain ⟨j, hj⟩ := ha.left_form hm; simp [end_right] at hj
  obtain ⟨z, hz⟩ : ∃ z : map_base_node, z = ⟨.nullptr, .nullptr, .nullptr⟩ := ⟨_, rfl⟩
  obtain ⟨h0, hh0⟩ : ∃ h0 : Heap, h0 = (w.heap.store pL z).store pR z := ⟨_, rfl⟩
  have d0 : ∀ x, h0.deref x = if x = pR then some z else if x = pL then some z
      else w.heap.deref x := by
    intro x; rw [hh0, deref_store _ _ _ _ hpRn, deref_store _ _ _ _ hpLn]
  obtain ⟨w0, hw0⟩ : ∃ w0 : World α β, w0 = (w.new_node l r).1 := ⟨_, rfl⟩
  have hw0heap : w0.heap = h0 := by rw [hw0, hh0, hpL, hpR, hz]; rfl
  have hw0first : w0.first = upd w.first w.next (some l) := by rw [hw0]; rfl
  have hw0second : w0.second = upd w.second w.next (some r) := by rw [hw0]; rfl
  have hvalL : ∀ p ∈ tl.ptrs, w0.left_value p = w.left_value p := by
    intro p hp
    obtain ⟨i, rfl⟩ := ha.left_form hp
    have : i ≠ w.next := fun e => absurd (ha.alloc _ _ hp) (by omega)
    simp [World.left_value, hw0first, upd, this]
  have hvalR : ∀ p ∈ tr.ptrs, w0.right_value p = w.right_value p := by
    intro p hp
    obtain ⟨i, rfl⟩ := ha.right_form hp
    have : i ≠ w.next := fun e => absurd (ha.alloc_right _ _ hp) (by omega)
    simp [World.right_value, hw0second, upd, this]
  -- the left tree
  have hinvL0 : MapInv (w0.left_map b) h0 tl := by
    refine ha.left.transport rfl (by rw [hw0]; rfl) ?_ ?_ hvalL
    · rw [d0]
      have h1 : (w.left_map b).head ≠ pR := by simp [World.left_map, hpR]
      have h2 : (w.left_map b).head ≠ pL := by simp [World.left_map, hpL]
      simp [h1, h2]
    · intro p hp
      have h1 : p ≠ pR := fun e => hpRtl (e ▸ hp)
      have h2 : p ≠ pL := fun e => hpLtl (e ▸ hp)
      rw [d0]; simp [h1, h2]
  have hcmpL : (w0.left_map b).cmp = w.cmp_left b := by rw [hw0]; rfl
  have hcmpR : (w0.right_map b).cmp = w.cmp_right b := by rw [hw0]; rfl
  have hflL : h0.right (w0.left_map b).head ≠ some pL := by
    have : h0.right (w0.left_map b).head = w.heap.right (end_left b) := by
      simp only [Heap.right, d0, World.left_map, end_left]
      simp [hpL, hpR]
    rw [this, hpL]
    exact ha.flip_left _ _
  obtain ⟨h2, hins2, hinvL2, hfr2, hright2⟩ := map.insert_node_spec hinvL0
    (by rw [hcmpL]; exact ha.swo_left.trans) pL l
    (by rw [d0]; simp [hpLR, hz]) (by rw [hw0, hpL]; simp [World.left_map, World.left_value,
      World.new_node, upd]) hpLtl (by simp [World.left_map, hpL])
    hflL (by rw [hcmpL]; exact hl) fuel (by rw [← ha.size_eq]; exact hf)
  rw [hcmpL] at hinvL2
  -- the right tree
  have hinvR2 : MapInv (w0.right_map b) h2 tr := by
    refine ha.right.transport rfl (by rw [hw0]; rfl) ?_ ?_ hvalR
    · show h2.deref (end_right b) = w.heap.deref (end_right b)
      rw [hfr2 _ hheadR_tl (by simp [end_right, hpL])
        (by simp [end_right, World.left_map]), d0]
      simp [end_right, hpL, hpR]
    · intro p hp
      have h1 : p ≠ pR := fun e => hpRtr (e ▸ hp)
      have h2 : p ≠ pL := fun e => hpLtr (e ▸ hp)
      have h3 : p ∉ tl.ptrs := fun hm => htl_tr p hm hp
      have h4 : p ≠ (w0.left_map b).head := fun e => hheadL_tr (by rw [e] at hp; exact hp)
      rw [hfr2 p h3 h2 h4, d0]; simp [h1, h2]
  have hd2R : h2.deref pR = some ⟨.nullptr, .nullptr, .nullptr⟩ := by
    rw [hfr2 pR hpRtl hpLR.symm (by simp [World.left_map, hpR]), d0]; simp [hz]
  have hflR : h2.right (w0.right_map b).head ≠ some pR := by
    have : h2.right (w0.right_map b).head = w.heap.right (end_right b) := by
      show h2.right (end_right b) = _
      simp only [Heap.right]
      rw [hfr2 _ hheadR_tl (by simp [end_right, hpL])
        (by simp [end_right, World.left_map]), d0]
      simp [end_right, hpL, hpR]
    rw [this, hpR]
    exact ha.flip_right _ _
  obtain ⟨h3, hins3, hinvR3, hfr3, hright3⟩ := map.insert_node_spec hinvR2
    (by rw [hcmpR]; exact ha.swo_right.trans) pR r hd2R
    (by rw [hw0, hpR]; simp [World.right_map, World.right_value, World.new_node, upd])
    hpRtr (by simp [World.right_map, hpR]) hflR (by rw [hcmpR]; exact hr) fuel
    (by rw [ha.size_right, ← ha.size_eq]; exact hf)
  rw [hcmpR] at hinvR3
  -- the left tree is untouched by the right insertion
  have hpermL := Shape.ins_ptrs_perm (w.cmp_left b) l pL tl
  have hpermR := Shape.ins_ptrs_perm (w.cmp_right b) r pR tr
  have hinvL3 : MapInv (w0.left_map b) h3 (tl.ins (w.cmp_left b) l pL) := by
    refine hinvL2.transport rfl rfl ?_ ?_ (fun _ _ => rfl)
    · exact hfr3 _ hheadL_tr (by simp [World.left_map, hpR])
        (by simp [World.right_map, World.left_map])
    · intro p hp
      rw [hpermL.mem_iff] at hp
      rcases List.mem_cons.1 hp with rfl | hp
      · exact hfr3 _ hpLtr hpLR (by simp [World.right_map, hpL])
      · have h4 : p ≠ (w0.right_map b).head :=
          fun e => hheadR_tl (by rw [e] at hp; exact hp)
        exact hfr3 p (htl_tr p hp) (fun e => hpRtl (e ▸ hp)) h4
  have hrightL : h3.right (end_left b) = w.heap.right (end_left b) := by
    simp only [Heap.right]
    rw [hfr3 _ hheadL_tr (by simp [end_left, hpR]) (by simp [World.right_map, end_left])]
    have := hright2
    simp only [Heap.right] at this
    show Option.map _ (h2.deref (w0.left_map b).head) = _
    rw [this, d0]
    simp [World.left_map, end_left, hpL, hpR]
  have hrightR : h3.right (end_right b) = w.heap.right (end_right b) := by
    have := hright3
    show h3.right (w0.right_map b).head = _
    rw [this]
    show h2.right (end_right b) = _
    simp only [Heap.right]
    rw [hfr2 _ hheadR_tl (by simp [end_right, hpL]) (by simp [end_right, World.left_map]), d0]
    simp [end_right, hpL, hpR]
  obtain ⟨w1, hw1⟩ : ∃ w1 : World α β, w1 =
      { w0 with heap := h3, size := upd w0.size b ((w0.size b + 1) % SIZE_MOD) } := ⟨_, rfl⟩
  have hsize0 : w0.size = w.size := by rw [hw0]; rfl
  have hmod : (w.size b + 1) % SIZE_MOD = w.size b + 1 := Nat.mod_eq_of_lt hsz
  refine ⟨w1, ?_, ⟨?_, ?_, ?_, ?_, ?_, ?_, ?_, ?_, ?_, ?_⟩⟩
  · have htail : (((w.new_node l r).1.left_map b).insert (w.new_node l r).1.heap fuel
        (.node (w.new_node l r).2 .Left_Tag)).bind (fun d =>
        (((w.new_node l r).1.right_map b).insert d.1 fuel
          (.node (w.new_node l r).2 .Right_Tag)).bind fun d1 =>
          some (({ (w.new_node l r).1 with
            heap := d1.1
            size := upd (w.new_node l r).1.size b
              (((w.new_node l r).1.size b + 1) % SIZE_MOD) } : World α β), d.2))
        = some (w1, .node w.next .Left_Tag) := by
      rw [← hw0, hw0heap, show (w.new_node l r).2 = w.next from rfl, ← hpL, ← hpR, hins2,
        Option.some_bind, hins3, Option.some_bind, hw1]
    cases he : empty w b
    · simpa [insert, he, hfindL, hfindR] using htail
    · simpa [insert, he] using htail
  · rw [← hpL, ← hpR]
    refine ⟨?_, ?_, ?_, ?_, ?_, ?_, ?_, ?_, ?_, ?_⟩
    · rw [hw1, hw0]; exact ha.swo_left
    · rw [hw1, hw0]; exact ha.swo_right
    · rw [hw1]; exact hinvL3
    · rw [hw1]; exact hinvR3
    · refine ((hpermL.map Ptr.flipTag).trans ?_).trans hpermR.symm
      rw [List.map_cons]
      have : pL.flipTag = pR := by rw [hpL, hpR]; rfl
      rw [this]
      exact ha.same.cons pR
    · rw [hw1, Shape.ins_size, ← ha.size_eq]
      simp [upd, hsize0, hmod]
    · rw [hw1]
      simp only [upd, hsize0, hmod, if_true]
      exact hsz
    · intro i t hm
      rw [hpermL.mem_iff] at hm
      have hnext : w1.next = w.next + 1 := by rw [hw1, hw0]; rfl
      rw [hnext]
      rcases List.mem_cons.1 hm with e | hm
      · rw [hpL] at e
        simp only [Ptr.node.injEq] at e
        omega
      · have := ha.alloc i t hm
        omega
    · intro i t
      have : w1.heap.right (end_left b) = w.heap.right (end_left b) := by
        rw [hw1]; exact hrightL
      rw [this]; exact ha.flip_left i t
    · intro i t
      have : w1.heap.right (end_right b) = w.heap.right (end_right b) := by
        rw [hw1]; exact hrightR
      rw [this]; exact ha.flip_right i t
  · rw [hw1, hw0]; rfl
  · rw [hw1, hw0]; rfl
  · rw [hw1, hw0]; rfl
  · rw [hw1, hw0]; rfl
  · rw [hw1, hw0]; rfl
  · rw [hw1]
    simp only [hsize0, hmod]
  · intro x hx1 hx2 hx3 hx4 hx5 hx6
    rw [hw1]
    show h3.deref x = _
    rw [← hpL] at hx3
    rw [← hpR] at hx4
    rw [hfr3 x hx2 hx4 (by simpa [World.right_map, end_right] using hx6),
      hfr2 x hx1 hx3 (by simpa [World.left_map, end_left] using hx5), d0]
    simp [hx3, hx4]
  · rw [hw1]; exact hrightL
  · rw [hw1]; exact hrightR

end bimap

open bimap_details

namespace bimap

/-- On a valid bimap, `insert` of a pair with a left or right value equivalent to a stored one
returns `end_left()` and changes nothing. -/
theorem Abs.insert_dup {w : World α β} {b : Nat} {tl : Shape α} {tr : Shape β}
    (ha : Abs w b tl tr) (l : α) (r : β)
    (hdup : (∃ k ∈ tl.keys, equiv (w.cmp_left b) l k = true) ∨
      (∃ k ∈ tr.keys, equiv (w.cmp_right b) r k = true))
    (fuel : Nat) (hf : w.size b < fuel) :
    insert w fuel b l r = some (w, end_left b) := by
  have hne : empty w b = false := by
    have hpos : 0 < tl.size := by
      rcases hdup with ⟨k, hk, -⟩ | ⟨k, hk, -⟩
      · obtain ⟨p, hp⟩ := Shape.exists_ptr_of_mem_keys hk
        rw [Shape.size_eq_length]
        exact List.length_pos_of_mem (Shape.mem_ptrs_of_mem_toList hp)
      · obtain ⟨p, hp⟩ := Shape.exists_ptr_of_mem_keys hk
        rw [← ha.size_right, Shape.size_eq_length]
        exact List.length_pos_of_mem (Shape.mem_ptrs_of_mem_toList hp)
    have : w.size b ≠ 0 := by rw [ha.size_eq]; omega
    simp [empty, this]
  obtain ⟨resL, hresL, hcaseL⟩ := ha.find_left_spec l fuel hf
  obtain ⟨resR, hresR, hcaseR⟩ := ha.find_right_spec r fuel hf
  rcases hcaseL with ⟨rfl, hnoL⟩ | ⟨i, k, rfl, hk, he⟩
  · rcases hcaseR with ⟨rfl, hnoR⟩ | ⟨i, k, rfl, hk, he⟩
    · rcases hdup with ⟨k, hk, he⟩ | ⟨k, hk, he⟩
      · rw [hnoL k hk] at he; exact absurd he (by simp)
      · rw [hnoR k hk] at he; exact absurd he (by simp)
    · simp [insert, hne, hresL, hresR, end_right]
  · simp [insert, hne, hresL, end_left]

/-- The state change shared by `erase_left` and `erase_right` at the position of a stored pair
node: the node leaves both trees, is deleted, and `_size` is decremented. -/
theorem Abs.erase_core {w : World α β} {b : Nat} {tl : Shape α} {tr : Shape β}
    (ha : Abs w b tl tr) (i : Nat) (hm : Ptr.node i .Left_Tag ∈ tl.ptrs)
    (fuel : Nat) (hf : w.size b < fuel) :
    ∃ h1 h2 w2 w3, map.erase w.heap fuel (.node i .Left_Tag) = some (h1, .node i .Left_Tag) ∧
      to_map_it h1 .Right_Tag (.node i .Right_Tag) = some (.node i .Right_Tag) ∧
      map.erase h1 fuel (.node i .Right_Tag) = some (h2, .node i .Right_Tag) ∧
      ({ w with heap := h2 } : World α β).delete_node (.node i .Right_Tag) = some w2 ∧
      w3 = { w2 with size := upd w2.size b ((w2.size b + (SIZE_MOD - 1)) % SIZE_MOD) } ∧
      Erased w w3 b i tl tr := by
  obtain ⟨pL, hpL⟩ : ∃ pL, pL = Ptr.node i .Left_Tag := ⟨_, rfl⟩
  obtain ⟨pR, hpR⟩ : ∃ pR, pR = Ptr.node i .Right_Tag := ⟨_, rfl⟩
  rw [← hpL] at hm
  have hmR : pR ∈ tr.ptrs := by rw [hpR]; exact (ha.mem_right_iff i).2 (hpL ▸ hm)
  have htl_tr : ∀ x, x ∈ tl.ptrs → x ∉ tr.ptrs := by
    intro x hx hx1
    obtain ⟨i, rfl⟩ := ha.left_form hx
    obtain ⟨j, hj⟩ := ha.right_form hx1
    simp at hj
  have hheadL_tr : end_left b ∉ tr.ptrs := by
    intro hm; obtain ⟨j, hj⟩ := ha.right_form hm; simp [end_left] at hj
  have hheadR_tl : end_right b ∉ tl.ptrs := by
    intro hm; obtain ⟨j, hj⟩ := ha.left_form hm; simp [end_right] at hj
  have hLR : end_left b ≠ end_right b := by simp [end_left, end_right]
  have hsizeL : tl.size < fuel := by rw [← ha.size_eq]; exact hf
  have hsizeR : tr.size < fuel := by rw [ha.size_right]; exact hsizeL
  -- the left tree
  obtain ⟨h1, he1, hinvL1, hd1, hfr1, hright1⟩ := map.erase_spec ha.left pL hm fuel hsizeL
  have hinvR1 : MapInv (w.right_map b) h1 tr := by
    refine ha.right.transport rfl rfl ?_ ?_ (fun _ _ => rfl)
    · exact hfr1 _ hheadR_tl hLR.symm
    · intro p hp
      exact hfr1 p (fun hm1 => htl_tr p hm1 hp) (fun e => hheadL_tr (by rw [e] at hp; exact hp))
  have htm : to_map_it h1 .Right_Tag pR = some pR := by
    obtain ⟨n, hn, hpar⟩ := hinvR1.parent_ne_null hmR
    rw [hpR] at hn ⊢
    simp [to_map_it, parent_of_deref hn, hpar]
  -- the right tree
  obtain ⟨h2, he2, hinvR2, hd2, hfr2, hright2⟩ := map.erase_spec hinvR1 pR hmR fuel hsizeR
  have hsubL : ∀ x, x ∈ (tl.erase pL).ptrs → x ∈ tl.ptrs ∧ x ≠ pL := fun x hx =>
    ⟨((Shape.mem_erase_ptrs tl pL ha.left.nodup x).1 hx).2,
      ((Shape.mem_erase_ptrs tl pL ha.left.nodup x).1 hx).1⟩
  have hsubR : ∀ x, x ∈ (tr.erase pR).ptrs → x ∈ tr.ptrs ∧ x ≠ pR := fun x hx =>
    ⟨((Shape.mem_erase_ptrs tr pR ha.right.nodup x).1 hx).2,
      ((Shape.mem_erase_ptrs tr pR ha.right.nodup x).1 hx).1⟩
  have hinvL2 : MapInv (w.left_map b) h2 (tl.erase pL) := by
    refine hinvL1.transport rfl rfl ?_ ?_ (fun _ _ => rfl)
    · exact hfr2 _ hheadL_tr hLR
    · intro p hp
      have hp1 := (hsubL p hp).1
      exact hfr2 p (htl_tr p hp1) (fun e => hheadR_tl (by rw [e] at hp1; exact hp1))
  have hd2L : h2.deref pL = some ⟨.nullptr, .nullptr, .nullptr⟩ := by
    rw [hfr2 pL (htl_tr pL hm) (by simp [hpL, World.right_map])]; exact hd1
  -- deletion
  obtain ⟨h3, hh3⟩ : ∃ h3 : Heap, h3 = fun q => if q = pL ∨ q = pR then none else h2 q :=
    ⟨_, rfl⟩
  have d3 : ∀ x, h3.deref x = if x = pL ∨ x = pR then none else h2.deref x := by
    intro x
    rw [hh3]
    cases x with
    | nullptr => simp [Heap.deref, hpL, hpR]
    | head a t => simp [Heap.deref]
    | node a t => simp [Heap.deref]
  obtain ⟨w2, hw2⟩ : ∃ w2 : World α β, w2 =
      { w with heap := h3, first := upd w.first i none, second := upd w.second i none } :=
    ⟨_, rfl⟩
  have hdel : ({ w with heap := h2 } : World α β).delete_node pR = some w2 := by
    have e1 : (h2 (.node i .Left_Tag)).isSome = true := by
      have := hd2L; rw [hpL] at this
      simp only [Heap.deref] at this
      simp [this]
    have e2 : (h2 (.node i .Right_Tag)).isSome = true := by
      have := hd2; rw [hpR] at this
      simp only [Heap.deref] at this
      simp [this]
    rw [hpR]
    simp only [World.delete_node, e1, e2, and_self, if_true, hw2, hh3, hpL, hpR]
  have hpos : 0 < w.size b := by
    rw [ha.size_eq, Shape.size_eq_length]
    exact List.length_pos_of_mem hm
  have hmod : (w.size b + (SIZE_MOD - 1)) % SIZE_MOD = w.size b - 1 := by
    have := ha.size_lt
    have h1 : w.size b + (SIZE_MOD - 1) = (w.size b - 1) + SIZE_MOD := by omega
    rw [h1, Nat.add_mod_right]
    exact Nat.mod_eq_of_lt (by omega)
  obtain ⟨w3, hw3⟩ : ∃ w3 : World α β, w3 =
      { w2 with size := upd w2.size b ((w2.size b + (SIZE_MOD - 1)) % SIZE_MOD) } := ⟨_, rfl⟩
  have hw3heap : w3.heap = h3 := by rw [hw3, hw2]
  have hw3size : w3.size = upd w.size b (w.size b - 1) := by
    rw [hw3, hw2]; simp only [hmod]
  have hvalL : ∀ p ∈ (tl.erase pL).ptrs, w3.left_value p = w.left_value p := by
    intro p hp
    obtain ⟨hp1, hp2⟩ := hsubL p hp
    obtain ⟨j, rfl⟩ := ha.left_form hp1
    have : j ≠ i := by
      intro e; apply hp2; rw [hpL, e]
    rw [hw3, hw2]
    simp [World.left_value, upd, this]
  have hvalR : ∀ p ∈ (tr.erase pR).ptrs, w3.right_value p = w.right_value p := by
    intro p hp
    obtain ⟨hp1, hp2⟩ := hsubR p hp
    obtain ⟨j, rfl⟩ := ha.right_form hp1
    have : j ≠ i := by
      intro e; apply hp2; rw [hpR, e]
    rw [hw3, hw2]
    simp [World.right_value, upd, this]
  have hrightL : h3.right (end_left b) = w.heap.right (end_left b) := by
    simp only [Heap.right]
    rw [d3, hfr2 _ hheadL_tr hLR]
    have := hright1
    simp only [Heap.right] at this
    show (if end_left b = pL ∨ end_left b = pR then none else h1.deref (w.left_map b).head).map _
      = _
    simp only [end_left, hpL, hpR, reduceCtorEq, or_self, if_false]
    exact this
  have hrightR : h3.right (end_right b) = w.heap.right (end_right b) := by
    simp only [Heap.right]
    rw [d3]
    have := hright2
    simp only [Heap.right] at this
    show (if end_right b = pL ∨ end_right b = pR then none
      else h2.deref (w.right_map b).head).map _ = _
    simp only [end_right, hpL, hpR, reduceCtorEq, or_self, if_false]
    rw [this]
    show (h1.deref (end_right b)).map _ = _
    rw [hfr1 _ hheadR_tl hLR.symm]
    rfl
  refine ⟨h1, h2, w2, w3, by rw [← hpL]; exact he1, by rw [← hpR]; exact htm,
    by rw [← hpR]; exact he2, by rw [← hpR]; exact hdel, hw3, ⟨?_, by rw [hw3, hw2],
    by rw [hw3, hw2], by rw [hw3, hw2], by rw [hw3, hw2], by rw [hw3, hw2], hw3size, hpos,
    ?_, by rw [hw3heap]; exact hrightL, by rw [hw3heap]; exact hrightR⟩⟩
  · rw [← hpL, ← hpR]
    refine ⟨?_, ?_, ?_, ?_, ?_, ?_, ?_, ?_, ?_, ?_⟩
    · rw [hw3, hw2]; exact ha.swo_left
    · rw [hw3, hw2]; exact ha.swo_right
    · refine hinvL2.transport rfl (by rw [hw3, hw2]; rfl) ?_ ?_ hvalL
      · rw [hw3heap, d3]
        simp [World.left_map, hpL, hpR]
      · intro p hp
        obtain ⟨hp1, hp2⟩ := hsubL p hp
        have hp3 : p ≠ pR := fun e => htl_tr p hp1 (e ▸ hmR)
        rw [hw3heap, d3]; simp [hp2, hp3]
    · refine hinvR2.transport rfl (by rw [hw3, hw2]; rfl) ?_ ?_ hvalR
      · rw [hw3heap, d3]
        simp [World.right_map, hpL, hpR]
      · intro p hp
        obtain ⟨hp1, hp2⟩ := hsubR p hp
        have hp3 : p ≠ pL := fun e => htl_tr pL hm (e ▸ hp1)
        rw [hw3heap, d3]; simp [hp2, hp3]
    · rw [Shape.erase_ptrs tl pL ha.left.nodup, Shape.erase_ptrs tr pR ha.right.nodup,
        List.map_erase Ptr.flipTag_injective]
      have : pL.flipTag = pR := by rw [hpL, hpR]; rfl
      rw [this]
      exact ha.same.erase pR
    · rw [hw3size]
      have := Shape.erase_size tl pL ha.left.nodup hm
      have := ha.size_eq
      simp only [upd, if_true]
      omega
    · rw [hw3size]
      have := ha.size_lt
      simp only [upd, if_true]
      omega
    · intro j t hmj
      have : w3.next = w.next := by rw [hw3, hw2]
      rw [this]
      exact ha.alloc j t (hsubL _ hmj).1
    · intro j t
      rw [hw3heap, hrightL]; exact ha.flip_left j t
    · intro j t
      rw [hw3heap, hrightR]; exact ha.flip_right j t
  · intro x hx1 hx2 hx3 hx4
    have hxL : x ≠ pL := fun e => hx1 (e ▸ hm)
    have hxR : x ≠ pR := fun e => hx2 (e ▸ hmR)
    rw [hw3heap, d3]
    simp only [hxL, hxR, or_self, if_false]
    rw [hfr2 x hx2 hx4, hfr1 x hx1 hx3]

end bimap

open bimap_details

namespace bimap

/-- The position `erase_left(it)` is given is a stored node: the pair leaves both trees and the
next left position is returned. -/
theorem Abs.erase_left_it_spec {w : World α β} {b : Nat} {tl : Shape α} {tr : Shape β}
    (ha : Abs w b tl tr) (i : Nat) (hm : Ptr.node i .Left_Tag ∈ tl.ptrs)
    (fuel : Nat) (hf : w.size b < fuel) :
    ∃ w3, erase_left_it w fuel b (.node i .Left_Tag)
        = some (w3, nextIn tl.ptrs (.node i .Left_Tag) (end_left b)) ∧
      Erased w w3 b i tl tr := by
  obtain ⟨h1, h2, w2, w3, he1, htm, he2, hdel, hw3, heff⟩ := ha.erase_core i hm fuel hf
  have hincr := map.incr_spec ha.left fuel (by rw [← ha.size_eq]; exact hf) _ hm
  have htm0 : to_map_it w.heap .Left_Tag (.node i .Left_Tag) = some (.node i .Left_Tag) := by
    obtain ⟨n, hn, hpar⟩ := ha.left.parent_ne_null hm
    simp [to_map_it, parent_of_deref hn, hpar]
  refine ⟨w3, ?_, heff⟩
  simp only [erase_left_it, ha.flip_left_node hm, Option.bind_eq_bind, Option.some_bind, hincr,
    htm0, he1, htm, he2, hdel, hw3]
  rfl

theorem Abs.erase_right_it_spec {w : World α β} {b : Nat} {tl : Shape α} {tr : Shape β}
    (ha : Abs w b tl tr) (i : Nat) (hm : Ptr.node i .Right_Tag ∈ tr.ptrs)
    (fuel : Nat) (hf : w.size b < fuel) :
    ∃ w3, erase_right_it w fuel b (.node i .Right_Tag)
        = some (w3, nextIn tr.ptrs (.node i .Right_Tag) (end_right b)) ∧
      Erased w w3 b i tl tr := by
  have hml := (ha.mem_right_iff i).1 hm
  obtain ⟨h1, h2, w2, w3, he1, htm, he2, hdel, hw3, heff⟩ := ha.erase_core i hml fuel hf
  have hincr := map.incr_spec ha.right fuel
    (by rw [ha.size_right, ← ha.size_eq]; exact hf) _ hm
  have htm0 : to_map_it w.heap .Left_Tag (.node i .Left_Tag) = some (.node i .Left_Tag) := by
    obtain ⟨n, hn, hpar⟩ := ha.left.parent_ne_null hml
    simp [to_map_it, parent_of_deref hn, hpar]
  refine ⟨w3, ?_, heff⟩
  simp only [erase_right_it, ha.flip_right_node hm, Option.bind_eq_bind, Option.some_bind,
    hincr, htm0, he1, htm, he2, hdel, hw3]
  rfl

/-- On a valid bimap `erase_left(key)` returns false and changes nothing when no stored left
value is equivalent to `key`, and otherwise erases the pair holding the equivalent value. -/
theorem Abs.erase_left_spec {w : World α β} {b : Nat} {tl : Shape α} {tr : Shape β}
    (ha : Abs w b tl tr) (key : α) (fuel : Nat) (hf : w.size b < fuel) :
    ((∀ k ∈ tl.keys, equiv (w.cmp_left b) key k = false) ∧
      erase_left w fuel b key = some (w, false)) ∨
    (∃ i k w3, (Ptr.node i .Left_Tag, k) ∈ tl.toList ∧ equiv (w.cmp_left b) key k = true ∧
      erase_left w fuel b key = some (w3, true) ∧ Erased w w3 b i tl tr) := by
  obtain ⟨res, hres, hcase⟩ := ha.find_left_spec key fuel hf
  rcases hcase with ⟨rfl, hno⟩ | ⟨i, k, rfl, hk, he⟩
  · exact Or.inl ⟨hno, by simp [erase_left, hres]⟩
  · obtain ⟨w3, he3, heff⟩ :=
      ha.erase_left_it_spec i (Shape.mem_ptrs_of_mem_toList hk) fuel hf
    exact Or.inr ⟨i, k, w3, hk, he, by simp [erase_left, hres, end_left, he3], heff⟩

theorem Abs.erase_right_spec {w : World α β} {b : Nat} {tl : Shape α} {tr : Shape β}
    (ha : Abs w b tl tr) (key : β) (fuel : Nat) (hf : w.size b < fuel) :
    ((∀ k ∈ tr.keys, equiv (w.cmp_right b) key k = false) ∧
      erase_right w fuel b key = some (w, false)) ∨
    (∃ i k w3, (Ptr.node i .Right_Tag, k) ∈ tr.toList ∧ equiv (w.cmp_right b) key k = true ∧
      erase_right w fuel b key = some (w3, true) ∧ Erased w w3 b i tl tr) := by
  obtain ⟨res, hres, hcase⟩ := ha.find_right_spec key fuel hf
  rcases hcase with ⟨rfl, hno⟩ | ⟨i, k, rfl, hk, he⟩
  · exact Or.inl ⟨hno, by simp [erase_right, hres]⟩
  · obtain ⟨w3, he3, heff⟩ :=
      ha.erase_right_it_spec i (Shape.mem_ptrs_of_mem_toList hk) fuel hf
    exact Or.inr ⟨i, k, w3, hk, he, by simp [erase_right, hres, end_right, he3], heff⟩

/-- Every bimap reached from a constructed one by inserts and erases is valid. -/
theorem reachable_valid {w : World α β} {b : Nat} (hr : Reachable w b) : Valid w b := by
  induction hr with
  | ctor w b cl cr w1 hcl hcr hc =>
    obtain ⟨w2, hw2, ha, -⟩ := ctor_spec w b cl cr hcl hcr
    rw [hc] at hw2
    simp only [Option.some.injEq] at hw2
    subst hw2
    exact ⟨_, _, ha⟩
  | insert w b fuel l r w1 it _ hf hsz hi ih =>
    obtain ⟨tl, tr, ha⟩ := ih
    by_cases hdup : (∃ k ∈ tl.keys, equiv (w.cmp_left b) l k = true) ∨
        (∃ k ∈ tr.keys, equiv (w.cmp_right b) r k = true)
    · rw [ha.insert_dup l r hdup fuel hf] at hi
      simp only [Option.some.injEq, Prod.mk.injEq] at hi
      rw [← hi.1]
      exact ⟨_, _, ha⟩
    · simp only [not_or, not_exists, not_and, Bool.not_eq_true] at hdup
      obtain ⟨w2, hw2, heff⟩ := ha.insert_spec l r hdup.1 hdup.2 fuel hf hsz
      rw [hi] at hw2
      simp only [Option.some.injEq, Prod.mk.injEq] at hw2
      rw [hw2.1]
      exact ⟨_, _, heff.abs⟩
  | erase_left w b fuel l w1 res _ hf he ih =>
    obtain ⟨tl, tr, ha⟩ := ih
    rcases ha.erase_left_spec l fuel hf with ⟨-, h1⟩ | ⟨i, k, w3, -, -, h1, heff⟩
    · rw [he] at h1
      simp only [Option.some.injEq, Prod.mk.injEq] at h1
      rw [h1.1]
      exact ⟨_, _, ha⟩
    · rw [he] at h1
      simp only [Option.some.injEq, Prod.mk.injEq] at h1
      rw [h1.1]
      exact ⟨_, _, heff.abs⟩
  | erase_right w b fuel r w1 res _ hf he ih =>
    obtain ⟨tl, tr, ha⟩ := ih
    rcases ha.erase_right_spec r fuel hf with ⟨-, h1⟩ | ⟨i, k, w3, -, -, h1, heff⟩
    · rw [he] at h1
      simp only [Option.some.injEq, Prod.mk.injEq] at h1
      rw [h1.1]
      exact ⟨_, _, ha⟩
    · rw [he] at h1
      simp only [Option.some.injEq, Prod.mk.injEq] at h1
      rw [h1.1]
      exact ⟨_, _, heff.abs⟩

end bimap

open bimap_details

namespace bimap

theorem filterMap_fst_eq {γ δ ε : Type} (f : γ → Option (δ × ε)) (L : List (γ × δ))
    (h : ∀ x ∈ L, ∃ r, f x.1 = some (x.2, r)) :
    ((L.map Prod.fst).filterMap f).map Prod.fst = L.map Prod.snd := by
  induction L with
  | nil => rfl
  | cons x xs ih =>
    obtain ⟨r, hr⟩ := h x (List.mem_cons_self _ _)
    simp only [List.map_cons, List.filterMap_cons, hr]
    rw [ih (fun y hy => h y (List.mem_cons_of_mem _ hy))]

theorem Abs.pair_at_of_mem {w : World α β} {b : Nat} {tl : Shape α} {tr : Shape β}
    (ha : Abs w b tl tr) {i : Nat} {l : α} {r : β}
    (hl : (Ptr.node i .Left_Tag, l) ∈ tl.toList) (hr : (Ptr.node i .Right_Tag, r) ∈ tr.toList) :
    w.pair_at (.node i .Left_Tag) = some (l, r) := by
  simp [World.pair_at, ha.first_of_mem hl, ha.second_of_mem hr]

theorem Abs.exists_right {w : World α β} {b : Nat} {tl : Shape α} {tr : Shape β}
    (ha : Abs w b tl tr) {p : Ptr} {l : α} (hl : (p, l) ∈ tl.toList) :
    ∃ i r, p = .node i .Left_Tag ∧ (Ptr.node i .Right_Tag, r) ∈ tr.toList := by
  have hm := Shape.mem_ptrs_of_mem_toList hl
  obtain ⟨i, rfl⟩ := ha.left_form hm
  obtain ⟨r, hr⟩ := Shape.exists_key_of_mem_ptrs ((ha.mem_right_iff i).2 hm)
  exact ⟨i, r, rfl, hr⟩

theorem Abs.exists_left {w : World α β} {b : Nat} {tl : Shape α} {tr : Shape β}
    (ha : Abs w b tl tr) {p : Ptr} {r : β} (hr : (p, r) ∈ tr.toList) :
    ∃ i l, p = .node i .Right_Tag ∧ (Ptr.node i .Left_Tag, l) ∈ tl.toList := by
  have hm := Shape.mem_ptrs_of_mem_toList hr
  obtain ⟨i, rfl⟩ := ha.right_form hm
  obtain ⟨l, hl⟩ := Shape.exists_key_of_mem_ptrs ((ha.mem_right_iff i).1 hm)
  exact ⟨i, l, rfl, hl⟩

/-- The left values of the content are the keys of the left tree, in the same order. -/
theorem Abs.content_keys {w : World α β} {b : Nat} {tl : Shape α} {tr : Shape β}
    (ha : Abs w b tl tr) : (content w tl).map Prod.fst = tl.keys := by
  rw [content, ← Shape.ptrs_toList, ← Shape.keys_toList]
  apply filterMap_fst_eq
  rintro ⟨p, l⟩ hx
  obtain ⟨i, r, rfl, hr⟩ := ha.exists_right hx
  exact ⟨r, ha.pair_at_of_mem hx hr⟩

theorem Abs.content_length {w : World α β} {b : Nat} {tl : Shape α} {tr : Shape β}
    (ha : Abs w b tl tr) : (content w tl).length = w.size b := by
  have := congrArg List.length ha.content_keys
  rw [List.length_map] at this
  rw [this, ha.size_eq, Shape.size_eq_length, ← Shape.keys_toList, ← Shape.ptrs_toList]
  simp

theorem Abs.mem_content_iff {w : World α β} {b : Nat} {tl : Shape α} {tr : Shape β}
    (ha : Abs w b tl tr) (l : α) (r : β) : (l, r) ∈ content w tl ↔ Stored w b l r := by
  rw [ha.stored_iff, content, List.mem_filterMap]
  constructor
  · rintro ⟨p, hp, hpa⟩
    obtain ⟨k, hk⟩ := Shape.exists_key_of_mem_ptrs hp
    obtain ⟨i, r1, rfl, hr1⟩ := ha.exists_right hk
    rw [ha.pair_at_of_mem hk hr1] at hpa
    simp only [Option.some.injEq, Prod.mk.injEq] at hpa
    obtain ⟨rfl, rfl⟩ := hpa
    exact ⟨i, hk, hr1⟩
  · rintro ⟨i, hl, hr⟩
    exact ⟨_, Shape.mem_ptrs_of_mem_toList hl, ha.pair_at_of_mem hl hr⟩

/-- Two stored pairs with equivalent left values are the same pair. -/
theorem Abs.left_unique {w : World α β} {b : Nat} {tl : Shape α} {tr : Shape β}
    (ha : Abs w b tl tr) {i j : Nat} {k1 k2 : α}
    (h1 : (Ptr.node i .Left_Tag, k1) ∈ tl.toList) (h2 : (Ptr.node j .Left_Tag, k2) ∈ tl.toList)
    (he : equiv (w.cmp_left b) k1 k2 = true) : i = j ∧ k1 = k2 := by
  have hp : (tl.toList.map Prod.snd).Pairwise (fun a b1 => w.cmp_left b a b1 = true) := by
    rw [Shape.keys_toList]; exact ha.left.sorted
  have := eq_of_equiv_of_pairwise hp h1 h2 he
  simp only [Prod.mk.injEq, Ptr.node.injEq, and_true] at this
  exact this

theorem Abs.right_unique {w : World α β} {b : Nat} {tl : Shape α} {tr : Shape β}
    (ha : Abs w b tl tr) {i j : Nat} {k1 k2 : β}
    (h1 : (Ptr.node i .Right_Tag, k1) ∈ tr.toList)
    (h2 : (Ptr.node j .Right_Tag, k2) ∈ tr.toList)
    (he : equiv (w.cmp_right b) k1 k2 = true) : i = j ∧ k1 = k2 := by
  have hp : (tr.toList.map Prod.snd).Pairwise (fun a b1 => w.cmp_right b a b1 = true) := by
    rw [Shape.keys_toList]; exact ha.right.sorted
  have := eq_of_equiv_of_pairwise hp h1 h2 he
  simp only [Prod.mk.injEq, Ptr.node.injEq, and_true] at this
  exact this

theorem Abs.same_node_left {w : World α β} {b : Nat} {tl : Shape α} {tr : Shape β}
    (ha : Abs w b tl tr) {i : Nat} {k1 k2 : α}
    (h1 : (Ptr.node i .Left_Tag, k1) ∈ tl.toList) (h2 : (Ptr.node i .Left_Tag, k2) ∈ tl.toList) :
    k1 = k2 := by
  have e1 := ha.first_of_mem h1
  have e2 := ha.first_of_mem h2
  rw [e1] at e2
  exact Option.some.inj e2

theorem Abs.same_node_right {w : World α β} {b : Nat} {tl : Shape α} {tr : Shape β}
    (ha : Abs w b tl tr) {i : Nat} {k1 k2 : β}
    (h1 : (Ptr.node i .Right_Tag, k1) ∈ tr.toList)
    (h2 : (Ptr.node i .Right_Tag, k2) ∈ tr.toList) : k1 = k2 := by
  have e1 := ha.second_of_mem h1
  have e2 := ha.second_of_mem h2
  rw [e1] at e2
  exact Option.some.inj e2

/-- Looking up a left value equivalent to a stored one returns the paired right value. -/
theorem Abs.at_left_of_stored {w : World α β} {b : Nat} {tl : Shape α} {tr : Shape β}
    (ha : Abs w b tl tr) {l : α} {r : β} (hs : Stored w b l r) (key : α)
    (he : equiv (w.cmp_left b) key l = true) (fuel : Nat) (hf : w.size b < fuel) :
    at_left w fuel b key = some (.value r) := by
  obtain ⟨i, hl, hr⟩ := (ha.stored_iff l r).1 hs
  rcases ha.at_left_spec key fuel hf with ⟨hno, -⟩ | ⟨j, k, r1, hk, hr1, he1, hres⟩
  · rw [hno l (Shape.mem_keys_of_mem_toList hl)] at he
    exact absurd he (by simp)
  · have hkl : equiv (w.cmp_left b) k l = true := equiv_trans ha.swo_left (equiv_symm he1) he
    obtain ⟨rfl, rfl⟩ := ha.left_unique hk hl hkl
    rw [hres, ha.same_node_right hr1 hr]

theorem Abs.at_right_of_stored {w : World α β} {b : Nat} {tl : Shape α} {tr : Shape β}
    (ha : Abs w b tl tr) {l : α} {r : β} (hs : Stored w b l r) (key : β)
    (he : equiv (w.cmp_right b) key r = true) (fuel : Nat) (hf : w.size b < fuel) :
    at_right w fuel b key = some (.value l) := by
  obtain ⟨i, hl, hr⟩ := (ha.stored_iff l r).1 hs
  rcases ha.at_right_spec key fuel hf with ⟨hno, -⟩ | ⟨j, k, l1, hk, hl1, he1, hres⟩
  · rw [hno r (Shape.mem_keys_of_mem_toList hr)] at he
    exact absurd he (by simp)
  · have hkl : equiv (w.cmp_right b) k r = true := equiv_trans ha.swo_right (equiv_symm he1) he
    obtain ⟨rfl, rfl⟩ := ha.right_unique hk hr hkl
    rw [hres, ha.same_node_left hl1 hl]

/-- The keys of the left tree are exactly the left values of the stored pairs. -/
theorem Abs.mem_keys_left_iff {w : World α β} {b : Nat} {tl : Shape α} {tr : Shape β}
    (ha : Abs w b tl tr) (l : α) : l ∈ tl.keys ↔ ∃ r, Stored w b l r := by
  constructor
  · intro hl
    obtain ⟨p, hp⟩ := Shape.exists_ptr_of_mem_keys hl
    obtain ⟨i, r, rfl, hr⟩ := ha.exists_right hp
    exact ⟨r, (ha.stored_iff l r).2 ⟨i, hp, hr⟩⟩
  · rintro ⟨r, hs⟩
    obtain ⟨i, hl, -⟩ := (ha.stored_iff l r).1 hs
    exact Shape.mem_keys_of_mem_toList hl

theorem Abs.mem_keys_right_iff {w : World α β} {b : Nat} {tl : Shape α} {tr : Shape β}
    (ha : Abs w b tl tr) (r : β) : r ∈ tr.keys ↔ ∃ l, Stored w b l r := by
  constructor
  · intro hr
    obtain ⟨p, hp⟩ := Shape.exists_ptr_of_mem_keys hr
    obtain ⟨i, l, rfl, hl⟩ := ha.exists_left hp
    exact ⟨l, (ha.stored_iff l r).2 ⟨i, hl, hp⟩⟩
  · rintro ⟨l, hs⟩
    obtain ⟨i, -, hr⟩ := (ha.stored_iff l r).1 hs
    exact Shape.mem_keys_of_mem_toList hr

/-- The stored pairs after an insertion are the new pair and the pairs stored before. -/
theorem Inserted.stored_after {w w1 : World α β} {b : Nat} {l : α} {r : β} {tl : Shape α}
    {tr : Shape β} (ha : Abs w b tl tr) (hi : Inserted w w1 b l r tl tr) (l1 : α) (r1 : β) :
    Stored w1 b l1 r1 ↔ (l1 = l ∧ r1 = r) ∨ Stored w b l1 r1 := by
  rw [hi.abs.stored_iff, ha.stored_iff]
  have hpl := Shape.ins_toList_perm (w.cmp_left b) l (.node w.next .Left_Tag) tl
  have hpr := Shape.ins_toList_perm (w.cmp_right b) r (.node w.next .Right_Tag) tr
  constructor
  · rintro ⟨i, h1, h2⟩
    rw [hpl.mem_iff] at h1
    rw [hpr.mem_iff] at h2
    rcases List.mem_cons.1 h1 with e1 | h1
    · simp only [Prod.mk.injEq, Ptr.node.injEq, and_true] at e1
      obtain ⟨rfl, rfl⟩ := e1
      rcases List.mem_cons.1 h2 with e2 | h2
      · simp only [Prod.mk.injEq, Ptr.node.injEq, and_true] at e2
        exact Or.inl ⟨rfl, e2.2⟩
      · exact absurd (ha.alloc_right _ _ (Shape.mem_ptrs_of_mem_toList h2)) (by omega)
    · rcases List.mem_cons.1 h2 with e2 | h2
      · simp only [Prod.mk.injEq, Ptr.node.injEq, and_true] at e2
        obtain ⟨rfl, rfl⟩ := e2
        exact absurd (ha.alloc _ _ (Shape.mem_ptrs_of_mem_toList h1)) (by omega)
      · exact Or.inr ⟨i, h1, h2⟩
  · rintro (⟨rfl, rfl⟩ | ⟨i, h1, h2⟩)
    · exact ⟨w.next, hpl.mem_iff.2 (List.mem_cons_self _ _),
        hpr.mem_iff.2 (List.mem_cons_self _ _)⟩
    · exact ⟨i, hpl.mem_iff.2 (List.mem_cons_of_mem _ h1),
        hpr.mem_iff.2 (List.mem_cons_of_mem _ h2)⟩

/-- The stored pairs after an erasure are the pairs of the other pair nodes. -/
theorem Erased.stored_rest {w w3 : World α β} {b i : Nat} {tl : Shape α}
    {tr : Shape β} (ha : Abs w b tl tr) (he : Erased w w3 b i tl tr) (l1 : α) (r1 : β) :
    Stored w3 b l1 r1 ↔ ∃ j, j ≠ i ∧ (Ptr.node j .Left_Tag, l1) ∈ tl.toList ∧
      (Ptr.node j .Right_Tag, r1) ∈ tr.toList := by
  rw [he.abs.stored_iff]
  constructor
  · rintro ⟨j, h1, h2⟩
    rw [Shape.mem_erase_toList _ _ ha.left.nodup] at h1
    rw [Shape.mem_erase_toList _ _ ha.right.nodup] at h2
    refine ⟨j, ?_, h1.1, h2.1⟩
    rintro rfl
    exact h1.2 rfl
  · rintro ⟨j, hj, h1, h2⟩
    refine ⟨j, ?_, ?_⟩
    · rw [Shape.mem_erase_toList _ _ ha.left.nodup]
      exact ⟨h1, by simpa using hj⟩
    · rw [Shape.mem_erase_toList _ _ ha.right.nodup]
      exact ⟨h2, by simpa using hj⟩

end bimap

open bimap_details

namespace bimap

/-- The invariant of a bimap only reads its own heads, its own pair nodes, its comparators and
its `_size`. -/
theorem Abs.transfer {w : World α β} (w1 : World α β) {a : Nat} {tl : Shape α} {tr : Shape β}
    (ha : Abs w a tl tr)
    (hheap : ∀ x, (x ∈ tl.ptrs ∨ x ∈ tr.ptrs ∨ x = end_left a ∨ x = end_right a) →
      w1.heap.deref x = w.heap.deref x)
    (hfirst : ∀ i, Ptr.node i .Left_Tag ∈ tl.ptrs → w1.first i = w.first i)
    (hsecond : ∀ i, Ptr.node i .Left_Tag ∈ tl.ptrs → w1.second i = w.second i)
    (hcl : w1.cmp_left a = w.cmp_left a) (hcr : w1.cmp_right a = w.cmp_right a)
    (hsize : w1.size a = w.size a) (hnext : w.next ≤ w1.next) :
    Abs w1 a tl tr ∧ content w1 tl = content w tl := by
  have hvalL : ∀ p ∈ tl.ptrs, w1.left_value p = w.left_value p := by
    intro p hp
    obtain ⟨i, rfl⟩ := ha.left_form hp
    simp [World.left_value, hfirst i hp]
  have hvalR : ∀ p ∈ tr.ptrs, w1.right_value p = w.right_value p := by
    intro p hp
    obtain ⟨i, rfl⟩ := ha.right_form hp
    simp [World.right_value, hsecond i ((ha.mem_right_iff i).1 hp)]
  refine ⟨⟨?_, ?_, ?_, ?_, ha.same, ?_, ?_, ?_, ?_, ?_⟩, ?_⟩
  · rw [hcl]; exact ha.swo_left
  · rw [hcr]; exact ha.swo_right
  · exact ha.left.transport rfl hcl (hheap _ (Or.inr (Or.inr (Or.inl rfl))))
      (fun p hp => hheap p (Or.inl hp)) hvalL
  · exact ha.right.transport rfl hcr (hheap _ (Or.inr (Or.inr (Or.inr rfl))))
      (fun p hp => hheap p (Or.inr (Or.inl hp))) hvalR
  · rw [hsize]; exact ha.size_eq
  · rw [hsize]; exact ha.size_lt
  · intro i t hm
    exact lt_of_lt_of_le (ha.alloc i t hm) hnext
  · intro i t
    simp only [Heap.right]
    rw [hheap _ (Or.inr (Or.inr (Or.inl rfl)))]
    exact ha.flip_left i t
  · intro i t
    simp only [Heap.right]
    rw [hheap _ (Or.inr (Or.inr (Or.inr rfl)))]
    exact ha.flip_right i t
  · simp only [content]
    apply List.filterMap_congr
    intro p hp
    obtain ⟨i, rfl⟩ := ha.left_form hp
    simp [World.pair_at, hfirst i hp, hsecond i hp]

/-- The pair nodes of two bimaps whose left trees share no node are all distinct. -/
theorem Abs.disjoint_right {w : World α β} {a b : Nat} {tlA tl : Shape α} {trA tr : Shape β}
    (hA : Abs w a tlA trA) (hB : Abs w b tl tr) (hd : ∀ p ∈ tlA.ptrs, p ∉ tl.ptrs) :
    ∀ p ∈ trA.ptrs, p ∉ tr.ptrs := by
  intro p hp hp1
  obtain ⟨i, rfl⟩ := hA.right_form hp
  exact hd _ ((hA.mem_right_iff i).1 hp) ((hB.mem_right_iff i).1 hp1)

/-- Inserting into bimap `b` leaves every other bimap as it was. -/
theorem Inserted.other {w w1 : World α β} {a b : Nat} {l : α} {r : β} {tlA tl : Shape α}
    {trA tr : Shape β} (hB : Abs w b tl tr) (hi : Inserted w w1 b l r tl tr) (hab : a ≠ b)
    (hA : Abs w a tlA trA) (hd : ∀ p ∈ tlA.ptrs, p ∉ tl.ptrs) :
    Abs w1 a tlA trA ∧ content w1 tlA = content w tlA ∧
      ∀ p ∈ tlA.ptrs, p ∉ (tl.ins (w.cmp_left b) l (.node w.next .Left_Tag)).ptrs := by
  have hdr := hA.disjoint_right hB hd
  have hidx : ∀ i, Ptr.node i .Left_Tag ∈ tlA.ptrs → i ≠ w.next := fun i hm e =>
    absurd (hA.alloc _ _ hm) (by omega)
  have htr := Abs.transfer w1 hA ?_ ?_ ?_ ?_ ?_ ?_ ?_
  · refine ⟨htr.1, htr.2, ?_⟩
    intro p hp
    rw [(Shape.ins_ptrs_perm _ _ _ _).mem_iff]
    simp only [List.mem_cons, not_or]
    refine ⟨?_, hd p hp⟩
    rintro rfl
    exact hidx _ hp rfl
  · intro x hx
    rcases hx with hx | hx | rfl | rfl
    · obtain ⟨i, rfl⟩ := hA.left_form hx
      refine hi.frame _ (hd _ hx) ?_ ?_ ?_ (by simp [end_left]) (by simp [end_right])
      · intro hm; obtain ⟨j, hj⟩ := hB.right_form hm; simp at hj
      · simp only [ne_eq, Ptr.node.injEq, and_true]; exact hidx i hx
      · simp
    · obtain ⟨i, rfl⟩ := hA.right_form hx
      refine hi.frame _ ?_ (hdr _ hx) ?_ ?_ (by simp [end_left]) (by simp [end_right])
      · intro hm; obtain ⟨j, hj⟩ := hB.left_form hm; simp at hj
      · simp
      · simp only [ne_eq, Ptr.node.injEq, and_true]
        exact hidx i ((hA.mem_right_iff i).1 hx)
    · refine hi.frame _ ?_ ?_ (by simp [end_left]) (by simp [end_left])
        (by simp [end_left, hab]) (by simp [end_left, end_right])
      · intro hm; obtain ⟨j, hj⟩ := hB.left_form hm; simp [end_left] at hj
      · intro hm; obtain ⟨j, hj⟩ := hB.right_form hm; simp [end_left] at hj
    · refine hi.frame _ ?_ ?_ (by simp [end_right]) (by simp [end_right])
        (by simp [end_left, end_right]) (by simp [end_right, hab])
      · intro hm; obtain ⟨j, hj⟩ := hB.left_form hm; simp [end_right] at hj
      · intro hm; obtain ⟨j, hj⟩ := hB.right_form hm; simp [end_right] at hj
  · intro i hm
    rw [hi.first_eq]; simp [upd, hidx i hm]
  · intro i hm
    rw [hi.second_eq]; simp [upd, hidx i hm]
  · rw [hi.cmp_left_eq]
  · rw [hi.cmp_right_eq]
  · rw [hi.size_eq]; simp [upd, hab]
  · rw [hi.next_eq]; omega

/-- Constructing bimap `b` leaves every other bimap as it was. -/
theorem ctor_other {w w1 : World α β} {a b : Nat} {cl : α → α → Bool} {cr : β → β → Bool}
    (hcl : StrictWeakOrder cl) (hcr : StrictWeakOrder cr) (hc : ctor w b cl cr = some w1)
    (hab : a ≠ b) {tlA : Shape α} {trA : Shape β} (hA : Abs w a tlA trA) :
    Abs w1 a tlA trA ∧ content w1 tlA = content w tlA := by
  obtain ⟨w2, hw2, -, -, hnext, hfirst, hsecond, hframe, hrest, -⟩ :=
    ctor_spec w b cl cr hcl hcr
  rw [hc] at hw2
  simp only [Option.some.injEq] at hw2
  subst hw2
  refine Abs.transfer _ hA ?_ (fun i _ => by rw [hfirst]) (fun i _ => by rw [hsecond])
    (hrest a hab).2.1 (hrest a hab).2.2 (hrest a hab).1 (by rw [hnext])
  intro x hx
  rcases hx with hx | hx | rfl | rfl
  · obtain ⟨i, rfl⟩ := hA.left_form hx
    exact hframe _ (by simp [end_left]) (by simp [end_right])
  · obtain ⟨i, rfl⟩ := hA.right_form hx
    exact hframe _ (by simp [end_left]) (by simp [end_right])
  · exact hframe _ (by simp [end_left, hab]) (by simp [end_left, end_right])
  · exact hframe _ (by simp [end_left, end_right]) (by simp [end_right, hab])

/-- Inserting a list of pairs with pairwise non-equivalent left values and pairwise
non-equivalent right values, none equivalent to a stored value: every call succeeds. -/
theorem insert_all_spec (fuel b : Nat) (xs : List (α × β)) :
    ∀ (w : World α β) (tl : Shape α) (tr : Shape β), Abs w b tl tr →
    (∀ x ∈ xs, ∀ k ∈ tl.keys, equiv (w.cmp_left b) x.1 k = false) →
    (∀ x ∈ xs, ∀ k ∈ tr.keys, equiv (w.cmp_right b) x.2 k = false) →
    xs.Pairwise (fun x y => equiv (w.cmp_left b) x.1 y.1 = false) →
    xs.Pairwise (fun x y => equiv (w.cmp_right b) x.2 y.2 = false) →
    w.size b + xs.length ≤ fuel → w.size b + xs.length < SIZE_MOD →
    ∃ w2 res tl2 tr2, insert_all fuel b w xs = some (w2, res) ∧ Abs w2 b tl2 tr2 ∧
      List.Forall₂ (fun x it => it.1 ≠ end_left b ∧ it.2 = some x.1) xs res ∧
      w2.size b = w.size b + xs.length ∧
      (∀ l r, Stored w2 b l r ↔ (l, r) ∈ xs ∨ Stored w b l r) ∧
      w2.cmp_left b = w.cmp_left b ∧ w2.cmp_right b = w.cmp_right b ∧
      (∀ a tlA trA, a ≠ b → Abs w a tlA trA → (∀ p ∈ tlA.ptrs, p ∉ tl.ptrs) →
        Abs w2 a tlA trA ∧ content w2 tlA = content w tlA ∧ ∀ p ∈ tlA.ptrs, p ∉ tl2.ptrs) ∧
      (Linked w b → Linked w2 b) ∧ (Reachable w b → Reachable w2 b) := by
  induction xs with
  | nil =>
    intro w tl tr ha _ _ _ _ _ _
    exact ⟨w, [], tl, tr, rfl, ha, List.Forall₂.nil, by simp, by simp, rfl, rfl,
      fun a tlA trA _ hA hd => ⟨hA, rfl, hd⟩, id, id⟩
  | cons x xs ih =>
    intro w tl tr ha hfl hfr hpl hpr hf hsz
    simp only [List.length_cons] at hf hsz
    obtain ⟨w1, hins, hi⟩ := ha.insert_spec x.1 x.2
      (hfl x (List.mem_cons_self _ _)) (hfr x (List.mem_cons_self _ _)) fuel (by omega)
      (by omega)
    have hcl1 : w1.cmp_left b = w.cmp_left b := by rw [hi.cmp_left_eq]
    have hcr1 : w1.cmp_right b = w.cmp_right b := by rw [hi.cmp_right_eq]
    have hsize1 : w1.size b = w.size b + 1 := by rw [hi.size_eq]; simp [upd]
    rw [List.pairwise_cons] at hpl hpr
    obtain ⟨w2, res, tl2, tr2, hall, ha2, hres, hsize2, hst2, hcl2, hcr2, hoth, hlk, hrc⟩ :=
      ih w1 _ _ hi.abs
        (by
          intro y hy k hk
          rw [Shape.mem_ins_keys] at hk
          rw [hcl1]
          rcases hk with rfl | hk
          · have := hpl.1 y hy
            cases h1 : equiv (w.cmp_left b) y.1 x.1
            · rfl
            · rw [equiv_symm h1] at this; exact absurd this (by simp)
          · exact hfl y (List.mem_cons_of_mem _ hy) k hk)
        (by
          intro y hy k hk
          rw [Shape.mem_ins_keys] at hk
          rw [hcr1]
          rcases hk with rfl | hk
          · have := hpr.1 y hy
            cases h1 : equiv (w.cmp_right b) y.2 x.2
            · rfl
            · rw [equiv_symm h1] at this; exact absurd this (by simp)
          · exact hfr y (List.mem_cons_of_mem _ hy) k hk)
        (by rw [hcl1]; exact hpl.2) (by rw [hcr1]; exact hpr.2)
        (by omega) (by omega)
    refine ⟨w2, (Ptr.node w.next .Left_Tag, if Ptr.node w.next .Left_Tag = end_left b then none
      else w1.left_value (.node w.next .Left_Tag)) :: res, tl2, tr2, ?_, ha2, ?_, by rw [hsize2, hsize1]; simp; omega, ?_,
      by rw [hcl2, hcl1], by rw [hcr2, hcr1], ?_, ?_, ?_⟩
    · simp only [insert_all, hins, Option.bind_eq_bind, Option.some_bind, hall]
    · refine List.Forall₂.cons ⟨by simp [end_left], ?_⟩ hres
      have : w1.left_value (.node w.next .Left_Tag) = some x.1 := by
        simp [World.left_value, hi.first_eq, upd]
      simp [end_left, this]
    · intro l r
      rw [hst2, Inserted.stored_after ha hi, List.mem_cons]
      constructor
      · rintro (h | ⟨rfl, rfl⟩ | h)
        · exact Or.inl (Or.inr h)
        · exact Or.inl (Or.inl rfl)
        · exact Or.inr h
      · rintro ((h | h) | h)
        · exact Or.inr (Or.inl ⟨by rw [← h], by rw [← h]⟩)
        · exact Or.inl h
        · exact Or.inr (Or.inr h)
    · intro a tlA trA hab hA hd
      obtain ⟨hA1, hc1, hd1⟩ := hi.other ha hab hA hd
      obtain ⟨hA2, hc2, hd2⟩ := hoth a tlA trA hab hA1 hd1
      exact ⟨hA2, by rw [hc2, hc1], hd2⟩
    · intro hl
      refine hlk ⟨?_, ?_⟩
      · rw [hi.right_left]; exact hl.1
      · rw [hi.right_right]; exact hl.2
    · intro hr
      exact hrc (Reachable.insert w b fuel x.1 x.2 w1 _ hr (by omega) (by omega) hins)

end bimap

open bimap_details

theorem swo_nat_less : StrictWeakOrder nat_less :=
  ⟨by intro a; simp [nat_less],
   by intro a b c; simp only [nat_less, decide_eq_true_eq]; omega,
   by intro a b c; simp only [nat_less, decide_eq_false_iff_not]; omega⟩

theorem swo_int_less : StrictWeakOrder int_less :=
  ⟨by intro a; simp [int_less],
   by intro a b c; simp only [int_less, decide_eq_true_eq]; omega,
   by intro a b c; simp only [int_less, decide_eq_false_iff_not]; omega⟩

theorem swo_string_less : StrictWeakOrder string_less := by
  refine ⟨?_, ?_, ?_⟩
  · intro a; simp [string_less]
  · intro a b c
    simp only [string_less, decide_eq_true_eq]
    exact lt_trans
  · intro a b c
    simp only [string_less, decide_eq_false_iff_not]
    intro h1 h2 h3 h4
    have e1 : a.data = b.data := le_antisymm (not_lt.1 h2) (not_lt.1 h1)
    have e2 : b.data = c.data := le_antisymm (not_lt.1 h4) (not_lt.1 h3)
    rw [e1, e2]
    exact ⟨lt_irrefl _, lt_irrefl _⟩

theorem eq_some_getD {γ : Type} (o : Option γ) (d : γ) (h : o.isSome = true) :
    o = some (o.getD d) := by
  cases o with
  | none => simp at h
  | some v => rfl

namespace bimap

/-- What `build` yields: a valid bimap storing exactly the listed pairs. -/
theorem build_spec (fuel b : Nat) (cl : α → α → Bool) (cr : β → β → Bool)
    (hcl : StrictWeakOrder cl) (hcr : StrictWeakOrder cr) (xs : List (α × β))
    (hL : xs.Pairwise (fun x y => equiv cl x.1 y.1 = false))
    (hR : xs.Pairwise (fun x y => equiv cr x.2 y.2 = false))
    (hf : xs.length ≤ fuel) (hsz : xs.length < SIZE_MOD) :
    ∃ w, build fuel b cl cr xs = some w ∧ Valid w b ∧ Linked w b ∧ w.size b = xs.length ∧
      (∀ l r, Stored w b l r ↔ (l, r) ∈ xs) ∧ w.cmp_left b = cl ∧ w.cmp_right b = cr ∧
      Reachable w b := by
  obtain ⟨w1, hc, ha1, hlink, -, -, -, -, -, hcl1, hcr1, hsize1⟩ :=
    ctor_spec (World.init : World α β) b cl cr hcl hcr
  obtain ⟨w2, res, tl2, tr2, hall, ha2, -, hsize2, hst2, hcl2, hcr2, -, hlk, hrc⟩ :=
    insert_all_spec fuel b xs w1 .nil .nil ha1 (by simp [Shape.keys]) (by simp [Shape.keys])
      (by rw [hcl1]; exact hL) (by rw [hcr1]; exact hR) (by rw [hsize1]; omega)
      (by rw [hsize1]; omega)
  refine ⟨w2, by simp [build, hc, hall], ⟨tl2, tr2, ha2⟩, ?_, by rw [hsize2, hsize1]; simp,
    ?_, by rw [hcl2, hcl1], by rw [hcr2, hcr1],
    hrc (Reachable.ctor _ b cl cr w1 hcl hcr hc)⟩
  · exact hlk hlink
  · intro l r
    rw [hst2]
    constructor
    · rintro (h | h)
      · exact h
      · obtain ⟨i, h1, -⟩ := (ha1.stored_iff l r).1 h
        simp [Shape.toList] at h1
    · exact Or.inl

end bimap

open bimap_details

namespace bimap

theorem demo_nat_spec : build 8 0 nat_less nat_less [(2, 20), (1, 30), (3, 10)] = some demo_nat ∧
    Valid demo_nat 0 ∧ Linked demo_nat 0 ∧ demo_nat.size 0 = 3 ∧
    (∀ l r, Stored demo_nat 0 l r ↔ (l, r) ∈ [(2, 20), (1, 30), (3, 10)]) ∧
    demo_nat.cmp_left 0 = nat_less ∧ demo_nat.cmp_right 0 = nat_less ∧ Reachable demo_nat 0 := by
  obtain ⟨w, hb, h⟩ := build_spec 8 0 nat_less nat_less swo_nat_less swo_nat_less
    [(2, 20), (1, 30), (3, 10)] (by decide) (by decide) (by decide) (by decide)
  have : demo_nat = w := by simp [demo_nat, hb]
  rw [this]
  exact ⟨hb, h⟩

theorem demo_str_spec :
    build 8 0 nat_less string_less [(1, "a"), (2, "b"), (3, "c")] = some demo_str ∧
    Valid demo_str 0 ∧ Linked demo_str 0 ∧ demo_str.size 0 = 3 ∧
    (∀ l r, Stored demo_str 0 l r ↔ (l, r) ∈ [(1, "a"), (2, "b"), (3, "c")]) ∧
    demo_str.cmp_left 0 = nat_less ∧ demo_str.cmp_right 0 = string_less ∧
    Reachable demo_str 0 := by
  obtain ⟨w, hb, h⟩ := build_spec 8 0 nat_less string_less swo_nat_less swo_string_less
    [(1, "a"), (2, "b"), (3, "c")] (by decide) (by decide) (by decide) (by decide)
  have : demo_str = w := by simp [demo_str, hb]
  rw [this]
  exact ⟨hb, h⟩

/-- C1: for every list of pairs whose left values are pairwise non-equivalent under the left
comparator and whose right values are pairwise non-equivalent under the right comparator
(both strict weak orderings), inserting the list into a freshly constructed bimap makes
every `insert` return a position different from `end_left()` that dereferences to the
inserted left value, `size()` ends equal to the number of inserts, and for every inserted
pair neither `find_left(l)` nor `find_right(r)` returns its side's end position. -/
theorem C1_insert_distinct (cl : α → α → Bool) (cr : β → β → Bool)
    (hcl : StrictWeakOrder cl) (hcr : StrictWeakOrder cr) (w0 : World α β) (b : Nat)
    (xs : List (α × β))
    (hL : xs.Pairwise (fun x y => equiv cl x.1 y.1 = false))
    (hR : xs.Pairwise (fun x y => equiv cr x.2 y.2 = false))
    (fuel : Nat) (hf : xs.length < fuel) (hsz : xs.length < SIZE_MOD) :
    ∃ w1 w2 res, ctor w0 b cl cr = some w1 ∧ insert_all fuel b w1 xs = some (w2, res) ∧
      List.Forall₂ (fun x it => it.1 ≠ end_left b ∧ it.2 = some x.1) xs res ∧
      size w2 b = xs.length ∧
      ∀ x ∈ xs, (∃ p, find_left w2 fuel b x.1 = some p ∧ p ≠ end_left b) ∧
        (∃ q, find_right w2 fuel b x.2 = some q ∧ q ≠ end_right b) := by
  obtain ⟨w1, hc, ha1, -, -, -, -, -, -, hcl1, hcr1, hsize1⟩ := ctor_spec w0 b cl cr hcl hcr
  obtain ⟨w2, res, tl2, tr2, hall, ha2, hres, hsize2, hst2, hcl2, hcr2, -⟩ :=
    insert_all_spec fuel b xs w1 .nil .nil ha1 (by simp [Shape.keys]) (by simp [Shape.keys])
      (by rw [hcl1]; exact hL) (by rw [hcr1]; exact hR) (by rw [hsize1]; omega)
      (by rw [hsize1]; omega)
  have hsize : w2.size b = xs.length := by rw [hsize2, hsize1]; simp
  refine ⟨w1, w2, res, hc, hall, hres, hsize, ?_⟩
  intro x hx
  have hs : Stored w2 b x.1 x.2 := (hst2 x.1 x.2).2 (Or.inl hx)
  obtain ⟨i, hl, hr⟩ := (ha2.stored_iff _ _).1 hs
  constructor
  · obtain ⟨p, hp, hcase⟩ := ha2.find_left_spec x.1 fuel (by rw [hsize]; exact hf)
    refine ⟨p, hp, ?_⟩
    rcases hcase with ⟨-, hno⟩ | ⟨j, k, rfl, -, -⟩
    · have := hno x.1 (Shape.mem_keys_of_mem_toList hl)
      rw [equiv_self ha2.swo_left] at this
      exact absurd this (by simp)
    · simp [end_left]
  · obtain ⟨q, hq, hcase⟩ := ha2.find_right_spec x.2 fuel (by rw [hsize]; exact hf)
    refine ⟨q, hq, ?_⟩
    rcases hcase with ⟨-, hno⟩ | ⟨j, k, rfl, -, -⟩
    · have := hno x.2 (Shape.mem_keys_of_mem_toList hr)
      rw [equiv_self ha2.swo_right] at this
      exact absurd this (by simp)
    · simp [end_right]

theorem C1_insert_distinct_witness :
    ∃ w1 w2 res, ctor (World.init : World Nat Nat) 0 nat_less nat_less = some w1 ∧
      insert_all 4 0 w1 [(2, 20), (1, 30), (3, 10)] = some (w2, res) ∧
      List.Forall₂ (fun x it => it.1 ≠ end_left 0 ∧ it.2 = some x.1)
        [(2, 20), (1, 30), (3, 10)] res ∧
      size w2 0 = [(2, 20), (1, 30), (3, 10)].length ∧
      ∀ x ∈ [(2, 20), (1, 30), (3, 10)],
        (∃ p, find_left w2 4 0 x.1 = some p ∧ p ≠ end_left 0) ∧
        (∃ q, find_right w2 4 0 x.2 = some q ∧ q ≠ end_right 0) :=
  C1_insert_distinct nat_less nat_less swo_nat_less swo_nat_less World.init 0
    [(2, 20), (1, 30), (3, 10)] (by decide) (by decide) 4 (by decide) (by decide)

/-- C2: for every valid bimap and every pair `(l, r)` such that some stored pair has a left
value equivalent to `l` or some stored pair has a right value equivalent to `r`,
`insert(l, r)` returns `end_left()` and leaves the whole memory as it was: `size()` is
unchanged, every stored pair is still stored and returned by `at_left` and `at_right`, and no
pair `(l, r)` is added. -/
theorem C2_insert_duplicate (w : World α β) (b : Nat) (hv : Valid w b) (l : α) (r : β)
    (hdup : (∃ l1 r1, Stored w b l1 r1 ∧ equiv (w.cmp_left b) l l1 = true) ∨
      (∃ l1 r1, Stored w b l1 r1 ∧ equiv (w.cmp_right b) r r1 = true))
    (fuel : Nat) (hf : size w b < fuel) :
    ∃ w1, insert w fuel b l r = some (w1, end_left b) ∧ w1 = w ∧ size w1 b = size w b ∧
      (∀ l1 r1, Stored w b l1 r1 → Stored w1 b l1 r1 ∧
        at_left w1 fuel b l1 = some (.value r1) ∧ at_right w1 fuel b r1 = some (.value l1)) ∧
      (¬ Stored w b l r → ¬ Stored w1 b l r) := by
  obtain ⟨tl, tr, ha⟩ := hv
  have hdup1 : (∃ k ∈ tl.keys, equiv (w.cmp_left b) l k = true) ∨
      (∃ k ∈ tr.keys, equiv (w.cmp_right b) r k = true) := by
    rcases hdup with ⟨l1, r1, hs, he⟩ | ⟨l1, r1, hs, he⟩
    · exact Or.inl ⟨l1, (ha.mem_keys_left_iff l1).2 ⟨r1, hs⟩, he⟩
    · exact Or.inr ⟨r1, (ha.mem_keys_right_iff r1).2 ⟨l1, hs⟩, he⟩
  refine ⟨w, ha.insert_dup l r hdup1 fuel hf, rfl, rfl, ?_, id⟩
  intro l1 r1 hs
  exact ⟨hs, ha.at_left_of_stored hs l1 (equiv_self ha.swo_left l1) fuel hf,
    ha.at_right_of_stored hs r1 (equiv_self ha.swo_right r1) fuel hf⟩

theorem C2_insert_duplicate_witness :
    ∃ w1, insert demo_nat 8 0 1 99 = some (w1, end_left 0) ∧ w1 = demo_nat ∧
      size w1 0 = size demo_nat 0 ∧
      (∀ l1 r1, Stored demo_nat 0 l1 r1 → Stored w1 0 l1 r1 ∧
        at_left w1 8 0 l1 = some (.value r1) ∧ at_right w1 8 0 r1 = some (.value l1)) ∧
      (¬ Stored demo_nat 0 1 99 → ¬ Stored w1 0 1 99) :=
  C2_insert_duplicate demo_nat 0 demo_nat_spec.2.1 1 99
    (Or.inl ⟨1, 30, (demo_nat_spec.2.2.2.2.1 1 30).2 (by decide), by decide⟩) 8 (by decide)

end bimap

open bimap_details

namespace bimap

/-- C3: for every bimap reached from the empty bimap by inserts and erases, every stored pair
`(l, r)` makes `at_left(l)` return a value equivalent to `r` and `at_right(r)` return a value
equivalent to `l`; and `at_left(k)` (resp. `at_right(k)`) throws `std::out_of_range` if and
only if no stored pair has a left (resp. right) value equivalent to `k`. -/
theorem C3_at_round_trip (w : World α β) (b : Nat) (hr : Reachable w b) (fuel : Nat)
    (hf : size w b < fuel) :
    (∀ l r, Stored w b l r →
      (∃ v, at_left w fuel b l = some (.value v) ∧ equiv (w.cmp_right b) v r = true) ∧
      (∃ u, at_right w fuel b r = some (.value u) ∧ equiv (w.cmp_left b) u l = true)) ∧
    (∀ k, at_left w fuel b k = some .out_of_range ↔
      ∀ l r, Stored w b l r → equiv (w.cmp_left b) k l = false) ∧
    (∀ k, at_right w fuel b k = some .out_of_range ↔
      ∀ l r, Stored w b l r → equiv (w.cmp_right b) k r = false) := by
  obtain ⟨tl, tr, ha⟩ := reachable_valid hr
  refine ⟨?_, ?_, ?_⟩
  · intro l r hs
    exact ⟨⟨r, ha.at_left_of_stored hs l (equiv_self ha.swo_left l) fuel hf,
        equiv_self ha.swo_right r⟩,
      ⟨l, ha.at_right_of_stored hs r (equiv_self ha.swo_right r) fuel hf,
        equiv_self ha.swo_left l⟩⟩
  · intro k
    rcases ha.at_left_spec k fuel hf with ⟨hno, hres⟩ | ⟨i, k1, r1, hk1, hr1, he, hres⟩
    · refine ⟨fun _ l r hs => hno l ((ha.mem_keys_left_iff l).2 ⟨r, hs⟩), fun _ => hres⟩
    · constructor
      · intro h; rw [hres] at h; simp at h
      · intro h
        have := h k1 r1 ((ha.stored_iff k1 r1).2 ⟨i, hk1, hr1⟩)
        rw [he] at this
        exact absurd this (by simp)
  · intro k
    rcases ha.at_right_spec k fuel hf with ⟨hno, hres⟩ | ⟨i, k1, l1, hk1, hl1, he, hres⟩
    · refine ⟨fun _ l r hs => hno r ((ha.mem_keys_right_iff r).2 ⟨l, hs⟩), fun _ => hres⟩
    · constructor
      · intro h; rw [hres] at h; simp at h
      · intro h
        have := h l1 k1 ((ha.stored_iff l1 k1).2 ⟨i, hl1, hk1⟩)
        rw [he] at this
        exact absurd this (by simp)

theorem C3_at_round_trip_witness :
    (∀ l r, Stored demo_nat 0 l r →
      (∃ v, at_left demo_nat 8 0 l = some (.value v) ∧
        equiv (demo_nat.cmp_right 0) v r = true) ∧
      (∃ u, at_right demo_nat 8 0 r = some (.value u) ∧
        equiv (demo_nat.cmp_left 0) u l = true)) ∧
    (∀ k, at_left demo_nat 8 0 k = some .out_of_range ↔
      ∀ l r, Stored demo_nat 0 l r → equiv (demo_nat.cmp_left 0) k l = false) ∧
    (∀ k, at_right demo_nat 8 0 k = some .out_of_range ↔
      ∀ l r, Stored demo_nat 0 l r → equiv (demo_nat.cmp_right 0) k r = false) :=
  C3_at_round_trip demo_nat 0 demo_nat_spec.2.2.2.2.2.2.2 8 (by decide)

/-- After the pair node holding `(l, r)` is erased: `_size` is one less, neither value is
found any more, and every other stored pair is still looked up from both sides. -/
theorem Erased.post {w w3 : World α β} {b i : Nat} {tl : Shape α} {tr : Shape β}
    (ha : Abs w b tl tr) (he : Erased w w3 b i tl tr) {l : α} {r : β}
    (hl : (Ptr.node i .Left_Tag, l) ∈ tl.toList) (hr : (Ptr.node i .Right_Tag, r) ∈ tr.toList)
    (fuel : Nat) (hf : w.size b < fuel) :
    size w3 b + 1 = size w b ∧
      find_left w3 fuel b l = some (end_left b) ∧ find_right w3 fuel b r = some (end_right b) ∧
      ∀ l1 r1, Stored w b l1 r1 →
        (equiv (w.cmp_left b) l1 l = false ∨ equiv (w.cmp_right b) r1 r = false) →
        Stored w3 b l1 r1 ∧
        (∃ v, at_left w3 fuel b l1 = some (.value v) ∧ v = r1 ∧
          equiv (w3.cmp_right b) v r1 = true) ∧
        (∃ u, at_right w3 fuel b r1 = some (.value u) ∧ u = l1 ∧
          equiv (w3.cmp_left b) u l1 = true) := by
  have hsize : w3.size b + 1 = w.size b := by
    rw [he.size_eq]
    have := he.size_pos
    simp only [upd, if_true]
    omega
  have hf3 : w3.size b < fuel := by omega
  have hcl : w3.cmp_left b = w.cmp_left b := by rw [he.cmp_left_eq]
  have hcr : w3.cmp_right b = w.cmp_right b := by rw [he.cmp_right_eq]
  refine ⟨hsize, ?_, ?_, ?_⟩
  · obtain ⟨res, hres, hcase⟩ := he.abs.find_left_spec l fuel hf3
    rcases hcase with ⟨rfl, -⟩ | ⟨j, k, -, hk, hek⟩
    · exact hres
    · rw [Shape.mem_erase_toList _ _ ha.left.nodup] at hk
      rw [hcl] at hek
      obtain ⟨rfl, -⟩ := ha.left_unique hl hk.1 hek
      exact absurd rfl hk.2
  · obtain ⟨res, hres, hcase⟩ := he.abs.find_right_spec r fuel hf3
    rcases hcase with ⟨rfl, -⟩ | ⟨j, k, -, hk, hek⟩
    · exact hres
    · rw [Shape.mem_erase_toList _ _ ha.right.nodup] at hk
      rw [hcr] at hek
      obtain ⟨rfl, -⟩ := ha.right_unique hr hk.1 hek
      exact absurd rfl hk.2
  · intro l1 r1 hs hne
    obtain ⟨j, hl1, hr1⟩ := (ha.stored_iff l1 r1).1 hs
    have hji : j ≠ i := by
      rintro rfl
      rcases hne with h | h
      · rw [ha.same_node_left hl1 hl, equiv_self ha.swo_left] at h
        exact absurd h (by simp)
      · rw [ha.same_node_right hr1 hr, equiv_self ha.swo_right] at h
        exact absurd h (by simp)
    have hs3 : Stored w3 b l1 r1 := (Erased.stored_rest ha he l1 r1).2 ⟨j, hji, hl1, hr1⟩
    exact ⟨hs3,
      ⟨r1, he.abs.at_left_of_stored hs3 l1 (equiv_self he.abs.swo_left l1) fuel hf3, rfl,
        equiv_self he.abs.swo_right r1⟩,
      ⟨l1, he.abs.at_right_of_stored hs3 r1 (equiv_self he.abs.swo_right r1) fuel hf3, rfl,
        equiv_self he.abs.swo_left l1⟩⟩

/-- C4: for every valid bimap containing the pair `(l, r)`, `erase_left(l)` returns true and
`erase_right(r)` returns true, and after either call `size()` is one less,
`find_left(l) == end_left()`, `find_right(r) == end_right()`, and every other stored pair
`(l1, r1)` still has `at_left(l1)` equal (hence equivalent) to `r1` and `at_right(r1)` equal
(hence equivalent) to `l1`. -/
theorem C4_erase_pair (w : World α β) (b : Nat) (hv : Valid w b) (l : α) (r : β)
    (hs : Stored w b l r) (fuel : Nat) (hf : size w b < fuel) :
    (∃ w1, erase_left w fuel b l = some (w1, true) ∧ size w1 b + 1 = size w b ∧
      find_left w1 fuel b l = some (end_left b) ∧ find_right w1 fuel b r = some (end_right b) ∧
      ∀ l1 r1, Stored w b l1 r1 →
        (equiv (w.cmp_left b) l1 l = false ∨ equiv (w.cmp_right b) r1 r = false) →
        Stored w1 b l1 r1 ∧
        (∃ v, at_left w1 fuel b l1 = some (.value v) ∧ v = r1 ∧
          equiv (w1.cmp_right b) v r1 = true) ∧
        (∃ u, at_right w1 fuel b r1 = some (.value u) ∧ u = l1 ∧
          equiv (w1.cmp_left b) u l1 = true)) ∧
    (∃ w2, erase_right w fuel b r = some (w2, true) ∧ size w2 b + 1 = size w b ∧
      find_left w2 fuel b l = some (end_left b) ∧ find_right w2 fuel b r = some (end_right b) ∧
      ∀ l1 r1, Stored w b l1 r1 →
        (equiv (w.cmp_left b) l1 l = false ∨ equiv (w.cmp_right b) r1 r = false) →
        Stored w2 b l1 r1 ∧
        (∃ v, at_left w2 fuel b l1 = some (.value v) ∧ v = r1 ∧
          equiv (w2.cmp_right b) v r1 = true) ∧
        (∃ u, at_right w2 fuel b r1 = some (.value u) ∧ u = l1 ∧
          equiv (w2.cmp_left b) u l1 = true)) := by
  obtain ⟨tl, tr, ha⟩ := hv
  obtain ⟨i, hl, hr⟩ := (ha.stored_iff l r).1 hs
  constructor
  · rcases ha.erase_left_spec l fuel hf with ⟨hno, -⟩ | ⟨j, k, w3, hk, hek, hres, heff⟩
    · have := hno l (Shape.mem_keys_of_mem_toList hl)
      rw [equiv_self ha.swo_left] at this
      exact absurd this (by simp)
    · obtain ⟨rfl, rfl⟩ := ha.left_unique hl hk hek
      exact ⟨w3, hres, Erased.post ha heff hl hr fuel hf⟩
  · rcases ha.erase_right_spec r fuel hf with ⟨hno, -⟩ | ⟨j, k, w3, hk, hek, hres, heff⟩
    · have := hno r (Shape.mem_keys_of_mem_toList hr)
      rw [equiv_self ha.swo_right] at this
      exact absurd this (by simp)
    · obtain ⟨rfl, rfl⟩ := ha.right_unique hr hk hek
      exact ⟨w3, hres, Erased.post ha heff hl hr fuel hf⟩

/-- The scenario of C4: after inserting `(1, "a")`, `(2, "b")`, `(3, "c")`, the call
`erase_right("b")` gives size 2, `find_left(2) == end_left()`, `at_left(1) == "a"` and
`at_left(3) == "c"`. -/
theorem C4_erase_pair_witness :
    ∃ w2, erase_right demo_str 8 0 "b" = some (w2, true) ∧ size w2 0 = 2 ∧
      find_left w2 8 0 2 = some (end_left 0) ∧
      at_left w2 8 0 1 = some (.value "a") ∧ at_left w2 8 0 3 = some (.value "c") := by
  obtain ⟨-, w2, he, hsz, hfl, -, hoth⟩ := C4_erase_pair demo_str 0 demo_str_spec.2.1 2 "b"
    ((demo_str_spec.2.2.2.2.1 2 "b").2 (by decide)) 8 (by decide)
  have h3 : size demo_str 0 = 3 := demo_str_spec.2.2.2.1
  obtain ⟨-, ⟨v1, hv1, rfl, -⟩, -⟩ := hoth 1 "a" ((demo_str_spec.2.2.2.2.1 1 "a").2 (by decide))
    (Or.inl (by decide))
  obtain ⟨-, ⟨v3, hv3, rfl, -⟩, -⟩ := hoth 3 "c" ((demo_str_spec.2.2.2.2.1 3 "c").2 (by decide))
    (Or.inl (by decide))
  exact ⟨w2, he, by omega, hfl, hv1, hv3⟩

end bimap

/-!
## Ascending traversal
-/

open bimap_details

namespace bimap_details

theorem getD_mem_of_lt (xs : List Ptr) (d : Ptr) (j : Nat) (hj : j < xs.length) :
    xs.getD j d ∈ xs := by
  induction xs generalizing j with
  | nil => simp at hj
  | cons x xs ih =>
    cases j with
    | zero => exact List.mem_cons_self _ _
    | succ j =>
      rw [List.getD_cons_succ]
      exact List.mem_cons_of_mem _ (ih j (by simpa using hj))

theorem nextIn_getD (xs : List Ptr) (hn : xs.Nodup) (d : Ptr) (j : Nat) (hj : j < xs.length) :
    nextIn xs (xs.getD j d) d = xs.getD (j + 1) d := by
  induction xs generalizing j with
  | nil => simp at hj
  | cons x xs ih =>
    rw [List.nodup_cons] at hn
    cases j with
    | zero =>
      rw [List.getD_cons_zero, List.getD_cons_succ]
      cases xs <;> simp [nextIn]
    | succ j =>
      have hj1 : j < xs.length := by simpa using hj
      have hne : x ≠ xs.getD j d := fun e => hn.1 (e ▸ getD_mem_of_lt xs d j hj1)
      rw [List.getD_cons_succ, List.getD_cons_succ, nextIn, if_neg hne, ih hn.2 j hj1]

theorem getD_map_fst {K : Type} (L : List (Ptr × K)) (d : Ptr) (k : Nat) (hk : k < L.length) :
    (L.map Prod.fst).getD k d = (L[k]).1 := by
  induction L generalizing k with
  | nil => simp at hk
  | cons x xs ih =>
    cases k with
    | zero => rfl
    | succ k =>
      rw [List.map_cons, List.getD_cons_succ, ih k (by simpa using hk)]
      rfl

theorem pairwise_snd_getElem {K : Type} {R : K → K → Prop} (L : List (Ptr × K))
    (hp : (L.map Prod.snd).Pairwise R) (j k : Nat) (hjk : j < k) (hk : k < L.length) :
    R (L[j]).2 (L[k]).2 := by
  have := (List.pairwise_iff_getElem.1 hp) j k (by simp; omega) (by simpa using hk) hjk
  simpa using this

/-- On a valid map, `n` steps of `operator++` from position `j` reach position `j + n`; the
position after the last one is the head. -/
theorem map.incr_n_spec {m : map K} {h : Heap} {t : Shape K} (hinv : MapInv m h t)
    (fuel : Nat) (hf : t.size < fuel) (n j : Nat) (hj : j + n ≤ t.size) :
    bimap.incr_n h fuel n (t.ptrs.getD j m.head) = some (t.ptrs.getD (j + n) m.head) := by
  induction n generalizing j with
  | zero => rfl
  | succ n ih =>
    have hjl : j < t.ptrs.length := by rw [← Shape.size_eq_length]; omega
    rw [bimap.incr_n, map.incr_spec hinv fuel hf _ (getD_mem_of_lt _ _ _ hjl),
      nextIn_getD _ hinv.nodup _ _ hjl, Option.some_bind, ih (j + 1) (by omega)]
    congr 2
    omega

/-- On a valid map, stepping from `begin()` reaches `end()` after exactly as many steps as
there are nodes, and the keys visited are strictly ascending. -/
theorem map.traverse_spec {m : map K} {h : Heap} {t : Shape K} (hinv : MapInv m h t)
    (fuel : Nat) (hf : t.size < fuel) :
    ∃ first, m.begin_ h fuel = some first ∧ bimap.incr_n h fuel t.size first = some m.head ∧
      (∀ k, k < t.size → ∃ p x, bimap.incr_n h fuel k first = some p ∧ p ≠ m.head ∧
        m.value p = some x) ∧
      (∀ j k p q x y, j < k → k < t.size → bimap.incr_n h fuel j first = some p →
        bimap.incr_n h fuel k first = some q → m.value p = some x → m.value q = some y →
        m.cmp x y = true) := by
  have hlen : t.toList.length = t.size := by
    rw [Shape.size_eq_length, ← Shape.ptrs_toList, List.length_map]
  have hpos : ∀ k (hk : k < t.toList.length),
      bimap.incr_n h fuel k (t.ptrs.getD 0 m.head) = some (t.toList[k]).1 ∧
      (t.toList[k]).1 ≠ m.head ∧ m.value (t.toList[k]).1 = some (t.toList[k]).2 := by
    intro k hk
    have h1 := map.incr_n_spec hinv fuel hf k 0 (by omega)
    have h2 : t.ptrs.getD (0 + k) m.head = (t.toList[k]).1 := by
      rw [Nat.zero_add, ← Shape.ptrs_toList]
      exact getD_map_fst _ _ _ hk
    rw [h2] at h1
    have hmem : t.toList[k] ∈ t.toList := List.getElem_mem hk
    refine ⟨h1, ?_, hinv.rep.value_of_mem hmem hinv.nodup⟩
    intro e
    exact hinv.head_notin (e ▸ Shape.mem_ptrs_of_mem_toList hmem)
  refine ⟨t.ptrs.getD 0 m.head, ?_, ?_, ?_, ?_⟩
  · rw [map.begin_spec hinv fuel (by omega)]
    cases t.ptrs <;> rfl
  · have h1 := map.incr_n_spec hinv fuel hf t.size 0 (by omega)
    rw [h1, Nat.zero_add, List.getD_eq_default]
    rw [Shape.size_eq_length]
  · intro k hk
    obtain ⟨h1, h2, h3⟩ := hpos k (by omega)
    exact ⟨_, _, h1, h2, h3⟩
  · intro j k p q x y hjk hk hp hq hx hy
    obtain ⟨h1, -, h3⟩ := hpos j (by omega)
    obtain ⟨h4, -, h6⟩ := hpos k (by omega)
    rw [h1] at hp
    rw [h4] at hq
    simp only [Option.some.injEq] at hp hq
    subst hp hq
    rw [h3] at hx
    rw [h6] at hy
    simp only [Option.some.injEq] at hx hy
    subst hx hy
    have hp : (t.toList.map Prod.snd).Pairwise (fun a b => m.cmp a b = true) := by
      rw [Shape.keys_toList]; exact hinv.sorted
    exact pairwise_snd_getElem t.toList hp j k hjk (by omega)

end bimap_details

namespace bimap

/-- C5: for every bimap reached from the empty bimap by inserts and erases, stepping from
`begin_left()` with `++` reaches `end_left()` after exactly `size()` steps (no earlier step
is at `end_left()`), and the left values visited are strictly increasing under the left
comparator; symmetrically for `begin_right()`, `end_right()` and the right comparator. -/
theorem C5_ascending_traversal (w : World α β) (b : Nat) (hr : Reachable w b) (fuel : Nat)
    (hf : size w b < fuel) :
    (∃ first, begin_left w fuel b = some first ∧
      incr_n w.heap fuel (size w b) first = some (end_left b) ∧
      (∀ k, k < size w b → ∃ p x, incr_n w.heap fuel k first = some p ∧ p ≠ end_left b ∧
        w.left_value p = some x) ∧
      (∀ j k p q x y, j < k → k < size w b → incr_n w.heap fuel j first = some p →
        incr_n w.heap fuel k first = some q → w.left_value p = some x →
        w.left_value q = some y → w.cmp_left b x y = true)) ∧
    (∃ first, begin_right w fuel b = some first ∧
      incr_n w.heap fuel (size w b) first = some (end_right b) ∧
      (∀ k, k < size w b → ∃ p x, incr_n w.heap fuel k first = some p ∧ p ≠ end_right b ∧
        w.right_value p = some x) ∧
      (∀ j k p q x y, j < k → k < size w b → incr_n w.heap fuel j first = some p →
        incr_n w.heap fuel k first = some q → w.right_value p = some x →
        w.right_value q = some y → w.cmp_right b x y = true)) := by
  obtain ⟨tl, tr, ha⟩ := reachable_valid hr
  have hsl : size w b = tl.size := ha.size_eq
  have hsr : size w b = tr.size := by rw [ha.size_right]; exact ha.size_eq
  constructor
  · have := map.traverse_spec ha.left fuel (by rw [← hsl]; exact hf)
    rw [← hsl] at this
    exact this
  · have := map.traverse_spec ha.right fuel (by rw [← hsr]; exact hf)
    rw [← hsr] at this
    exact this

theorem C5_ascending_traversal_witness :
    (∃ first, begin_left demo_nat 8 0 = some first ∧
      incr_n demo_nat.heap 8 (size demo_nat 0) first = some (end_left 0) ∧
      (∀ k, k < size demo_nat 0 → ∃ p x, incr_n demo_nat.heap 8 k first = some p ∧
        p ≠ end_left 0 ∧ demo_nat.left_value p = some x) ∧
      (∀ j k p q x y, j < k → k < size demo_nat 0 → incr_n demo_nat.heap 8 j first = some p →
        incr_n demo_nat.heap 8 k first = some q → demo_nat.left_value p = some x →
        demo_nat.left_value q = some y → demo_nat.cmp_left 0 x y = true)) ∧
    (∃ first, begin_right demo_nat 8 0 = some first ∧
      incr_n demo_nat.heap 8 (size demo_nat 0) first = some (end_right 0) ∧
      (∀ k, k < size demo_nat 0 → ∃ p x, incr_n demo_nat.heap 8 k first = some p ∧
        p ≠ end_right 0 ∧ demo_nat.right_value p = some x) ∧
      (∀ j k p q x y, j < k → k < size demo_nat 0 → incr_n demo_nat.heap 8 j first = some p →
        incr_n demo_nat.heap 8 k first = some q → demo_nat.right_value p = some x →
        demo_nat.right_value q = some y → demo_nat.cmp_right 0 x y = true)) :=
  C5_ascending_traversal demo_nat 0 demo_nat_spec.2.2.2.2.2.2.2 8 (by decide)

end bimap

/-!
## Equality of bimaps
-/

open bimap_details

namespace bimap

theorem filterMap_getD {γ δ : Type} (f : γ → Option δ) (L : List γ) (d : γ)
    (h : ∀ x ∈ L, ∃ y, f x = some y) (j : Nat) (hj : j < L.length) :
    ∃ y, f (L.getD j d) = some y ∧ (L.filterMap f)[j]? = some y := by
  induction L generalizing j with
  | nil => simp at hj
  | cons x xs ih =>
    obtain ⟨y, hy⟩ := h x (List.mem_cons_self _ _)
    cases j with
    | zero =>
      refine ⟨y, hy, ?_⟩
      simp [List.filterMap_cons, hy]
    | succ j =>
      obtain ⟨z, hz, hz1⟩ := ih (fun a ha => h a (List.mem_cons_of_mem _ ha)) j
        (by simpa using hj)
      refine ⟨z, hz, ?_⟩
      simp [List.filterMap_cons, hy, hz1]

/-- The stored pair behind the `j`-th position of the left tree is the `j`-th entry of the
content. -/
theorem Abs.content_at {w : World α β} {b : Nat} {tl : Shape α} {tr : Shape β}
    (ha : Abs w b tl tr) (j : Nat) (hj : j < tl.size) :
    ∃ i l r, tl.ptrs.getD j (end_left b) = .node i .Left_Tag ∧
      Ptr.node i .Left_Tag ∈ tl.ptrs ∧ w.first i = some l ∧ w.second i = some r ∧
      (content w tl)[j]? = some (l, r) := by
  have hjl : j < tl.ptrs.length := by rw [← Shape.size_eq_length]; exact hj
  have hall : ∀ x ∈ tl.ptrs, ∃ y, w.pair_at x = some y := by
    intro x hx
    obtain ⟨k, hk⟩ := Shape.exists_key_of_mem_ptrs hx
    obtain ⟨i, r, rfl, hr⟩ := ha.exists_right hk
    exact ⟨_, ha.pair_at_of_mem hk hr⟩
  obtain ⟨y, hy, hy1⟩ := filterMap_getD w.pair_at tl.ptrs (end_left b) hall j hjl
  have hm := getD_mem_of_lt tl.ptrs (end_left b) j hjl
  obtain ⟨k, hk⟩ := Shape.exists_key_of_mem_ptrs hm
  obtain ⟨i, r, hi, hr⟩ := ha.exists_right hk
  rw [hi] at hk hm hy
  rw [ha.pair_at_of_mem hk hr] at hy
  simp only [Option.some.injEq] at hy
  subst hy
  exact ⟨i, k, r, hi, hm, ha.first_of_mem hk, ha.second_of_mem hr, hy1⟩

/-- The loop of `operator==` on two valid bimaps holding the same pairs in the same order
runs to the end and answers `true`. -/
theorem eq_loop_true {w : World α β} {a b : Nat} {tlA tlB : Shape α} {trA trB : Shape β}
    (hA : Abs w a tlA trA) (hB : Abs w b tlB trB) (hc : content w tlA = content w tlB)
    (fuel : Nat) (hf : size w a < fuel) (n j : Nat) (hn : tlA.size ≤ j + n)
    (hj : j ≤ tlA.size) :
    eq_loop w fuel a b (n + 1) (tlA.ptrs.getD j (end_left a)) (tlB.ptrs.getD j (end_left b)) =
      some true := by
  have hsz : tlB.size = tlA.size := by
    rw [← hA.size_eq, ← hB.size_eq, ← hA.content_length, ← hB.content_length, hc]
  have hfa : tlA.size < fuel := by rw [← hA.size_eq]; exact hf
  induction n generalizing j with
  | zero =>
    have hje : j = tlA.size := by omega
    have h1 : tlA.ptrs.getD j (end_left a) = end_left a :=
      List.getD_eq_default _ _ (by rw [hje, Shape.size_eq_length])
    rw [eq_loop, h1]
    simp
  | succ n ih =>
    rcases Nat.eq_or_lt_of_le hj with hje | hjlt
    · have h1 : tlA.ptrs.getD j (end_left a) = end_left a :=
        List.getD_eq_default _ _ (by rw [hje, Shape.size_eq_length])
      rw [eq_loop, h1]
      simp
    · obtain ⟨i, l, r, hp, hm, hfi, hse, hca⟩ := hA.content_at j hjlt
      obtain ⟨i2, l2, r2, hp2, hm2, hfi2, hse2, hca2⟩ := hB.content_at j (by omega)
      rw [hc, hca2] at hca
      simp only [Option.some.injEq, Prod.mk.injEq] at hca
      obtain ⟨rfl, rfl⟩ := hca
      have hnext := ih (j + 1) (by omega) (by omega)
      have hjA : j < tlA.ptrs.length := by rw [← Shape.size_eq_length]; exact hjlt
      have hjB : j < tlB.ptrs.length := by rw [← Shape.size_eq_length]; omega
      have hiA : iterator_incr w.heap fuel (.node i .Left_Tag) =
          some (tlA.ptrs.getD (j + 1) (end_left a)) := by
        have := map.incr_spec hA.left fuel hfa _ hm
        rw [this, ← hp]
        exact congrArg some (nextIn_getD _ hA.left.nodup _ _ hjA)
      have hiB : iterator_incr w.heap fuel (.node i2 .Left_Tag) =
          some (tlB.ptrs.getD (j + 1) (end_left b)) := by
        have := map.incr_spec hB.left fuel (by omega) _ hm2
        rw [this, ← hp2]
        exact congrArg some (nextIn_getD _ hB.left.nodup _ _ hjB)
      have hne1 : Ptr.node i .Left_Tag ≠ end_left a := by simp [end_left]
      have hne2 : Ptr.node i2 .Left_Tag ≠ end_left b := by simp [end_left]
      rw [eq_loop, hp, hp2]
      simp [-List.getD_eq_getElem?_getD, hne1, hne2, World.left_value, World.right_value, hfi, hfi2, hse, hse2,
        hA.flip_left_node hm, hB.flip_left_node hm2, equal_left, equal_right,
        hA.swo_left.irrefl, hA.swo_right.irrefl, hiA, hiB, hnext]

/-- On two valid bimaps holding the same pairs in the same order `operator==` answers `true`. -/
theorem eq_of_content_eq {w : World α β} {a b : Nat} {tlA tlB : Shape α} {trA trB : Shape β}
    (hA : Abs w a tlA trA) (hB : Abs w b tlB trB) (hc : content w tlA = content w tlB)
    (fuel : Nat) (hf : size w a < fuel) : eq w fuel a b = some true := by
  have hsz : w.size a = w.size b := by
    rw [← hA.content_length, ← hB.content_length, hc]
  have hfa : tlA.size < fuel := by rw [← hA.size_eq]; exact hf
  have hfb : tlB.size < fuel := by rw [← hB.size_eq, ← hsz]; exact hf
  have hbA : begin_left w fuel a = some (tlA.ptrs.getD 0 (end_left a)) := by
    rw [begin_left, map.begin_spec hA.left fuel (by omega)]
    cases tlA.ptrs <;> rfl
  have hbB : begin_left w fuel b = some (tlB.ptrs.getD 0 (end_left b)) := by
    rw [begin_left, map.begin_spec hB.left fuel (by omega)]
    cases tlB.ptrs <;> rfl
  obtain ⟨n, rfl⟩ : ∃ n, fuel = n + 1 := ⟨fuel - 1, by omega⟩
  have := eq_loop_true hA hB hc (n + 1) hf n 0 (by omega) (by omega)
  simp [-List.getD_eq_getElem?_getD, eq, size, hsz, hbA, hbB, this]

/-- Two lists of pairs in strictly ascending order of their left values with the same
members are the same list. -/
theorem eq_of_sorted_of_mem_iff {cmp : α → α → Bool} (hs : StrictWeakOrder cmp) :
    ∀ (L1 L2 : List (α × β)), (L1.map Prod.fst).Pairwise (fun x y => cmp x y = true) →
      (L2.map Prod.fst).Pairwise (fun x y => cmp x y = true) →
      (∀ x, x ∈ L1 ↔ x ∈ L2) → L1 = L2 := by
  intro L1
  induction L1 with
  | nil =>
    intro L2 _ _ hm
    cases L2 with
    | nil => rfl
    | cons y ys => exact absurd ((hm y).2 (List.mem_cons_self _ _)) (by simp)
  | cons x xs ih =>
    intro L2 h1 h2 hm
    cases L2 with
    | nil => exact absurd ((hm x).1 (List.mem_cons_self _ _)) (by simp)
    | cons y ys =>
      simp only [List.map_cons, List.pairwise_cons, List.mem_map, forall_exists_index,
        and_imp] at h1 h2
      have hxy : x = y := by
        rcases List.mem_cons.1 ((hm x).1 (List.mem_cons_self _ _)) with e | hx
        · exact e
        · rcases List.mem_cons.1 ((hm y).2 (List.mem_cons_self _ _)) with e | hy
          · exact e.symm
          · have c1 := h2.1 x.1 x hx rfl
            have c2 := h1.1 y.1 y hy rfl
            have := hs.trans _ _ _ c2 c1
            rw [hs.irrefl] at this
            exact absurd this (by simp)
      subst hxy
      congr 1
      apply ih ys h1.2 h2.2
      intro z
      constructor
      · intro hz
        rcases List.mem_cons.1 ((hm z).1 (List.mem_cons_of_mem _ hz)) with e | h
        · subst e
          have := h1.1 z.1 z hz rfl
          rw [hs.irrefl] at this
          exact absurd this (by simp)
        · exact h
      · intro hz
        rcases List.mem_cons.1 ((hm z).2 (List.mem_cons_of_mem _ hz)) with e | h
        · subst e
          have := h2.1 z.1 z hz rfl
          rw [hs.irrefl] at this
          exact absurd this (by simp)
        · exact h

/-- The member `insert` never touches a comparator. -/
theorem insert_cmp {w w1 : World α β} {fuel b : Nat} {l : α} {r : β} {it : Ptr}
    (h : insert w fuel b l r = some (w1, it)) :
    w1.cmp_left = w.cmp_left ∧ w1.cmp_right = w.cmp_right := by
  have key : ∀ fl fr : Bool, (if (fl || fr) = true then some (w, end_left b) else
      (((w.new_node l r).1.left_map b).insert (w.new_node l r).1.heap fuel
          (Ptr.node (w.new_node l r).2 .Left_Tag)).bind fun x =>
        (((w.new_node l r).1.right_map b).insert x.1 fuel
            (Ptr.node (w.new_node l r).2 .Right_Tag)).bind fun y =>
          some (({ (w.new_node l r).1 with
            heap := y.1
            size := upd (w.new_node l r).1.size b
              (((w.new_node l r).1.size b + 1) % SIZE_MOD) } : World α β), x.2)) =
        some (w1, it) → w1.cmp_left = w.cmp_left ∧ w1.cmp_right = w.cmp_right := by
    intro fl fr h
    split at h
    · simp only [Option.some.injEq, Prod.mk.injEq] at h
      obtain ⟨rfl, -⟩ := h
      exact ⟨rfl, rfl⟩
    · simp only [Option.bind_eq_some, Option.some.injEq, Prod.mk.injEq] at h
      obtain ⟨x, -, y, -, rfl, -⟩ := h
      exact ⟨rfl, rfl⟩
  cases he : empty w b
  · cases hfl : find_left w fuel b l with
    | none => simp [insert, he, hfl] at h
    | some p =>
      by_cases hp : p = end_left b
      · cases hfr : find_right w fuel b r with
        | none => simp [insert, he, hfl, hfr, hp] at h
        | some q =>
          simp only [insert, he, hfl, hp] at h
          by_cases hq : q = end_right b
          · exact key false false (by simpa [hfr, hq] using h)
          · exact key false true (by simpa [hfr, hq] using h)
      · simp only [insert, he, hfl] at h
        exact key true false (by simpa [hp] using h)
  · simp only [insert, he] at h
    exact key false false (by simpa using h)

theorem insert_all_cmp (fuel b : Nat) (xs : List (α × β)) :
    ∀ (w w2 : World α β) (res : List (Ptr × Option α)),
      insert_all fuel b w xs = some (w2, res) →
      w2.cmp_left = w.cmp_left ∧ w2.cmp_right = w.cmp_right := by
  induction xs with
  | nil =>
    intro w w2 res h
    simp only [insert_all, Option.some.injEq, Prod.mk.injEq] at h
    obtain ⟨rfl, -⟩ := h
    exact ⟨rfl, rfl⟩
  | cons x xs ih =>
    intro w w2 res h
    simp only [insert_all, Option.bind_eq_bind, Option.bind_eq_some, Option.some.injEq,
      Prod.mk.injEq, Prod.exists] at h
    obtain ⟨w1, it, hins, w3, its, hall, rfl, -⟩ := h
    obtain ⟨h1, h2⟩ := insert_cmp hins
    obtain ⟨h3, h4⟩ := ih w1 w3 its hall
    exact ⟨by rw [h3, h1], by rw [h4, h2]⟩

end bimap

open bimap_details

namespace bimap

/-- A freshly constructed bimap filled by `insert_all` holds exactly the inserted pairs, in
ascending order of their left values. -/
theorem fill_spec (w0 : World α β) (a : Nat) (cl : α → α → Bool) (cr : β → β → Bool)
    (hcl : StrictWeakOrder cl) (hcr : StrictWeakOrder cr) (xs : List (α × β))
    (hpl : xs.Pairwise (fun x y => equiv cl x.1 y.1 = false))
    (hpr : xs.Pairwise (fun x y => equiv cr x.2 y.2 = false))
    (fuel : Nat) (hf : xs.length < fuel) (hsz : xs.length < SIZE_MOD) :
    ∃ w1 w2 res tl tr, ctor w0 a cl cr = some w1 ∧ insert_all fuel a w1 xs = some (w2, res) ∧
      Abs w2 a tl tr ∧ w2.size a = xs.length ∧ w2.cmp_left a = cl ∧ w2.cmp_right a = cr ∧
      (∀ x, x ∈ content w2 tl ↔ x ∈ xs) ∧
      (∀ c tlC trC, c ≠ a → Abs w0 c tlC trC →
        Abs w2 c tlC trC ∧ content w2 tlC = content w0 tlC ∧ w2.cmp_left c = w0.cmp_left c ∧
        w2.cmp_right c = w0.cmp_right c) := by
  obtain ⟨w1, hc, ha1, -, -, -, -, -, hrest, hcl1, hcr1, hs1⟩ := ctor_spec w0 a cl cr hcl hcr
  obtain ⟨w2, res, tl, tr, hall, ha2, -, hs2, hst, hcl2, hcr2, hoth, -, -⟩ :=
    insert_all_spec fuel a xs w1 .nil .nil ha1 (by simp [Shape.keys]) (by simp [Shape.keys])
      (by rw [hcl1]; exact hpl) (by rw [hcr1]; exact hpr) (by omega) (by omega)
  obtain ⟨hcmpl, hcmpr⟩ := insert_all_cmp fuel a xs w1 w2 res hall
  refine ⟨w1, w2, res, tl, tr, hc, hall, ha2, by rw [hs2, hs1]; simp, by rw [hcl2, hcl1],
    by rw [hcr2, hcr1], ?_, ?_⟩
  · rintro ⟨l, r⟩
    rw [ha2.mem_content_iff, hst, ← ha1.mem_content_iff]
    simp [content, Shape.ptrs]
  · intro c tlC trC hca hC
    obtain ⟨hC1, hcont1⟩ := ctor_other hcl hcr hc hca hC
    obtain ⟨hC2, hcont2, -⟩ := hoth c tlC trC hca hC1 (by simp [Shape.ptrs])
    exact ⟨hC2, by rw [hcont2, hcont1], by rw [hcmpl, (hrest c hca).2.1],
      by rw [hcmpr, (hrest c hca).2.2]⟩

/-- C6: for every list of pairs with pairwise non-equivalent left values and pairwise
non-equivalent right values and every permutation of it, the bimap built by inserting the list
into an empty bimap and the bimap built by inserting the permutation into an empty bimap with
the same comparators compare equal: `operator==` returns `true` and `operator!=` returns
`false`, whichever of the two is the left operand. -/
theorem C6_insertion_order_irrelevant (w0 : World α β) (a b : Nat) (hab : a ≠ b)
    (cl : α → α → Bool) (cr : β → β → Bool) (hcl : StrictWeakOrder cl)
    (hcr : StrictWeakOrder cr) (xs ys : List (α × β)) (hperm : ys.Perm xs)
    (hpl : xs.Pairwise (fun x y => equiv cl x.1 y.1 = false))
    (hpr : xs.Pairwise (fun x y => equiv cr x.2 y.2 = false))
    (fuel : Nat) (hf : xs.length < fuel) (hsz : xs.length < SIZE_MOD) :
    ∃ w1 w2 w3 w4 r1 r2, ctor w0 a cl cr = some w1 ∧ insert_all fuel a w1 xs = some (w2, r1) ∧
      ctor w2 b cl cr = some w3 ∧ insert_all fuel b w3 ys = some (w4, r2) ∧
      eq w4 fuel a b = some true ∧ ne w4 fuel a b = some false ∧
      eq w4 fuel b a = some true ∧ ne w4 fuel b a = some false := by
  have hsymL : ∀ {x y : α × β}, equiv cl x.1 y.1 = false → equiv cl y.1 x.1 = false := by
    intro x y h
    cases h1 : equiv cl y.1 x.1
    · rfl
    · rw [equiv_symm h1] at h; exact absurd h (by simp)
  have hsymR : ∀ {x y : α × β}, equiv cr x.2 y.2 = false → equiv cr y.2 x.2 = false := by
    intro x y h
    cases h1 : equiv cr y.2 x.2
    · rfl
    · rw [equiv_symm h1] at h; exact absurd h (by simp)
  have hlen : ys.length = xs.length := hperm.length_eq
  obtain ⟨w1, w2, r1, tlA, trA, hc1, hall1, hA2, hsA, hclA, hcrA, hmemA, -⟩ :=
    fill_spec w0 a cl cr hcl hcr xs hpl hpr fuel hf hsz
  obtain ⟨w3, w4, r2, tlB, trB, hc2, hall2, hB4, hsB, hclB, hcrB, hmemB, hothB⟩ :=
    fill_spec w2 b cl cr hcl hcr ys ((hperm.pairwise_iff hsymL).2 hpl)
      ((hperm.pairwise_iff hsymR).2 hpr) fuel (by omega) (by omega)
  obtain ⟨hA4, hcont, hclA4, -⟩ := hothB a tlA trA hab hA2
  have hsortA : ((content w4 tlA).map Prod.fst).Pairwise (fun x y => cl x y = true) := by
    rw [hA4.content_keys]
    have := hA4.left.sorted
    simp only [World.left_map, hclA4, hclA] at this
    exact this
  have hsortB : ((content w4 tlB).map Prod.fst).Pairwise (fun x y => cl x y = true) := by
    rw [hB4.content_keys]
    have := hB4.left.sorted
    simp only [World.left_map, hclB] at this
    exact this
  have hceq : content w4 tlA = content w4 tlB := by
    apply eq_of_sorted_of_mem_iff hcl _ _ hsortA hsortB
    intro x
    rw [hcont, hmemA, hmemB]
    exact hperm.mem_iff.symm
  have hsa : size w4 a < fuel := by
    rw [size, hA4.size_eq, ← hA2.size_eq, hsA]; exact hf
  have hsb : size w4 b < fuel := by
    rw [size, hsB]; omega
  have e1 := eq_of_content_eq hA4 hB4 hceq fuel hsa
  have e2 := eq_of_content_eq hB4 hA4 hceq.symm fuel hsb
  exact ⟨w1, w2, w3, w4, r1, r2, hc1, hall1, hc2, hall2, e1, by simp [ne, e1], e2,
    by simp [ne, e2]⟩

theorem C6_insertion_order_irrelevant_witness :
    ∃ w1 w2 w3 w4 r1 r2, ctor (World.init : World Nat Nat) 0 nat_less nat_less = some w1 ∧
      insert_all 8 0 w1 [(1, 10), (2, 20), (3, 5)] = some (w2, r1) ∧
      ctor w2 1 nat_less nat_less = some w3 ∧
      insert_all 8 1 w3 [(2, 20), (1, 10), (3, 5)] = some (w4, r2) ∧
      eq w4 8 0 1 = some true ∧ ne w4 8 0 1 = some false ∧
      eq w4 8 1 0 = some true ∧ ne w4 8 1 0 = some false :=
  C6_insertion_order_irrelevant World.init 0 1 (by decide) nat_less nat_less swo_nat_less
    swo_nat_less [(1, 10), (2, 20), (3, 5)] [(2, 20), (1, 10), (3, 5)]
    (List.Perm.swap _ _ _) (by decide) (by decide) 8 (by decide) (by decide)

end bimap

open bimap_details

namespace bimap

/-- The keys of a tree after an erasure are keys of the remaining nodes. -/
theorem Abs.mem_erase_right_keys {w : World α β} {b : Nat} {tl : Shape α} {tr : Shape β}
    (ha : Abs w b tl tr) {i : Nat} {k : β} (hk : k ∈ (tr.erase (.node i .Right_Tag)).keys) :
    ∃ j, j ≠ i ∧ (Ptr.node j .Right_Tag, k) ∈ tr.toList := by
  obtain ⟨p, hp⟩ := Shape.exists_ptr_of_mem_keys hk
  rw [Shape.mem_erase_toList _ _ ha.right.nodup] at hp
  obtain ⟨j, rfl⟩ := ha.right_form (Shape.mem_ptrs_of_mem_toList hp.1)
  refine ⟨j, ?_, hp.1⟩
  rintro rfl
  exact hp.2 rfl

/-- What `at_left_or_default(key)` does on a valid bimap holding no left value equivalent to
`key`, told by the pair nodes. -/
theorem Abs.default_absent [Inhabited β] {w : World α β} {b : Nat} {tl : Shape α}
    {tr : Shape β} (ha : Abs w b tl tr) (k : α)
    (habs : ∀ k1 ∈ tl.keys, equiv (w.cmp_left b) k k1 = false)
    (fuel : Nat) (hf : w.size b < fuel) (hsz : w.size b + 1 < SIZE_MOD) :
    ∃ w1 tl1 tr1, at_left_or_default w fuel b k = some (w1, default) ∧ Abs w1 b tl1 tr1 ∧
      w1.cmp_left b = w.cmp_left b ∧ w1.cmp_right b = w.cmp_right b ∧
      (((∀ k1 ∈ tr.keys, equiv (w.cmp_right b) default k1 = false) ∧
        w1.size b = w.size b + 1 ∧
        ∀ l r, Stored w1 b l r ↔ (l = k ∧ r = default) ∨ Stored w b l r) ∨
      (∃ i r0, (Ptr.node i .Right_Tag, r0) ∈ tr.toList ∧
        equiv (w.cmp_right b) default r0 = true ∧ w1.size b = w.size b ∧
        ∀ l r, Stored w1 b l r ↔ (l = k ∧ r = default) ∨
          ∃ j, j ≠ i ∧ (Ptr.node j .Left_Tag, l) ∈ tl.toList ∧
            (Ptr.node j .Right_Tag, r) ∈ tr.toList)) := by
  have hfind : find_left w fuel b k = some (end_left b) := by
    obtain ⟨res, hres, hcase⟩ := ha.find_left_spec k fuel hf
    rcases hcase with ⟨rfl, -⟩ | ⟨i, k1, -, hk, he⟩
    · exact hres
    · rw [habs k1 (Shape.mem_keys_of_mem_toList hk)] at he
      exact absurd he (by simp)
  have hfin : ∀ (w0 w1 : World α β) (tl0 : Shape α) (tr0 : Shape β),
      Inserted w0 w1 b k default tl0 tr0 →
      (flip w1.heap .Left_Tag (.node w0.next .Left_Tag)).bind
        (fun f => (w1.right_value f).bind (fun v => some (w1, v))) = some (w1, default) := by
    intro w0 w1 tl0 tr0 hi
    have hm : Ptr.node w0.next .Left_Tag ∈
        (tl0.ins (w0.cmp_left b) k (.node w0.next .Left_Tag)).ptrs :=
      (Shape.ins_ptrs_perm _ _ _ _).mem_iff.2 (List.mem_cons_self _ _)
    rw [hi.abs.flip_left_node hm]
    simp [World.right_value, hi.second_eq, upd]
  rcases ha.erase_right_spec default fuel hf with ⟨hno, her⟩ | ⟨i, r0, w3, hr0, he0, her, hE⟩
  · obtain ⟨w1, hins, hi⟩ := ha.insert_spec k default habs hno fuel hf hsz
    refine ⟨w1, _, _, ?_, hi.abs, by rw [hi.cmp_left_eq], by rw [hi.cmp_right_eq],
      Or.inl ⟨hno, by rw [hi.size_eq]; simp [upd], Inserted.stored_after ha hi⟩⟩
    have := hfin w w1 tl tr hi
    simp only [at_left_or_default, hfind, her, hins, Option.bind_eq_bind, Option.some_bind,
      ne_eq, not_true_eq_false, if_false]
    exact this
  · have hs3 : w3.size b = w.size b - 1 := by rw [hE.size_eq]; simp [upd]
    have hpos := hE.size_pos
    have hl3 : ∀ k1 ∈ (tl.erase (.node i .Left_Tag)).keys,
        equiv (w3.cmp_left b) k k1 = false := by
      intro k1 hk1
      rw [hE.cmp_left_eq]
      exact habs k1 ((Shape.erase_keys_sublist tl _ ha.left.nodup).subset hk1)
    have hr3 : ∀ k1 ∈ (tr.erase (.node i .Right_Tag)).keys,
        equiv (w3.cmp_right b) default k1 = false := by
      intro k1 hk1
      rw [hE.cmp_right_eq]
      obtain ⟨j, hji, hj⟩ := ha.mem_erase_right_keys hk1
      cases h1 : equiv (w.cmp_right b) default k1
      · rfl
      · have := ha.right_unique hr0 hj (equiv_trans ha.swo_right (equiv_symm he0) h1)
        exact absurd this.1.symm hji
    obtain ⟨w1, hins, hi⟩ := hE.abs.insert_spec k default hl3 hr3 fuel (by omega) (by omega)
    refine ⟨w1, _, _, ?_, hi.abs, by rw [hi.cmp_left_eq, hE.cmp_left_eq],
      by rw [hi.cmp_right_eq, hE.cmp_right_eq],
      Or.inr ⟨i, r0, hr0, he0, by rw [hi.size_eq]; simp [upd]; omega, ?_⟩⟩
    · have := hfin w3 w1 _ _ hi
      simp only [at_left_or_default, hfind, her, hins, Option.bind_eq_bind, Option.some_bind,
        ne_eq, not_true_eq_false, if_false]
      exact this
    · intro l r
      rw [Inserted.stored_after hE.abs hi, Erased.stored_rest ha hE]

/-- C7: on a valid bimap holding no left value equivalent to `k`, `at_left_or_default(k)`
returns the default-constructed right value `d`; afterwards `(k, d)` is stored; a pair that
held a right value equivalent to `d` is stored no longer (its left value is not found and its
right value now leads to `k`); every other pair is still stored and nothing else is; `size()`
is unchanged when such a pair existed and one larger otherwise. -/
theorem C7_at_left_or_default_absent [Inhabited β] (w : World α β) (b : Nat)
    (hv : Valid w b) (k : α) (habs : ∀ l r, Stored w b l r → equiv (w.cmp_left b) k l = false)
    (fuel : Nat) (hf : size w b + 1 < fuel) (hsz : size w b + 1 < SIZE_MOD) :
    ∃ w1, at_left_or_default w fuel b k = some (w1, default) ∧ Valid w1 b ∧
      Stored w1 b k default ∧
      (∀ l r, Stored w b l r → equiv (w.cmp_right b) r default = true →
        ¬Stored w1 b l r ∧ find_left w1 fuel b l = some (end_left b) ∧
        at_right w1 fuel b r = some (.value k)) ∧
      (∀ l r, Stored w b l r → equiv (w.cmp_right b) r default = false → Stored w1 b l r) ∧
      (∀ l r, Stored w1 b l r → (l = k ∧ r = default) ∨ Stored w b l r) ∧
      ((∃ l r, Stored w b l r ∧ equiv (w.cmp_right b) r default = true) →
        size w1 b = size w b) ∧
      ((∀ l r, Stored w b l r → equiv (w.cmp_right b) r default = false) →
        size w1 b = size w b + 1) := by
  obtain ⟨tl, tr, ha⟩ := hv
  simp only [size] at hf hsz ⊢
  have habs1 : ∀ k1 ∈ tl.keys, equiv (w.cmp_left b) k k1 = false := by
    intro k1 hk1
    obtain ⟨r, hs⟩ := (ha.mem_keys_left_iff k1).1 hk1
    exact habs k1 r hs
  obtain ⟨w1, tl1, tr1, hres, ha1, hcl, hcr, hcase⟩ :=
    ha.default_absent k habs1 fuel (by omega) hsz
  refine ⟨w1, hres, ⟨tl1, tr1, ha1⟩, ?_⟩
  rcases hcase with ⟨hno, hsize, hst⟩ | ⟨i, r0, hr0, he0, hsize, hst⟩
  · have hnone : ∀ l r, Stored w b l r → equiv (w.cmp_right b) r default = false := by
      intro l r hs
      cases h1 : equiv (w.cmp_right b) r default
      · rfl
      · have h2 := equiv_symm h1
        rw [hno r ((ha.mem_keys_right_iff r).2 ⟨l, hs⟩)] at h2
        exact absurd h2 (by simp)
    refine ⟨(hst k default).2 (Or.inl ⟨rfl, rfl⟩), ?_, ?_, ?_, ?_, ?_⟩
    · intro l r hs he
      rw [hnone l r hs] at he
      exact absurd he (by simp)
    · intro l r hs _
      exact (hst l r).2 (Or.inr hs)
    · intro l r hs
      exact (hst l r).1 hs
    · rintro ⟨l, r, hs, he⟩
      rw [hnone l r hs] at he
      exact absurd he (by simp)
    · intro _
      exact hsize
  · have hkd : Stored w1 b k default := (hst k default).2 (Or.inl ⟨rfl, rfl⟩)
    obtain ⟨i1, l0, hi1, hl0⟩ := ha.exists_left hr0
    simp only [Ptr.node.injEq, and_true] at hi1
    subst hi1
    have hold : Stored w b l0 r0 := (ha.stored_iff l0 r0).2 ⟨i, hl0, hr0⟩
    refine ⟨hkd, ?_, ?_, ?_, ?_, ?_⟩
    · intro l r hs he
      obtain ⟨j, hjl, hjr⟩ := (ha.stored_iff l r).1 hs
      obtain ⟨rfl, rfl⟩ := ha.right_unique hjr hr0 (equiv_trans ha.swo_right he he0)
      have hnk : equiv (w.cmp_left b) k l = false := habs l r hs
      refine ⟨?_, ?_, ?_⟩
      · intro hs1
        rcases (hst l r).1 hs1 with ⟨rfl, -⟩ | ⟨j1, hj1, hj1l, -⟩
        · rw [equiv_self ha.swo_left] at hnk
          exact absurd hnk (by simp)
        · exact hj1 (ha.left_unique hj1l hjl (equiv_self ha.swo_left l)).1
      · obtain ⟨res, hres1, hc1⟩ := ha1.find_left_spec l fuel (by rw [hsize]; omega)
        rcases hc1 with ⟨rfl, -⟩ | ⟨i2, k2, -, hk2, he2⟩
        · exact hres1
        · exfalso
          obtain ⟨r2, hs2⟩ := (ha1.mem_keys_left_iff k2).1 (Shape.mem_keys_of_mem_toList hk2)
          rw [hcl] at he2
          rcases (hst k2 r2).1 hs2 with ⟨rfl, -⟩ | ⟨j1, hj1, hj1l, -⟩
          · rw [equiv_symm he2] at hnk
            exact absurd hnk (by simp)
          · exact hj1 (ha.left_unique hj1l hjl (equiv_symm he2)).1
      · exact ha1.at_right_of_stored hkd r (by rw [hcr]; exact he) fuel (by rw [hsize]; omega)
    · intro l r hs he
      obtain ⟨j, hjl, hjr⟩ := (ha.stored_iff l r).1 hs
      refine (hst l r).2 (Or.inr ⟨j, ?_, hjl, hjr⟩)
      rintro rfl
      have := ha.same_node_right hjr hr0
      subst this
      rw [equiv_symm he0] at he
      exact absurd he (by simp)
    · intro l r hs
      rcases (hst l r).1 hs with h | ⟨j, -, hjl, hjr⟩
      · exact Or.inl h
      · exact Or.inr ((ha.stored_iff l r).2 ⟨j, hjl, hjr⟩)
    · intro _
      exact hsize
    · intro hall
      have := hall l0 r0 hold
      rw [equiv_symm he0] at this
      exact absurd this (by simp)

theorem demo_empty_spec : Abs demo_empty 0 .nil .nil := by
  obtain ⟨w1, hc, ha, -⟩ := ctor_spec (World.init : World Int Int) 0 int_less int_less
    swo_int_less swo_int_less
  have : demo_empty = w1 := by rw [demo_empty, hc]; rfl
  rw [this]
  exact ha

theorem C7_at_left_or_default_absent_witness :
    ∃ w1, at_left_or_default demo_empty 8 0 5 = some (w1, 0) ∧ Stored w1 0 5 0 ∧
      size w1 0 = 1 := by
  have hnone : ∀ l r, ¬Stored demo_empty 0 l r := by
    intro l r hs
    have := (demo_empty_spec.mem_content_iff l r).2 hs
    simp [content, Shape.ptrs] at this
  obtain ⟨w1, h1, -, h2, -, -, -, -, h3⟩ :=
    C7_at_left_or_default_absent demo_empty 0 ⟨_, _, demo_empty_spec⟩ 5
      (fun l r hs => absurd hs (hnone l r)) 8 (by decide) (by decide)
  exact ⟨w1, h1, h2, h3 (fun l r hs => absurd hs (hnone l r))⟩

end bimap

/-!
## Swapping two maps
-/

open bimap_details

namespace bimap_details

theorem Shape.root_null_or_mem (s : Shape K) : s.root = .nullptr ∨ s.root ∈ s.ptrs := by
  cases s with
  | nil => exact Or.inl rfl
  | node l p k r => exact Or.inr (Shape.root_mem_ptrs l p k r)

theorem Shape.ne_root_of_notin {s : Shape K} {x : Ptr} (hx : x ≠ .nullptr) (hn : x ∉ s.ptrs) :
    x ≠ s.root := by
  rintro rfl
  rcases s.root_null_or_mem with h | h
  · exact hx h
  · exact hn h

/-- The first half of `map::swap`: `head.left = root; if (head.left) head.left->parent = &head`
hangs a whole tree below another head. -/
theorem adopt_spec {h : Heap} {hd : Ptr} {n0 : map_base_node} (hhd : h.deref hd = some n0)
    {value : Ptr → Option K} {par : Ptr} {s : Shape K} (hr : Rep h value par s)
    (hn : s.ptrs.Nodup) (hnotin : hd ∉ s.ptrs) :
    ∃ h1 h2, h.set_left hd s.root = some h1 ∧ h1.left hd = some s.root ∧
      (s.root = .nullptr → h2 = h1) ∧
      (s.root ≠ .nullptr → h1.set_parent s.root hd = some h2) ∧
      h2.deref hd = some ⟨s.root, n0.right, n0.parent⟩ ∧ Rep h2 value hd s ∧
      ∀ x, x ≠ hd → x ≠ s.root → h2.deref x = h.deref x := by
  have hdn : hd ≠ .nullptr := deref_ne_null hhd
  have hd1 : (h.store hd ⟨s.root, n0.right, n0.parent⟩).deref hd =
      some ⟨s.root, n0.right, n0.parent⟩ := by
    rw [deref_store _ _ _ _ hdn, if_pos rfl]
  cases s with
  | nil =>
    refine ⟨_, _, set_left_of_deref hhd _, left_of_deref hd1, fun _ => rfl,
      fun hne => absurd rfl hne, hd1, trivial, ?_⟩
    intro x hx _
    rw [deref_store _ _ _ _ hdn, if_neg hx]
  | node l p k r =>
    obtain ⟨hp, hvp, hl, hrr⟩ := hr
    have hpn : p ≠ .nullptr := deref_ne_null hp
    have hph : p ≠ hd := by
      rintro rfl
      exact hnotin (Shape.root_mem_ptrs l p k r)
    have hp1 : (h.store hd ⟨p, n0.right, n0.parent⟩).deref p = some ⟨l.root, r.root, par⟩ := by
      rw [deref_store _ _ _ _ hdn, if_neg hph]; exact hp
    have hfr : ∀ x, x ≠ hd → x ≠ p →
        ((h.store hd ⟨p, n0.right, n0.parent⟩).store p ⟨l.root, r.root, hd⟩).deref x =
          h.deref x := by
      intro x hx hxp
      rw [deref_store _ _ _ _ hpn, if_neg hxp, deref_store _ _ _ _ hdn, if_neg hx]
    refine ⟨_, _, set_left_of_deref hhd _, left_of_deref hd1, fun e => absurd e hpn,
      fun _ => set_parent_of_deref hp1 hd, ?_, ?_, hfr⟩
    · simp only [Shape.root_node]
      rw [deref_store _ _ _ _ hpn, if_neg (Ne.symm hph)]
      exact hd1
    · have hrep0 : Rep h value par (.node l p k r) := ⟨hp, hvp, hl, hrr⟩
      refine hrep0.reparent hn ?_ ?_
      · intro x hx hxr
        exact hfr x (fun e => hnotin (e ▸ hx)) hxr
      · intro n hn1
        simp only [Shape.root_node] at hn1 ⊢
        rw [hp] at hn1
        simp only [Option.some.injEq] at hn1
        subst hn1
        rw [deref_store _ _ _ _ hpn, if_pos rfl]

/-- The member `map::swap` exchanges the trees of two valid maps that share no node, and
re-parents both roots. -/
theorem map.swap_spec {m o : map K} {h : Heap} {t s : Shape K} (hm : MapInv m h t)
    (ho : MapInv o h s) (hval : o.value = m.value) (hne : m.head ≠ o.head)
    (hd : ∀ p ∈ t.ptrs, p ∉ s.ptrs) (hms : m.head ∉ s.ptrs) (hot : o.head ∉ t.ptrs)
    (hfm : ∀ x, h.right m.head = some x → x ∉ s.ptrs)
    (hfo : ∀ x, h.right o.head = some x → x ∉ t.ptrs) :
    ∃ h4, m.swap o h = some (h4, o.cmp, m.cmp) ∧
      MapInv ⟨m.head, o.cmp, m.value⟩ h4 s ∧ MapInv ⟨o.head, m.cmp, m.value⟩ h4 t ∧
      h4.right m.head = h.right m.head ∧ h4.right o.head = h.right o.head ∧
      ∀ x, x ≠ m.head → x ≠ o.head → x ≠ t.root → x ≠ s.root → h4.deref x = h.deref x := by
  obtain ⟨flm, hdm, -⟩ := hm.head
  obtain ⟨flo, hdo, -⟩ := ho.head
  have hmn : m.head ≠ .nullptr := deref_ne_null hdm
  have hon : o.head ≠ .nullptr := deref_ne_null hdo
  have hos : o.head ≠ s.root := Shape.ne_root_of_notin hon ho.head_notin
  have hmt : m.head ≠ t.root := Shape.ne_root_of_notin hmn hm.head_notin
  have hmsr : m.head ≠ s.root := Shape.ne_root_of_notin hmn hms
  have hotr : o.head ≠ t.root := Shape.ne_root_of_notin hon hot
  have hrs : Rep h m.value o.head s := by rw [← hval]; exact ho.rep
  obtain ⟨h1, h2, hset1, hleft1, hnil1, hpar1, hd2, hrep2, hfr2⟩ :=
    adopt_spec hdm hrs ho.nodup hms
  have hdo2 : h2.deref o.head = some ⟨s.root, flo, .nullptr⟩ := by
    rw [hfr2 _ (Ne.symm hne) hos]; exact hdo
  have hts : ∀ p ∈ t.ptrs, p ≠ s.root := by
    intro p hp e
    rcases s.root_null_or_mem with hnl | hmem
    · exact hm.rep.null_notin (by rw [← hnl, ← e]; exact hp)
    · exact hd p hp (e ▸ hmem)
  have hst : ∀ p ∈ s.ptrs, p ≠ t.root := by
    intro p hp e
    rcases t.root_null_or_mem with hnl | hmem
    · exact ho.rep.null_notin (by rw [← hnl, ← e]; exact hp)
    · exact hd _ hmem (e ▸ hp)
  have hrt2 : Rep h2 m.value m.head t :=
    hm.rep.congr (fun p hp => hfr2 p (fun e => hm.head_notin (e ▸ hp)) (hts p hp))
      (fun _ _ => rfl)
  obtain ⟨h3, h4, hset3, hleft3, hnil3, hpar3, hd4, hrep4, hfr4⟩ :=
    adopt_spec hdo2 hrt2 hm.nodup hot
  have hdm4 : h4.deref m.head = some ⟨s.root, flm, .nullptr⟩ := by
    rw [hfr4 _ hne hmt]; exact hd2
  have hrs4 : Rep h4 m.value m.head s :=
    hrep2.congr (fun p hp => hfr4 p (fun e => ho.head_notin (e ▸ hp)) (hst p hp))
      (fun _ _ => rfl)
  have hflm : flm ∉ s.ptrs := hfm flm (right_of_deref hdm)
  have hflo : flo ∉ t.ptrs := hfo flo (right_of_deref hdo)
  refine ⟨h4, ?_, ⟨⟨flm, hdm4, hflm⟩, hrs4, ho.nodup, hms, ho.sorted⟩,
    ⟨⟨flo, hd4, hflo⟩, hrep4, hm.nodup, hot, hm.sorted⟩, ?_, ?_, ?_⟩
  · have hl0 : h.left m.head = some t.root := left_of_deref hdm
    have hl1 : h.left o.head = some s.root := left_of_deref hdo
    simp only [map.swap, hl0, hl1, hset1, hleft1, Option.bind_eq_bind, Option.some_bind]
    by_cases hsn : s.root = .nullptr
    · have e2 := hnil1 hsn
      subst e2
      simp only [ne_eq, hsn, not_true_eq_false, if_false, Option.some_bind]
      rw [hset3, Option.some_bind, hleft3, Option.some_bind]
      by_cases htn : t.root = .nullptr
      · have e4 := hnil3 htn
        subst e4
        simp [htn]
      · simp [htn, hpar3 htn]
    · simp only [ne_eq, hsn, not_false_eq_true, if_true, hpar1 hsn, Option.some_bind, hset3,
        hleft3]
      by_cases htn : t.root = .nullptr
      · have e4 := hnil3 htn
        subst e4
        simp [htn]
      · simp [htn, hpar3 htn]
  · rw [right_of_deref hdm4, right_of_deref hdm]
  · rw [right_of_deref hd4, right_of_deref hdo]
  · intro x hxm hxo hxt hxs
    rw [hfr4 x hxo hxt, hfr2 x hxm hxs]

end bimap_details

/-!
## Swapping two bimaps and the move constructor
-/

open bimap_details

namespace bimap

theorem Abs.core {w : World α β} {b : Nat} {tl : Shape α} {tr : Shape β}
    (ha : Abs w b tl tr) : Core w b tl tr :=
  ⟨ha.left, ha.right, ha.same, ha.size_eq, ha.size_lt, ha.alloc, ha.flip_left, ha.flip_right⟩

theorem Core.abs {w : World α β} {b : Nat} {tl : Shape α} {tr : Shape β}
    (hc : Core w b tl tr) (hl : StrictWeakOrder (w.cmp_left b))
    (hr : StrictWeakOrder (w.cmp_right b)) : Abs w b tl tr :=
  ⟨hl, hr, hc.left, hc.right, hc.same, hc.size_eq, hc.size_lt, hc.alloc, hc.flip_left,
    hc.flip_right⟩

theorem Core.form_left {w : World α β} {b : Nat} {tl : Shape α} {tr : Shape β}
    (hc : Core w b tl tr) {p : Ptr} (hp : p ∈ tl.ptrs) : ∃ i, p = .node i .Left_Tag := by
  obtain ⟨v, hv⟩ := hc.left.rep.value_some_of_mem hp
  obtain ⟨i, hi, -⟩ := World.left_value_some hv
  exact ⟨i, hi⟩

theorem Core.form_right {w : World α β} {b : Nat} {tl : Shape α} {tr : Shape β}
    (hc : Core w b tl tr) {p : Ptr} (hp : p ∈ tr.ptrs) : ∃ i, p = .node i .Right_Tag := by
  obtain ⟨v, hv⟩ := hc.right.rep.value_some_of_mem hp
  obtain ⟨i, hi, -⟩ := World.right_value_some hv
  exact ⟨i, hi⟩

/-- The member `swap` exchanges the trees, the comparators and the sizes of two bimaps that
share no pair node; the cross links of the four heads stay as they were. -/
theorem Core.swap_both {w : World α β} {a b : Nat} {tlA tlB : Shape α} {trA trB : Shape β}
    (hA : Core w a tlA trA) (hB : Core w b tlB trB) (hab : a ≠ b)
    (hdl : ∀ p ∈ tlA.ptrs, p ∉ tlB.ptrs) (hdr : ∀ p ∈ trA.ptrs, p ∉ trB.ptrs) :
    ∃ w1, swap w a b = some w1 ∧ Core w1 a tlB trB ∧ Core w1 b tlA trA ∧
      w1.cmp_left a = w.cmp_left b ∧ w1.cmp_left b = w.cmp_left a ∧
      w1.cmp_right a = w.cmp_right b ∧ w1.cmp_right b = w.cmp_right a ∧
      w1.first = w.first ∧ w1.second = w.second ∧ w1.next = w.next ∧
      w1.heap.right (end_left a) = w.heap.right (end_left a) ∧
      w1.heap.right (end_right a) = w.heap.right (end_right a) ∧
      w1.heap.right (end_left b) = w.heap.right (end_left b) ∧
      w1.heap.right (end_right b) = w.heap.right (end_right b) := by
  have hba : b ≠ a := Ne.symm hab
  -- no head and no right role is a node of a left tree, and conversely
  have hnl : ∀ (c : Nat) (tl : Shape α) (tr : Shape β), Core w c tl tr → ∀ x,
      (∀ i, x ≠ .node i .Left_Tag) → x ∉ tl.ptrs := by
    intro c tl tr hc x hx hm
    obtain ⟨i, hi⟩ := hc.form_left hm
    exact hx i hi
  have hnr : ∀ (c : Nat) (tl : Shape α) (tr : Shape β), Core w c tl tr → ∀ x,
      (∀ i, x ≠ .node i .Right_Tag) → x ∉ tr.ptrs := by
    intro c tl tr hc x hx hm
    obtain ⟨i, hi⟩ := hc.form_right hm
    exact hx i hi
  have hrl : ∀ (c : Nat) (tl : Shape α) (tr : Shape β), Core w c tl tr → ∀ x,
      x ≠ .nullptr → (∀ i, x ≠ .node i .Left_Tag) → x ≠ tl.root :=
    fun c tl tr hc x hx0 hx => Shape.ne_root_of_notin hx0 (hnl c tl tr hc x hx)
  have hrr : ∀ (c : Nat) (tl : Shape α) (tr : Shape β), Core w c tl tr → ∀ x,
      x ≠ .nullptr → (∀ i, x ≠ .node i .Right_Tag) → x ≠ tr.root :=
    fun c tl tr hc x hx0 hx => Shape.ne_root_of_notin hx0 (hnr c tl tr hc x hx)
  -- the left maps
  obtain ⟨h1, hs1, hLa, hLb, hra1, hrb1, hfr1⟩ :=
    map.swap_spec hA.left hB.left rfl (by simp [World.left_map, hab]) hdl
      (hnl b tlB trB hB _ (by simp [World.left_map]))
      (hnl a tlA trA hA _ (by simp [World.left_map]))
      (by
        intro x hx hm
        obtain ⟨i, rfl⟩ := hB.form_left hm
        exact hA.flip_left i _ hx)
      (by
        intro x hx hm
        obtain ⟨i, rfl⟩ := hA.form_left hm
        exact hB.flip_left i _ hx)
  have hfR : ∀ x, (∀ c, x ≠ .head c .Left_Tag) → (∀ i, x ≠ .node i .Left_Tag) →
      x ≠ .nullptr → h1.deref x = w.heap.deref x := by
    intro x hxh hxn hx0
    exact hfr1 x (hxh a) (hxh b) (hrl a tlA trA hA x hx0 hxn) (hrl b tlB trB hB x hx0 hxn)
  have hRa : MapInv (w.right_map a) h1 trA := by
    refine hA.right.transport rfl rfl (hfR _ (by simp [World.right_map])
      (by simp [World.right_map]) (by simp [World.right_map])) ?_ (fun _ _ => rfl)
    intro p hp
    obtain ⟨i, rfl⟩ := hA.form_right hp
    exact hfR _ (by simp) (by simp) (by simp)
  have hRb : MapInv (w.right_map b) h1 trB := by
    refine hB.right.transport rfl rfl (hfR _ (by simp [World.right_map])
      (by simp [World.right_map]) (by simp [World.right_map])) ?_ (fun _ _ => rfl)
    intro p hp
    obtain ⟨i, rfl⟩ := hB.form_right hp
    exact hfR _ (by simp) (by simp) (by simp)
  have hrightR : ∀ c, h1.right (.head c .Right_Tag) = w.heap.right (.head c .Right_Tag) := by
    intro c
    simp only [Heap.right]
    rw [hfR _ (by simp) (by simp) (by simp)]
  -- the right maps
  obtain ⟨h2, hs2, hRa2, hRb2, hra2, hrb2, hfr2⟩ :=
    map.swap_spec hRa hRb rfl (by simp [World.right_map, hab]) hdr
      (hnr b tlB trB hB _ (by simp [World.right_map]))
      (hnr a tlA trA hA _ (by simp [World.right_map]))
      (by
        intro x hx hm
        obtain ⟨i, rfl⟩ := hB.form_right hm
        have := hrightR a
        simp only [World.right_map] at hx
        rw [this] at hx
        exact hA.flip_right i _ hx)
      (by
        intro x hx hm
        obtain ⟨i, rfl⟩ := hA.form_right hm
        have := hrightR b
        simp only [World.right_map] at hx
        rw [this] at hx
        exact hB.flip_right i _ hx)
  have hfL : ∀ x, (∀ c, x ≠ .head c .Right_Tag) → (∀ i, x ≠ .node i .Right_Tag) →
      x ≠ .nullptr → h2.deref x = h1.deref x := by
    intro x hxh hxn hx0
    exact hfr2 x (hxh a) (hxh b) (hrr a tlA trA hA x hx0 hxn) (hrr b tlB trB hB x hx0 hxn)
  have hrightL : ∀ c, h2.right (.head c .Left_Tag) = h1.right (.head c .Left_Tag) := by
    intro c
    simp only [Heap.right]
    rw [hfL _ (by simp) (by simp) (by simp)]
  have hLa2 : MapInv ⟨.head a .Left_Tag, w.cmp_left b, w.left_value⟩ h2 tlB := by
    refine hLa.transport rfl rfl (hfL _ (by simp [World.left_map])
      (by simp [World.left_map]) (by simp [World.left_map])) ?_ (fun _ _ => rfl)
    intro p hp
    obtain ⟨i, rfl⟩ := hB.form_left hp
    exact hfL _ (by simp) (by simp) (by simp)
  have hLb2 : MapInv ⟨.head b .Left_Tag, w.cmp_left a, w.left_value⟩ h2 tlA := by
    refine hLb.transport rfl rfl (hfL _ (by simp [World.left_map])
      (by simp [World.left_map]) (by simp [World.left_map])) ?_ (fun _ _ => rfl)
    intro p hp
    obtain ⟨i, rfl⟩ := hA.form_left hp
    exact hfL _ (by simp) (by simp) (by simp)
  simp only [World.left_map, World.right_map] at hra1 hrb1 hra2 hrb2
  refine ⟨{ w with
      heap := h2
      cmp_left := upd (upd w.cmp_left a (w.cmp_left b)) b (w.cmp_left a)
      cmp_right := upd (upd w.cmp_right a (w.cmp_right b)) b (w.cmp_right a)
      size := upd (upd w.size a (w.size b)) b (w.size a) },
    by simp only [swap, hs1, hs2, Option.bind_eq_bind, Option.some_bind]; rfl, ?_, ?_,
    by simp [upd, hab, World.left_map], by simp [upd, hab, World.left_map],
    by simp [upd, hab, World.right_map], by simp [upd, hab, World.right_map], rfl, rfl, rfl,
    ?_, ?_, ?_, ?_⟩
  · refine ⟨?_, ?_, hB.same, by simp [upd, hab, hB.size_eq], by simp [upd, hab, hB.size_lt],
      hB.alloc, ?_, ?_⟩
    · exact hLa2.transport rfl (by simp [World.left_map, upd, hab]) rfl (fun _ _ => rfl)
        (fun _ _ => rfl)
    · exact hRa2.transport rfl (by simp [World.right_map, upd, hab]) rfl (fun _ _ => rfl)
        (fun _ _ => rfl)
    · intro i t
      show h2.right (.head a .Left_Tag) ≠ _
      rw [hrightL, hra1]
      exact hA.flip_left i t
    · intro i t
      show h2.right (.head a .Right_Tag) ≠ _
      rw [hra2, hrightR]
      exact hA.flip_right i t
  · refine ⟨?_, ?_, hA.same, by simp [upd, hab, hA.size_eq], by simp [upd, hab, hA.size_lt],
      hA.alloc, ?_, ?_⟩
    · exact hLb2.transport rfl (by simp [World.left_map, upd, hab]) rfl (fun _ _ => rfl)
        (fun _ _ => rfl)
    · exact hRb2.transport rfl (by simp [World.right_map, upd, hab]) rfl (fun _ _ => rfl)
        (fun _ _ => rfl)
    · intro i t
      show h2.right (.head b .Left_Tag) ≠ _
      rw [hrightL, hrb1]
      exact hB.flip_left i t
    · intro i t
      show h2.right (.head b .Right_Tag) ≠ _
      rw [hrb2, hrightR]
      exact hB.flip_right i t
  · show h2.right (.head a .Left_Tag) = _
    rw [hrightL, hra1]; rfl
  · show h2.right (.head a .Right_Tag) = _
    rw [hra2, hrightR]; rfl
  · show h2.right (.head b .Left_Tag) = _
    rw [hrightL, hrb1]; rfl
  · show h2.right (.head b .Right_Tag) = _
    rw [hrb2, hrightR]; rfl

end bimap

open bimap_details

namespace bimap

/-- The move constructor hands the trees, the comparators and the size of `src` to the new
bimap `d` and leaves `src` with two empty trees and size 0. -/
theorem move_ctor_spec {w : World α β} {src d : Nat} {tl : Shape α} {tr : Shape β}
    (ha : Abs w src tl tr) (hds : d ≠ src) (cl0 : α → α → Bool) (cr0 : β → β → Bool) :
    ∃ w1, move_ctor w d src cl0 cr0 = some w1 ∧ Core w1 src .nil .nil ∧ Abs w1 d tl tr ∧
      w1.cmp_left d = w.cmp_left src ∧ w1.cmp_right d = w.cmp_right src ∧
      w1.cmp_left src = cl0 ∧ w1.cmp_right src = cr0 ∧
      w1.first = w.first ∧ w1.second = w.second ∧ w1.next = w.next ∧
      w1.heap.right (end_left d) = some .nullptr ∧
      w1.heap.right (end_right d) = some .nullptr ∧
      w1.heap.right (end_left src) = w.heap.right (end_left src) ∧
      w1.heap.right (end_right src) = w.heap.right (end_right src) := by
  have hL : Ptr.head d .Left_Tag ≠ .nullptr := by simp
  have hR : Ptr.head d .Right_Tag ≠ .nullptr := by simp
  have hsd : src ≠ d := Ne.symm hds
  have hdi : ∀ x, (init_members w d cl0 cr0).heap.deref x =
      if x = .head d .Right_Tag then some ⟨.nullptr, .nullptr, .nullptr⟩
      else if x = .head d .Left_Tag then some ⟨.nullptr, .nullptr, .nullptr⟩
      else w.heap.deref x := by
    intro x
    simp only [init_members, deref_store _ _ _ _ hR, deref_store _ _ _ _ hL]
  have hsrc : Abs (init_members w d cl0 cr0) src tl tr := by
    refine (Abs.transfer (init_members w d cl0 cr0) ha ?_ (fun _ _ => rfl) (fun _ _ => rfl)
      (by simp [init_members, upd, hsd]) (by simp [init_members, upd, hsd])
      (by simp [init_members, upd, hsd]) (le_refl _)).1
    intro x hx
    rw [hdi]
    rcases hx with hx | hx | rfl | rfl
    · obtain ⟨i, rfl⟩ := ha.left_form hx
      simp
    · obtain ⟨i, rfl⟩ := ha.right_form hx
      simp
    · simp [end_left, hsd]
    · simp [end_right, hsd]
  have hnew : Core (init_members w d cl0 cr0) d .nil .nil := by
    refine ⟨⟨⟨.nullptr, ?_, by simp [Shape.ptrs]⟩, trivial, by simp [Shape.ptrs],
      by simp [Shape.ptrs], by simp [Shape.keys]⟩,
      ⟨⟨.nullptr, ?_, by simp [Shape.ptrs]⟩, trivial, by simp [Shape.ptrs],
      by simp [Shape.ptrs], by simp [Shape.keys]⟩, by simp [Shape.ptrs],
      by simp [init_members, upd, Shape.size], by simp [init_members, upd, size_mod_pos],
      by simp [Shape.ptrs], ?_, ?_⟩
    · rw [hdi]; simp [World.left_map]
    · rw [hdi]; simp [World.right_map]
    · intro i t
      simp [Heap.right, hdi, end_left]
    · intro i t
      simp [Heap.right, hdi, end_right]
  obtain ⟨w1, hsw, hc1, hc2, hcl1, hcl2, hcr1, hcr2, hf, hs, hn, hr1, hr2, hr3, hr4⟩ :=
    Core.swap_both hsrc.core hnew hsd (by simp [Shape.ptrs]) (by simp [Shape.ptrs])
  have hcl : w1.cmp_left d = w.cmp_left src := by
    rw [hcl2]; simp [init_members, upd, hsd]
  have hcr : w1.cmp_right d = w.cmp_right src := by
    rw [hcr2]; simp [init_members, upd, hsd]
  refine ⟨w1, hsw, hc1, hc2.abs (by rw [hcl]; exact ha.swo_left)
    (by rw [hcr]; exact ha.swo_right), hcl, hcr, by rw [hcl1]; simp [init_members, upd],
    by rw [hcr1]; simp [init_members, upd], hf, hs, hn, ?_, ?_, ?_, ?_⟩
  · rw [hr3]; simp [Heap.right, hdi, end_left]
  · rw [hr4]; simp [Heap.right, hdi, end_right]
  · rw [hr1]; simp [Heap.right, hdi, end_left, hsd]
  · rw [hr2]; simp [Heap.right, hdi, end_right, hsd]

/-- C8: move-constructing `d` from a valid bimap `src` leaves `src` empty (`size()` is 0 and
`begin_left()` is `end_left()`) and gives `d` the size `src` had, with exactly the pairs
`src` held: `d.at_left(l)` is `r` and `d.at_right(r)` is `l` for each of them, and stepping
from `d.begin_left()` reaches `d.end_left()` after exactly `d.size()` steps. -/
theorem C8_move_construct (w : World α β) (src d : Nat) (hds : d ≠ src) (hv : Valid w src)
    (cl0 : α → α → Bool) (cr0 : β → β → Bool) (fuel : Nat) (hf : size w src < fuel) :
    ∃ w1, move_ctor w d src cl0 cr0 = some w1 ∧
      size w1 src = 0 ∧ begin_left w1 fuel src = some (end_left src) ∧
      size w1 d = size w src ∧ Valid w1 d ∧
      (∀ l r, Stored w1 d l r ↔ Stored w src l r) ∧
      (∀ l r, Stored w src l r → at_left w1 fuel d l = some (.value r) ∧
        at_right w1 fuel d r = some (.value l) ∧
        equiv (w1.cmp_right d) r r = true ∧ equiv (w1.cmp_left d) l l = true) ∧
      (∃ first, begin_left w1 fuel d = some first ∧
        incr_n w1.heap fuel (size w1 d) first = some (end_left d) ∧
        ∀ k, k < size w1 d → ∃ p x, incr_n w1.heap fuel k first = some p ∧
          p ≠ end_left d ∧ w1.left_value p = some x) := by
  obtain ⟨tl, tr, ha⟩ := hv
  obtain ⟨w1, hmv, hsrc, hd, -⟩ := move_ctor_spec ha hds cl0 cr0
  have hsz : w1.size d = w.size src := by rw [hd.size_eq, ha.size_eq]
  have hfd : w1.size d < fuel := by rw [hsz]; exact hf
  have hst : ∀ l r, Stored w1 d l r ↔ Stored w src l r := by
    intro l r
    rw [hd.stored_iff, ha.stored_iff]
  refine ⟨w1, hmv, ?_, ?_, hsz, ⟨tl, tr, hd⟩, hst, ?_, ?_⟩
  · rw [size, hsrc.size_eq]; rfl
  · rw [begin_left, map.begin_spec hsrc.left fuel (Nat.zero_le _)]; rfl
  · intro l r hs
    have hs1 := (hst l r).2 hs
    exact ⟨hd.at_left_of_stored hs1 l (equiv_self hd.swo_left l) fuel hfd,
      hd.at_right_of_stored hs1 r (equiv_self hd.swo_right r) fuel hfd,
      equiv_self hd.swo_right r, equiv_self hd.swo_left l⟩
  · obtain ⟨first, h1, h2, h3, -⟩ :=
      map.traverse_spec hd.left fuel (by rw [← hd.size_eq]; exact hfd)
    rw [← hd.size_eq] at h2 h3
    exact ⟨first, h1, h2, h3⟩

theorem C8_move_construct_witness :
    ∃ w1, move_ctor demo_nat 1 0 nat_less nat_less = some w1 ∧
      size w1 0 = 0 ∧ begin_left w1 8 0 = some (end_left 0) ∧
      size w1 1 = size demo_nat 0 ∧ Valid w1 1 ∧
      (∀ l r, Stored w1 1 l r ↔ Stored demo_nat 0 l r) ∧
      (∀ l r, Stored demo_nat 0 l r → at_left w1 8 1 l = some (.value r) ∧
        at_right w1 8 1 r = some (.value l) ∧
        equiv (w1.cmp_right 1) r r = true ∧ equiv (w1.cmp_left 1) l l = true) ∧
      (∃ first, begin_left w1 8 1 = some first ∧
        incr_n w1.heap 8 (size w1 1) first = some (end_left 1) ∧
        ∀ k, k < size w1 1 → ∃ p x, incr_n w1.heap 8 k first = some p ∧
          p ≠ end_left 1 ∧ w1.left_value p = some x) :=
  C8_move_construct demo_nat 0 1 (by decide) demo_nat_spec.2.1 nat_less nat_less 8
    (by decide)

end bimap

/-!
## Move assignment
-/

open bimap_details

namespace bimap

theorem Abs.nil_of_size_zero {w : World α β} {b : Nat} {tl : Shape α} {tr : Shape β}
    (ha : Abs w b tl tr) (h0 : w.size b = 0) : tl = .nil ∧ tr = .nil := by
  have h1 : tl.size = 0 := by rw [← ha.size_eq]; exact h0
  have h2 : tr.size = 0 := by rw [ha.size_right]; exact h1
  constructor
  · cases tl with
    | nil => rfl
    | node l p k r => simp only [Shape.size] at h1; omega
  · cases tr with
    | nil => rfl
    | node l p k r => simp only [Shape.size] at h2; omega

/-- Move assignment from an empty source returns at once and changes nothing. -/
theorem move_assign_of_empty_source (w : World α β) (fuel dst src : Nat)
    (h0 : empty w src = true) : move_assign w fuel dst src = some w := by
  simp [move_assign, h0]

/-- On an empty bimap `clear()` erases nothing. -/
theorem Abs.clear_nil {w : World α β} {b : Nat} (ha : Abs w b .nil .nil) (fuel : Nat)
    (hf : 0 < fuel) : clear w fuel b = some w := by
  have hb : begin_left w fuel b = some (end_left b) := by
    rw [begin_left, map.begin_spec ha.left fuel (Nat.zero_le _)]; rfl
  obtain ⟨n, rfl⟩ : ∃ n, fuel = n + 1 := ⟨fuel - 1, by omega⟩
  simp [clear, hb, erase_left_range, erase_left_loop]

/-- What the move assignment `dst = std::move(src)` does to the memory when `dst` is empty and
`src` is not: both roots of `src` are hung below the heads of `dst` and cleared in the heads
of `src`; no pair node is written, and `_size` is written for `dst` only. -/
theorem move_assign_spec {w : World α β} {dst src : Nat} {tl : Shape α} {tr : Shape β}
    (hs : Abs w src tl tr) (hd : Abs w dst .nil .nil) (hne : dst ≠ src)
    (hpos : w.size src ≠ 0) (fuel : Nat) (hf : 0 < fuel) :
    ∃ w1, move_assign w fuel dst src = some w1 ∧
      w1.size dst = w.size src ∧ w1.size src = w.size src ∧
      w1.first = w.first ∧ w1.second = w.second ∧
      (∃ fl, w1.heap.deref (end_left dst) = some ⟨tl.root, fl, .nullptr⟩) ∧
      (∃ fl, w1.heap.deref (end_right dst) = some ⟨tr.root, fl, .nullptr⟩) ∧
      (∃ fl, w1.heap.deref (end_left src) = some ⟨.nullptr, fl, .nullptr⟩ ∧
        ∀ i t, fl ≠ .node i t) ∧
      (∃ fl, w1.heap.deref (end_right src) = some ⟨.nullptr, fl, .nullptr⟩ ∧
        ∀ i t, fl ≠ .node i t) ∧
      ∀ i t, w1.heap.deref (.node i t) = w.heap.deref (.node i t) := by
  obtain ⟨fdl, hdL, -⟩ := hd.left.head
  obtain ⟨fdr, hdR, -⟩ := hd.right.head
  obtain ⟨fsl, hsL, -⟩ := hs.left.head
  obtain ⟨fsr, hsR, -⟩ := hs.right.head
  simp only [World.left_map, World.right_map, Shape.root_nil] at hdL hdR hsL hsR
  have hfsl : ∀ i t, fsl ≠ .node i t := by
    intro i t e
    exact hs.flip_left i t (by rw [end_left, right_of_deref hsL, e])
  have hfsr : ∀ i t, fsr ≠ .node i t := by
    intro i t e
    exact hs.flip_right i t (by rw [end_right, right_of_deref hsR, e])
  have nDL : Ptr.head dst .Left_Tag ≠ .nullptr := by simp
  have nDR : Ptr.head dst .Right_Tag ≠ .nullptr := by simp
  have nSL : Ptr.head src .Left_Tag ≠ .nullptr := by simp
  have nSR : Ptr.head src .Right_Tag ≠ .nullptr := by simp
  -- the left maps
  let h1 : Heap := w.heap.store (.head dst .Left_Tag) ⟨tl.root, fdl, .nullptr⟩
  have e1 : w.heap.set_left (.head dst .Left_Tag) tl.root = some h1 := set_left_of_deref hdL _
  have d1 : h1.deref (.head src .Left_Tag) = some ⟨tl.root, fsl, .nullptr⟩ := by
    simp only [h1]
    rw [deref_store _ _ _ _ nDL, if_neg (by simp [Ne.symm hne])]
    exact hsL
  let h3 : Heap := h1.store (.head src .Left_Tag) ⟨.nullptr, fsl, .nullptr⟩
  have e3 : h1.set_left (.head src .Left_Tag) .nullptr = some h3 := set_left_of_deref d1 _
  have hL : map.move_assign ⟨.head dst .Left_Tag, w.cmp_left dst, w.left_value⟩
      ⟨.head src .Left_Tag, w.cmp_left src, w.left_value⟩ w.heap =
        some (h3, w.cmp_left src) := by
    simp only [map.move_assign, left_of_deref hsL, e1, e3, Option.bind_eq_bind,
      Option.some_bind]
  have d3 : ∀ x, h3.deref x =
      if x = .head src .Left_Tag then some ⟨.nullptr, fsl, .nullptr⟩
      else if x = .head dst .Left_Tag then some ⟨tl.root, fdl, .nullptr⟩
      else w.heap.deref x := by
    intro x
    simp only [h3, h1, deref_store _ _ _ _ nDL, deref_store _ _ _ _ nSL]
  -- the right maps
  have d3R : h3.deref (.head src .Right_Tag) = some ⟨tr.root, fsr, .nullptr⟩ := by
    rw [d3]; simpa using hsR
  have d3D : h3.deref (.head dst .Right_Tag) = some ⟨.nullptr, fdr, .nullptr⟩ := by
    rw [d3]; simpa using hdR
  let h4 : Heap := h3.store (.head dst .Right_Tag) ⟨tr.root, fdr, .nullptr⟩
  have e4 : h3.set_left (.head dst .Right_Tag) tr.root = some h4 := set_left_of_deref d3D _
  have d4 : h4.deref (.head src .Right_Tag) = some ⟨tr.root, fsr, .nullptr⟩ := by
    simp only [h4]
    rw [deref_store _ _ _ _ nDR, if_neg (by simp [Ne.symm hne])]
    exact d3R
  let h5 : Heap := h4.store (.head src .Right_Tag) ⟨.nullptr, fsr, .nullptr⟩
  have e5 : h4.set_left (.head src .Right_Tag) .nullptr = some h5 := set_left_of_deref d4 _
  have hR : map.move_assign ⟨.head dst .Right_Tag, w.cmp_right dst, w.right_value⟩
      ⟨.head src .Right_Tag, w.cmp_right src, w.right_value⟩ h3 =
        some (h5, w.cmp_right src) := by
    simp only [map.move_assign, left_of_deref d3R, e4, e5, Option.bind_eq_bind,
      Option.some_bind]
  have d5 : ∀ x, h5.deref x =
      if x = .head src .Right_Tag then some ⟨.nullptr, fsr, .nullptr⟩
      else if x = .head dst .Right_Tag then some ⟨tr.root, fdr, .nullptr⟩
      else h3.deref x := by
    intro x
    simp only [h5, h4, deref_store _ _ _ _ nDR, deref_store _ _ _ _ nSR]
  have hemp : empty w src = false := by simp [empty, hpos]
  refine ⟨{ w with
      heap := h5
      size := upd w.size dst (w.size src)
      cmp_left := upd w.cmp_left dst (w.cmp_left src)
      cmp_right := upd w.cmp_right dst (w.cmp_right src) }, ?_, by simp [upd],
    by simp [upd, Ne.symm hne], rfl, rfl, ⟨fdl, ?_⟩, ⟨fdr, ?_⟩, ⟨fsl, ?_, hfsl⟩,
    ⟨fsr, ?_, hfsr⟩, ?_⟩
  · have hLw : map.move_assign
        (World.left_map { w with size := upd w.size dst (size w src) } dst)
        (World.left_map { w with size := upd w.size dst (size w src) } src) w.heap =
          some (h3, w.cmp_left src) := hL
    simp only [move_assign, hne, hemp, hd.clear_nil fuel hf, false_or, Bool.false_eq_true,
      if_false, Option.bind_eq_bind, Option.some_bind, hLw]
    show Option.bind (map.move_assign
      ⟨.head dst .Right_Tag, w.cmp_right dst, w.right_value⟩
      ⟨.head src .Right_Tag, w.cmp_right src, w.right_value⟩ h3) _ = _
    rw [hR]
    rfl
  · show h5.deref _ = _
    rw [d5, d3]; simp [end_left, hne]
  · show h5.deref _ = _
    rw [d5]; simp [end_right, hne]
  · show h5.deref _ = _
    rw [d5, d3]; simp [end_left]
  · show h5.deref _ = _
    rw [d5]; simp [end_right]
  · intro i t
    show h5.deref _ = _
    rw [d5, d3]; simp

end bimap

open bimap_details

namespace bimap

theorem demo_pair_spec : Valid demo_pair 0 ∧ Valid demo_pair 1 ∧ size demo_pair 0 = 3 ∧
    size demo_pair 1 = 0 := by
  obtain ⟨w1, hc, ha, -, -, -, -, -, hrest, -, -, hs1⟩ :=
    ctor_spec demo_nat 1 nat_less nat_less swo_nat_less swo_nat_less
  have : demo_pair = w1 := by rw [demo_pair, hc]; rfl
  rw [this]
  obtain ⟨tl, tr, h0⟩ := demo_nat_spec.2.1
  have h01 : (0 : Nat) ≠ 1 := by decide
  refine ⟨⟨tl, tr, (ctor_other swo_nat_less swo_nat_less hc h01 h0).1⟩, ⟨_, _, ha⟩, ?_, hs1⟩
  rw [size, (hrest 0 h01).1]
  exact demo_nat_spec.2.2.2.1

/-- Stepping through a list of positions in which `operator++` leads from every position to
the next one. -/
theorem incr_n_of_next {h : Heap} {fuel : Nat} {xs : List Ptr} {d : Ptr} (hn : xs.Nodup)
    (hstep : ∀ p ∈ xs, iterator_incr h fuel p = some (nextIn xs p d)) (n j : Nat)
    (hj : j + n ≤ xs.length) : incr_n h fuel n (xs.getD j d) = some (xs.getD (j + n) d) := by
  induction n generalizing j with
  | zero => rfl
  | succ n ih =>
    have hjl : j < xs.length := by omega
    rw [incr_n, hstep _ (getD_mem_of_lt _ _ _ hjl), nextIn_getD _ hn _ _ hjl,
      Option.some_bind, ih (j + 1) (by omega)]
    congr 2
    omega

/-- C9 (refuted by the code): after the move assignment `dst = std::move(src)` of a non-empty
`src` into an empty `dst`, the trees of `src` are gone (`src.begin_left()` is
`src.end_left()`) and `dst.size()` is the size `src` had, but `src.size()` still is that
size, not 0, and `src.empty()` is false: `_size` of the source is never reset. -/
theorem C9_move_assign_keeps_source_size (w : World α β) (dst src : Nat) (hne : dst ≠ src)
    (hs : Valid w src) (hd : Valid w dst) (hpos : size w src ≠ 0) (hempty : size w dst = 0)
    (fuel : Nat) (hf : 0 < fuel) :
    ∃ w1, move_assign w fuel dst src = some w1 ∧ size w1 src = size w src ∧
      size w1 src ≠ 0 ∧ empty w1 src = false ∧
      begin_left w1 fuel src = some (end_left src) ∧ size w1 dst = size w src := by
  obtain ⟨tl, tr, has⟩ := hs
  obtain ⟨tl0, tr0, had⟩ := hd
  obtain ⟨rfl, rfl⟩ := had.nil_of_size_zero hempty
  obtain ⟨w1, hmv, hsd, hss, -, -, -, -, ⟨fl, hsl, -⟩, -, -⟩ :=
    move_assign_spec has had hne hpos fuel hf
  simp only [size] at hpos ⊢
  refine ⟨w1, hmv, hss, by rw [hss]; exact hpos, by simp [empty, hss, hpos], ?_, hsd⟩
  simp only [end_left] at hsl
  simp [begin_left, map.begin_, World.left_map, left_of_deref hsl, end_left]

theorem C9_move_assign_keeps_source_size_witness :
    ∃ w1, move_assign demo_pair 8 1 0 = some w1 ∧ size w1 0 = size demo_pair 0 ∧
      size w1 0 ≠ 0 ∧ empty w1 0 = false ∧
      begin_left w1 8 0 = some (end_left 0) ∧ size w1 1 = size demo_pair 0 :=
  C9_move_assign_keeps_source_size demo_pair 1 0 (by decide) demo_pair_spec.1
    demo_pair_spec.2.1 (by rw [demo_pair_spec.2.2.1]; decide) demo_pair_spec.2.2.2 8
    (by decide)

/-- C10 (refuted by the code): after the move assignment `dst = std::move(src)` of a
non-empty `src` into an empty `dst`, the root of the left tree of `dst` still has the left
head of `src` as its parent, and the root of the right tree the right head of `src`; stepping
from `dst.begin_left()` with `++` is at `src.end_left()` after `dst.size()` steps and at
`dst.end_left()` after none of the first `dst.size()` steps. -/
theorem C10_move_assign_keeps_root_parent (w : World α β) (dst src : Nat) (hne : dst ≠ src)
    (hs : Valid w src) (hd : Valid w dst) (hpos : size w src ≠ 0) (hempty : size w dst = 0)
    (fuel : Nat) (hf : size w src < fuel) :
    ∃ w1 rl rr first, move_assign w fuel dst src = some w1 ∧
      w1.heap.left (end_left dst) = some rl ∧ rl ≠ .nullptr ∧
      w1.heap.parent rl = some (end_left src) ∧
      w1.heap.left (end_right dst) = some rr ∧ rr ≠ .nullptr ∧
      w1.heap.parent rr = some (end_right src) ∧
      end_left src ≠ end_left dst ∧ end_right src ≠ end_right dst ∧
      begin_left w1 fuel dst = some first ∧
      incr_n w1.heap fuel (size w1 dst) first = some (end_left src) ∧
      ∀ k, k ≤ size w1 dst → incr_n w1.heap fuel k first ≠ some (end_left dst) := by
  obtain ⟨tl, tr, has⟩ := hs
  obtain ⟨tl0, tr0, had⟩ := hd
  obtain ⟨rfl, rfl⟩ := had.nil_of_size_zero hempty
  simp only [size] at hpos hf ⊢
  obtain ⟨w1, hmv, hsd, hss, hfirst, hsecond, ⟨fdl, hdl⟩, ⟨fdr, hdr⟩, ⟨fsl, hsl, hfsl⟩, -,
    hnode⟩ := move_assign_spec has had hne hpos fuel (by omega)
  have hsize : tl.size ≠ 0 := by rw [← has.size_eq]; exact hpos
  have hsizer : tr.size ≠ 0 := by rw [has.size_right]; exact hsize
  -- both trees are untouched, so their roots still name the heads of `src` as parents
  have hrepL : Rep w1.heap w1.left_value (end_left src) tl := by
    refine has.left.rep.congr ?_ ?_
    · intro p hp
      obtain ⟨i, rfl⟩ := has.left_form hp
      exact hnode i _
    · intro p hp
      obtain ⟨i, rfl⟩ := has.left_form hp
      simp [World.left_value, World.left_map, hfirst]
  have hrepR : Rep w1.heap w1.right_value (end_right src) tr := by
    refine has.right.rep.congr ?_ ?_
    · intro p hp
      obtain ⟨i, rfl⟩ := has.right_form hp
      exact hnode i _
    · intro p hp
      obtain ⟨i, rfl⟩ := has.right_form hp
      simp [World.right_value, World.right_map, hsecond]
  have hne1 : end_left src ≠ end_left dst := by simp [end_left, Ne.symm hne]
  have hne2 : end_right src ≠ end_right dst := by simp [end_right, Ne.symm hne]
  cases tl with
  | nil => exact absurd rfl hsize
  | node l q k r =>
    cases tr with
    | nil => exact absurd rfl hsizer
    | node l2 q2 k2 r2 =>
      have hq : q ≠ .nullptr := deref_ne_null hrepL.1
      have hq2 : q2 ≠ .nullptr := deref_ne_null hrepR.1
      obtain ⟨i, hqi⟩ := has.left_form (Shape.root_mem_ptrs l q k r)
      have hlen : (Shape.node l q k r).ptrs.length = w1.size dst := by
        rw [hsd, has.size_eq, Shape.size_eq_length]
      have hbegin : begin_left w1 fuel dst =
          some ((Shape.node l q k r).ptrs.getD 0 (end_left src)) := by
        have := descend_left_spec (.node l q k r) (end_left src) hrepL (by simp) fuel
          (by rw [← has.size_eq]; omega) (end_left src)
        simp only [Shape.root_node] at this hdl
        have hl := left_of_deref hdl
        simp only [end_left] at hl
        simp only [begin_left, map.begin_, World.left_map, hl, Option.bind_eq_bind,
          Option.some_bind, hq, if_false, this]
        cases (Shape.node l q k r).ptrs <;> rfl
      have hc : climb_from_right w1.heap 1 (Shape.node l q k r).root (end_left src) =
          some ((Shape.node l q k r).root, end_left src) := by
        have hfq : fsl ≠ q := by
          simp only [Shape.root_node] at hqi
          rw [hqi]; exact hfsl i _
        simp only [end_left] at hsl
        simp [climb_from_right, end_left, right_of_deref hsl, hfq]
      have hstep : ∀ p ∈ (Shape.node l q k r).ptrs, iterator_incr w1.heap fuel p =
          some (nextIn (Shape.node l q k r).ptrs p (end_left src)) := by
        intro p hp
        exact incr_spec_aux _ (end_left src) hrepL has.left.nodup (end_left src) _ 1 hc
          (by simp [end_left]) fuel (by rw [← has.size_eq]; omega) p hp
      have hpos_k : ∀ k1, k1 ≤ w1.size dst →
          incr_n w1.heap fuel k1 ((Shape.node l q k r).ptrs.getD 0 (end_left src)) =
            some ((Shape.node l q k r).ptrs.getD k1 (end_left src)) := by
        intro k1 hk1
        have := incr_n_of_next has.left.nodup hstep k1 0 (by omega)
        rw [Nat.zero_add] at this
        exact this
      refine ⟨w1, q, q2, _, hmv, left_of_deref hdl, hq, parent_of_deref hrepL.1,
        left_of_deref hdr, hq2, parent_of_deref hrepR.1, hne1, hne2, hbegin, ?_, ?_⟩
      · rw [hpos_k _ (le_refl _), List.getD_eq_default _ _ (by omega)]
      · intro k1 hk1
        rw [hpos_k k1 hk1]
        intro e
        simp only [Option.some.injEq] at e
        rcases Nat.lt_or_ge k1 (Shape.node l q k r).ptrs.length with hlt | hge
        · have hm := getD_mem_of_lt (Shape.node l q k r).ptrs (end_left src) k1 hlt
          rw [e] at hm
          obtain ⟨j, hj⟩ := has.left_form hm
          simp [end_left] at hj
        · rw [List.getD_eq_default _ _ hge] at e
          exact hne1 e

theorem C10_move_assign_keeps_root_parent_witness :
    ∃ w1 rl rr first, move_assign demo_pair 8 1 0 = some w1 ∧
      w1.heap.left (end_left 1) = some rl ∧ rl ≠ .nullptr ∧
      w1.heap.parent rl = some (end_left 0) ∧
      w1.heap.left (end_right 1) = some rr ∧ rr ≠ .nullptr ∧
      w1.heap.parent rr = some (end_right 0) ∧
      end_left 0 ≠ end_left 1 ∧ end_right 0 ≠ end_right 1 ∧
      begin_left w1 8 1 = some first ∧
      incr_n w1.heap 8 (size w1 1) first = some (end_left 0) ∧
      ∀ k, k ≤ size w1 1 → incr_n w1.heap 8 k first ≠ some (end_left 1) :=
  C10_move_assign_keeps_root_parent demo_pair 1 0 (by decide) demo_pair_spec.1
    demo_pair_spec.2.1 (by rw [demo_pair_spec.2.2.1]; decide) demo_pair_spec.2.2.2 8
    (by rw [demo_pair_spec.2.2.1]; decide)

end bimap

/-!
## Erase by key
-/

open bimap_details

namespace bimap

/-- The pair whose node was erased is stored no longer. -/
theorem Erased.gone {w w3 : World α β} {b i : Nat} {tl : Shape α} {tr : Shape β}
    (ha : Abs w b tl tr) (he : Erased w w3 b i tl tr) {l : α} {r : β}
    (hl : (Ptr.node i .Left_Tag, l) ∈ tl.toList) : ¬Stored w3 b l r := by
  intro hs
  obtain ⟨j, hj, hjl, -⟩ := (Erased.stored_rest ha he l r).1 hs
  exact hj (ha.left_unique hjl hl (equiv_self ha.swo_left l)).1

/-- C15: on a valid bimap `erase_left(k)` returns false and leaves the whole memory as it was
(same size, same stored pairs, same tree links) when no stored pair has a left value
equivalent to `k`; it returns true exactly when some stored pair has one, and then that pair is
removed and `size()` is one less.  Symmetrically for `erase_right(k)`. -/
theorem C15_erase_by_key_reports_removal (w : World α β) (b : Nat) (hv : Valid w b)
    (fuel : Nat) (hf : size w b < fuel) :
    (∀ k, ∃ w1 res, erase_left w fuel b k = some (w1, res) ∧
      (res = false ↔ ∀ l r, Stored w b l r → equiv (w.cmp_left b) k l = false) ∧
      (res = false → w1 = w) ∧
      (res = true → size w1 b + 1 = size w b ∧
        ∃ l r, Stored w b l r ∧ equiv (w.cmp_left b) k l = true ∧ ¬Stored w1 b l r)) ∧
    (∀ k, ∃ w1 res, erase_right w fuel b k = some (w1, res) ∧
      (res = false ↔ ∀ l r, Stored w b l r → equiv (w.cmp_right b) k r = false) ∧
      (res = false → w1 = w) ∧
      (res = true → size w1 b + 1 = size w b ∧
        ∃ l r, Stored w b l r ∧ equiv (w.cmp_right b) k r = true ∧ ¬Stored w1 b l r)) := by
  obtain ⟨tl, tr, ha⟩ := hv
  simp only [size] at hf ⊢
  constructor
  · intro k
    rcases ha.erase_left_spec k fuel hf with ⟨hno, hres⟩ | ⟨i, k1, w3, hk, hek, hres, heff⟩
    · refine ⟨w, false, hres, ⟨fun _ l r hs => ?_, fun _ => rfl⟩, fun _ => rfl,
        fun h => absurd h (by simp)⟩
      exact hno l ((ha.mem_keys_left_iff l).2 ⟨r, hs⟩)
    · obtain ⟨j, r1, hj, hr1⟩ := ha.exists_right hk
      simp only [Ptr.node.injEq, and_true] at hj
      subst hj
      have hs : Stored w b k1 r1 := (ha.stored_iff k1 r1).2 ⟨i, hk, hr1⟩
      refine ⟨w3, true, hres, ⟨fun h => absurd h (by simp), fun h => ?_⟩,
        fun h => absurd h (by simp), fun _ => ⟨?_, k1, r1, hs, hek, Erased.gone ha heff hk⟩⟩
      · have := h k1 r1 hs
        rw [hek] at this
        exact absurd this (by simp)
      · rw [heff.size_eq]
        have := heff.size_pos
        simp only [upd, if_true]
        omega
  · intro k
    rcases ha.erase_right_spec k fuel hf with ⟨hno, hres⟩ | ⟨i, k1, w3, hk, hek, hres, heff⟩
    · refine ⟨w, false, hres, ⟨fun _ l r hs => ?_, fun _ => rfl⟩, fun _ => rfl,
        fun h => absurd h (by simp)⟩
      exact hno r ((ha.mem_keys_right_iff r).2 ⟨l, hs⟩)
    · obtain ⟨j, l1, hj, hl1⟩ := ha.exists_left hk
      simp only [Ptr.node.injEq, and_true] at hj
      subst hj
      have hs : Stored w b l1 k1 := (ha.stored_iff l1 k1).2 ⟨i, hl1, hk⟩
      refine ⟨w3, true, hres, ⟨fun h => absurd h (by simp), fun h => ?_⟩,
        fun h => absurd h (by simp), fun _ => ⟨?_, l1, k1, hs, hek, Erased.gone ha heff hl1⟩⟩
      · have := h l1 k1 hs
        rw [hek] at this
        exact absurd this (by simp)
      · rw [heff.size_eq]
        have := heff.size_pos
        simp only [upd, if_true]
        omega

theorem C15_erase_by_key_reports_removal_witness :
    (∀ k, ∃ w1 res, erase_left demo_nat 8 0 k = some (w1, res) ∧
      (res = false ↔ ∀ l r, Stored demo_nat 0 l r → equiv (demo_nat.cmp_left 0) k l = false) ∧
      (res = false → w1 = demo_nat) ∧
      (res = true → size w1 0 + 1 = size demo_nat 0 ∧
        ∃ l r, Stored demo_nat 0 l r ∧ equiv (demo_nat.cmp_left 0) k l = true ∧
          ¬Stored w1 0 l r)) ∧
    (∀ k, ∃ w1 res, erase_right demo_nat 8 0 k = some (w1, res) ∧
      (res = false ↔ ∀ l r, Stored demo_nat 0 l r → equiv (demo_nat.cmp_right 0) k r = false) ∧
      (res = false → w1 = demo_nat) ∧
      (res = true → size w1 0 + 1 = size demo_nat 0 ∧
        ∃ l r, Stored demo_nat 0 l r ∧ equiv (demo_nat.cmp_right 0) k r = true ∧
          ¬Stored w1 0 l r)) :=
  C15_erase_by_key_reports_removal demo_nat 0 demo_nat_spec.2.1 8 (by decide)

end bimap

/-!
## Flipping an end position; copy assignment from an empty source
-/

open bimap_details

namespace bimap

/-- With the heads cross-linked, flipping an end position gives the end position of the other
side. -/
theorem Linked.flip_end {w : World α β} {b : Nat} (hv : Valid w b) (hl : Linked w b) :
    flip w.heap .Left_Tag (end_left b) = some (end_right b) ∧
      flip w.heap .Right_Tag (end_right b) = some (end_left b) := by
  obtain ⟨tl, tr, ha⟩ := hv
  obtain ⟨fl, hL, -⟩ := ha.left.head
  obtain ⟨fr, hR, -⟩ := ha.right.head
  simp only [World.left_map, World.right_map] at hL hR
  have h1 := hl.1
  have h2 := hl.2
  simp only [end_left, end_right] at h1 h2 ⊢
  constructor
  · simp [flip, parent_of_deref hL, h1]
  · simp [flip, parent_of_deref hR, h2]

/-- C16 (refuted by the code): the move constructor never calls `link_heads()`, so in a
move-constructed bimap `d` both heads keep the null `right` link they were initialised with:
`d.end_left().flip()` and `d.end_right().flip()` are null positions, not `d.end_right()` and
`d.end_left()`. -/
theorem C16_move_constructed_end_flip (w : World α β) (src d : Nat) (hds : d ≠ src)
    (hv : Valid w src) (cl0 : α → α → Bool) (cr0 : β → β → Bool) :
    ∃ w1, move_ctor w d src cl0 cr0 = some w1 ∧
      flip w1.heap .Left_Tag (end_left d) = some .nullptr ∧
      flip w1.heap .Right_Tag (end_right d) = some .nullptr ∧
      flip w1.heap .Left_Tag (end_left d) ≠ some (end_right d) ∧
      flip w1.heap .Right_Tag (end_right d) ≠ some (end_left d) := by
  obtain ⟨tl, tr, ha⟩ := hv
  obtain ⟨w1, hmv, -, hd, -, -, -, -, -, -, -, hrl, hrr, -, -⟩ :=
    move_ctor_spec ha hds cl0 cr0
  obtain ⟨fl, hL, -⟩ := hd.left.head
  obtain ⟨fr, hR, -⟩ := hd.right.head
  simp only [World.left_map, World.right_map] at hL hR
  simp only [end_left, end_right] at hrl hrr ⊢
  have e1 : flip w1.heap .Left_Tag (.head d .Left_Tag) = some .nullptr := by
    simp [flip, parent_of_deref hL, hrl]
  have e2 : flip w1.heap .Right_Tag (.head d .Right_Tag) = some .nullptr := by
    simp [flip, parent_of_deref hR, hrr]
  exact ⟨w1, hmv, e1, e2, by rw [e1]; simp, by rw [e2]; simp⟩

theorem C16_move_constructed_end_flip_witness :
    ∃ w1, move_ctor demo_nat 1 0 nat_less nat_less = some w1 ∧
      flip w1.heap .Left_Tag (end_left 1) = some .nullptr ∧
      flip w1.heap .Right_Tag (end_right 1) = some .nullptr ∧
      flip w1.heap .Left_Tag (end_left 1) ≠ some (end_right 1) ∧
      flip w1.heap .Right_Tag (end_right 1) ≠ some (end_left 1) :=
  C16_move_constructed_end_flip demo_nat 0 1 (by decide) demo_nat_spec.2.1 nat_less nat_less

/-- C11 (refuted by the code): copy assignment `a = b` from an empty `b` returns at once and
leaves the whole memory as it was, so a non-empty `a` keeps its size and its pairs:
`a.size() == b.size()` fails and `a == b` is false. -/
theorem C11_copy_assign_from_empty (w : World α β) (a b tmp fuel : Nat)
    (hb : size w b = 0) (ha : size w a ≠ 0) :
    ∃ w1, copy_assign w fuel a b tmp = some w1 ∧ w1 = w ∧ size w1 a ≠ size w1 b ∧
      eq w1 fuel a b = some false := by
  have he : empty w b = true := by simp only [size] at hb; simp [empty, hb]
  refine ⟨w, by simp [copy_assign, he], rfl, by rw [hb]; exact ha, ?_⟩
  have hne : size w a ≠ size w b := by rw [hb]; exact ha
  simp [eq, hne]

theorem C11_copy_assign_from_empty_witness :
    ∃ w1, copy_assign demo_pair 8 0 1 2 = some w1 ∧ w1 = demo_pair ∧
      size w1 0 ≠ size w1 1 ∧ eq w1 8 0 1 = some false :=
  C11_copy_assign_from_empty demo_pair 0 1 2 8 demo_pair_spec.2.2.2
    (by rw [demo_pair_spec.2.2.1]; decide)

end bimap

/-!
## `at_right_or_default`
-/

open bimap_details

namespace bimap

theorem Abs.mem_erase_left_keys {w : World α β} {b : Nat} {tl : Shape α} {tr : Shape β}
    (ha : Abs w b tl tr) {i : Nat} {k : α} (hk : k ∈ (tl.erase (.node i .Left_Tag)).keys) :
    ∃ j, j ≠ i ∧ (Ptr.node j .Left_Tag, k) ∈ tl.toList := by
  obtain ⟨p, hp⟩ := Shape.exists_ptr_of_mem_keys hk
  rw [Shape.mem_erase_toList _ _ ha.left.nodup] at hp
  obtain ⟨j, rfl⟩ := ha.left_form (Shape.mem_ptrs_of_mem_toList hp.1)
  refine ⟨j, ?_, hp.1⟩
  rintro rfl
  exact hp.2 rfl

/-- On a valid bimap `at_left_or_default(key)` with a stored equivalent left value returns the
paired right value and changes nothing. -/
theorem Abs.default_present_left [Inhabited β] {w : World α β} {b : Nat} {tl : Shape α}
    {tr : Shape β} (ha : Abs w b tl tr) {l : α} {r : β} (hs : Stored w b l r) (key : α)
    (he : equiv (w.cmp_left b) key l = true) (fuel : Nat) (hf : w.size b < fuel) :
    at_left_or_default w fuel b key = some (w, r) := by
  obtain ⟨i, hl, hr⟩ := (ha.stored_iff l r).1 hs
  obtain ⟨res, hres, hcase⟩ := ha.find_left_spec key fuel hf
  rcases hcase with ⟨-, hno⟩ | ⟨j, k, rfl, hk, hek⟩
  · rw [hno l (Shape.mem_keys_of_mem_toList hl)] at he
    exact absurd he (by simp)
  · obtain ⟨rfl, rfl⟩ := ha.left_unique hk hl (equiv_trans ha.swo_left (equiv_symm hek) he)
    have hm := Shape.mem_ptrs_of_mem_toList hk
    simp [at_left_or_default, hres, end_left, ha.flip_left_node hm, World.right_value,
      ha.second_of_mem hr]

/-- On a valid bimap `at_right_or_default(key)` with a stored equivalent right value returns
the paired left value and changes nothing. -/
theorem Abs.default_present_right [Inhabited α] {w : World α β} {b : Nat} {tl : Shape α}
    {tr : Shape β} (ha : Abs w b tl tr) {l : α} {r : β} (hs : Stored w b l r) (key : β)
    (he : equiv (w.cmp_right b) key r = true) (fuel : Nat) (hf : w.size b < fuel) :
    at_right_or_default w fuel b key = some (w, l) := by
  obtain ⟨i, hl, hr⟩ := (ha.stored_iff l r).1 hs
  obtain ⟨res, hres, hcase⟩ := ha.find_right_spec key fuel hf
  rcases hcase with ⟨-, hno⟩ | ⟨j, k, rfl, hk, hek⟩
  · rw [hno r (Shape.mem_keys_of_mem_toList hr)] at he
    exact absurd he (by simp)
  · obtain ⟨rfl, rfl⟩ := ha.right_unique hk hr (equiv_trans ha.swo_right (equiv_symm hek) he)
    have hm := Shape.mem_ptrs_of_mem_toList hk
    simp [at_right_or_default, hres, end_right, ha.flip_right_node hm, World.left_value,
      ha.first_of_mem hl]

/-- What `at_right_or_default(key)` does on a valid bimap holding no right value equivalent to
`key`, told by the pair nodes. -/
theorem Abs.default_absent_right [Inhabited α] {w : World α β} {b : Nat} {tl : Shape α}
    {tr : Shape β} (ha : Abs w b tl tr) (k : β)
    (habs : ∀ k1 ∈ tr.keys, equiv (w.cmp_right b) k k1 = false)
    (fuel : Nat) (hf : w.size b < fuel) (hsz : w.size b + 1 < SIZE_MOD) :
    ∃ w1 tl1 tr1, at_right_or_default w fuel b k = some (w1, default) ∧ Abs w1 b tl1 tr1 ∧
      w1.cmp_left b = w.cmp_left b ∧ w1.cmp_right b = w.cmp_right b ∧
      (((∀ k1 ∈ tl.keys, equiv (w.cmp_left b) default k1 = false) ∧
        w1.size b = w.size b + 1 ∧
        ∀ l r, Stored w1 b l r ↔ (l = default ∧ r = k) ∨ Stored w b l r) ∨
      (∃ i l0, (Ptr.node i .Left_Tag, l0) ∈ tl.toList ∧
        equiv (w.cmp_left b) default l0 = true ∧ w1.size b = w.size b ∧
        ∀ l r, Stored w1 b l r ↔ (l = default ∧ r = k) ∨
          ∃ j, j ≠ i ∧ (Ptr.node j .Left_Tag, l) ∈ tl.toList ∧
            (Ptr.node j .Right_Tag, r) ∈ tr.toList)) := by
  have hfind : find_right w fuel b k = some (end_right b) := by
    obtain ⟨res, hres, hcase⟩ := ha.find_right_spec k fuel hf
    rcases hcase with ⟨rfl, -⟩ | ⟨i, k1, -, hk, he⟩
    · exact hres
    · rw [habs k1 (Shape.mem_keys_of_mem_toList hk)] at he
      exact absurd he (by simp)
  have hfin : ∀ (w0 w1 : World α β) (tl0 : Shape α) (tr0 : Shape β),
      Inserted w0 w1 b default k tl0 tr0 →
      (w1.left_value (.node w0.next .Left_Tag)).bind (fun v => some (w1, v)) =
        some (w1, default) := by
    intro w0 w1 tl0 tr0 hi
    simp [World.left_value, hi.first_eq, upd]
  rcases ha.erase_left_spec default fuel hf with ⟨hno, her⟩ | ⟨i, l0, w3, hl0, he0, her, hE⟩
  · obtain ⟨w1, hins, hi⟩ := ha.insert_spec default k hno habs fuel hf hsz
    refine ⟨w1, _, _, ?_, hi.abs, by rw [hi.cmp_left_eq], by rw [hi.cmp_right_eq],
      Or.inl ⟨hno, by rw [hi.size_eq]; simp [upd], Inserted.stored_after ha hi⟩⟩
    have := hfin w w1 tl tr hi
    simp only [at_right_or_default, hfind, her, hins, Option.bind_eq_bind, Option.some_bind,
      ne_eq, not_true_eq_false, if_false]
    exact this
  · have hs3 : w3.size b = w.size b - 1 := by rw [hE.size_eq]; simp [upd]
    have hpos := hE.size_pos
    have hr3 : ∀ k1 ∈ (tr.erase (.node i .Right_Tag)).keys,
        equiv (w3.cmp_right b) k k1 = false := by
      intro k1 hk1
      rw [hE.cmp_right_eq]
      exact habs k1 ((Shape.erase_keys_sublist tr _ ha.right.nodup).subset hk1)
    have hl3 : ∀ k1 ∈ (tl.erase (.node i .Left_Tag)).keys,
        equiv (w3.cmp_left b) default k1 = false := by
      intro k1 hk1
      rw [hE.cmp_left_eq]
      obtain ⟨j, hji, hj⟩ := ha.mem_erase_left_keys hk1
      cases h1 : equiv (w.cmp_left b) default k1
      · rfl
      · have := ha.left_unique hl0 hj (equiv_trans ha.swo_left (equiv_symm he0) h1)
        exact absurd this.1.symm hji
    obtain ⟨w1, hins, hi⟩ := hE.abs.insert_spec default k hl3 hr3 fuel (by omega) (by omega)
    refine ⟨w1, _, _, ?_, hi.abs, by rw [hi.cmp_left_eq, hE.cmp_left_eq],
      by rw [hi.cmp_right_eq, hE.cmp_right_eq],
      Or.inr ⟨i, l0, hl0, he0, by rw [hi.size_eq]; simp [upd]; omega, ?_⟩⟩
    · have := hfin w3 w1 _ _ hi
      simp only [at_right_or_default, hfind, her, hins, Option.bind_eq_bind, Option.some_bind,
        ne_eq, not_true_eq_false, if_false]
      exact this
    · intro l r
      rw [Inserted.stored_after hE.abs hi, Erased.stored_rest ha hE]

/-- C17: on a valid bimap, if a pair `(l, k1)` with `k1` equivalent to `k` is stored,
`at_right_or_default(k)` returns `l` and leaves the whole memory as it was; otherwise it
returns the default-constructed left value `d`, afterwards `at_right(k)` is `d` and
`at_left(d)` is `k`, a pair that held a left value equivalent to `d` is stored no longer (its
right value is not found and its left value now leads to `k`), every other pair is still
stored and nothing else is. -/
theorem C17_at_right_or_default [Inhabited α] (w : World α β) (b : Nat) (hv : Valid w b)
    (k : β) (fuel : Nat) (hf : size w b + 1 < fuel) (hsz : size w b + 1 < SIZE_MOD) :
    (∀ l k1, Stored w b l k1 → equiv (w.cmp_right b) k k1 = true →
      at_right_or_default w fuel b k = some (w, l)) ∧
    ((∀ l r, Stored w b l r → equiv (w.cmp_right b) k r = false) →
      ∃ w1, at_right_or_default w fuel b k = some (w1, default) ∧ Valid w1 b ∧
        Stored w1 b default k ∧
        at_right w1 fuel b k = some (.value default) ∧
        at_left w1 fuel b default = some (.value k) ∧
        (∀ l r, Stored w b l r → equiv (w.cmp_left b) l default = true →
          ¬Stored w1 b l r ∧ find_right w1 fuel b r = some (end_right b) ∧
          at_left w1 fuel b l = some (.value k)) ∧
        (∀ l r, Stored w b l r → equiv (w.cmp_left b) l default = false → Stored w1 b l r) ∧
        (∀ l r, Stored w1 b l r → (l = default ∧ r = k) ∨ Stored w b l r)) := by
  obtain ⟨tl, tr, ha⟩ := hv
  simp only [size] at hf hsz
  refine ⟨fun l k1 hs he => ha.default_present_right hs k he fuel (by omega), ?_⟩
  intro habs
  have habs1 : ∀ k1 ∈ tr.keys, equiv (w.cmp_right b) k k1 = false := by
    intro k1 hk1
    obtain ⟨l, hs⟩ := (ha.mem_keys_right_iff k1).1 hk1
    exact habs l k1 hs
  obtain ⟨w1, tl1, tr1, hres, ha1, hcl, hcr, hcase⟩ :=
    ha.default_absent_right k habs1 fuel (by omega) hsz
  have hf1 : w1.size b < fuel := by
    rcases hcase with ⟨-, hsize, -⟩ | ⟨i, l0, -, -, hsize, -⟩ <;> omega
  have hkd : Stored w1 b default k := by
    rcases hcase with ⟨-, -, hst⟩ | ⟨i, l0, -, -, -, hst⟩
    · exact (hst default k).2 (Or.inl ⟨rfl, rfl⟩)
    · exact (hst default k).2 (Or.inl ⟨rfl, rfl⟩)
  refine ⟨w1, hres, ⟨tl1, tr1, ha1⟩, hkd,
    ha1.at_right_of_stored hkd k (equiv_self ha1.swo_right k) fuel hf1,
    ha1.at_left_of_stored hkd default (equiv_self ha1.swo_left default) fuel hf1, ?_⟩
  rcases hcase with ⟨hno, hsize, hst⟩ | ⟨i, l0, hl0, he0, hsize, hst⟩
  · refine ⟨?_, ?_, ?_⟩
    · intro l r hs he
      have h2 := equiv_symm he
      rw [hno l ((ha.mem_keys_left_iff l).2 ⟨r, hs⟩)] at h2
      exact absurd h2 (by simp)
    · intro l r hs _
      exact (hst l r).2 (Or.inr hs)
    · intro l r hs
      exact (hst l r).1 hs
  · refine ⟨?_, ?_, ?_⟩
    · intro l r hs he
      obtain ⟨j, hjl, hjr⟩ := (ha.stored_iff l r).1 hs
      obtain ⟨rfl, rfl⟩ := ha.left_unique hjl hl0 (equiv_trans ha.swo_left he he0)
      have hnk : equiv (w.cmp_right b) k r = false := habs l r hs
      refine ⟨?_, ?_, ?_⟩
      · intro hs1
        rcases (hst l r).1 hs1 with ⟨-, rfl⟩ | ⟨j1, hj1, -, hj1r⟩
        · rw [equiv_self ha.swo_right] at hnk
          exact absurd hnk (by simp)
        · exact hj1 (ha.right_unique hj1r hjr (equiv_self ha.swo_right r)).1
      · obtain ⟨res, hres1, hc1⟩ := ha1.find_right_spec r fuel hf1
        rcases hc1 with ⟨rfl, -⟩ | ⟨i2, k2, -, hk2, he2⟩
        · exact hres1
        · exfalso
          obtain ⟨l2, hs2⟩ := (ha1.mem_keys_right_iff k2).1 (Shape.mem_keys_of_mem_toList hk2)
          rw [hcr] at he2
          rcases (hst l2 k2).1 hs2 with ⟨-, rfl⟩ | ⟨j1, hj1, -, hj1r⟩
          · rw [equiv_symm he2] at hnk
            exact absurd hnk (by simp)
          · exact hj1 (ha.right_unique hj1r hjr (equiv_symm he2)).1
      · exact ha1.at_left_of_stored hkd l (by rw [hcl]; exact he) fuel hf1
    · intro l r hs he
      obtain ⟨j, hjl, hjr⟩ := (ha.stored_iff l r).1 hs
      refine (hst l r).2 (Or.inr ⟨j, ?_, hjl, hjr⟩)
      rintro rfl
      have := ha.same_node_left hjl hl0
      subst this
      rw [equiv_symm he0] at he
      exact absurd he (by simp)
    · intro l r hs
      rcases (hst l r).1 hs with h | ⟨j, -, hjl, hjr⟩
      · exact Or.inl h
      · exact Or.inr ((ha.stored_iff l r).2 ⟨j, hjl, hjr⟩)

theorem C17_at_right_or_default_witness :
    at_right_or_default demo_nat 8 0 20 = some (demo_nat, 2) ∧
    ∃ w1, at_right_or_default demo_nat 8 0 99 = some (w1, 0) ∧ Stored w1 0 0 99 ∧
      at_right w1 8 0 99 = some (.value 0) ∧ at_left w1 8 0 0 = some (.value 99) := by
  have hst := demo_nat_spec.2.2.2.2.1
  have hcr := demo_nat_spec.2.2.2.2.2.2.1
  have hsz : size demo_nat 0 = 3 := demo_nat_spec.2.2.2.1
  constructor
  · exact (C17_at_right_or_default demo_nat 0 demo_nat_spec.2.1 20 8 (by rw [hsz]; decide)
      (by rw [hsz]; decide)).1 2 20 ((hst 2 20).2 (by decide)) (by rw [hcr]; decide)
  · have habs : ∀ l r, Stored demo_nat 0 l r → equiv (demo_nat.cmp_right 0) 99 r = false := by
      intro l r hs
      rw [hcr]
      have hm := (hst l r).1 hs
      simp only [List.mem_cons, Prod.mk.injEq, List.mem_singleton, List.not_mem_nil,
        or_false] at hm
      rcases hm with ⟨-, rfl⟩ | ⟨-, rfl⟩ | ⟨-, rfl⟩ <;> decide
    obtain ⟨w1, h1, -, h2, h3, h4, -⟩ :=
      (C17_at_right_or_default demo_nat 0 demo_nat_spec.2.1 99 8 (by rw [hsz]; decide)
        (by rw [hsz]; decide)).2 habs
    exact ⟨w1, h1, h2, h3, h4⟩

end bimap

/-!
## `map::lower_bound` and `map::upper_bound`
-/

namespace bimap_details

theorem StrictWeakOrder.asymm {cmp : K → K → Bool} (hs : StrictWeakOrder cmp) {a b : K}
    (hab : cmp a b = true) : cmp b a = false := by
  cases h : cmp b a
  · rfl
  · have := hs.trans a b a hab h
    rw [hs.irrefl] at this
    exact absurd this (by simp)

theorem StrictWeakOrder.lt_of_lt_of_equiv {cmp : K → K → Bool} (hs : StrictWeakOrder cmp)
    {a b c : K} (hab : cmp a b = true) (h1 : cmp b c = false) (h2 : cmp c b = false) :
    cmp a c = true := by
  cases hac : cmp a c
  · exfalso
    cases hca : cmp c a
    · have := (hs.incomp_trans a c b hac hca h2 h1).1
      rw [hab] at this
      exact absurd this (by simp)
    · have := hs.trans c a b hca hab
      rw [h2] at this
      exact absurd this (by simp)
  · rfl

theorem StrictWeakOrder.lt_of_equiv_of_lt {cmp : K → K → Bool} (hs : StrictWeakOrder cmp)
    {a b c : K} (h1 : cmp a b = false) (h2 : cmp b a = false) (hbc : cmp b c = true) :
    cmp a c = true := by
  cases hac : cmp a c
  · exfalso
    cases hca : cmp c a
    · have := (hs.incomp_trans b a c h2 h1 hac hca).1
      rw [hbc] at this
      exact absurd this (by simp)
    · have := hs.trans b c a hbc hca
      rw [h2] at this
      exact absurd this (by simp)
  · rfl

theorem find?_none_of_forall {γ : Type} (p : γ → Bool) (L : List γ)
    (h : ∀ x ∈ L, p x = false) : L.find? p = none := by
  rw [List.find?_eq_none]
  intro x hx
  rw [h x hx]
  simp

/-- The descent of `lower_bound` below a represented subtree ends at the first position of the
subtree whose key is not less than `key`, or at the remembered `prev_gt`, or at the head. -/
theorem lower_bound_loop_spec {h : Heap} {cmp : K → K → Bool} {value : Ptr → Option K}
    {par : Ptr} {t : Shape K} (hd : Ptr) (key : K) (hs : StrictWeakOrder cmp)
    (hr : Rep h value par t) (hsort : t.keys.Pairwise (fun a b => cmp a b = true))
    (fuel : Nat) (hf : t.size < fuel) (prev_gt : Ptr) :
    lower_bound_loop h cmp value hd key fuel prev_gt t.root =
      some (t.lower_pos cmp key (if prev_gt ≠ .nullptr then prev_gt else hd)) := by
  induction t generalizing par fuel prev_gt with
  | nil =>
    obtain ⟨f, rfl⟩ : ∃ f, fuel = f + 1 := ⟨fuel - 1, by omega⟩
    simp [lower_bound_loop, Shape.lower_pos, Shape.toList]
  | node l q k r ihl ihr =>
    obtain ⟨f, rfl⟩ : ∃ f, fuel = f + 1 := ⟨fuel - 1, by omega⟩
    obtain ⟨hq, hv, hl, hrr⟩ := hr
    simp only [Shape.size] at hf
    simp only [Shape.keys, List.pairwise_append, List.pairwise_cons] at hsort
    obtain ⟨hsl, ⟨hkr, hsr⟩, hlr⟩ := hsort
    have hqn : q ≠ .nullptr := deref_ne_null hq
    have hlk : ∀ x ∈ l.toList, cmp x.2 k = true := fun x hx =>
      hlr x.2 (Shape.mem_keys_of_mem_toList hx) k (List.mem_cons_self _ _)
    by_cases h1 : cmp key k = true
    · have hkk : cmp k key = false := hs.asymm h1
      have := ihl hl hsl f (by omega) q
      simp only [Shape.root_node, lower_bound_loop, hqn, if_false, hv, Option.bind_eq_bind,
        Option.some_bind, h1, if_true, left_of_deref hq, this]
      simp only [Shape.lower_pos, Shape.toList, List.find?_append, ne_eq, hqn,
        not_false_eq_true, if_true]
      have hfirst : List.find? (fun x : Ptr × K => !cmp x.2 key) ((q, k) :: r.toList) =
          some (q, k) := by simp [hkk]
      rw [hfirst]
      cases List.find? (fun x : Ptr × K => !cmp x.2 key) l.toList <;> rfl
    · simp only [Bool.not_eq_true] at h1
      by_cases h2 : cmp k key = true
      · have hnl : List.find? (fun x : Ptr × K => !cmp x.2 key) l.toList = none := by
          apply find?_none_of_forall
          intro x hx
          simp [hs.trans _ _ _ (hlk x hx) h2]
        have := ihr hrr hsr f (by omega) prev_gt
        simp only [Shape.root_node, lower_bound_loop, hqn, if_false, hv, Option.bind_eq_bind,
          Option.some_bind, h1, h2, if_true, right_of_deref hq, this, Bool.false_eq_true]
        simp only [Shape.lower_pos, Shape.toList, List.find?_append, hnl, Option.none_or]
        simp [h2]
      · simp only [Bool.not_eq_true] at h2
        have hnl : List.find? (fun x : Ptr × K => !cmp x.2 key) l.toList = none := by
          apply find?_none_of_forall
          intro x hx
          simp [hs.lt_of_lt_of_equiv (hlk x hx) h2 h1]
        simp only [Shape.root_node, lower_bound_loop, hqn, if_false, hv, Option.bind_eq_bind,
          Option.some_bind, h1, h2, Bool.false_eq_true]
        simp only [Shape.lower_pos, Shape.toList, List.find?_append, hnl, Option.none_or]
        simp [h2]

/-- On a valid map `lower_bound(key)` is the first position in ascending order whose key is not
less than `key`, or `end()`. -/
theorem map.lower_bound_spec {m : map K} {h : Heap} {t : Shape K} (hinv : MapInv m h t)
    (hs : StrictWeakOrder m.cmp) (key : K) (fuel : Nat) (hf : t.size < fuel) :
    m.lower_bound h fuel key = some (t.lower_pos m.cmp key m.head) := by
  obtain ⟨fl, hhead, -⟩ := hinv.head
  have := lower_bound_loop_spec m.head key hs hinv.rep hinv.sorted fuel hf .nullptr
  simpa [map.lower_bound, left_of_deref hhead] using this

/-- On a valid map `upper_bound(key)` is the first position in ascending order whose key `key`
is less than, or `end()`. -/
theorem map.upper_bound_spec {m : map K} {h : Heap} {t : Shape K} (hinv : MapInv m h t)
    (hs : StrictWeakOrder m.cmp) (key : K) (fuel : Nat) (hf : t.size < fuel) :
    m.upper_bound h fuel key = some (t.upper_pos m.cmp key m.head) := by
  have hlow := map.lower_bound_spec hinv hs key fuel hf
  simp only [map.upper_bound, hlow, Option.bind_eq_bind, Option.some_bind, map.end_]
  cases hfind : List.find? (fun x : Ptr × K => !m.cmp x.2 key) t.toList with
  | none =>
    have hall : ∀ x ∈ t.toList, m.cmp x.2 key = true := by
      intro x hx
      have := (List.find?_eq_none.1 hfind) x hx
      simpa using this
    have hnu : List.find? (fun x : Ptr × K => m.cmp key x.2) t.toList = none := by
      apply find?_none_of_forall
      intro x hx
      exact hs.asymm (hall x hx)
    simp [Shape.lower_pos, Shape.upper_pos, hfind, hnu]
  | some pv =>
    obtain ⟨p, v⟩ := pv
    obtain ⟨hpv, as, bs, hsplit, has⟩ := List.find?_eq_some.1 hfind
    simp only [Bool.not_eq_true', Bool.not_eq_true, Bool.not_not] at hpv has
    have hmem : (p, v) ∈ t.toList := by rw [hsplit]; simp
    have hpm : p ∈ t.ptrs := Shape.mem_ptrs_of_mem_toList hmem
    have hph : p ≠ m.head := fun e => hinv.head_notin (e ▸ hpm)
    have hval : m.value p = some v := hinv.rep.value_of_mem hmem hinv.nodup
    have hnas : List.find? (fun x : Ptr × K => m.cmp key x.2) as = none := by
      apply find?_none_of_forall
      intro x hx
      exact hs.asymm (has x hx)
    have hlow1 : t.lower_pos m.cmp key m.head = p := by simp [Shape.lower_pos, hfind]
    rw [hlow1]
    simp only [hph, if_false, hval, Option.some_bind]
    by_cases h1 : m.cmp key v = true
    · simp only [h1, if_true]
      simp [Shape.upper_pos, hsplit, List.find?_append, hnas, h1]
    · simp only [h1, Bool.false_eq_true, if_false]
      simp only [Bool.not_eq_true] at h1
      rw [map.incr_spec hinv fuel hf p hpm]
      have hptrs : t.ptrs = as.map Prod.fst ++ p :: bs.map Prod.fst := by
        rw [← Shape.ptrs_toList, hsplit]; simp
      have hnd := hinv.nodup
      rw [hptrs] at hnd
      have hpas : p ∉ as.map Prod.fst := fun hm =>
        (List.nodup_append.1 hnd).2.2 hm (List.mem_cons_self _ _)
      have hkeys : t.keys = as.map Prod.snd ++ v :: bs.map Prod.snd := by
        rw [← Shape.keys_toList, hsplit]; simp
      have hsorted := hinv.sorted
      rw [hkeys, List.pairwise_append] at hsorted
      have hvb : ∀ x ∈ bs, m.cmp v x.2 = true := fun x hx =>
        (List.pairwise_cons.1 hsorted.2.1).1 x.2 (List.mem_map_of_mem _ hx)
      rw [hptrs, nextIn_append_right hpas]
      simp only [nextIn, if_true]
      simp only [Shape.upper_pos, hsplit, List.find?_append, hnas, Option.none_or,
        List.find?_cons, h1]
      cases bs with
      | nil => rfl
      | cons x xs =>
        have := hs.lt_of_equiv_of_lt h1 hpv (hvb x (List.mem_cons_self _ _))
        simp [this]

end bimap_details

open bimap_details

namespace bimap_details

/-- In a strictly ascending list the first entry satisfying a predicate is not above any
entry satisfying it. -/
theorem find?_least {cmp : K → K → Bool} (hs : StrictWeakOrder cmp) (p : Ptr × K → Bool)
    (L : List (Ptr × K)) (hsort : (L.map Prod.snd).Pairwise (fun a b => cmp a b = true))
    {q : Ptr} {v : K} (hfind : L.find? p = some (q, v)) :
    (q, v) ∈ L ∧ p (q, v) = true ∧ ∀ x ∈ L, p x = true → cmp x.2 v = false := by
  obtain ⟨hpv, as, bs, hsplit, has⟩ := List.find?_eq_some.1 hfind
  refine ⟨by rw [hsplit]; simp, hpv, ?_⟩
  intro x hx hpx
  rw [hsplit] at hx hsort
  simp only [List.map_append, List.map_cons, List.pairwise_append, List.pairwise_cons] at hsort
  rcases List.mem_append.1 hx with hxa | hxb
  · have := has x hxa
    rw [hpx] at this
    exact absurd this (by simp)
  · rcases List.mem_cons.1 hxb with rfl | hxb
    · exact hs.irrefl _
    · exact hs.asymm (hsort.2.1.1 x.2 (List.mem_map_of_mem _ hxb))

theorem map.lower_bound_sem {m : map K} {h : Heap} {t : Shape K} (hinv : MapInv m h t)
    (hs : StrictWeakOrder m.cmp) (key : K) (fuel : Nat) (hf : t.size < fuel) :
    ∃ p, m.lower_bound h fuel key = some p ∧
      ((p = m.head ∧ ∀ x ∈ t.toList, m.cmp x.2 key = true) ∨
       (∃ v, (p, v) ∈ t.toList ∧ m.cmp v key = false ∧
          ∀ x ∈ t.toList, m.cmp x.2 key = false → m.cmp x.2 v = false)) := by
  refine ⟨_, map.lower_bound_spec hinv hs key fuel hf, ?_⟩
  have hsort : (t.toList.map Prod.snd).Pairwise (fun a b => m.cmp a b = true) := by
    rw [Shape.keys_toList]; exact hinv.sorted
  cases hfind : List.find? (fun x : Ptr × K => !m.cmp x.2 key) t.toList with
  | none =>
    left
    refine ⟨by simp [Shape.lower_pos, hfind], ?_⟩
    intro x hx
    have := (List.find?_eq_none.1 hfind) x hx
    simpa using this
  | some pv =>
    obtain ⟨q, v⟩ := pv
    right
    obtain ⟨hm, hp, hleast⟩ := find?_least hs _ _ hsort hfind
    refine ⟨v, by simpa [Shape.lower_pos, hfind] using hm, by simpa using hp, ?_⟩
    intro x hx hxk
    exact hleast x hx (by simp [hxk])

theorem map.upper_bound_sem {m : map K} {h : Heap} {t : Shape K} (hinv : MapInv m h t)
    (hs : StrictWeakOrder m.cmp) (key : K) (fuel : Nat) (hf : t.size < fuel) :
    ∃ p, m.upper_bound h fuel key = some p ∧
      ((p = m.head ∧ ∀ x ∈ t.toList, m.cmp key x.2 = false) ∨
       (∃ v, (p, v) ∈ t.toList ∧ m.cmp key v = true ∧
          ∀ x ∈ t.toList, m.cmp key x.2 = true → m.cmp x.2 v = false)) := by
  refine ⟨_, map.upper_bound_spec hinv hs key fuel hf, ?_⟩
  have hsort : (t.toList.map Prod.snd).Pairwise (fun a b => m.cmp a b = true) := by
    rw [Shape.keys_toList]; exact hinv.sorted
  cases hfind : List.find? (fun x : Ptr × K => m.cmp key x.2) t.toList with
  | none =>
    left
    refine ⟨by simp [Shape.upper_pos, hfind], ?_⟩
    intro x hx
    have := (List.find?_eq_none.1 hfind) x hx
    simpa using this
  | some pv =>
    obtain ⟨q, v⟩ := pv
    right
    obtain ⟨hm, hp, hleast⟩ := find?_least hs _ _ hsort hfind
    exact ⟨v, by simpa [Shape.upper_pos, hfind] using hm, hp, fun x hx hxk => hleast x hx hxk⟩

end bimap_details

namespace bimap

/-- A stored left key is found at its own position. -/
theorem Abs.find_left_at {w : World α β} {b : Nat} {tl : Shape α} {tr : Shape β}
    (ha : Abs w b tl tr) {p : Ptr} {v : α} (hm : (p, v) ∈ tl.toList) (fuel : Nat)
    (hf : w.size b < fuel) : find_left w fuel b v = some p := by
  obtain ⟨i, r, rfl, -⟩ := ha.exists_right hm
  obtain ⟨res, hres, hcase⟩ := ha.find_left_spec v fuel hf
  rcases hcase with ⟨-, hno⟩ | ⟨j, k, rfl, hk, hek⟩
  · have := equiv_self ha.swo_left v
    rw [hno v (Shape.mem_keys_of_mem_toList hm)] at this
    exact absurd this (by simp)
  · obtain ⟨rfl, -⟩ := ha.left_unique hk hm (equiv_symm hek)
    exact hres

theorem Abs.find_right_at {w : World α β} {b : Nat} {tl : Shape α} {tr : Shape β}
    (ha : Abs w b tl tr) {p : Ptr} {v : β} (hm : (p, v) ∈ tr.toList) (fuel : Nat)
    (hf : w.size b < fuel) : find_right w fuel b v = some p := by
  obtain ⟨i, l, rfl, -⟩ := ha.exists_left hm
  obtain ⟨res, hres, hcase⟩ := ha.find_right_spec v fuel hf
  rcases hcase with ⟨-, hno⟩ | ⟨j, k, rfl, hk, hek⟩
  · have := equiv_self ha.swo_right v
    rw [hno v (Shape.mem_keys_of_mem_toList hm)] at this
    exact absurd this (by simp)
  · obtain ⟨rfl, -⟩ := ha.right_unique hk hm (equiv_symm hek)
    exact hres

theorem Abs.stored_of_left {w : World α β} {b : Nat} {tl : Shape α} {tr : Shape β}
    (ha : Abs w b tl tr) {p : Ptr} {v : α} (hm : (p, v) ∈ tl.toList) :
    ∃ r, Stored w b v r ∧ w.left_value p = some v ∧ p ≠ end_left b := by
  obtain ⟨i, r, rfl, hr⟩ := ha.exists_right hm
  exact ⟨r, (ha.stored_iff v r).2 ⟨i, hm, hr⟩, ha.first_of_mem hm, by simp [end_left]⟩

theorem Abs.stored_of_right {w : World α β} {b : Nat} {tl : Shape α} {tr : Shape β}
    (ha : Abs w b tl tr) {p : Ptr} {v : β} (hm : (p, v) ∈ tr.toList) :
    ∃ l, Stored w b l v ∧ w.right_value p = some v ∧ p ≠ end_right b := by
  obtain ⟨i, l, rfl, hl⟩ := ha.exists_left hm
  exact ⟨l, (ha.stored_iff l v).2 ⟨i, hl, hm⟩, ha.second_of_mem hm, by simp [end_right]⟩

theorem Abs.left_of_stored {w : World α β} {b : Nat} {tl : Shape α} {tr : Shape β}
    (ha : Abs w b tl tr) {l : α} {r : β} (hs : Stored w b l r) :
    ∃ p, (p, l) ∈ tl.toList := by
  obtain ⟨i, hl, -⟩ := (ha.stored_iff l r).1 hs
  exact ⟨_, hl⟩

theorem Abs.right_of_stored {w : World α β} {b : Nat} {tl : Shape α} {tr : Shape β}
    (ha : Abs w b tl tr) {l : α} {r : β} (hs : Stored w b l r) :
    ∃ p, (p, r) ∈ tr.toList := by
  obtain ⟨i, -, hr⟩ := (ha.stored_iff l r).1 hs
  exact ⟨_, hr⟩

/-- C13: for every bimap reached from the empty bimap by inserts and erases and every key `k`,
`lower_bound_left(k)` is `end_left()` when every stored left value is less than `k`, and
otherwise the position of the least stored left value that is not less than `k`;
`upper_bound_left(k)` is `end_left()` when `k` is less than no stored left value, and otherwise
the position of the least stored left value that `k` is less than; symmetrically for
`lower_bound_right` and `upper_bound_right`. -/
theorem C13_bounds (w : World α β) (b : Nat) (hr : Reachable w b) (fuel : Nat)
    (hf : size w b < fuel) :
    (∀ k, ∃ p, lower_bound_left w fuel b k = some p ∧
      ((p = end_left b ∧ ∀ l r, Stored w b l r → w.cmp_left b l k = true) ∨
       (∃ v r, Stored w b v r ∧ find_left w fuel b v = some p ∧ w.left_value p = some v ∧
          p ≠ end_left b ∧ w.cmp_left b v k = false ∧
          ∀ l r1, Stored w b l r1 → w.cmp_left b l k = false → w.cmp_left b l v = false))) ∧
    (∀ k, ∃ p, upper_bound_left w fuel b k = some p ∧
      ((p = end_left b ∧ ∀ l r, Stored w b l r → w.cmp_left b k l = false) ∨
       (∃ v r, Stored w b v r ∧ find_left w fuel b v = some p ∧ w.left_value p = some v ∧
          p ≠ end_left b ∧ w.cmp_left b k v = true ∧
          ∀ l r1, Stored w b l r1 → w.cmp_left b k l = true → w.cmp_left b l v = false))) ∧
    (∀ k, ∃ p, lower_bound_right w fuel b k = some p ∧
      ((p = end_right b ∧ ∀ l r, Stored w b l r → w.cmp_right b r k = true) ∨
       (∃ l v, Stored w b l v ∧ find_right w fuel b v = some p ∧ w.right_value p = some v ∧
          p ≠ end_right b ∧ w.cmp_right b v k = false ∧
          ∀ l1 r, Stored w b l1 r → w.cmp_right b r k = false → w.cmp_right b r v = false))) ∧
    (∀ k, ∃ p, upper_bound_right w fuel b k = some p ∧
      ((p = end_right b ∧ ∀ l r, Stored w b l r → w.cmp_right b k r = false) ∨
       (∃ l v, Stored w b l v ∧ find_right w fuel b v = some p ∧ w.right_value p = some v ∧
          p ≠ end_right b ∧ w.cmp_right b k v = true ∧
          ∀ l1 r, Stored w b l1 r → w.cmp_right b k r = true → w.cmp_right b r v = false))) := by
  obtain ⟨tl, tr, ha⟩ := reachable_valid hr
  simp only [size] at hf
  have hfl : tl.size < fuel := by rw [← ha.size_eq]; exact hf
  have hfr : tr.size < fuel := by rw [ha.size_right]; exact hfl
  refine ⟨?_, ?_, ?_, ?_⟩
  · intro k
    obtain ⟨p, hp, hcase⟩ := map.lower_bound_sem ha.left ha.swo_left k fuel hfl
    refine ⟨p, hp, ?_⟩
    rcases hcase with ⟨rfl, hall⟩ | ⟨v, hm, hv, hleast⟩
    · left
      refine ⟨rfl, fun l r hs => ?_⟩
      obtain ⟨q, hq⟩ := ha.left_of_stored hs
      exact hall _ hq
    · right
      obtain ⟨r, hs, hval, hne⟩ := ha.stored_of_left hm
      refine ⟨v, r, hs, ha.find_left_at hm fuel hf, hval, hne, hv, fun l r1 hs1 hl => ?_⟩
      obtain ⟨q, hq⟩ := ha.left_of_stored hs1
      exact hleast _ hq hl
  · intro k
    obtain ⟨p, hp, hcase⟩ := map.upper_bound_sem ha.left ha.swo_left k fuel hfl
    refine ⟨p, hp, ?_⟩
    rcases hcase with ⟨rfl, hall⟩ | ⟨v, hm, hv, hleast⟩
    · left
      refine ⟨rfl, fun l r hs => ?_⟩
      obtain ⟨q, hq⟩ := ha.left_of_stored hs
      exact hall _ hq
    · right
      obtain ⟨r, hs, hval, hne⟩ := ha.stored_of_left hm
      refine ⟨v, r, hs, ha.find_left_at hm fuel hf, hval, hne, hv, fun l r1 hs1 hl => ?_⟩
      obtain ⟨q, hq⟩ := ha.left_of_stored hs1
      exact hleast _ hq hl
  · intro k
    obtain ⟨p, hp, hcase⟩ := map.lower_bound_sem ha.right ha.swo_right k fuel hfr
    refine ⟨p, hp, ?_⟩
    rcases hcase with ⟨rfl, hall⟩ | ⟨v, hm, hv, hleast⟩
    · left
      refine ⟨rfl, fun l r hs => ?_⟩
      obtain ⟨q, hq⟩ := ha.right_of_stored hs
      exact hall _ hq
    · right
      obtain ⟨l, hs, hval, hne⟩ := ha.stored_of_right hm
      refine ⟨l, v, hs, ha.find_right_at hm fuel hf, hval, hne, hv, fun l1 r hs1 hl => ?_⟩
      obtain ⟨q, hq⟩ := ha.right_of_stored hs1
      exact hleast _ hq hl
  · intro k
    obtain ⟨p, hp, hcase⟩ := map.upper_bound_sem ha.right ha.swo_right k fuel hfr
    refine ⟨p, hp, ?_⟩
    rcases hcase with ⟨rfl, hall⟩ | ⟨v, hm, hv, hleast⟩
    · left
      refine ⟨rfl, fun l r hs => ?_⟩
      obtain ⟨q, hq⟩ := ha.right_of_stored hs
      exact hall _ hq
    · right
      obtain ⟨l, hs, hval, hne⟩ := ha.stored_of_right hm
      refine ⟨l, v, hs, ha.find_right_at hm fuel hf, hval, hne, hv, fun l1 r hs1 hl => ?_⟩
      obtain ⟨q, hq⟩ := ha.right_of_stored hs1
      exact hleast _ hq hl

theorem C13_bounds_witness :
    (∀ k, ∃ p, lower_bound_left demo_nat 8 0 k = some p ∧
      ((p = end_left 0 ∧ ∀ l r, Stored demo_nat 0 l r → demo_nat.cmp_left 0 l k = true) ∨
       (∃ v r, Stored demo_nat 0 v r ∧ find_left demo_nat 8 0 v = some p ∧
          demo_nat.left_value p = some v ∧ p ≠ end_left 0 ∧ demo_nat.cmp_left 0 v k = false ∧
          ∀ l r1, Stored demo_nat 0 l r1 → demo_nat.cmp_left 0 l k = false →
            demo_nat.cmp_left 0 l v = false))) ∧
    (∀ k, ∃ p, upper_bound_left demo_nat 8 0 k = some p ∧
      ((p = end_left 0 ∧ ∀ l r, Stored demo_nat 0 l r → demo_nat.cmp_left 0 k l = false) ∨
       (∃ v r, Stored demo_nat 0 v r ∧ find_left demo_nat 8 0 v = some p ∧
          demo_nat.left_value p = some v ∧ p ≠ end_left 0 ∧ demo_nat.cmp_left 0 k v = true ∧
          ∀ l r1, Stored demo_nat 0 l r1 → demo_nat.cmp_left 0 k l = true →
            demo_nat.cmp_left 0 l v = false))) ∧
    (∀ k, ∃ p, lower_bound_right demo_nat 8 0 k = some p ∧
      ((p = end_right 0 ∧ ∀ l r, Stored demo_nat 0 l r → demo_nat.cmp_right 0 r k = true) ∨
       (∃ l v, Stored demo_nat 0 l v ∧ find_right demo_nat 8 0 v = some p ∧
          demo_nat.right_value p = some v ∧ p ≠ end_right 0 ∧
          demo_nat.cmp_right 0 v k = false ∧
          ∀ l1 r, Stored demo_nat 0 l1 r → demo_nat.cmp_right 0 r k = false →
            demo_nat.cmp_right 0 r v = false))) ∧
    (∀ k, ∃ p, upper_bound_right demo_nat 8 0 k = some p ∧
      ((p = end_right 0 ∧ ∀ l r, Stored demo_nat 0 l r → demo_nat.cmp_right 0 k r = false) ∨
       (∃ l v, Stored demo_nat 0 l v ∧ find_right demo_nat 8 0 v = some p ∧
          demo_nat.right_value p = some v ∧ p ≠ end_right 0 ∧
          demo_nat.cmp_right 0 k v = true ∧
          ∀ l1 r, Stored demo_nat 0 l1 r → demo_nat.cmp_right 0 k r = true →
            demo_nat.cmp_right 0 r v = false))) :=
  C13_bounds demo_nat 0 demo_nat_spec.2.2.2.2.2.2.2 8 (by decide)

end bimap

/-!
## Range erase and `clear`
-/

open bimap_details

namespace bimap_details

theorem headD_drop (l : List Ptr) (d : Ptr) (j : Nat) : (l.drop j).headD d = l.getD j d := by
  induction l generalizing j with
  | nil => cases j <;> rfl
  | cons x xs ih =>
    cases j with
    | zero => rfl
    | succ j => exact ih j

theorem getD_drop (l : List Ptr) (d : Ptr) (j i : Nat) :
    (l.drop j).getD i d = l.getD (j + i) d := by
  induction l generalizing j with
  | nil => cases j <;> rfl
  | cons x xs ih =>
    cases j with
    | zero => rw [Nat.zero_add]; rfl
    | succ j =>
      rw [List.drop_succ_cons, ih j, Nat.succ_add, List.getD_cons_succ]

theorem getD_mem_take (l : List Ptr) (d : Ptr) (n i : Nat) (hi : i < n) (hl : i < l.length) :
    l.getD i d ∈ l.take n := by
  induction l generalizing n i with
  | nil => simp at hl
  | cons x xs ih =>
    obtain ⟨m, rfl⟩ : ∃ m, n = m + 1 := ⟨n - 1, by omega⟩
    cases i with
    | zero => simp
    | succ i =>
      rw [List.getD_cons_succ, List.take_succ_cons]
      exact List.mem_cons_of_mem _ (ih m i (by omega) (by simpa using hl))

theorem mem_take_getD (l : List Ptr) (d : Ptr) (n : Nat) (x : Ptr) (hx : x ∈ l.take n) :
    ∃ i, i < n ∧ i < l.length ∧ l.getD i d = x := by
  induction l generalizing n with
  | nil => simp at hx
  | cons y ys ih =>
    obtain ⟨m, rfl⟩ : ∃ m, n = m + 1 := ⟨n - 1, by
      cases n with
      | zero => simp at hx
      | succ k => simp⟩
    rw [List.take_succ_cons] at hx
    rcases List.mem_cons.1 hx with rfl | hx
    · exact ⟨0, by omega, by simp, rfl⟩
    · obtain ⟨i, h1, h2, h3⟩ := ih m hx
      exact ⟨i + 1, by omega, by simp; omega, by rw [List.getD_cons_succ]; exact h3⟩

theorem nextIn_mid (pre rest : List Ptr) (p d : Ptr) (hp : p ∉ pre) :
    nextIn (pre ++ p :: rest) p d = rest.headD d := by
  rw [nextIn_append_right hp]
  simp [nextIn]

end bimap_details

namespace bimap

/-- Erasing the run `mid` of consecutive left positions one by one, as the loop of
`erase_left(first, last)` does: the loop ends at `last`, the pairs of `mid` leave both trees,
all others stay. -/
theorem Abs.erase_left_loop_spec (b fuel : Nat) (post : List Ptr) (mid : List Ptr) :
    ∀ (w : World α β) (tl : Shape α) (tr : Shape β) (pre : List Ptr) (n : Nat),
      Abs w b tl tr → tl.ptrs = pre ++ (mid ++ post) → w.size b < fuel → mid.length < n →
      ∃ w1 tl1 tr1, erase_left_loop fuel b (post.headD (end_left b)) n w
          ((mid ++ post).headD (end_left b)) = some (w1, post.headD (end_left b)) ∧
        Abs w1 b tl1 tr1 ∧ tl1.ptrs = pre ++ post ∧
        w1.size b + mid.length = w.size b ∧
        w1.cmp_left b = w.cmp_left b ∧ w1.cmp_right b = w.cmp_right b ∧
        (∀ l r, Stored w1 b l r ↔ ∃ i, Ptr.node i .Left_Tag ∉ mid ∧
          (Ptr.node i .Left_Tag, l) ∈ tl.toList ∧ (Ptr.node i .Right_Tag, r) ∈ tr.toList) ∧
        w1.heap.right (end_left b) = w.heap.right (end_left b) ∧
        w1.heap.right (end_right b) = w.heap.right (end_right b) := by
  induction mid with
  | nil =>
    intro w tl tr pre n ha hsplit hf hn
    obtain ⟨m, rfl⟩ : ∃ m, n = m + 1 := ⟨n - 1, by simp at hn; omega⟩
    refine ⟨w, tl, tr, by simp [erase_left_loop], ha, by simpa using hsplit, by simp, rfl, rfl,
      ?_, rfl, rfl⟩
    intro l r
    rw [ha.stored_iff]
    simp
  | cons p mid ih =>
    intro w tl tr pre n ha hsplit hf hn
    obtain ⟨m, rfl⟩ : ∃ m, n = m + 1 := ⟨n - 1, by omega⟩
    simp only [List.length_cons] at hn
    have hnd := ha.left.nodup
    rw [hsplit] at hnd
    have hpm : p ∈ tl.ptrs := by rw [hsplit]; simp
    obtain ⟨i, rfl⟩ := ha.left_form hpm
    have hppre : Ptr.node i .Left_Tag ∉ pre := fun hm =>
      (List.nodup_append.1 hnd).2.2 hm (by simp)
    have hnd2 := (List.nodup_append.1 hnd).2.1
    rw [List.cons_append, List.nodup_cons] at hnd2
    have hprest : Ptr.node i .Left_Tag ∉ mid ++ post := hnd2.1
    have hlast : Ptr.node i .Left_Tag ≠ post.headD (end_left b) := by
      intro e
      cases post with
      | nil => simp [end_left] at e
      | cons q qs =>
        simp only [List.headD_cons] at e
        exact hprest (by rw [e]; simp)
    obtain ⟨w3, he3, hE⟩ := ha.erase_left_it_spec i hpm fuel hf
    have hnext : nextIn tl.ptrs (.node i .Left_Tag) (end_left b) =
        (mid ++ post).headD (end_left b) := by
      rw [hsplit, List.cons_append]
      exact nextIn_mid pre (mid ++ post) _ _ hppre
    rw [hnext] at he3
    have hsplit3 : (tl.erase (.node i .Left_Tag)).ptrs = pre ++ (mid ++ post) := by
      rw [Shape.erase_ptrs _ _ ha.left.nodup, hsplit, List.erase_append_right _ hppre,
        List.cons_append, List.erase_cons_head]
    have hs3 : w3.size b + 1 = w.size b := by
      rw [hE.size_eq]
      have := hE.size_pos
      simp only [upd, if_true]
      omega
    obtain ⟨w1, tl1, tr1, hloop, ha1, hp1, hsz1, hcl1, hcr1, hst1, hrl1, hrr1⟩ :=
      ih w3 _ _ pre m hE.abs hsplit3 (by omega) (by omega)
    refine ⟨w1, tl1, tr1, ?_, ha1, hp1, by simp only [List.length_cons]; omega,
      by rw [hcl1, hE.cmp_left_eq], by rw [hcr1, hE.cmp_right_eq], ?_,
      by rw [hrl1, hE.right_left], by rw [hrr1, hE.right_right]⟩
    · simp only [List.cons_append, List.headD_cons, erase_left_loop, ne_eq, hlast,
        not_false_eq_true, if_true, he3, Option.bind_eq_bind, Option.some_bind]
      exact hloop
    · intro l r
      rw [hst1]
      constructor
      · rintro ⟨j, hj, hjl, hjr⟩
        rw [Shape.mem_erase_toList _ _ ha.left.nodup] at hjl
        rw [Shape.mem_erase_toList _ _ ha.right.nodup] at hjr
        refine ⟨j, ?_, hjl.1, hjr.1⟩
        simp only [List.mem_cons, not_or]
        exact ⟨hjl.2, hj⟩
      · rintro ⟨j, hj, hjl, hjr⟩
        simp only [List.mem_cons, not_or] at hj
        refine ⟨j, hj.2, ?_, ?_⟩
        · rw [Shape.mem_erase_toList _ _ ha.left.nodup]
          exact ⟨hjl, hj.1⟩
        · rw [Shape.mem_erase_toList _ _ ha.right.nodup]
          refine ⟨hjr, ?_⟩
          intro e
          simp only [Ptr.node.injEq, and_true] at e
          exact hj.1 (by rw [e])

/-- The loop of `erase_right(first, last)` over the run `mid` of consecutive right
positions. -/
theorem Abs.erase_right_loop_spec (b fuel : Nat) (post : List Ptr) (mid : List Ptr) :
    ∀ (w : World α β) (tl : Shape α) (tr : Shape β) (pre : List Ptr) (n : Nat),
      Abs w b tl tr → tr.ptrs = pre ++ (mid ++ post) → w.size b < fuel → mid.length < n →
      ∃ w1 tl1 tr1, erase_right_loop fuel b (post.headD (end_right b)) n w
          ((mid ++ post).headD (end_right b)) = some (w1, post.headD (end_right b)) ∧
        Abs w1 b tl1 tr1 ∧ tr1.ptrs = pre ++ post ∧
        w1.size b + mid.length = w.size b ∧
        w1.cmp_left b = w.cmp_left b ∧ w1.cmp_right b = w.cmp_right b ∧
        (∀ l r, Stored w1 b l r ↔ ∃ i, Ptr.node i .Right_Tag ∉ mid ∧
          (Ptr.node i .Left_Tag, l) ∈ tl.toList ∧ (Ptr.node i .Right_Tag, r) ∈ tr.toList) ∧
        w1.heap.right (end_left b) = w.heap.right (end_left b) ∧
        w1.heap.right (end_right b) = w.heap.right (end_right b) := by
  induction mid with
  | nil =>
    intro w tl tr pre n ha hsplit hf hn
    obtain ⟨m, rfl⟩ : ∃ m, n = m + 1 := ⟨n - 1, by simp at hn; omega⟩
    refine ⟨w, tl, tr, by simp [erase_right_loop], ha, by simpa using hsplit, by simp, rfl,
      rfl, ?_, rfl, rfl⟩
    intro l r
    rw [ha.stored_iff]
    simp
  | cons p mid ih =>
    intro w tl tr pre n ha hsplit hf hn
    obtain ⟨m, rfl⟩ : ∃ m, n = m + 1 := ⟨n - 1, by omega⟩
    simp only [List.length_cons] at hn
    have hnd := ha.right.nodup
    rw [hsplit] at hnd
    have hpm : p ∈ tr.ptrs := by rw [hsplit]; simp
    obtain ⟨i, rfl⟩ := ha.right_form hpm
    have hppre : Ptr.node i .Right_Tag ∉ pre := fun hm =>
      (List.nodup_append.1 hnd).2.2 hm (by simp)
    have hnd2 := (List.nodup_append.1 hnd).2.1
    rw [List.cons_append, List.nodup_cons] at hnd2
    have hprest : Ptr.node i .Right_Tag ∉ mid ++ post := hnd2.1
    have hlast : Ptr.node i .Right_Tag ≠ post.headD (end_right b) := by
      intro e
      cases post with
      | nil => simp [end_right] at e
      | cons q qs =>
        simp only [List.headD_cons] at e
        exact hprest (by rw [e]; simp)
    obtain ⟨w3, he3, hE⟩ := ha.erase_right_it_spec i hpm fuel hf
    have hnext : nextIn tr.ptrs (.node i .Right_Tag) (end_right b) =
        (mid ++ post).headD (end_right b) := by
      rw [hsplit, List.cons_append]
      exact nextIn_mid pre (mid ++ post) _ _ hppre
    rw [hnext] at he3
    have hsplit3 : (tr.erase (.node i .Right_Tag)).ptrs = pre ++ (mid ++ post) := by
      rw [Shape.erase_ptrs _ _ ha.right.nodup, hsplit, List.erase_append_right _ hppre,
        List.cons_append, List.erase_cons_head]
    have hs3 : w3.size b + 1 = w.size b := by
      rw [hE.size_eq]
      have := hE.size_pos
      simp only [upd, if_true]
      omega
    obtain ⟨w1, tl1, tr1, hloop, ha1, hp1, hsz1, hcl1, hcr1, hst1, hrl1, hrr1⟩ :=
      ih w3 _ _ pre m hE.abs hsplit3 (by omega) (by omega)
    refine ⟨w1, tl1, tr1, ?_, ha1, hp1, by simp only [List.length_cons]; omega,
      by rw [hcl1, hE.cmp_left_eq], by rw [hcr1, hE.cmp_right_eq], ?_,
      by rw [hrl1, hE.right_left], by rw [hrr1, hE.right_right]⟩
    · simp only [List.cons_append, List.headD_cons, erase_right_loop, ne_eq, hlast,
        not_false_eq_true, if_true, he3, Option.bind_eq_bind, Option.some_bind]
      exact hloop
    · intro l r
      rw [hst1]
      constructor
      · rintro ⟨j, hj, hjl, hjr⟩
        rw [Shape.mem_erase_toList _ _ ha.left.nodup] at hjl
        rw [Shape.mem_erase_toList _ _ ha.right.nodup] at hjr
        refine ⟨j, ?_, hjl.1, hjr.1⟩
        simp only [List.mem_cons, not_or]
        exact ⟨hjr.2, hj⟩
      · rintro ⟨j, hj, hjl, hjr⟩
        simp only [List.mem_cons, not_or] at hj
        refine ⟨j, hj.2, ?_, ?_⟩
        · rw [Shape.mem_erase_toList _ _ ha.left.nodup]
          refine ⟨hjl, ?_⟩
          intro e
          simp only [Ptr.node.injEq, and_true] at e
          exact hj.1 (by rw [e])
        · rw [Shape.mem_erase_toList _ _ ha.right.nodup]
          exact ⟨hjr, hj.1⟩

end bimap

open bimap_details

namespace bimap

/-- The left positions of a valid bimap are the nodes of its left tree in ascending order,
followed by `end_left()`. -/
theorem Abs.left_pos_iff {w : World α β} {b : Nat} {tl : Shape α} {tr : Shape β}
    (ha : Abs w b tl tr) (fuel : Nat) (hf : w.size b < fuel) (j : Nat) (hj : j ≤ tl.size)
    (p : Ptr) : LeftPos w fuel b j p ↔ p = tl.ptrs.getD j (end_left b) := by
  have hfl : tl.size < fuel := by rw [← ha.size_eq]; exact hf
  have hb : begin_left w fuel b = some (tl.ptrs.getD 0 (end_left b)) := by
    rw [begin_left, map.begin_spec ha.left fuel (by omega)]
    cases tl.ptrs <;> rfl
  have hi := map.incr_n_spec ha.left fuel hfl j 0 (by omega)
  rw [Nat.zero_add] at hi
  constructor
  · rintro ⟨first, h1, h2⟩
    rw [hb] at h1
    simp only [Option.some.injEq] at h1
    subst h1
    have : some p = some (tl.ptrs.getD j (end_left b)) := by rw [← h2]; exact hi
    exact Option.some.inj this
  · rintro rfl
    exact ⟨_, hb, hi⟩

theorem Abs.right_pos_iff {w : World α β} {b : Nat} {tl : Shape α} {tr : Shape β}
    (ha : Abs w b tl tr) (fuel : Nat) (hf : w.size b < fuel) (j : Nat) (hj : j ≤ tr.size)
    (p : Ptr) : RightPos w fuel b j p ↔ p = tr.ptrs.getD j (end_right b) := by
  have hfr : tr.size < fuel := by rw [ha.size_right, ← ha.size_eq]; exact hf
  have hb : begin_right w fuel b = some (tr.ptrs.getD 0 (end_right b)) := by
    rw [begin_right, map.begin_spec ha.right fuel (by omega)]
    cases tr.ptrs <;> rfl
  have hi := map.incr_n_spec ha.right fuel hfr j 0 (by omega)
  rw [Nat.zero_add] at hi
  constructor
  · rintro ⟨first, h1, h2⟩
    rw [hb] at h1
    simp only [Option.some.injEq] at h1
    subst h1
    have : some p = some (tr.ptrs.getD j (end_right b)) := by rw [← h2]; exact hi
    exact Option.some.inj this
  · rintro rfl
    exact ⟨_, hb, hi⟩

/-- What is seen of a bimap after the pair nodes outside `G` were removed. -/
theorem Abs.removed_sem {w w1 : World α β} {b : Nat} {tl tl1 : Shape α} {tr tr1 : Shape β}
    (ha : Abs w b tl tr) (ha1 : Abs w1 b tl1 tr1) (hcl : w1.cmp_left b = w.cmp_left b)
    (hcr : w1.cmp_right b = w.cmp_right b) (G : Nat → Prop)
    (hst : ∀ l r, Stored w1 b l r ↔ ∃ i, G i ∧ (Ptr.node i .Left_Tag, l) ∈ tl.toList ∧
      (Ptr.node i .Right_Tag, r) ∈ tr.toList)
    (fuel : Nat) (hf : w1.size b < fuel) :
    (∀ i l r, ¬G i → (Ptr.node i .Left_Tag, l) ∈ tl.toList →
      (Ptr.node i .Right_Tag, r) ∈ tr.toList →
      ¬Stored w1 b l r ∧ find_left w1 fuel b l = some (end_left b) ∧
        find_right w1 fuel b r = some (end_right b)) ∧
    (∀ l r, Stored w1 b l r → Stored w b l r) := by
  constructor
  · intro i l r hG hl hr
    refine ⟨?_, ?_, ?_⟩
    · intro hs
      obtain ⟨j, hj, hjl, -⟩ := (hst l r).1 hs
      obtain ⟨rfl, -⟩ := ha.left_unique hjl hl (equiv_self ha.swo_left l)
      exact hG hj
    · obtain ⟨res, hres, hcase⟩ := ha1.find_left_spec l fuel hf
      rcases hcase with ⟨rfl, -⟩ | ⟨j, k, -, hk, hek⟩
      · exact hres
      · exfalso
        obtain ⟨r2, hs2, -⟩ := ha1.stored_of_left hk
        obtain ⟨j2, hj2, hj2l, -⟩ := (hst k r2).1 hs2
        rw [hcl] at hek
        obtain ⟨rfl, -⟩ := ha.left_unique hj2l hl (equiv_symm hek)
        exact hG hj2
    · obtain ⟨res, hres, hcase⟩ := ha1.find_right_spec r fuel hf
      rcases hcase with ⟨rfl, -⟩ | ⟨j, k, -, hk, hek⟩
      · exact hres
      · exfalso
        obtain ⟨l2, hs2, -⟩ := ha1.stored_of_right hk
        obtain ⟨j2, hj2, -, hj2r⟩ := (hst l2 k).1 hs2
        rw [hcr] at hek
        obtain ⟨rfl, -⟩ := ha.right_unique hj2r hr (equiv_symm hek)
        exact hG hj2
  · intro l r hs
    obtain ⟨j, -, hjl, hjr⟩ := (hst l r).1 hs
    exact (ha.stored_iff l r).2 ⟨j, hjl, hjr⟩

/-- The range erase `erase_left(first, last)` between the `j`-th left position and the
position `n` steps further. -/
theorem Abs.erase_left_range_spec {w : World α β} {b : Nat} {tl : Shape α} {tr : Shape β}
    (ha : Abs w b tl tr) (fuel : Nat) (hf : w.size b < fuel) (j n : Nat)
    (hjn : j + n ≤ tl.size) :
    ∃ w1 tl1 tr1, erase_left_range w fuel b (tl.ptrs.getD j (end_left b))
        (tl.ptrs.getD (j + n) (end_left b)) =
          some (w1, tl.ptrs.getD (j + n) (end_left b)) ∧
      Abs w1 b tl1 tr1 ∧ tl1.ptrs = tl.ptrs.take j ++ tl.ptrs.drop (j + n) ∧
      w1.size b + n = w.size b ∧
      w1.cmp_left b = w.cmp_left b ∧ w1.cmp_right b = w.cmp_right b ∧
      (∀ l r, Stored w1 b l r ↔ ∃ i, Ptr.node i .Left_Tag ∉ (tl.ptrs.drop j).take n ∧
        (Ptr.node i .Left_Tag, l) ∈ tl.toList ∧ (Ptr.node i .Right_Tag, r) ∈ tr.toList) ∧
      w1.heap.right (end_left b) = w.heap.right (end_left b) ∧
      w1.heap.right (end_right b) = w.heap.right (end_right b) := by
  have hlen : tl.ptrs.length = tl.size := (Shape.size_eq_length tl).symm
  have hsplit : tl.ptrs = tl.ptrs.take j ++ ((tl.ptrs.drop j).take n ++ tl.ptrs.drop (j + n)) := by
    have h1 := (List.take_append_drop j tl.ptrs).symm
    have h2 := (List.take_append_drop n (tl.ptrs.drop j)).symm
    rw [List.drop_drop] at h2
    rw [← h2]
    exact h1
  have hmidlen : ((tl.ptrs.drop j).take n).length = n := by
    simp only [List.length_take, List.length_drop]
    omega
  have hfirst : ((tl.ptrs.drop j).take n ++ tl.ptrs.drop (j + n)).headD (end_left b) =
      tl.ptrs.getD j (end_left b) := by
    have h2 := List.take_append_drop n (tl.ptrs.drop j)
    rw [List.drop_drop] at h2
    rw [h2, headD_drop]
  have hlast : (tl.ptrs.drop (j + n)).headD (end_left b) = tl.ptrs.getD (j + n) (end_left b) :=
    headD_drop _ _ _
  obtain ⟨w1, tl1, tr1, hloop, ha1, hp1, hsz1, hcl1, hcr1, hst1, hrl1, hrr1⟩ :=
    Abs.erase_left_loop_spec b fuel (tl.ptrs.drop (j + n)) ((tl.ptrs.drop j).take n) w tl tr
      (tl.ptrs.take j) fuel ha hsplit hf
      (by rw [hmidlen]; rw [ha.size_eq] at hf; omega)
  rw [hfirst, hlast] at hloop
  rw [hmidlen] at hsz1
  exact ⟨w1, tl1, tr1, hloop, ha1, hp1, hsz1, hcl1, hcr1, hst1, hrl1, hrr1⟩

theorem Abs.erase_right_range_spec {w : World α β} {b : Nat} {tl : Shape α} {tr : Shape β}
    (ha : Abs w b tl tr) (fuel : Nat) (hf : w.size b < fuel) (j n : Nat)
    (hjn : j + n ≤ tr.size) :
    ∃ w1 tl1 tr1, erase_right_range w fuel b (tr.ptrs.getD j (end_right b))
        (tr.ptrs.getD (j + n) (end_right b)) =
          some (w1, tr.ptrs.getD (j + n) (end_right b)) ∧
      Abs w1 b tl1 tr1 ∧ tr1.ptrs = tr.ptrs.take j ++ tr.ptrs.drop (j + n) ∧
      w1.size b + n = w.size b ∧
      w1.cmp_left b = w.cmp_left b ∧ w1.cmp_right b = w.cmp_right b ∧
      (∀ l r, Stored w1 b l r ↔ ∃ i, Ptr.node i .Right_Tag ∉ (tr.ptrs.drop j).take n ∧
        (Ptr.node i .Left_Tag, l) ∈ tl.toList ∧ (Ptr.node i .Right_Tag, r) ∈ tr.toList) ∧
      w1.heap.right (end_left b) = w.heap.right (end_left b) ∧
      w1.heap.right (end_right b) = w.heap.right (end_right b) := by
  have hlen : tr.ptrs.length = tr.size := (Shape.size_eq_length tr).symm
  have hsplit : tr.ptrs = tr.ptrs.take j ++ ((tr.ptrs.drop j).take n ++ tr.ptrs.drop (j + n)) := by
    have h1 := (List.take_append_drop j tr.ptrs).symm
    have h2 := (List.take_append_drop n (tr.ptrs.drop j)).symm
    rw [List.drop_drop] at h2
    rw [← h2]
    exact h1
  have hmidlen : ((tr.ptrs.drop j).take n).length = n := by
    simp only [List.length_take, List.length_drop]
    omega
  have hfirst : ((tr.ptrs.drop j).take n ++ tr.ptrs.drop (j + n)).headD (end_right b) =
      tr.ptrs.getD j (end_right b) := by
    have h2 := List.take_append_drop n (tr.ptrs.drop j)
    rw [List.drop_drop] at h2
    rw [h2, headD_drop]
  have hlast : (tr.ptrs.drop (j + n)).headD (end_right b) =
      tr.ptrs.getD (j + n) (end_right b) := headD_drop _ _ _
  have hsr := ha.size_right
  obtain ⟨w1, tl1, tr1, hloop, ha1, hp1, hsz1, hcl1, hcr1, hst1, hrl1, hrr1⟩ :=
    Abs.erase_right_loop_spec b fuel (tr.ptrs.drop (j + n)) ((tr.ptrs.drop j).take n) w tl tr
      (tr.ptrs.take j) fuel ha hsplit hf
      (by rw [hmidlen]; rw [ha.size_eq] at hf; omega)
  rw [hfirst, hlast] at hloop
  rw [hmidlen] at hsz1
  exact ⟨w1, tl1, tr1, hloop, ha1, hp1, hsz1, hcl1, hcr1, hst1, hrl1, hrr1⟩

end bimap

open bimap_details

namespace bimap

/-- C14: on a valid bimap, for the left position `first` reached from `begin_left()` by `j`
increments and the position `last` reached from `first` by `n` more (`j + n ≤ size()`),
`erase_left(first, last)` returns `last`, decreases `size()` by `n`, removes from both sides
the pairs at the `n` positions from `first` on, keeps every other pair stored and adds none;
symmetrically for `erase_right(first, last)`; and `clear()`, which erases
`[begin_left(), end_left())`, leaves `size() == 0`, `begin_left() == end_left()` and
`begin_right() == end_right()`. -/
theorem C14_range_erase (w : World α β) (b : Nat) (hv : Valid w b) (fuel : Nat)
    (hf : size w b < fuel) :
    (∀ j n first last, j + n ≤ size w b → LeftPos w fuel b j first →
      incr_n w.heap fuel n first = some last →
      ∃ w1, erase_left_range w fuel b first last = some (w1, last) ∧ Valid w1 b ∧
        size w1 b + n = size w b ∧
        (∀ i, i < n → ∃ p l r, incr_n w.heap fuel i first = some p ∧
          w.pair_at p = some (l, r) ∧ Stored w b l r ∧ ¬Stored w1 b l r ∧
          find_left w1 fuel b l = some (end_left b) ∧
          find_right w1 fuel b r = some (end_right b)) ∧
        (∀ l r, Stored w b l r →
          (∀ i, i < n → ∀ p, incr_n w.heap fuel i first = some p →
            w.pair_at p ≠ some (l, r)) → Stored w1 b l r) ∧
        (∀ l r, Stored w1 b l r → Stored w b l r)) ∧
    (∀ j n first last, j + n ≤ size w b → RightPos w fuel b j first →
      incr_n w.heap fuel n first = some last →
      ∃ w1, erase_right_range w fuel b first last = some (w1, last) ∧ Valid w1 b ∧
        size w1 b + n = size w b ∧
        (∀ i, i < n → ∃ p l r, incr_n w.heap fuel i first = some p ∧
          w.pair_at p.flipTag = some (l, r) ∧ Stored w b l r ∧ ¬Stored w1 b l r ∧
          find_left w1 fuel b l = some (end_left b) ∧
          find_right w1 fuel b r = some (end_right b)) ∧
        (∀ l r, Stored w b l r →
          (∀ i, i < n → ∀ p, incr_n w.heap fuel i first = some p →
            w.pair_at p.flipTag ≠ some (l, r)) → Stored w1 b l r) ∧
        (∀ l r, Stored w1 b l r → Stored w b l r)) ∧
    (∃ w1, clear w fuel b = some w1 ∧ size w1 b = 0 ∧
      begin_left w1 fuel b = some (end_left b) ∧ begin_right w1 fuel b = some (end_right b) ∧
      ∀ l r, ¬Stored w1 b l r) := by
  obtain ⟨tl, tr, ha⟩ := hv
  simp only [size] at hf ⊢
  have hsl : w.size b = tl.size := ha.size_eq
  have hsr : tr.size = tl.size := ha.size_right
  have hfl : tl.size < fuel := by omega
  have hfr : tr.size < fuel := by omega
  have hlenl : tl.ptrs.length = tl.size := (Shape.size_eq_length tl).symm
  have hlenr : tr.ptrs.length = tr.size := (Shape.size_eq_length tr).symm
  refine ⟨?_, ?_, ?_⟩
  · intro j n first last hjn hpos hlast
    have hfirst := (ha.left_pos_iff fuel hf j (by omega) first).1 hpos
    subst hfirst
    have hstep : ∀ i, i ≤ n → incr_n w.heap fuel i (tl.ptrs.getD j (end_left b)) =
        some (tl.ptrs.getD (j + i) (end_left b)) := fun i hi =>
      map.incr_n_spec ha.left fuel hfl i j (by omega)
    have hl : last = tl.ptrs.getD (j + n) (end_left b) := by
      have := hstep n (le_refl _)
      rw [hlast] at this
      exact Option.some.inj this
    subst hl
    obtain ⟨w1, tl1, tr1, hrange, ha1, -, hsz1, hcl1, hcr1, hst1, -, -⟩ :=
      ha.erase_left_range_spec fuel hf j n (by omega)
    obtain ⟨hgone, hsub⟩ := ha.removed_sem ha1 hcl1 hcr1
      (fun i => Ptr.node i .Left_Tag ∉ (tl.ptrs.drop j).take n) hst1 fuel (by omega)
    refine ⟨w1, hrange, ⟨tl1, tr1, ha1⟩, hsz1, ?_, ?_, hsub⟩
    · intro i hi
      have hjl : j + i < tl.ptrs.length := by omega
      have hm := getD_mem_of_lt tl.ptrs (end_left b) (j + i) hjl
      have hmid : tl.ptrs.getD (j + i) (end_left b) ∈ (tl.ptrs.drop j).take n := by
        rw [← getD_drop]
        exact getD_mem_take _ _ _ _ hi (by simp only [List.length_drop]; omega)
      obtain ⟨l, hl⟩ := Shape.exists_key_of_mem_ptrs hm
      obtain ⟨k, r, hk, hr⟩ := ha.exists_right hl
      rw [hk] at hl hmid
      obtain ⟨h1, h2, h3⟩ := hgone k l r (fun hG => hG hmid) hl hr
      exact ⟨_, l, r, hstep i (by omega), by rw [hk]; exact ha.pair_at_of_mem hl hr,
        (ha.stored_iff l r).2 ⟨k, hl, hr⟩, h1, h2, h3⟩
    · intro l r hs hnot
      obtain ⟨k, hkl, hkr⟩ := (ha.stored_iff l r).1 hs
      refine (hst1 l r).2 ⟨k, ?_, hkl, hkr⟩
      intro hmid
      obtain ⟨i, hin, hil, hget⟩ := mem_take_getD _ (end_left b) n _ hmid
      rw [getD_drop] at hget
      have := hnot i hin _ (hstep i (by omega))
      rw [hget] at this
      exact this (ha.pair_at_of_mem hkl hkr)
  · intro j n first last hjn hpos hlast
    have hfirst := (ha.right_pos_iff fuel hf j (by omega) first).1 hpos
    subst hfirst
    have hstep : ∀ i, i ≤ n → incr_n w.heap fuel i (tr.ptrs.getD j (end_right b)) =
        some (tr.ptrs.getD (j + i) (end_right b)) := fun i hi =>
      map.incr_n_spec ha.right fuel hfr i j (by omega)
    have hl : last = tr.ptrs.getD (j + n) (end_right b) := by
      have := hstep n (le_refl _)
      rw [hlast] at this
      exact Option.some.inj this
    subst hl
    obtain ⟨w1, tl1, tr1, hrange, ha1, -, hsz1, hcl1, hcr1, hst1, -, -⟩ :=
      ha.erase_right_range_spec fuel hf j n (by omega)
    obtain ⟨hgone, hsub⟩ := ha.removed_sem ha1 hcl1 hcr1
      (fun i => Ptr.node i .Right_Tag ∉ (tr.ptrs.drop j).take n) hst1 fuel (by omega)
    refine ⟨w1, hrange, ⟨tl1, tr1, ha1⟩, hsz1, ?_, ?_, hsub⟩
    · intro i hi
      have hjl : j + i < tr.ptrs.length := by omega
      have hm := getD_mem_of_lt tr.ptrs (end_right b) (j + i) hjl
      have hmid : tr.ptrs.getD (j + i) (end_right b) ∈ (tr.ptrs.drop j).take n := by
        rw [← getD_drop]
        exact getD_mem_take _ _ _ _ hi (by simp only [List.length_drop]; omega)
      obtain ⟨r, hr⟩ := Shape.exists_key_of_mem_ptrs hm
      obtain ⟨k, l, hk, hl⟩ := ha.exists_left hr
      rw [hk] at hr hmid
      obtain ⟨h1, h2, h3⟩ := hgone k l r (fun hG => hG hmid) hl hr
      exact ⟨_, l, r, hstep i (by omega),
        by rw [hk]; exact ha.pair_at_of_mem hl hr,
        (ha.stored_iff l r).2 ⟨k, hl, hr⟩, h1, h2, h3⟩
    · intro l r hs hnot
      obtain ⟨k, hkl, hkr⟩ := (ha.stored_iff l r).1 hs
      refine (hst1 l r).2 ⟨k, ?_, hkl, hkr⟩
      intro hmid
      obtain ⟨i, hin, hil, hget⟩ := mem_take_getD _ (end_right b) n _ hmid
      rw [getD_drop] at hget
      have := hnot i hin _ (hstep i (by omega))
      rw [hget] at this
      exact this (ha.pair_at_of_mem hkl hkr)
  · obtain ⟨w1, tl1, tr1, hrange, ha1, hp1, hsz1, -, -, -, -, -⟩ :=
      ha.erase_left_range_spec fuel hf 0 tl.size (by omega)
    have hb : begin_left w fuel b = some (tl.ptrs.getD 0 (end_left b)) := by
      rw [begin_left, map.begin_spec ha.left fuel (by omega)]
      cases tl.ptrs <;> rfl
    have hend : tl.ptrs.getD (0 + tl.size) (end_left b) = end_left b :=
      List.getD_eq_default _ _ (by omega)
    rw [hend] at hrange
    have hz : w1.size b = 0 := by omega
    obtain ⟨e1, e2⟩ := ha1.nil_of_size_zero hz
    subst e1 e2
    refine ⟨w1, by simp [-List.getD_eq_getElem?_getD, clear, hb, hrange], hz, ?_, ?_, ?_⟩
    · rw [begin_left, map.begin_spec ha1.left fuel (Nat.zero_le _)]; rfl
    · rw [begin_right, map.begin_spec ha1.right fuel (Nat.zero_le _)]; rfl
    · intro l r hs
      obtain ⟨i, hl, -⟩ := (ha1.stored_iff l r).1 hs
      simp [Shape.toList] at hl

theorem C14_range_erase_witness :
    (∀ j n first last, j + n ≤ size demo_nat 0 → LeftPos demo_nat 8 0 j first →
      incr_n demo_nat.heap 8 n first = some last →
      ∃ w1, erase_left_range demo_nat 8 0 first last = some (w1, last) ∧ Valid w1 0 ∧
        size w1 0 + n = size demo_nat 0 ∧
        (∀ i, i < n → ∃ p l r, incr_n demo_nat.heap 8 i first = some p ∧
          demo_nat.pair_at p = some (l, r) ∧ Stored demo_nat 0 l r ∧ ¬Stored w1 0 l r ∧
          find_left w1 8 0 l = some (end_left 0) ∧
          find_right w1 8 0 r = some (end_right 0)) ∧
        (∀ l r, Stored demo_nat 0 l r →
          (∀ i, i < n → ∀ p, incr_n demo_nat.heap 8 i first = some p →
            demo_nat.pair_at p ≠ some (l, r)) → Stored w1 0 l r) ∧
        (∀ l r, Stored w1 0 l r → Stored demo_nat 0 l r)) ∧
    (∀ j n first last, j + n ≤ size demo_nat 0 → RightPos demo_nat 8 0 j first →
      incr_n demo_nat.heap 8 n first = some last →
      ∃ w1, erase_right_range demo_nat 8 0 first last = some (w1, last) ∧ Valid w1 0 ∧
        size w1 0 + n = size demo_nat 0 ∧
        (∀ i, i < n → ∃ p l r, incr_n demo_nat.heap 8 i first = some p ∧
          demo_nat.pair_at p.flipTag = some (l, r) ∧ Stored demo_nat 0 l r ∧
          ¬Stored w1 0 l r ∧ find_left w1 8 0 l = some (end_left 0) ∧
          find_right w1 8 0 r = some (end_right 0)) ∧
        (∀ l r, Stored demo_nat 0 l r →
          (∀ i, i < n → ∀ p, incr_n demo_nat.heap 8 i first = some p →
            demo_nat.pair_at p.flipTag ≠ some (l, r)) → Stored w1 0 l r) ∧
        (∀ l r, Stored w1 0 l r → Stored demo_nat 0 l r)) ∧
    (∃ w1, clear demo_nat 8 0 = some w1 ∧ size w1 0 = 0 ∧
      begin_left w1 8 0 = some (end_left 0) ∧ begin_right w1 8 0 = some (end_right 0) ∧
      ∀ l r, ¬Stored w1 0 l r) :=
  C14_range_erase demo_nat 0 demo_nat_spec.2.1 8 (by decide)

end bimap

/-!
## Validity of the search tree under `map::insert` and `map::erase`
-/

namespace bimap_details

theorem Rep.value_at {h : Heap} {value : Ptr → Option K} {par : Ptr} {t : Shape K}
    (hr : Rep h value par t) {p : Ptr} {k : K} (hm : (p, k) ∈ t.toList) :
    value p = some k := by
  induction t generalizing par with
  | nil => simp [Shape.toList] at hm
  | node l q k1 r ihl ihr =>
    obtain ⟨-, hv, hl, hrr⟩ := hr
    simp only [Shape.toList, List.mem_append, List.mem_cons, Prod.mk.injEq] at hm
    rcases hm with hm | ⟨rfl, rfl⟩ | hm
    · exact ihl hl hm
    · exact hv
    · exact ihr hrr hm

theorem Rep.parent_some_of_mem {h : Heap} {value : Ptr → Option K} {t : Shape K} {p : Ptr} :
    ∀ (par : Ptr), par ≠ .nullptr → Rep h value par t → p ∈ t.ptrs →
      ∃ n, h.deref p = some n ∧ n.parent ≠ .nullptr := by
  induction t with
  | nil => intro par _ _ hm; simp [Shape.ptrs] at hm
  | node l q k r ihl ihr =>
    intro par hpar hr hm
    obtain ⟨hq, -, hl, hrr⟩ := hr
    have hqn : q ≠ .nullptr := deref_ne_null hq
    simp only [Shape.ptrs, List.mem_append, List.mem_cons] at hm
    rcases hm with hm | rfl | hm
    · exact ihl q hqn hl hm
    · exact ⟨_, hq, hpar⟩
    · exact ihr q hqn hrr hm

/-- The search-tree property makes the in-order key sequence strictly ascending. -/
theorem Shape.sorted_of_bst {cmp : K → K → Bool}
    (htr : ∀ a b c, cmp a b = true → cmp b c = true → cmp a c = true) (t : Shape K)
    (hb : t.bst cmp) : t.keys.Pairwise (fun a b => cmp a b = true) := by
  induction t with
  | nil => simp [Shape.keys]
  | node l q k r ihl ihr =>
    obtain ⟨hlk, hkr, hbl, hbr⟩ := hb
    simp only [Shape.keys, List.pairwise_append, List.pairwise_cons]
    refine ⟨ihl hbl, ⟨hkr, ihr hbr⟩, ?_⟩
    intro x hx y hy
    rcases List.mem_cons.1 hy with rfl | hy
    · exact hlk x hx
    · exact htr _ _ _ (hlk x hx) (hkr y hy)

/-- A strictly ascending in-order key sequence gives the search-tree property. -/
theorem Shape.bst_of_sorted {cmp : K → K → Bool} (t : Shape K)
    (hs : t.keys.Pairwise (fun a b => cmp a b = true)) : t.bst cmp := by
  induction t with
  | nil => trivial
  | node l q k r ihl ihr =>
    simp only [Shape.keys, List.pairwise_append, List.pairwise_cons] at hs
    obtain ⟨hsl, ⟨hkr, hsr⟩, hlr⟩ := hs
    exact ⟨fun x hx => hlr x hx k (List.mem_cons_self _ _), hkr, ihl hsl, ihr hsr⟩

/-- In a represented tree with strictly ascending keys no node occurs twice. -/
theorem Rep.nodup_of_sorted {h : Heap} {cmp : K → K → Bool} {value : Ptr → Option K}
    {par : Ptr} {t : Shape K} (hr : Rep h value par t) (hirr : ∀ a, cmp a a = false)
    (hs : t.keys.Pairwise (fun a b => cmp a b = true)) : t.ptrs.Nodup := by
  rw [← Shape.keys_toList, List.pairwise_map] at hs
  rw [← Shape.ptrs_toList, List.Nodup, List.pairwise_map]
  refine hs.imp_of_mem ?_
  intro x y hx hy hxy e
  have h1 := hr.value_at (p := x.1) (k := x.2) hx
  have h2 := hr.value_at (p := y.1) (k := y.2) hy
  rw [e, h2] at h1
  have : y.2 = x.2 := Option.some.inj h1
  rw [this, hirr] at hxy
  exact absurd hxy (by simp)

theorem ValidBST.mapInv {m : map K} {h : Heap} {t : Shape K} (hv : ValidBST m h t)
    (hs : StrictWeakOrder m.cmp) : MapInv m h t := by
  obtain ⟨fl, hhead, hfl⟩ := hv.head
  have hsorted := Shape.sorted_of_bst hs.trans t hv.bst
  refine ⟨⟨fl, hhead, hfl⟩, hv.rep, hv.rep.nodup_of_sorted hs.irrefl hsorted, ?_, hsorted⟩
  intro hm
  obtain ⟨n, hn, hpar⟩ := Rep.parent_some_of_mem m.head (deref_ne_null hhead) hv.rep hm
  rw [hhead] at hn
  simp only [Option.some.injEq] at hn
  subst hn
  exact hpar rfl

theorem MapInv.validBST {m : map K} {h : Heap} {t : Shape K} (hinv : MapInv m h t) :
    ValidBST m h t :=
  ⟨hinv.head, hinv.rep, Shape.bst_of_sorted t hinv.sorted⟩

/-- C18: `map::insert(node)` of a fresh node whose key is equivalent to no stored key, and
`map::erase(position)` of any node of the tree, both succeed on a valid binary search tree
under a strict weak ordering and leave a valid binary search tree: the search-tree property,
the parent links and the head link all hold again, with the node added or removed. -/
theorem C18_bst_preserved (m : map K) (h : Heap) (t : Shape K) (hs : StrictWeakOrder m.cmp)
    (hv : ValidBST m h t) (fuel : Nat) (hf : t.size < fuel) :
    (∀ p key, h.deref p = some ⟨.nullptr, .nullptr, .nullptr⟩ → m.value p = some key →
      p ≠ m.head → h.right m.head ≠ some p → (∀ k ∈ t.keys, equiv m.cmp key k = false) →
      ∃ h1 t1, m.insert h fuel p = some (h1, p) ∧ ValidBST m h1 t1 ∧
        t1.toList.Perm ((p, key) :: t.toList)) ∧
    (∀ p, p ∈ t.ptrs →
      ∃ h1 t1, map.erase h fuel p = some (h1, p) ∧ ValidBST m h1 t1 ∧
        t1.toList = t.toList.filter (fun x => x.1 != p)) := by
  have hinv := hv.mapInv hs
  constructor
  · intro p key hpd hpv hph hfl hne
    have hp : p ∉ t.ptrs := by
      intro hm
      obtain ⟨n, hn, hpar⟩ := hinv.parent_ne_null hm
      rw [hpd] at hn
      simp only [Option.some.injEq] at hn
      subst hn
      exact hpar rfl
    obtain ⟨h1, hins, hinv1, -⟩ :=
      map.insert_node_spec hinv hs.trans p key hpd hpv hp hph hfl hne fuel hf
    exact ⟨h1, _, hins, hinv1.validBST, Shape.ins_toList_perm m.cmp key p t⟩
  · intro p hp
    obtain ⟨h1, he, hinv1, -⟩ := map.erase_spec hinv p hp fuel hf
    exact ⟨h1, _, he, hinv1.validBST, Shape.erase_toList t p hinv.nodup⟩

theorem demo_valid : ValidBST demo_map demo_heap demo_shape := by
  refine ⟨⟨.nullptr, rfl, by simp [demo_shape, Shape.ptrs]⟩, ?_, ?_⟩
  · simp [demo_shape, Rep, demo_heap, demo_map, Heap.deref, Shape.root]
  · simp [demo_shape, Shape.bst, Shape.keys, demo_map, nat_less]

theorem C18_bst_preserved_witness :
    (∃ h1 t1, demo_map.insert demo_heap 4 (.node 3 .Left_Tag) = some (h1, .node 3 .Left_Tag) ∧
      ValidBST demo_map h1 t1 ∧
      t1.toList.Perm ((.node 3 .Left_Tag, 40) :: demo_shape.toList)) ∧
    (∃ h1 t1, map.erase demo_heap 4 (.node 1 .Left_Tag) = some (h1, .node 1 .Left_Tag) ∧
      ValidBST demo_map h1 t1 ∧
      t1.toList = demo_shape.toList.filter (fun x => x.1 != .node 1 .Left_Tag)) := by
  have hc := C18_bst_preserved demo_map demo_heap demo_shape swo_nat_less demo_valid 4
    (by decide)
  exact ⟨hc.1 (.node 3 .Left_Tag) 40 rfl rfl (by decide) (by decide) (by decide),
    hc.2 (.node 1 .Left_Tag) (by decide)⟩

end bimap_details

/-!
## What `map::erase` does to a node with two children
-/

namespace bimap_details

/-- Where the successor ends up when the erased node `p` has two children: read off the heap
before (`h`) and the heap after (`h1`) the erase of `p` from a tree hanging in a slot of
`par`. -/
theorem erase_two_aux {h h1 : Heap} {value : Ptr → Option K} (p : Ptr) (n : map_base_node)
    (hpd : h.deref p = some n) (hnl : n.left ≠ .nullptr) (hnr : n.right ≠ .nullptr)
    (fuel : Nat) :
    ∀ (t : Shape K) (par : Ptr) (pn : map_base_node), Rep h value par t → t.ptrs.Nodup →
      par ∉ t.ptrs → h.deref par = some pn →
      (pn.left = t.root ∨ (pn.left ∉ t.ptrs ∧ pn.right = t.root)) → p ∈ t.ptrs →
      t.size ≤ fuel → Rep h1 value par (t.erase p) →
      h1.deref par = some (if pn.left = t.root then ⟨(t.erase p).root, pn.right, pn.parent⟩
        else ⟨pn.left, (t.erase p).root, pn.parent⟩) →
      ∃ s, descend_left h fuel n.right = some s ∧ h1.parent s = some n.parent ∧
        h1.left s = some n.left ∧ h1.parent n.left = some s ∧
        (h.left n.parent = some p → h1.left n.parent = some s) ∧
        (h.left n.parent ≠ some p → h1.right n.parent = some s) := by
  intro t
  induction t with
  | nil => intro par pn _ _ _ _ _ hm; simp [Shape.ptrs] at hm
  | node l q k r ihl ihr =>
    intro par pn hr hn hpar hp hslot hmem hf hr1 hpar1
    obtain ⟨hq, hv, hl, hrr⟩ := hr
    simp only [Shape.size] at hf
    have hn0 := hn
    simp only [Shape.ptrs] at hn
    have hnodl := (List.nodup_append.1 hn).1
    have hnodr := (List.nodup_cons.1 (List.nodup_append.1 hn).2.1).2
    have hql : q ∉ l.ptrs := fun hm =>
      (List.nodup_append.1 hn).2.2 hm (List.mem_cons_self q _)
    have hqr : q ∉ r.ptrs := (List.nodup_cons.1 (List.nodup_append.1 hn).2.1).1
    have hdisj : ∀ y, y ∈ l.ptrs → y ∉ r.ptrs := fun y hy hy1 =>
      (List.nodup_append.1 hn).2.2 hy (List.mem_cons_of_mem _ hy1)
    have hlroot : l.root ∉ r.ptrs := by
      cases l with
      | nil => exact hrr.null_notin
      | node a b c d => exact hdisj _ (Shape.root_mem_ptrs _ _ _ _)
    simp only [Shape.root_node] at hslot hpar1
    by_cases hqp : q = p
    · subst hqp
      rw [hq] at hpd
      simp only [Option.some.injEq] at hpd
      subst hpd
      simp only at hnl hnr ⊢
      have hlne : l ≠ .nil := by rintro rfl; exact hnl rfl
      have hrne : r ≠ .nil := by rintro rfl; exact hnr rfl
      obtain ⟨s, ks, hlm, -, hhead⟩ := Shape.leftmost_spec r hrne
      have hle : l.isNil = false := by cases l <;> simp [Shape.isNil] at hlne ⊢
      have hre : r.isNil = false := by cases r <;> simp [Shape.isNil] at hrne ⊢
      have herase : (Shape.node l q k r).erase q = .node l s ks (r.erase s) := by
        rw [Shape.erase]
        simp only [if_true, hle, hre, Bool.false_eq_true, if_false, hlm]
      rw [herase] at hr1 hpar1
      obtain ⟨hs1, -, hl1, -⟩ := hr1
      simp only [Shape.root_node] at hpar1
      have hdesc := descend_left_spec r q hrr hrne fuel (by omega) s
      rw [hhead s] at hdesc
      have hpl : h1.parent l.root = some s := by
        cases l with
        | nil => exact absurd rfl hlne
        | node a b c d => exact parent_of_deref hl1.1
      refine ⟨s, hdesc, parent_of_deref hs1, left_of_deref hs1, hpl, ?_, ?_⟩
      · intro hleft
        rw [left_of_deref hp] at hleft
        simp only [Option.some.injEq] at hleft
        rw [if_pos hleft] at hpar1
        exact left_of_deref hpar1
      · intro hleft
        rw [left_of_deref hp] at hleft
        have hne : pn.left ≠ q := fun e => hleft (by rw [e])
        rw [if_neg hne] at hpar1
        exact right_of_deref hpar1
    · simp only [Shape.ptrs, List.mem_append, List.mem_cons] at hmem
      have hpq : p ≠ q := fun e => hqp e.symm
      by_cases hpl : p ∈ l.ptrs
      · have herase : (Shape.node l q k r).erase p = .node (l.erase p) q k r := by
          rw [Shape.erase]
          simp only [hqp, if_false, hpl, if_true]
        rw [herase] at hr1
        obtain ⟨hq1, -, hl1, -⟩ := hr1
        exact ihl q ⟨l.root, r.root, par⟩ hl hnodl hql hq (Or.inl rfl) hpl (by omega) hl1
          (by rw [hq1]; simp)
      · have hpr : p ∈ r.ptrs := by
          rcases hmem with h | h | h
          · exact absurd h hpl
          · exact absurd h hpq
          · exact h
        have herase : (Shape.node l q k r).erase p = .node l q k (r.erase p) := by
          rw [Shape.erase]
          simp only [hqp, if_false, hpl]
        rw [herase] at hr1
        obtain ⟨hq1, -, -, hrr1⟩ := hr1
        have hrroot : r.root ∈ r.ptrs := by
          cases r with
          | nil => simp [Shape.ptrs] at hpr
          | node a b c d => exact Shape.root_mem_ptrs _ _ _ _
        have hne : l.root ≠ r.root := fun e => hlroot (e ▸ hrroot)
        exact ihr q ⟨l.root, r.root, par⟩ hrr hnodr hqr hq (Or.inr ⟨hlroot, rfl⟩) hpr
          (by omega) hrr1 (by rw [hq1]; simp [hne])

/-- Removing the one entry of a node from a list without repeated nodes. -/
theorem perm_cons_filter_ne (L : List (Ptr × K)) (p : Ptr) (k : K)
    (hn : (L.map Prod.fst).Nodup) (hk : (p, k) ∈ L) :
    L.Perm ((p, k) :: L.filter (fun x => x.1 != p)) := by
  induction L with
  | nil => simp at hk
  | cons x xs ih =>
    simp only [List.map_cons, List.nodup_cons] at hn
    by_cases hxp : x.1 = p
    · have hx : x = (p, k) := by
        rcases List.mem_cons.1 hk with e | hm
        · exact e.symm
        · exact absurd (hxp ▸ List.mem_map_of_mem Prod.fst hm) hn.1
      have hall : xs.filter (fun y => y.1 != p) = xs := by
        rw [List.filter_eq_self]
        intro y hy
        have : y.1 ≠ p := fun e => hn.1 (by rw [hxp, ← e]; exact List.mem_map_of_mem _ hy)
        simp [this]
      rw [List.filter_cons]
      simp only [hxp, bne_self_eq_false, Bool.false_eq_true, if_false, hall]
      rw [hx]
    · have hm : (p, k) ∈ xs := by
        rcases List.mem_cons.1 hk with e | hm
        · exact absurd (by rw [← e]) hxp
        · exact hm
      have := ih hn.2 hm
      rw [List.filter_cons]
      have hb : (x.1 != p) = true := by simp [hxp]
      simp only [hb, if_true]
      exact (List.Perm.cons x this).trans (List.Perm.swap _ _ _)

/-- C20: on a valid tree `erase(p)` of an element position returns the node at `p` with its
three links cleared; the in-order sequence of nodes and keys afterwards is the previous one
with the entry of `p` removed; and when `p` had two children, its in-order successor `s` (the
leftmost node of its right subtree, which is also `++p`) now has the former parent of `p` as
parent and the former left child of `p` as left child, that child names `s` as parent, and the
slot of the former parent that held `p` holds `s`. -/
theorem C20_erase_promotes_successor (m : map K) (h : Heap) (t : Shape K)
    (hs : StrictWeakOrder m.cmp) (hv : ValidBST m h t) (fuel : Nat) (hf : t.size < fuel)
    (p : Ptr) (hp : p ∈ t.ptrs) :
    ∃ h1 t1, map.erase h fuel p = some (h1, p) ∧
      h1.deref p = some ⟨.nullptr, .nullptr, .nullptr⟩ ∧ ValidBST m h1 t1 ∧
      t1.toList = t.toList.filter (fun x => x.1 != p) ∧
      (∃ k, m.value p = some k ∧ (p, k) ∈ t.toList ∧ t1.keys.length + 1 = t.keys.length ∧
        t.toList.Perm ((p, k) :: t1.toList)) ∧
      ∀ n, h.deref p = some n → n.left ≠ .nullptr → n.right ≠ .nullptr →
        ∃ s, descend_left h fuel n.right = some s ∧ iterator_incr h fuel p = some s ∧
          h1.parent s = some n.parent ∧ h1.left s = some n.left ∧
          h1.parent n.left = some s ∧
          (h.left n.parent = some p → h1.left n.parent = some s) ∧
          (h.left n.parent ≠ some p → h1.right n.parent = some s) := by
  have hinv := hv.mapInv hs
  obtain ⟨fl, hhead, hfl⟩ := hinv.head
  obtain ⟨h1, he, hrep, hdh, hdp, -⟩ := map.erase_spec_aux t m.head ⟨t.root, fl, .nullptr⟩
    hinv.rep hinv.nodup hinv.head_notin hhead (Or.inl rfl) p hp fuel hf
  obtain ⟨h1', he', hinv1, -⟩ := map.erase_spec hinv p hp fuel hf
  rw [he] at he'
  simp only [Option.some.injEq, Prod.mk.injEq, and_true] at he'
  subst he'
  obtain ⟨k, hk⟩ := Shape.exists_key_of_mem_ptrs hp
  have htl := Shape.erase_toList t p hinv.nodup
  have hperm : t.toList.Perm ((p, k) :: (t.erase p).toList) := by
    rw [htl]
    exact perm_cons_filter_ne t.toList p k (by rw [Shape.ptrs_toList]; exact hinv.nodup) hk
  refine ⟨h1, t.erase p, he, hdp, hinv1.validBST, htl,
    ⟨k, hinv.rep.value_at hk, hk, ?_, hperm⟩, ?_⟩
  · have := hperm.length_eq
    rw [← Shape.keys_toList, ← Shape.keys_toList, List.length_map, List.length_map, this]
    simp
  · intro n hn hnl hnr
    obtain ⟨s, h1s, h2s, h3s, h4s, h5s, h6s⟩ := erase_two_aux p n hn hnl hnr fuel t m.head
      ⟨t.root, fl, .nullptr⟩ hinv.rep hinv.nodup hinv.head_notin hhead (Or.inl rfl) hp
      (by omega) hrep (by rw [hdh])
    refine ⟨s, h1s, ?_, h2s, h3s, h4s, h5s, h6s⟩
    simp only [iterator_incr, right_of_deref hn, Option.bind_eq_bind, Option.some_bind, ne_eq,
      hnr, not_false_eq_true, if_true]
    exact h1s

theorem C20_erase_promotes_successor_witness :
    ∃ h1 t1, map.erase demo_heap 4 (.node 1 .Left_Tag) = some (h1, .node 1 .Left_Tag) ∧
      h1.deref (.node 1 .Left_Tag) = some ⟨.nullptr, .nullptr, .nullptr⟩ ∧
      ValidBST demo_map h1 t1 ∧
      t1.toList = demo_shape.toList.filter (fun x => x.1 != .node 1 .Left_Tag) ∧
      (∃ k, demo_map.value (.node 1 .Left_Tag) = some k ∧
        (.node 1 .Left_Tag, k) ∈ demo_shape.toList ∧
        t1.keys.length + 1 = demo_shape.keys.length ∧
        demo_shape.toList.Perm ((.node 1 .Left_Tag, k) :: t1.toList)) ∧
      ∀ n, demo_heap.deref (.node 1 .Left_Tag) = some n → n.left ≠ .nullptr →
        n.right ≠ .nullptr →
        ∃ s, descend_left demo_heap 4 n.right = some s ∧
          iterator_incr demo_heap 4 (.node 1 .Left_Tag) = some s ∧
          h1.parent s = some n.parent ∧ h1.left s = some n.left ∧
          h1.parent n.left = some s ∧
          (demo_heap.left n.parent = some (.node 1 .Left_Tag) →
            h1.left n.parent = some s) ∧
          (demo_heap.left n.parent ≠ some (.node 1 .Left_Tag) →
            h1.right n.parent = some s) :=
  C20_erase_promotes_successor demo_map demo_heap demo_shape swo_nat_less demo_valid 4
    (by decide) (.node 1 .Left_Tag) (by decide)

end bimap_details

/-!
## The two trees of a bimap hold the same pair nodes
-/

open bimap_details

namespace bimap

/-- Every bimap built by the mutating operations is valid. -/
theorem built_valid [Inhabited α] [Inhabited β] {w : World α β} {b : Nat} (hb : Built w b) :
    Valid w b := by
  induction hb with
  | ctor w b cl cr w1 hcl hcr hc =>
    obtain ⟨w2, hw2, ha, -⟩ := ctor_spec w b cl cr hcl hcr
    rw [hc] at hw2
    simp only [Option.some.injEq] at hw2
    subst hw2
    exact ⟨_, _, ha⟩
  | insert w b fuel l r w1 it _ hf hsz hi ih =>
    obtain ⟨tl, tr, ha⟩ := ih
    by_cases hdup : (∃ k ∈ tl.keys, equiv (w.cmp_left b) l k = true) ∨
        (∃ k ∈ tr.keys, equiv (w.cmp_right b) r k = true)
    · rw [ha.insert_dup l r hdup fuel hf] at hi
      simp only [Option.some.injEq, Prod.mk.injEq] at hi
      rw [← hi.1]
      exact ⟨_, _, ha⟩
    · simp only [not_or, not_exists, not_and, Bool.not_eq_true] at hdup
      obtain ⟨w2, hw2, heff⟩ := ha.insert_spec l r hdup.1 hdup.2 fuel hf hsz
      rw [hi] at hw2
      simp only [Option.some.injEq, Prod.mk.injEq] at hw2
      rw [hw2.1]
      exact ⟨_, _, heff.abs⟩
  | erase_left_it w b fuel j it w1 nxt _ hf hj hpos he ih =>
    obtain ⟨tl, tr, ha⟩ := ih
    have hjs : j < tl.size := by rw [← ha.size_eq]; exact hj
    have hit := (ha.left_pos_iff fuel hf j (by omega) it).1 hpos
    have hm : it ∈ tl.ptrs := by
      rw [hit]
      exact getD_mem_of_lt _ _ _ (by rw [← Shape.size_eq_length]; exact hjs)
    obtain ⟨i, rfl⟩ := ha.left_form hm
    obtain ⟨w3, he3, hE⟩ := ha.erase_left_it_spec i hm fuel hf
    rw [he] at he3
    simp only [Option.some.injEq, Prod.mk.injEq] at he3
    rw [he3.1]
    exact ⟨_, _, hE.abs⟩
  | erase_right_it w b fuel j it w1 nxt _ hf hj hpos he ih =>
    obtain ⟨tl, tr, ha⟩ := ih
    have hjs : j < tr.size := by rw [ha.size_right, ← ha.size_eq]; exact hj
    have hit := (ha.right_pos_iff fuel hf j (by omega) it).1 hpos
    have hm : it ∈ tr.ptrs := by
      rw [hit]
      exact getD_mem_of_lt _ _ _ (by rw [← Shape.size_eq_length]; exact hjs)
    obtain ⟨i, rfl⟩ := ha.right_form hm
    obtain ⟨w3, he3, hE⟩ := ha.erase_right_it_spec i hm fuel hf
    rw [he] at he3
    simp only [Option.some.injEq, Prod.mk.injEq] at he3
    rw [he3.1]
    exact ⟨_, _, hE.abs⟩
  | erase_left w b fuel l w1 res _ hf he ih =>
    obtain ⟨tl, tr, ha⟩ := ih
    rcases ha.erase_left_spec l fuel hf with ⟨-, h1⟩ | ⟨i, k, w3, -, -, h1, heff⟩
    · rw [he] at h1
      simp only [Option.some.injEq, Prod.mk.injEq] at h1
      rw [h1.1]
      exact ⟨_, _, ha⟩
    · rw [he] at h1
      simp only [Option.some.injEq, Prod.mk.injEq] at h1
      rw [h1.1]
      exact ⟨_, _, heff.abs⟩
  | erase_right w b fuel r w1 res _ hf he ih =>
    obtain ⟨tl, tr, ha⟩ := ih
    rcases ha.erase_right_spec r fuel hf with ⟨-, h1⟩ | ⟨i, k, w3, -, -, h1, heff⟩
    · rw [he] at h1
      simp only [Option.some.injEq, Prod.mk.injEq] at h1
      rw [h1.1]
      exact ⟨_, _, ha⟩
    · rw [he] at h1
      simp only [Option.some.injEq, Prod.mk.injEq] at h1
      rw [h1.1]
      exact ⟨_, _, heff.abs⟩
  | erase_left_range w b fuel j n first last w1 res _ hf hjn hpos hlast he ih =>
    obtain ⟨tl, tr, ha⟩ := ih
    have hjs : j + n ≤ tl.size := by rw [← ha.size_eq]; exact hjn
    have hfirst := (ha.left_pos_iff fuel hf j (by omega) first).1 hpos
    subst hfirst
    have hl : incr_n w.heap fuel n (tl.ptrs.getD j (end_left b)) =
        some (tl.ptrs.getD (j + n) (end_left b)) :=
      map.incr_n_spec ha.left fuel (by rw [← ha.size_eq]; exact hf) n j hjs
    rw [hlast] at hl
    simp only [Option.some.injEq] at hl
    subst hl
    obtain ⟨w2, tl1, tr1, hrange, ha1, -⟩ := ha.erase_left_range_spec fuel hf j n hjs
    rw [he] at hrange
    simp only [Option.some.injEq, Prod.mk.injEq] at hrange
    rw [hrange.1]
    exact ⟨_, _, ha1⟩
  | erase_right_range w b fuel j n first last w1 res _ hf hjn hpos hlast he ih =>
    obtain ⟨tl, tr, ha⟩ := ih
    have hjs : j + n ≤ tr.size := by rw [ha.size_right, ← ha.size_eq]; exact hjn
    have hfirst := (ha.right_pos_iff fuel hf j (by omega) first).1 hpos
    subst hfirst
    have hl : incr_n w.heap fuel n (tr.ptrs.getD j (end_right b)) =
        some (tr.ptrs.getD (j + n) (end_right b)) :=
      map.incr_n_spec ha.right fuel
        (by rw [ha.size_right, ← ha.size_eq]; exact hf) n j hjs
    rw [hlast] at hl
    simp only [Option.some.injEq] at hl
    subst hl
    obtain ⟨w2, tl1, tr1, hrange, ha1, -⟩ := ha.erase_right_range_spec fuel hf j n hjs
    rw [he] at hrange
    simp only [Option.some.injEq, Prod.mk.injEq] at hrange
    rw [hrange.1]
    exact ⟨_, _, ha1⟩
  | at_left_or_default w b fuel key w1 v _ hf hsz he ih =>
    obtain ⟨tl, tr, ha⟩ := ih
    by_cases hpres : ∃ k ∈ tl.keys, equiv (w.cmp_left b) key k = true
    · obtain ⟨k, hk, hek⟩ := hpres
      obtain ⟨r, hs⟩ := (ha.mem_keys_left_iff k).1 hk
      rw [ha.default_present_left hs key hek fuel hf] at he
      simp only [Option.some.injEq, Prod.mk.injEq] at he
      rw [← he.1]
      exact ⟨_, _, ha⟩
    · simp only [not_exists, not_and, Bool.not_eq_true] at hpres
      obtain ⟨w2, tl1, tr1, hres, ha1, -⟩ := ha.default_absent key hpres fuel hf hsz
      rw [he] at hres
      simp only [Option.some.injEq, Prod.mk.injEq] at hres
      rw [hres.1]
      exact ⟨_, _, ha1⟩
  | at_right_or_default w b fuel key w1 v _ hf hsz he ih =>
    obtain ⟨tl, tr, ha⟩ := ih
    by_cases hpres : ∃ k ∈ tr.keys, equiv (w.cmp_right b) key k = true
    · obtain ⟨k, hk, hek⟩ := hpres
      obtain ⟨l, hs⟩ := (ha.mem_keys_right_iff k).1 hk
      rw [ha.default_present_right hs key hek fuel hf] at he
      simp only [Option.some.injEq, Prod.mk.injEq] at he
      rw [← he.1]
      exact ⟨_, _, ha⟩
    · simp only [not_exists, not_and, Bool.not_eq_true] at hpres
      obtain ⟨w2, tl1, tr1, hres, ha1, -⟩ := ha.default_absent_right key hpres fuel hf hsz
      rw [he] at hres
      simp only [Option.some.injEq, Prod.mk.injEq] at hres
      rw [hres.1]
      exact ⟨_, _, ha1⟩

/-- The bimaps reached by inserts and erases by key are among the built ones. -/
theorem reachable_built [Inhabited α] [Inhabited β] {w : World α β} {b : Nat}
    (hr : Reachable w b) : Built w b := by
  induction hr with
  | ctor w b cl cr w1 hcl hcr hc => exact Built.ctor w b cl cr w1 hcl hcr hc
  | insert w b fuel l r w1 it _ hf hsz hi ih => exact Built.insert w b fuel l r w1 it ih hf hsz hi
  | erase_left w b fuel l w1 res _ hf he ih => exact Built.erase_left w b fuel l w1 res ih hf he
  | erase_right w b fuel r w1 res _ hf he ih =>
    exact Built.erase_right w b fuel r w1 res ih hf he

/-- C19: in every bimap built by `insert`, `erase_left`, `erase_right` (by position, key or
range), `at_left_or_default` and `at_right_or_default`, the nodes reachable from the root of
the left tree are the left roles of exactly the pair nodes whose right roles are reachable
from the root of the right tree, and each tree has exactly `size()` nodes. -/
theorem C19_trees_share_nodes [Inhabited α] [Inhabited β] (w : World α β) (b : Nat)
    (hb : Built w b) :
    ∃ (rootL rootR : Ptr) (psL psR : List Ptr), w.heap.left (end_left b) = some rootL ∧
      w.heap.left (end_right b) = some rootR ∧
      (∀ p, Reach w.heap rootL p ↔ p ∈ psL) ∧ (∀ p, Reach w.heap rootR p ↔ p ∈ psR) ∧
      psL.Nodup ∧ psR.Nodup ∧ psL.length = size w b ∧ psR.length = size w b ∧
      (∀ p ∈ psL, ∃ i, p = .node i .Left_Tag) ∧ (∀ p ∈ psR, ∃ i, p = .node i .Right_Tag) ∧
      (∀ i, Reach w.heap rootL (.node i .Left_Tag) ↔ Reach w.heap rootR (.node i .Right_Tag)) := by
  obtain ⟨tl, tr, ha⟩ := built_valid hb
  obtain ⟨fl, hL, -⟩ := ha.left.head
  obtain ⟨fr, hR, -⟩ := ha.right.head
  simp only [World.left_map, World.right_map] at hL hR
  refine ⟨tl.root, tr.root, tl.ptrs, tr.ptrs, left_of_deref hL, left_of_deref hR,
    ha.left.rep.reach_iff, ha.right.rep.reach_iff, ha.left.nodup, ha.right.nodup, ?_, ?_,
    fun p hp => ha.left_form hp, fun p hp => ha.right_form hp, ?_⟩
  · rw [size, ha.size_eq, Shape.size_eq_length]
  · rw [size, ha.size_eq, ← ha.size_right, Shape.size_eq_length]
  · intro i
    rw [ha.left.rep.reach_iff, ha.right.rep.reach_iff, ha.mem_right_iff]

theorem C19_trees_share_nodes_witness :
    ∃ (rootL rootR : Ptr) (psL psR : List Ptr), demo_nat.heap.left (end_left 0) = some rootL ∧
      demo_nat.heap.left (end_right 0) = some rootR ∧
      (∀ p, Reach demo_nat.heap rootL p ↔ p ∈ psL) ∧
      (∀ p, Reach demo_nat.heap rootR p ↔ p ∈ psR) ∧
      psL.Nodup ∧ psR.Nodup ∧ psL.length = size demo_nat 0 ∧ psR.length = size demo_nat 0 ∧
      (∀ p ∈ psL, ∃ i, p = .node i .Left_Tag) ∧ (∀ p ∈ psR, ∃ i, p = .node i .Right_Tag) ∧
      (∀ i, Reach demo_nat.heap rootL (.node i .Left_Tag) ↔
        Reach demo_nat.heap rootR (.node i .Right_Tag)) :=
  C19_trees_share_nodes demo_nat 0 (reachable_built demo_nat_spec.2.2.2.2.2.2.2)

end bimap

/-!
## The copy constructor
-/

open bimap_details

namespace bimap

/-- The member initialisers leave a valid empty bimap whose heads are not yet linked, and
touch nothing but the two heads, `_size` and the comparators of the new object. -/
theorem init_members_spec (w : World α β) (c : Nat) (cl : α → α → Bool) (cr : β → β → Bool)
    (hcl : StrictWeakOrder cl) (hcr : StrictWeakOrder cr) :
    Abs (init_members w c cl cr) c .nil .nil ∧
      (∀ x, x ≠ end_left c → x ≠ end_right c →
        (init_members w c cl cr).heap.deref x = w.heap.deref x) := by
  have hL : Ptr.head c .Left_Tag ≠ .nullptr := by simp
  have hR : Ptr.head c .Right_Tag ≠ .nullptr := by simp
  have hd : ∀ x, (init_members w c cl cr).heap.deref x =
      if x = .head c .Right_Tag then some ⟨.nullptr, .nullptr, .nullptr⟩
      else if x = .head c .Left_Tag then some ⟨.nullptr, .nullptr, .nullptr⟩
      else w.heap.deref x := by
    intro x
    simp only [init_members, deref_store _ _ _ _ hR, deref_store _ _ _ _ hL]
  refine ⟨⟨?_, ?_, ⟨⟨.nullptr, ?_, by simp [Shape.ptrs]⟩, trivial, by simp [Shape.ptrs],
      by simp [Shape.ptrs], by simp [Shape.keys]⟩,
      ⟨⟨.nullptr, ?_, by simp [Shape.ptrs]⟩, trivial, by simp [Shape.ptrs],
      by simp [Shape.ptrs], by simp [Shape.keys]⟩, by simp [Shape.ptrs], ?_, ?_, ?_, ?_, ?_⟩, ?_⟩
  · simpa [init_members, upd] using hcl
  · simpa [init_members, upd] using hcr
  · show (init_members w c cl cr).heap.deref (.head c .Left_Tag) = _
    rw [hd]; simp
  · show (init_members w c cl cr).heap.deref (.head c .Right_Tag) = _
    rw [hd]; simp
  · simp [init_members, upd, Shape.size]
  · simp [init_members, upd, size_mod_pos]
  · intro i t hm; simp [Shape.ptrs] at hm
  · intro i t
    show Heap.right (init_members w c cl cr).heap (.head c .Left_Tag) ≠ _
    simp [Heap.right, hd]
  · intro i t
    show Heap.right (init_members w c cl cr).heap (.head c .Right_Tag) ≠ _
    simp [Heap.right, hd]
  · intro x hx1 hx2
    rw [hd]
    simp only [end_left, end_right] at hx1 hx2
    simp [hx1, hx2]

/-- On a valid bimap `link_heads()` cross-links the two heads and changes nothing else. -/
theorem link_heads_spec {w : World α β} {c : Nat} {tl : Shape α} {tr : Shape β}
    (ha : Abs w c tl tr) :
    ∃ w1, link_heads w c = some w1 ∧ Abs w1 c tl tr ∧ Linked w1 c ∧
      w1.next = w.next ∧ w1.first = w.first ∧ w1.second = w.second ∧ w1.size = w.size ∧
      w1.cmp_left = w.cmp_left ∧ w1.cmp_right = w.cmp_right ∧
      (∀ x, x ≠ end_left c → x ≠ end_right c → w1.heap.deref x = w.heap.deref x) := by
  have hL : Ptr.head c .Left_Tag ≠ .nullptr := by simp
  have hR : Ptr.head c .Right_Tag ≠ .nullptr := by simp
  obtain ⟨fl, hfl, -⟩ := ha.left.head
  obtain ⟨fr, hfr, -⟩ := ha.right.head
  simp only [World.left_map, World.right_map] at hfl hfr
  let h1 : Heap := w.heap.store (.head c .Left_Tag) ⟨tl.root, .head c .Right_Tag, .nullptr⟩
  have d1R : h1.deref (.head c .Right_Tag) = some ⟨tr.root, fr, .nullptr⟩ := by
    simp only [h1, deref_store _ _ _ _ hL]
    simp [hfr]
  let h2 : Heap := h1.store (.head c .Right_Tag) ⟨tr.root, .head c .Left_Tag, .nullptr⟩
  have hd : ∀ x, h2.deref x =
      if x = .head c .Right_Tag then some ⟨tr.root, .head c .Left_Tag, .nullptr⟩
      else if x = .head c .Left_Tag then some ⟨tl.root, .head c .Right_Tag, .nullptr⟩
      else w.heap.deref x := by
    intro x
    simp only [h2, h1, deref_store _ _ _ _ hR, deref_store _ _ _ _ hL]
  have hnodeL : ∀ p ∈ tl.ptrs, h2.deref p = w.heap.deref p := by
    intro p hp
    obtain ⟨i, rfl⟩ := ha.left_form hp
    rw [hd]; simp
  have hnodeR : ∀ p ∈ tr.ptrs, h2.deref p = w.heap.deref p := by
    intro p hp
    obtain ⟨i, rfl⟩ := ha.right_form hp
    rw [hd]; simp
  refine ⟨{ w with heap := h2 }, ?_, ?_, ?_, rfl, rfl, rfl, rfl, rfl, rfl, ?_⟩
  · simp only [link_heads, map.set_flip_head, World.left_map, World.right_map]
    rw [set_right_of_deref hfl]
    simp only [Option.bind_eq_bind, Option.some_bind]
    rw [set_right_of_deref d1R]
    rfl
  · refine ⟨ha.swo_left, ha.swo_right, ⟨⟨.head c .Right_Tag, ?_, ?_⟩, ?_, ha.left.nodup,
      ha.left.head_notin, ha.left.sorted⟩, ⟨⟨.head c .Left_Tag, ?_, ?_⟩, ?_, ha.right.nodup,
      ha.right.head_notin, ha.right.sorted⟩, ha.same, ha.size_eq, ha.size_lt, ha.alloc, ?_, ?_⟩
    · show h2.deref (.head c .Left_Tag) = _
      rw [hd]; simp
    · intro hm
      obtain ⟨i, hi⟩ := ha.left_form hm
      simp at hi
    · exact ha.left.rep.congr hnodeL (fun _ _ => rfl)
    · show h2.deref (.head c .Right_Tag) = _
      rw [hd]; simp
    · intro hm
      obtain ⟨i, hi⟩ := ha.right_form hm
      simp at hi
    · exact ha.right.rep.congr hnodeR (fun _ _ => rfl)
    · intro i t
      show Heap.right h2 (.head c .Left_Tag) ≠ _
      simp [Heap.right, hd]
    · intro i t
      show Heap.right h2 (.head c .Right_Tag) ≠ _
      simp [Heap.right, hd]
  · constructor
    · show Heap.right h2 (.head c .Left_Tag) = _
      simp [Heap.right, hd, end_right]
    · show Heap.right h2 (.head c .Right_Tag) = _
      simp [Heap.right, hd, end_left]
  · intro x hx1 hx2
    show h2.deref x = _
    rw [hd]
    simp only [end_left, end_right] at hx1 hx2
    simp [hx1, hx2]

/-- Inserting into bimap `c` writes to no head and no pair node of another bimap. -/
theorem Inserted.frame_other {w w1 : World α β} {b c : Nat} {l : α} {r : β} {tlB tl : Shape α}
    {trB tr : Shape β} (hC : Abs w c tl tr) (hi : Inserted w w1 c l r tl tr) (hbc : b ≠ c)
    (hB : Abs w b tlB trB) (hd : ∀ p ∈ tlB.ptrs, p ∉ tl.ptrs) :
    (∀ x, (x ∈ tlB.ptrs ∨ x ∈ trB.ptrs ∨ x = end_left b ∨ x = end_right b) →
      w1.heap.deref x = w.heap.deref x) ∧
    (∀ i, Ptr.node i .Left_Tag ∈ tlB.ptrs → w1.first i = w.first i ∧ w1.second i = w.second i) := by
  have hdr := hB.disjoint_right hC hd
  have hidx : ∀ i, Ptr.node i .Left_Tag ∈ tlB.ptrs → i ≠ w.next := fun i hm e =>
    absurd (hB.alloc _ _ hm) (by omega)
  constructor
  · intro x hx
    rcases hx with hx | hx | rfl | rfl
    · obtain ⟨i, rfl⟩ := hB.left_form hx
      refine hi.frame _ (hd _ hx) ?_ ?_ ?_ (by simp [end_left]) (by simp [end_right])
      · intro hm; obtain ⟨j, hj⟩ := hC.right_form hm; simp at hj
      · simp only [ne_eq, Ptr.node.injEq, and_true]; exact hidx i hx
      · simp
    · obtain ⟨i, rfl⟩ := hB.right_form hx
      refine hi.frame _ ?_ (hdr _ hx) ?_ ?_ (by simp [end_left]) (by simp [end_right])
      · intro hm; obtain ⟨j, hj⟩ := hC.left_form hm; simp at hj
      · simp
      · simp only [ne_eq, Ptr.node.injEq, and_true]
        exact hidx i ((hB.mem_right_iff i).1 hx)
    · refine hi.frame _ ?_ ?_ (by simp [end_left]) (by simp [end_left])
        (by simp [end_left, hbc]) (by simp [end_left, end_right])
      · intro hm; obtain ⟨j, hj⟩ := hC.left_form hm; simp [end_left] at hj
      · intro hm; obtain ⟨j, hj⟩ := hC.right_form hm; simp [end_left] at hj
    · refine hi.frame _ ?_ ?_ (by simp [end_right]) (by simp [end_right])
        (by simp [end_left, end_right]) (by simp [end_right, hbc])
      · intro hm; obtain ⟨j, hj⟩ := hC.left_form hm; simp [end_right] at hj
      · intro hm; obtain ⟨j, hj⟩ := hC.right_form hm; simp [end_right] at hj
  · intro i hm
    rw [hi.first_eq, hi.second_eq]
    simp [upd, hidx i hm]

end bimap

open bimap_details

namespace bimap

/-- The loop of the copy constructor, started at position `j` of a valid source `b`, performs
on the target `c` exactly the calls `insert(l, r)` for the pairs of `b` from position `j` on,
and writes to no head and no pair node of `b`. -/
theorem copy_loop_spec (fuel c b : Nat) (hbc : b ≠ c) {tlB : Shape α} {trB : Shape β} :
    ∀ (xs : List (α × β)) (j : Nat) (w : World α β) (tl : Shape α) (tr : Shape β) (n : Nat),
    Abs w c tl tr → Abs w b tlB trB → (∀ p ∈ tlB.ptrs, p ∉ tl.ptrs) →
    xs = (content w tlB).drop j →
    (∀ x ∈ xs, ∀ k ∈ tl.keys, equiv (w.cmp_left c) x.1 k = false) →
    (∀ x ∈ xs, ∀ k ∈ tr.keys, equiv (w.cmp_right c) x.2 k = false) →
    xs.Pairwise (fun x y => equiv (w.cmp_left c) x.1 y.1 = false) →
    xs.Pairwise (fun x y => equiv (w.cmp_right c) x.2 y.2 = false) →
    w.size c + xs.length ≤ fuel → w.size c + xs.length < SIZE_MOD → tlB.size < fuel →
    xs.length < n →
    ∃ w2 res, copy_loop fuel c b n w (tlB.ptrs.getD j (end_left b)) = some w2 ∧
      insert_all fuel c w xs = some (w2, res) ∧
      (∀ x, (x ∈ tlB.ptrs ∨ x ∈ trB.ptrs ∨ x = end_left b ∨ x = end_right b) →
        w2.heap.deref x = w.heap.deref x) ∧
      (∀ i, Ptr.node i .Left_Tag ∈ tlB.ptrs →
        w2.first i = w.first i ∧ w2.second i = w.second i) := by
  intro xs
  induction xs with
  | nil =>
    intro j w tl tr n hC hB hd hxs _ _ _ _ _ _ _ hn
    obtain ⟨n, rfl⟩ : ∃ m, n = m + 1 := ⟨n - 1, by simp at hn; omega⟩
    have hlen : (content w tlB).length ≤ j := by
      have := congrArg List.length hxs
      simp at this
      omega
    rw [hB.content_length, hB.size_eq, Shape.size_eq_length] at hlen
    have hit : tlB.ptrs.getD j (end_left b) = end_left b := by
      rw [List.getD_eq_default _ _ hlen]
    refine ⟨w, [], ?_, rfl, fun _ _ => rfl, fun _ _ => ⟨rfl, rfl⟩⟩
    rw [hit]
    simp [copy_loop]
  | cons x xs ih =>
    intro j w tl tr n hC hB hd hxs hfl hfr hpl hpr hf hsz hfB hn
    simp only [List.length_cons] at hf hsz hn
    obtain ⟨n, rfl⟩ : ∃ m, n = m + 1 := ⟨n - 1, by omega⟩
    have hjlen : j < (content w tlB).length := by
      by_contra hcon
      rw [List.drop_eq_nil_of_le (by omega)] at hxs
      simp at hxs
    have hj : j < tlB.size := by rw [← hB.size_eq, ← hB.content_length]; exact hjlen
    have hjl : j < tlB.ptrs.length := by rw [← Shape.size_eq_length]; exact hj
    obtain ⟨i, l, r, hit, hm, hfi, hsi, hcj⟩ := hB.content_at j hj
    have hdrop : (content w tlB).drop j = (l, r) :: (content w tlB).drop (j + 1) := by
      rw [List.drop_eq_getElem_cons hjlen]
      congr 1
      rw [List.getElem?_eq_getElem hjlen] at hcj
      exact Option.some.inj hcj
    rw [hdrop] at hxs
    simp only [List.cons.injEq] at hxs
    obtain ⟨rfl, hxs⟩ := hxs
    obtain ⟨w1, hins, hi⟩ := hC.insert_spec l r
      (hfl (l, r) (List.mem_cons_self _ _)) (hfr (l, r) (List.mem_cons_self _ _)) fuel (by omega)
      (by omega)
    obtain ⟨hB1, hcont1, hd1⟩ := hi.other hC hbc hB hd
    obtain ⟨hfr1, hval1⟩ := hi.frame_other hC hbc hB hd
    have hcl1 : w1.cmp_left c = w.cmp_left c := by rw [hi.cmp_left_eq]
    have hcr1 : w1.cmp_right c = w.cmp_right c := by rw [hi.cmp_right_eq]
    have hsize1 : w1.size c = w.size c + 1 := by rw [hi.size_eq]; simp [upd]
    rw [List.pairwise_cons] at hpl hpr
    have hnext : iterator_incr w1.heap fuel (.node i .Left_Tag) =
        some (tlB.ptrs.getD (j + 1) (end_left b)) := by
      have := map.incr_spec hB1.left fuel hfB _ hm
      rw [this, ← hit]
      congr 1
      exact nextIn_getD tlB.ptrs hB.left.nodup (end_left b) j hjl
    obtain ⟨w2, res, hloop, hall, hfr2, hval2⟩ :=
      ih (j + 1) w1 _ _ n hi.abs hB1 hd1 (by rw [hcont1]; exact hxs)
        (by
          intro y hy k hk
          rw [Shape.mem_ins_keys] at hk
          rw [hcl1]
          rcases hk with hk | hk
          · rw [hk]
            have := hpl.1 y hy
            cases h1 : equiv (w.cmp_left c) y.1 l
            · rfl
            · rw [equiv_symm h1] at this; exact absurd this (by simp)
          · exact hfl y (List.mem_cons_of_mem _ hy) k hk)
        (by
          intro y hy k hk
          rw [Shape.mem_ins_keys] at hk
          rw [hcr1]
          rcases hk with hk | hk
          · rw [hk]
            have := hpr.1 y hy
            cases h1 : equiv (w.cmp_right c) y.2 r
            · rfl
            · rw [equiv_symm h1] at this; exact absurd this (by simp)
          · exact hfr y (List.mem_cons_of_mem _ hy) k hk)
        (by rw [hcl1]; exact hpl.2) (by rw [hcr1]; exact hpr.2)
        (by omega) (by omega) hfB (by omega)
    refine ⟨w2, (Ptr.node w.next .Left_Tag, if Ptr.node w.next .Left_Tag = end_left c then none
      else w1.left_value (.node w.next .Left_Tag)) :: res, ?_, ?_, ?_, ?_⟩
    · rw [hit]
      simp only [copy_loop, ne_eq, end_left, not_false_eq_true, if_true, reduceCtorEq,
        World.left_value, hfi, Option.bind_eq_bind, Option.some_bind]
      have hflip := hB.flip_left_node hm
      rw [hflip]
      simp only [Option.some_bind, World.right_value, hsi, hins, hnext]
      exact hloop
    · simp only [insert_all, hins, Option.bind_eq_bind, Option.some_bind, hall]
    · intro y hy
      rw [hfr2 y hy, hfr1 y hy]
    · intro k hk
      rw [(hval2 k hk).1, (hval2 k hk).2]
      exact hval1 k hk

end bimap

open bimap_details

namespace bimap

/-- The pairs of a valid bimap have pairwise non-equivalent left values and pairwise
non-equivalent right values. -/
theorem Abs.content_pairwise {w : World α β} {b : Nat} {tl : Shape α} {tr : Shape β}
    (ha : Abs w b tl tr) :
    (content w tl).Pairwise (fun x y => w.cmp_left b x.1 y.1 = true) ∧
    (content w tl).Pairwise (fun x y => equiv (w.cmp_left b) x.1 y.1 = false) ∧
    (content w tl).Pairwise (fun x y => equiv (w.cmp_right b) x.2 y.2 = false) := by
  have hs : (content w tl).Pairwise (fun x y => w.cmp_left b x.1 y.1 = true) := by
    have := ha.left.sorted
    rw [← ha.content_keys, List.pairwise_map] at this
    exact this
  refine ⟨hs, hs.imp (fun h => equiv_false_of_lt h), hs.imp_of_mem ?_⟩
  rintro ⟨l1, r1⟩ ⟨l2, r2⟩ h1 h2 hlt
  cases he : equiv (w.cmp_right b) r1 r2
  · rfl
  · exfalso
    obtain ⟨i, hl1, hr1⟩ := (ha.stored_iff l1 r1).1 ((ha.mem_content_iff l1 r1).1 h1)
    obtain ⟨j, hl2, hr2⟩ := (ha.stored_iff l2 r2).1 ((ha.mem_content_iff l2 r2).1 h2)
    obtain ⟨rfl, -⟩ := ha.right_unique hr1 hr2 he
    have := ha.same_node_left hl1 hl2
    subst this
    simp only at hlt
    rw [ha.swo_left.irrefl] at hlt
    exact absurd hlt (by simp)

/-- The copy constructor builds a valid bimap with cross-linked heads that holds the pairs of
the source in the same order, and writes to no head and no pair node of the source. -/
theorem copy_ctor_spec {w : World α β} {b c : Nat} {tlB : Shape α} {trB : Shape β}
    (hB : Abs w b tlB trB) (hbc : b ≠ c) (fuel : Nat) (hf : w.size b < fuel) :
    ∃ w3 tl tr, copy_ctor w fuel c b = some w3 ∧ Abs w3 c tl tr ∧ Linked w3 c ∧
      Abs w3 b tlB trB ∧ content w3 tlB = content w tlB ∧ content w3 tl = content w3 tlB ∧
      (∀ x, (x ∈ tlB.ptrs ∨ x ∈ trB.ptrs ∨ x = end_left b ∨ x = end_right b) →
        w3.heap.deref x = w.heap.deref x) ∧
      (∀ i, Ptr.node i .Left_Tag ∈ tlB.ptrs →
        w3.first i = w.first i ∧ w3.second i = w.second i) ∧
      w3.size b = w.size b ∧ w3.cmp_left b = w.cmp_left b ∧ w3.cmp_right b = w.cmp_right b ∧
      w3.cmp_left c = w.cmp_left b ∧ w3.cmp_right c = w.cmp_right b := by
  obtain ⟨hC0, hframe0⟩ :=
    init_members_spec w c (w.cmp_left b) (w.cmp_right b) hB.swo_left hB.swo_right
  have hcb : c ≠ b := fun e => hbc e.symm
  have hheap0 : ∀ x, (x ∈ tlB.ptrs ∨ x ∈ trB.ptrs ∨ x = end_left b ∨ x = end_right b) →
      (init_members w c (w.cmp_left b) (w.cmp_right b)).heap.deref x = w.heap.deref x := by
    intro x hx
    rcases hx with hx | hx | rfl | rfl
    · obtain ⟨i, rfl⟩ := hB.left_form hx
      exact hframe0 _ (by simp [end_left]) (by simp [end_right])
    · obtain ⟨i, rfl⟩ := hB.right_form hx
      exact hframe0 _ (by simp [end_left]) (by simp [end_right])
    · exact hframe0 _ (by simp [end_left, hbc]) (by simp [end_left, end_right])
    · exact hframe0 _ (by simp [end_left, end_right]) (by simp [end_right, hbc])
  have hcl0 : (init_members w c (w.cmp_left b) (w.cmp_right b)).cmp_left b = w.cmp_left b := by
    simp [init_members, upd, hbc]
  have hcr0 : (init_members w c (w.cmp_left b) (w.cmp_right b)).cmp_right b = w.cmp_right b := by
    simp [init_members, upd, hbc]
  have hclc : (init_members w c (w.cmp_left b) (w.cmp_right b)).cmp_left c = w.cmp_left b := by
    simp [init_members, upd]
  have hcrc : (init_members w c (w.cmp_left b) (w.cmp_right b)).cmp_right c = w.cmp_right b := by
    simp [init_members, upd]
  have hsz0 : (init_members w c (w.cmp_left b) (w.cmp_right b)).size b = w.size b := by
    simp [init_members, upd, hbc]
  have hszc : (init_members w c (w.cmp_left b) (w.cmp_right b)).size c = 0 := by
    simp [init_members, upd]
  obtain ⟨hB0, hcont0⟩ := Abs.transfer (init_members w c (w.cmp_left b) (w.cmp_right b)) hB
    hheap0 (fun _ _ => rfl) (fun _ _ => rfl) hcl0 hcr0 hsz0 (le_refl _)
  generalize hw0 : init_members w c (w.cmp_left b) (w.cmp_right b) = w0 at *
  have hlen : (content w0 tlB).length = w.size b := by rw [hB0.content_length, hsz0]
  obtain ⟨-, hpl, hpr⟩ := hB0.content_pairwise
  rw [hcl0, ← hclc] at hpl
  rw [hcr0, ← hcrc] at hpr
  have hfB : tlB.size < fuel := by rw [← hB.size_eq]; exact hf
  have hlt := hB.size_lt
  obtain ⟨w2, res, hloop, hall, hfr2, hval2⟩ :=
    copy_loop_spec fuel c b hbc (content w0 tlB) 0 w0 .nil .nil fuel hC0 hB0
      (by simp [Shape.ptrs]) (by simp) (by simp [Shape.keys]) (by simp [Shape.keys]) hpl hpr
      (by rw [hszc, hlen]; omega) (by rw [hszc, hlen]; omega) hfB (by rw [hlen]; exact hf)
  obtain ⟨w2a, resa, tl2, tr2, halla, hC2, -, hs2, hst2, hcl2, hcr2, hoth, -, -⟩ :=
    insert_all_spec fuel c (content w0 tlB) w0 .nil .nil hC0 (by simp [Shape.keys])
      (by simp [Shape.keys]) hpl hpr (by rw [hszc, hlen]; omega) (by rw [hszc, hlen]; omega)
  rw [hall] at halla
  simp only [Option.some.injEq, Prod.mk.injEq] at halla
  obtain ⟨rfl, -⟩ := halla
  obtain ⟨hcmpl, hcmpr⟩ := insert_all_cmp fuel c (content w0 tlB) w0 w2 res hall
  obtain ⟨hB2, hcont2, -⟩ := hoth b tlB trB hbc hB0 (by simp [Shape.ptrs])
  obtain ⟨w3, hlink, hC3, hlk3, hnext3, hfirst3, hsecond3, hsize3, hcl3, hcr3, hframe3⟩ :=
    link_heads_spec hC2
  have hheap3 : ∀ x, (x ∈ tlB.ptrs ∨ x ∈ trB.ptrs ∨ x = end_left b ∨ x = end_right b) →
      w3.heap.deref x = w2.heap.deref x := by
    intro x hx
    rcases hx with hx | hx | rfl | rfl
    · obtain ⟨i, rfl⟩ := hB.left_form hx
      exact hframe3 _ (by simp [end_left]) (by simp [end_right])
    · obtain ⟨i, rfl⟩ := hB.right_form hx
      exact hframe3 _ (by simp [end_left]) (by simp [end_right])
    · exact hframe3 _ (by simp [end_left, hbc]) (by simp [end_left, end_right])
    · exact hframe3 _ (by simp [end_left, end_right]) (by simp [end_right, hbc])
  obtain ⟨hB3, hcont3⟩ := Abs.transfer w3 hB2 hheap3 (fun _ _ => by rw [hfirst3])
    (fun _ _ => by rw [hsecond3]) (by rw [hcl3]) (by rw [hcr3]) (by rw [hsize3])
    (by rw [hnext3])
  have hpa : w3.pair_at = w2.pair_at := by
    funext p
    cases p <;> simp [World.pair_at, hfirst3, hsecond3]
  have hcontC : content w3 tl2 = content w2 tl2 := by simp [content, hpa]
  have hmem : content w2 tl2 = content w2 tlB := by
    have h1 := hC2.content_pairwise.1
    have h2 := hB2.content_pairwise.1
    have hcc : w2.cmp_left c = w2.cmp_left b := by
      rw [hcmpl, hclc, hcl0]
    rw [hcc] at h1
    refine eq_of_sorted_of_mem_iff hB2.swo_left _ _ ?_ ?_ ?_
    · rw [List.pairwise_map]; exact h1
    · rw [List.pairwise_map]; exact h2
    · rintro ⟨l, r⟩
      rw [hC2.mem_content_iff, hst2, ← hC0.mem_content_iff, hcont2]
      simp [content, Shape.ptrs]
  refine ⟨w3, tl2, tr2, ?_, hC3, hlk3, hB3, by rw [hcont3, hcont2, hcont0],
    by rw [hcontC, hmem, hcont3], ?_, ?_, ?_, ?_, ?_, ?_, ?_⟩
  · have hbegin : begin_left w0 fuel b = some (tlB.ptrs.getD 0 (end_left b)) := by
      rw [begin_left, map.begin_spec hB0.left fuel (by omega)]
      cases tlB.ptrs <;> rfl
    simp only [copy_ctor, hw0, hbegin, Option.bind_eq_bind, Option.some_bind, hloop, hlink]
  · intro x hx
    rw [hheap3 x hx, hfr2 x hx, hheap0 x hx]
  · intro i hi
    rw [hfirst3, hsecond3, (hval2 i hi).1, (hval2 i hi).2, ← hw0]
    exact ⟨rfl, rfl⟩
  · rw [hsize3, ← hB2.content_length, hcont2, hlen]
  · rw [hcl3, hcmpl, hcl0]
  · rw [hcr3, hcmpr, hcr0]
  · rw [hcl3, hcmpl, hclc]
  · rw [hcr3, hcmpr, hcrc]

end bimap

open bimap_details

namespace bimap

/-- C12: for every valid bimap `b` (in particular every bimap reached from the empty bimap by
inserts and erases) and every other object `c`, the copy constructor `bimap(bimap const&)`
building `c` from `b` returns, `c.size() == b.size()`, `c == b` is true, every pair `(l, r)`
of `b` has `c.at_left(l) == r` and `c.at_right(r) == l`, and `b` is unchanged: its `_size`,
its comparators, its two heads, and the links and values of each of its pair nodes are what
they were. The calls of `insert` in the model raise no error, so the premise that no insertion
step fails holds of every run. -/
theorem C12_copy_construct (w : World α β) (b c fuel : Nat) (hv : Valid w b) (hcb : c ≠ b)
    (hf : size w b < fuel) :
    ∃ w1, copy_ctor w fuel c b = some w1 ∧ size w1 c = size w b ∧
      eq w1 fuel c b = some true ∧
      (∀ l r, Stored w b l r →
        at_left w1 fuel c l = some (.value r) ∧ at_right w1 fuel c r = some (.value l)) ∧
      size w1 b = size w b ∧ (∀ l r, Stored w1 b l r ↔ Stored w b l r) ∧
      w1.cmp_left b = w.cmp_left b ∧ w1.cmp_right b = w.cmp_right b ∧
      w1.heap.deref (end_left b) = w.heap.deref (end_left b) ∧
      w1.heap.deref (end_right b) = w.heap.deref (end_right b) ∧
      (∀ i root, w.heap.left (end_left b) = some root → Reach w.heap root (.node i .Left_Tag) →
        w1.heap.deref (.node i .Left_Tag) = w.heap.deref (.node i .Left_Tag) ∧
        w1.heap.deref (.node i .Right_Tag) = w.heap.deref (.node i .Right_Tag) ∧
        w1.first i = w.first i ∧ w1.second i = w.second i) := by
  obtain ⟨tlB, trB, hB⟩ := hv
  have hbc : b ≠ c := fun e => hcb e.symm
  obtain ⟨w3, tl, tr, hcopy, hC3, -, hB3, hcontB, hcontC, hframe, hval, hsz, hcl, hcr, hclc,
    hcrc⟩ := copy_ctor_spec hB hbc fuel hf
  have hsizeC : size w3 c = size w b := by
    rw [size, size, ← hC3.content_length, hcontC, hB3.content_length, hsz]
  have hstB : ∀ l r, Stored w3 b l r ↔ Stored w b l r := by
    intro l r
    rw [← hB3.mem_content_iff, ← hB.mem_content_iff, hcontB]
  have hstC : ∀ l r, Stored w b l r → Stored w3 c l r := by
    intro l r hs
    rw [← hC3.mem_content_iff, hcontC, hB3.mem_content_iff, hstB]
    exact hs
  have hfC : w3.size c < fuel := by
    have := hsizeC
    simp only [size] at this hf
    omega
  refine ⟨w3, hcopy, hsizeC, eq_of_content_eq hC3 hB3 hcontC fuel hfC, ?_, hsz, hstB, hcl, hcr,
    hframe _ (Or.inr (Or.inr (Or.inl rfl))), hframe _ (Or.inr (Or.inr (Or.inr rfl))), ?_⟩
  · intro l r hs
    exact ⟨hC3.at_left_of_stored (hstC l r hs) l (equiv_self hC3.swo_left l) fuel hfC,
      hC3.at_right_of_stored (hstC l r hs) r (equiv_self hC3.swo_right r) fuel hfC⟩
  · intro i root hroot hreach
    obtain ⟨fl, hfl, -⟩ := hB.left.head
    have hr := left_of_deref hfl
    simp only [World.left_map] at hr
    rw [show end_left b = Ptr.head b .Left_Tag from rfl] at hroot
    rw [hr] at hroot
    simp only [Option.some.injEq] at hroot
    subst hroot
    have hm : Ptr.node i .Left_Tag ∈ tlB.ptrs := (hB.left.rep.reach_iff _).1 hreach
    exact ⟨hframe _ (Or.inl hm), hframe _ (Or.inr (Or.inl ((hB.mem_right_iff i).2 hm))),
      hval i hm⟩

theorem C12_copy_construct_witness :
    Valid demo_nat 0 ∧ (1 : Nat) ≠ 0 ∧ size demo_nat 0 < 8 ∧
    ∃ w1, copy_ctor demo_nat 8 1 0 = some w1 ∧ size w1 1 = size demo_nat 0 ∧
      eq w1 8 1 0 = some true ∧
      (∀ l r, Stored demo_nat 0 l r →
        at_left w1 8 1 l = some (.value r) ∧ at_right w1 8 1 r = some (.value l)) ∧
      size w1 0 = size demo_nat 0 ∧ (∀ l r, Stored w1 0 l r ↔ Stored demo_nat 0 l r) ∧
      w1.cmp_left 0 = demo_nat.cmp_left 0 ∧ w1.cmp_right 0 = demo_nat.cmp_right 0 ∧
      w1.heap.deref (end_left 0) = demo_nat.heap.deref (end_left 0) ∧
      w1.heap.deref (end_right 0) = demo_nat.heap.deref (end_right 0) ∧
      (∀ i root, demo_nat.heap.left (end_left 0) = some root →
        Reach demo_nat.heap root (.node i .Left_Tag) →
        w1.heap.deref (.node i .Left_Tag) = demo_nat.heap.deref (.node i .Left_Tag) ∧
        w1.heap.deref (.node i .Right_Tag) = demo_nat.heap.deref (.node i .Right_Tag) ∧
        w1.first i = demo_nat.first i ∧ w1.second i = demo_nat.second i) :=
  ⟨demo_nat_spec.2.1, by decide, by rw [size, demo_nat_spec.2.2.2.1]; decide,
    C12_copy_construct demo_nat 0 1 8 demo_nat_spec.2.1 (by decide)
      (by rw [size, demo_nat_spec.2.2.2.1]; decide)⟩

end bimap

open bimap_details

namespace bimap

/-- C14, as stated, fails when the `++` steps from `first` to `last` pass `end_left()`: in the
bimap holding `(2, 20)`, `(1, 30)`, `(3, 10)` the position of `2` is a left position, seven
`++` steps lead from it through `end_left()`, the right tree and `end_right()` to
`begin_left()`, the position of `1`, and `erase_left(first, last)` on these two positions
reaches `erase_left(end_left())`, which is undefined: it returns nothing, whatever the fuel. -/
theorem C14_range_erase_past_end :
    Valid demo_nat 0 ∧ Linked demo_nat 0 ∧
    LeftPos demo_nat 8 0 1 (.node 0 .Left_Tag) ∧ LeftPos demo_nat 8 0 0 (.node 1 .Left_Tag) ∧
    incr_n demo_nat.heap 8 7 (.node 0 .Left_Tag) = some (.node 1 .Left_Tag) ∧
    (∀ fuel, erase_left_range demo_nat fuel 0 (.node 0 .Left_Tag) (.node 1 .Left_Tag) = none) := by
  refine ⟨demo_nat_spec.2.1, demo_nat_spec.2.2.1, ⟨_, rfl, rfl⟩, ⟨_, rfl, rfl⟩, rfl, ?_⟩
  intro fuel
  by_cases h : fuel < 9
  · interval_cases fuel <;> rfl
  · obtain ⟨f, rfl⟩ : ∃ f, fuel = f + 9 := ⟨fuel - 9, by omega⟩
    rfl

end bimap

/-!
## `operator--`
-/

namespace bimap_details

theorem prevIn_append_left {xs : List Ptr} {p : Ptr} (hp : p ∈ xs) (ys : List Ptr) (d : Ptr) :
    prevIn (xs ++ ys) p d = prevIn xs p d := by
  induction xs generalizing d with
  | nil => simp at hp
  | cons x xs ih =>
    by_cases hx : x = p
    · simp [prevIn, hx]
    · have hp1 : p ∈ xs := by
        rcases List.mem_cons.1 hp with e | hm
        · exact absurd e.symm hx
        · exact hm
      simp [prevIn, hx, ih hp1]

theorem prevIn_append_right {xs : List Ptr} {p : Ptr} (hp : p ∉ xs) (ys : List Ptr) (d : Ptr) :
    prevIn (xs ++ ys) p d = prevIn ys p (lastOr xs d) := by
  induction xs generalizing d with
  | nil => rfl
  | cons x xs ih =>
    simp only [List.mem_cons, not_or] at hp
    have hx : x ≠ p := fun e => hp.1 e.symm
    simp [prevIn, hx, ih hp.2, lastOr]

theorem lastOr_append_cons (xs : List Ptr) (y : Ptr) (ys : List Ptr) (d : Ptr) :
    lastOr (xs ++ y :: ys) d = lastOr ys y := by
  induction xs generalizing d with
  | nil => rfl
  | cons x xs ih => simp [lastOr, ih]

theorem lastOr_eq_getD (xs : List Ptr) (d e : Ptr) (hl : 0 < xs.length) :
    lastOr xs d = xs.getD (xs.length - 1) e := by
  induction xs generalizing d with
  | nil => simp at hl
  | cons x xs ih =>
    cases xs with
    | nil => rfl
    | cons y ys =>
      rw [lastOr, ih x (by simp)]
      rfl

theorem prevIn_getD (xs : List Ptr) (hn : xs.Nodup) (d e : Ptr) (j : Nat)
    (hj : j + 1 < xs.length) : prevIn xs (xs.getD (j + 1) e) d = xs.getD j e := by
  induction xs generalizing j d with
  | nil => simp at hj
  | cons x xs ih =>
    rw [List.nodup_cons] at hn
    simp only [List.length_cons] at hj
    have hjl : j < xs.length := by omega
    have hm := getD_mem_of_lt xs e j hjl
    have hx : x ≠ xs.getD j e := fun h => hn.1 (h ▸ hm)
    rw [List.getD_cons_succ, prevIn, if_neg hx]
    cases j with
    | zero =>
      cases xs with
      | nil => simp at hjl
      | cons y ys => simp [prevIn]
    | succ j => rw [ih hn.2 x j (by omega), List.getD_cons_succ]

theorem exists_getD_of_mem (xs : List Ptr) (d : Ptr) {p : Ptr} (hp : p ∈ xs) :
    ∃ j, j < xs.length ∧ xs.getD j d = p := by
  induction xs with
  | nil => simp at hp
  | cons x xs ih =>
    rcases List.mem_cons.1 hp with rfl | hm
    · exact ⟨0, by simp, rfl⟩
    · obtain ⟨j, hj, he⟩ := ih hm
      exact ⟨j + 1, by simpa using hj, by rw [List.getD_cons_succ]; exact he⟩

theorem descend_right_spec {h : Heap} {value : Ptr → Option K} (t : Shape K) (par : Ptr)
    (hr : Rep h value par t) (hne : t ≠ .nil) (fuel : Nat) (hf : t.size ≤ fuel) (d : Ptr) :
    descend_right h fuel t.root = some (lastOr t.ptrs d) := by
  induction t generalizing par fuel d with
  | nil => exact absurd rfl hne
  | node l q k r _ ihr =>
    simp only [Shape.size] at hf
    obtain ⟨f, rfl⟩ : ∃ f, fuel = f + 1 := ⟨fuel - 1, by omega⟩
    obtain ⟨hq, -, -, hrr⟩ := hr
    rw [Shape.ptrs, lastOr_append_cons]
    cases r with
    | nil => simp [descend_right, right_of_deref hq, Shape.ptrs, lastOr]
    | node a b c e =>
      have hb : b ≠ .nullptr := deref_ne_null hrr.1
      have := ihr q hrr (by simp) f (by omega) q
      simp only [Shape.root_node] at this
      simp only [descend_right, right_of_deref hq, Shape.root_node, Option.bind_eq_bind,
        Option.some_bind, hb, if_false, this]

theorem climb_from_left_mono {h : Heap} {c : Nat} {prev m : Ptr} {res : Ptr × Ptr}
    (hc : climb_from_left h c prev m = some res) (c1 : Nat) (hle : c ≤ c1) :
    climb_from_left h c1 prev m = some res := by
  induction c generalizing prev m c1 with
  | zero => simp [climb_from_left] at hc
  | succ c ih =>
    obtain ⟨c2, rfl⟩ : ∃ c2, c1 = c2 + 1 := ⟨c1 - 1, by omega⟩
    simp only [climb_from_left] at hc ⊢
    by_cases hm : m = .nullptr
    · simpa [hm] using hc
    · simp only [hm, if_false] at hc ⊢
      cases hr : h.left m with
      | none => simp [hr] at hc
      | some r =>
        simp only [hr, Option.bind_eq_bind, Option.some_bind] at hc ⊢
        by_cases hrp : r = prev
        · simp only [hrp, if_true] at hc ⊢
          cases hu : h.parent m with
          | none => simp [hu] at hc
          | some u =>
            simp only [hu, Option.some_bind] at hc ⊢
            exact ih hc c2 (by omega)
        · simpa [hrp] using hc

theorem decr_spec_aux {h : Heap} {value : Ptr → Option K} (t : Shape K) (par : Ptr)
    (hr : Rep h value par t) (hn : t.ptrs.Nodup) (nxt x : Ptr) (c : Nat)
    (hc : climb_from_left h c t.root par = some (x, nxt))
    (fuel : Nat) (hf : c + t.size ≤ fuel) (p : Ptr) (hp : p ∈ t.ptrs) :
    iterator_decr h fuel p = some (prevIn t.ptrs p (if nxt = .nullptr then x else nxt)) := by
  induction t generalizing par nxt x c with
  | nil => simp [Shape.ptrs] at hp
  | node l q k r ihl ihr =>
    obtain ⟨hq, hv, hl, hrr⟩ := hr
    simp only [Shape.size] at hf
    simp only [Shape.ptrs] at hn
    have hnl := (List.nodup_append.1 hn).1
    have hnr := (List.nodup_cons.1 (List.nodup_append.1 hn).2.1).2
    have hql : q ∉ l.ptrs := fun hm =>
      (List.nodup_append.1 hn).2.2 hm (List.mem_cons_self q _)
    have hqr : q ∉ r.ptrs := (List.nodup_cons.1 (List.nodup_append.1 hn).2.1).1
    have hdisj : ∀ y, y ∈ l.ptrs → y ∉ r.ptrs := fun y hy hy1 =>
      (List.nodup_append.1 hn).2.2 hy (List.mem_cons_of_mem _ hy1)
    have hqn : q ≠ .nullptr := deref_ne_null hq
    simp only [Shape.root_node] at hc
    simp only [Shape.ptrs, List.mem_append, List.mem_cons] at hp
    rcases hp with hp | rfl | hp
    · -- the position lies in the left subtree: the climb continues above `q`
      have hc1 : climb_from_left h (c + 1) l.root q = some (x, nxt) := by
        simp [climb_from_left, hqn, left_of_deref hq, parent_of_deref hq, hc]
      rw [ihl q hl hnl nxt x (c + 1) hc1 (by omega) hp, Shape.ptrs, prevIn_append_left hp]
    · -- the position is the root of this subtree
      rw [Shape.ptrs, prevIn_append_right hql]
      simp only [prevIn, if_true]
      cases l with
      | nil =>
        have := climb_from_left_mono hc fuel (by omega)
        by_cases hnx : nxt = .nullptr
        · simp [iterator_decr, left_of_deref hq, parent_of_deref hq, this, hnx, lastOr,
            Shape.ptrs]
        · simp [iterator_decr, left_of_deref hq, parent_of_deref hq, this, hnx, lastOr,
            Shape.ptrs]
      | node a b c1 e =>
        have hb : b ≠ .nullptr := deref_ne_null hl.1
        have := descend_right_spec (.node a b c1 e) p hl (by simp) fuel (by omega)
          (if nxt = .nullptr then x else nxt)
        simp only [Shape.root_node] at this
        simp [iterator_decr, left_of_deref hq, hb, this]
    · -- the position lies in the right subtree: the climb stops at `q`
      have hpl : p ∉ l.ptrs := fun hm => hdisj p hm hp
      have hqp : q ≠ p := fun e => hqr (e ▸ hp)
      have hrne : r ≠ .nil := by rintro rfl; simp [Shape.ptrs] at hp
      have hrroot : r.root ∈ r.ptrs := by
        cases r with
        | nil => exact absurd rfl hrne
        | node a b c1 e => exact Shape.root_mem_ptrs _ _ _ _
      have hlr : l.root ≠ r.root := by
        cases l with
        | nil => simpa using (hrr.ne_null_of_mem hrroot).symm
        | node a b c1 e =>
          intro e1
          exact hdisj _ (Shape.root_mem_ptrs _ _ _ _) (e1 ▸ hrroot)
      have hc1 : climb_from_left h 1 r.root q = some (r.root, q) := by
        simp [climb_from_left, hqn, left_of_deref hq, hlr]
      rw [ihr q hrr hnr q r.root 1 hc1 (by omega) hp, Shape.ptrs, prevIn_append_right hpl]
      simp [prevIn, hqp, hqn]

/-- On a valid map, `operator--` moves an element position to the previous position in
ascending order, and the first one to the head. -/
theorem map.decr_spec {m : map K} {h : Heap} {t : Shape K} (hinv : MapInv m h t)
    (fuel : Nat) (hf : t.size + 1 < fuel) (p : Ptr) (hp : p ∈ t.ptrs) :
    iterator_decr h fuel p = some (prevIn t.ptrs p m.head) := by
  obtain ⟨fl, hhead, hfl⟩ := hinv.head
  have hhn : m.head ≠ .nullptr := deref_ne_null hhead
  have hc : climb_from_left h 2 t.root m.head = some (m.head, .nullptr) := by
    simp [climb_from_left, hhn, left_of_deref hhead, parent_of_deref hhead]
  have := decr_spec_aux t m.head hinv.rep hinv.nodup .nullptr m.head 2 hc fuel (by omega) p hp
  simpa using this

/-- On a valid map, `operator--` moves the head to the last position in ascending order, and
leaves it where it is when the map is empty. -/
theorem map.decr_head {m : map K} {h : Heap} {t : Shape K} (hinv : MapInv m h t)
    (fuel : Nat) (hf : t.size < fuel) :
    iterator_decr h fuel m.head = some (lastOr t.ptrs m.head) := by
  obtain ⟨fl, hhead, -⟩ := hinv.head
  obtain ⟨f, rfl⟩ : ∃ f, fuel = f + 1 := ⟨fuel - 1, by omega⟩
  cases t with
  | nil =>
    simp [iterator_decr, left_of_deref hhead, parent_of_deref hhead, climb_from_left, lastOr,
      Shape.ptrs]
  | node l q k r =>
    have hq : q ≠ .nullptr := deref_ne_null hinv.rep.1
    have := descend_right_spec (.node l q k r) m.head hinv.rep (by simp) (f + 1) (by omega)
      m.head
    simp only [Shape.root_node] at this
    simp [iterator_decr, left_of_deref hhead, hq, this]

end bimap_details

namespace bimap_details

/-- On a valid map, `operator--` moves position `j + 1` (the head when `j + 1` is the number of
nodes) to position `j`. -/
theorem map.decr_at {m : map K} {h : Heap} {t : Shape K} (hinv : MapInv m h t)
    (fuel : Nat) (hf : t.size + 1 < fuel) (j : Nat) (hj : j < t.size) :
    iterator_decr h fuel (t.ptrs.getD (j + 1) m.head) = some (t.ptrs.getD j m.head) := by
  have hlen : t.ptrs.length = t.size := (Shape.size_eq_length t).symm
  by_cases hlast : j + 1 = t.size
  · rw [List.getD_eq_default _ _ (by omega), map.decr_head hinv fuel (by omega),
      lastOr_eq_getD t.ptrs m.head m.head (by omega)]
    congr 2
    omega
  · rw [map.decr_spec hinv fuel hf _ (getD_mem_of_lt _ _ _ (by omega)),
      prevIn_getD t.ptrs hinv.nodup m.head m.head j (by omega)]

/-- On a valid map, `n` steps of `operator--` from position `j` reach position `j - n`. -/
theorem map.decr_n_spec {m : map K} {h : Heap} {t : Shape K} (hinv : MapInv m h t)
    (fuel : Nat) (hf : t.size + 1 < fuel) (n j : Nat) (hn : n ≤ j) (hj : j ≤ t.size) :
    bimap.decr_n h fuel n (t.ptrs.getD j m.head) = some (t.ptrs.getD (j - n) m.head) := by
  induction n generalizing j with
  | zero => rfl
  | succ n ih =>
    obtain ⟨i, rfl⟩ : ∃ i, j = i + 1 := ⟨j - 1, by omega⟩
    rw [bimap.decr_n, map.decr_at hinv fuel hf i (by omega), Option.some_bind,
      ih i (by omega) (by omega)]
    congr 2
    omega

/-- On a valid map, `--` undoes `++` at every element position and `++` undoes `--` at every
element position but the first. -/
theorem map.decr_round_trip {m : map K} {h : Heap} {t : Shape K} (hinv : MapInv m h t)
    (fuel : Nat) (hf : t.size + 1 < fuel) :
    (∀ j, j < t.size → ∃ q, iterator_incr h fuel (t.ptrs.getD j m.head) = some q ∧
      iterator_decr h fuel q = some (t.ptrs.getD j m.head)) ∧
    (∀ j, 0 < j → j < t.size → ∃ q, iterator_decr h fuel (t.ptrs.getD j m.head) = some q ∧
      q ≠ m.head ∧ iterator_incr h fuel q = some (t.ptrs.getD j m.head)) := by
  have hlen : t.ptrs.length = t.size := (Shape.size_eq_length t).symm
  constructor
  · intro j hj
    refine ⟨t.ptrs.getD (j + 1) m.head, ?_, map.decr_at hinv fuel hf j hj⟩
    rw [map.incr_spec hinv fuel (by omega) _ (getD_mem_of_lt _ _ _ (by omega)),
      nextIn_getD _ hinv.nodup _ _ (by omega)]
  · intro j hj0 hj
    obtain ⟨i, rfl⟩ : ∃ i, j = i + 1 := ⟨j - 1, by omega⟩
    have hm := getD_mem_of_lt t.ptrs m.head i (by omega)
    refine ⟨t.ptrs.getD i m.head, map.decr_at hinv fuel hf i (by omega), ?_, ?_⟩
    · intro e
      exact hinv.head_notin (e ▸ hm)
    · rw [map.incr_spec hinv fuel (by omega) _ hm, nextIn_getD _ hinv.nodup _ _ (by omega)]

/-- On a valid map, the keys at the positions ascend with the position, and the key at the
last position is the greatest. -/
theorem map.values_at {m : map K} {h : Heap} {t : Shape K} (hinv : MapInv m h t) :
    (∀ j, j < t.size → ∃ x, m.value (t.ptrs.getD j m.head) = some x ∧ x ∈ t.keys) ∧
    (∀ j k x y, j < k → k < t.size → m.value (t.ptrs.getD j m.head) = some x →
      m.value (t.ptrs.getD k m.head) = some y → m.cmp x y = true) ∧
    (∀ x, m.value (t.ptrs.getD (t.size - 1) m.head) = some x →
      ∀ k ∈ t.keys, k = x ∨ m.cmp k x = true) := by
  have hlen : t.toList.length = t.size := by
    rw [Shape.size_eq_length, ← Shape.ptrs_toList, List.length_map]
  have hp : (t.toList.map Prod.snd).Pairwise (fun a b => m.cmp a b = true) := by
    rw [Shape.keys_toList]; exact hinv.sorted
  have hpos : ∀ k (hk : k < t.toList.length), t.ptrs.getD k m.head = (t.toList[k]).1 ∧
      m.value (t.toList[k]).1 = some (t.toList[k]).2 := by
    intro k hk
    refine ⟨?_, hinv.rep.value_of_mem (List.getElem_mem hk) hinv.nodup⟩
    rw [← Shape.ptrs_toList]
    exact getD_map_fst _ _ _ hk
  refine ⟨?_, ?_, ?_⟩
  · intro j hj
    obtain ⟨h1, h2⟩ := hpos j (by omega)
    refine ⟨(t.toList[j]).2, by rw [h1, h2], ?_⟩
    exact Shape.mem_keys_of_mem_toList (List.getElem_mem (by omega))
  · intro j k x y hjk hk hx hy
    obtain ⟨h1, h2⟩ := hpos j (by omega)
    obtain ⟨h3, h4⟩ := hpos k (by omega)
    rw [h1, h2] at hx
    rw [h3, h4] at hy
    simp only [Option.some.injEq] at hx hy
    subst hx hy
    exact pairwise_snd_getElem t.toList hp j k hjk (by omega)
  · intro x hx k hk
    obtain ⟨q, hq⟩ := Shape.exists_ptr_of_mem_keys hk
    obtain ⟨i, hi, he⟩ := List.getElem_of_mem hq
    have hpos1 : 0 < t.size := by omega
    obtain ⟨h1, h2⟩ := hpos (t.size - 1) (by omega)
    rw [h1, h2] at hx
    simp only [Option.some.injEq] at hx
    by_cases hlast : i = t.size - 1
    · left
      subst hlast
      rw [← hx, he]
    · right
      have := pairwise_snd_getElem t.toList hp i (t.size - 1) (by omega) (by omega)
      rw [he, hx] at this
      exact this

end bimap_details

open bimap_details

namespace bimap

/-- C21: on every valid bimap (its heads cross-linked or not), `--` is the mirror image of
`++`: at every element position `p` of either side, `--` applied to `++p` gives `p` back; at
every element position `p` other than `begin`, `++` applied to `--p` gives `p` back; on a
non-empty bimap `--end_left()` is the position of the greatest Left value; and `n ≤ size()`
decrements from `end_left()` arrive at the position `size() - n` steps after `begin_left()`,
so `size()` of them arrive at `begin_left()`, each visiting an element, with strictly
decreasing Left values. -/
theorem C21_decrement_mirrors_increment (w : World α β) (b : Nat) (hv : Valid w b)
    (fuel : Nat) (hf : size w b + 1 < fuel) :
    (∀ j p, j < size w b → (LeftPos w fuel b j p ∨ RightPos w fuel b j p) →
      ∃ q, iterator_incr w.heap fuel p = some q ∧ iterator_decr w.heap fuel q = some p) ∧
    (∀ j p, j < size w b →
      (LeftPos w fuel b j p ∧ begin_left w fuel b ≠ some p ∨
        RightPos w fuel b j p ∧ begin_right w fuel b ≠ some p) →
      ∃ q, iterator_decr w.heap fuel p = some q ∧ iterator_incr w.heap fuel q = some p) ∧
    (0 < size w b → ∃ p x, iterator_decr w.heap fuel (end_left b) = some p ∧
      p ≠ end_left b ∧ w.left_value p = some x ∧ (∃ r, Stored w b x r) ∧
      ∀ l r, Stored w b l r → l = x ∨ w.cmp_left b l x = true) ∧
    (∀ n, n ≤ size w b → ∃ p, decr_n w.heap fuel n (end_left b) = some p ∧
      LeftPos w fuel b (size w b - n) p) ∧
    decr_n w.heap fuel (size w b) (end_left b) = begin_left w fuel b ∧
    (∀ k, 0 < k → k ≤ size w b → ∃ p x, decr_n w.heap fuel k (end_left b) = some p ∧
      p ≠ end_left b ∧ w.left_value p = some x) ∧
    (∀ j k p q x y, 0 < j → j < k → k ≤ size w b →
      decr_n w.heap fuel j (end_left b) = some p → decr_n w.heap fuel k (end_left b) = some q →
      w.left_value p = some x → w.left_value q = some y → w.cmp_left b y x = true) := by
  obtain ⟨tl, tr, ha⟩ := hv
  simp only [size] at hf ⊢
  have hsl : w.size b = tl.size := ha.size_eq
  have hsr : tr.size = tl.size := ha.size_right
  have hfl : tl.size + 1 < fuel := by omega
  have hfr : tr.size + 1 < fuel := by omega
  have hf0 : w.size b < fuel := by omega
  have hlenl : tl.ptrs.length = tl.size := (Shape.size_eq_length tl).symm
  obtain ⟨hrtL1, hrtL2⟩ := map.decr_round_trip ha.left fuel hfl
  obtain ⟨hrtR1, hrtR2⟩ := map.decr_round_trip ha.right fuel hfr
  obtain ⟨hval, hasc, hmax⟩ := map.values_at ha.left
  have hend : tl.ptrs.getD tl.size (end_left b) = end_left b :=
    List.getD_eq_default _ _ (by omega)
  have hdn : ∀ n, n ≤ tl.size → decr_n w.heap fuel n (end_left b) =
      some (tl.ptrs.getD (tl.size - n) (end_left b)) := fun n hn =>
    (congrArg (decr_n w.heap fuel n) hend.symm).trans
      (map.decr_n_spec ha.left fuel hfl n tl.size hn (le_refl _))
  have hnotend : ∀ j, j < tl.size → tl.ptrs.getD j (end_left b) ≠ end_left b := by
    intro j hj e
    have hm := getD_mem_of_lt tl.ptrs (end_left b) j (by omega)
    rw [e] at hm
    exact ha.left.head_notin hm
  have hbegin : begin_left w fuel b = some (tl.ptrs.getD 0 (end_left b)) := by
    rw [begin_left, map.begin_spec ha.left fuel (by omega)]
    cases tl.ptrs <;> rfl
  have hbeginR : begin_right w fuel b = some (tr.ptrs.getD 0 (end_right b)) := by
    rw [begin_right, map.begin_spec ha.right fuel (by omega)]
    cases tr.ptrs <;> rfl
  refine ⟨?_, ?_, ?_, ?_, ?_, ?_, ?_⟩
  · intro j p hj hpos
    rcases hpos with hpos | hpos
    · have hp := (ha.left_pos_iff fuel hf0 j (by omega) p).1 hpos
      subst hp
      exact hrtL1 j (by omega)
    · have hp := (ha.right_pos_iff fuel hf0 j (by omega) p).1 hpos
      subst hp
      exact hrtR1 j (by omega)
  · intro j p hj hpos
    rcases hpos with ⟨hpos, hnb⟩ | ⟨hpos, hnb⟩
    · have hp := (ha.left_pos_iff fuel hf0 j (by omega) p).1 hpos
      subst hp
      have hj0 : 0 < j := by
        rcases Nat.eq_zero_or_pos j with rfl | h
        · exact absurd hbegin hnb
        · exact h
      obtain ⟨q, h1, -, h2⟩ := hrtL2 j hj0 (by omega)
      exact ⟨q, h1, h2⟩
    · have hp := (ha.right_pos_iff fuel hf0 j (by omega) p).1 hpos
      subst hp
      have hj0 : 0 < j := by
        rcases Nat.eq_zero_or_pos j with rfl | h
        · exact absurd hbeginR hnb
        · exact h
      obtain ⟨q, h1, -, h2⟩ := hrtR2 j hj0 (by omega)
      exact ⟨q, h1, h2⟩
  · intro hpos
    obtain ⟨x, hx, hxk⟩ := hval (tl.size - 1) (by omega)
    refine ⟨tl.ptrs.getD (tl.size - 1) (end_left b), x, ?_, hnotend _ (by omega), hx,
      (ha.mem_keys_left_iff x).1 hxk, ?_⟩
    · have := hdn 1 (by omega)
      simpa [-List.getD_eq_getElem?_getD, decr_n] using this
    · intro l r hs
      exact hmax x hx l ((ha.mem_keys_left_iff l).2 ⟨r, hs⟩)
  · intro n hn
    refine ⟨_, hdn n (by omega), ?_⟩
    rw [ha.left_pos_iff fuel hf0 _ (by omega), hsl]
  · rw [hsl, hdn tl.size (le_refl _), hbegin, Nat.sub_self]
  · intro k hk0 hk
    obtain ⟨x, hx, -⟩ := hval (tl.size - k) (by omega)
    exact ⟨_, x, hdn k (by omega), hnotend _ (by omega), hx⟩
  · intro j k p q x y hj0 hjk hk hp hq hx hy
    rw [hdn j (by omega)] at hp
    rw [hdn k (by omega)] at hq
    simp only [Option.some.injEq] at hp hq
    subst hp hq
    exact hasc (tl.size - k) (tl.size - j) y x (by omega) (by omega) hy hx

theorem C21_decrement_mirrors_increment_witness :
    Valid demo_nat 0 ∧ size demo_nat 0 + 1 < 8 ∧
    (∀ j p, j < size demo_nat 0 → (LeftPos demo_nat 8 0 j p ∨ RightPos demo_nat 8 0 j p) →
      ∃ q, iterator_incr demo_nat.heap 8 p = some q ∧
        iterator_decr demo_nat.heap 8 q = some p) ∧
    (∀ j p, j < size demo_nat 0 →
      (LeftPos demo_nat 8 0 j p ∧ begin_left demo_nat 8 0 ≠ some p ∨
        RightPos demo_nat 8 0 j p ∧ begin_right demo_nat 8 0 ≠ some p) →
      ∃ q, iterator_decr demo_nat.heap 8 p = some q ∧
        iterator_incr demo_nat.heap 8 q = some p) ∧
    (0 < size demo_nat 0 → ∃ p x, iterator_decr demo_nat.heap 8 (end_left 0) = some p ∧
      p ≠ end_left 0 ∧ demo_nat.left_value p = some x ∧ (∃ r, Stored demo_nat 0 x r) ∧
      ∀ l r, Stored demo_nat 0 l r → l = x ∨ demo_nat.cmp_left 0 l x = true) ∧
    (∀ n, n ≤ size demo_nat 0 → ∃ p, decr_n demo_nat.heap 8 n (end_left 0) = some p ∧
      LeftPos demo_nat 8 0 (size demo_nat 0 - n) p) ∧
    decr_n demo_nat.heap 8 (size demo_nat 0) (end_left 0) = begin_left demo_nat 8 0 ∧
    (∀ k, 0 < k → k ≤ size demo_nat 0 → ∃ p x,
      decr_n demo_nat.heap 8 k (end_left 0) = some p ∧ p ≠ end_left 0 ∧
      demo_nat.left_value p = some x) ∧
    (∀ j k p q x y, 0 < j → j < k → k ≤ size demo_nat 0 →
      decr_n demo_nat.heap 8 j (end_left 0) = some p →
      decr_n demo_nat.heap 8 k (end_left 0) = some q →
      demo_nat.left_value p = some x → demo_nat.left_value q = some y →
      demo_nat.cmp_left 0 y x = true) :=
  ⟨demo_nat_spec.2.1, by rw [size, demo_nat_spec.2.2.2.1]; decide,
    C21_decrement_mirrors_increment demo_nat 0 demo_nat_spec.2.1 8
      (by rw [size, demo_nat_spec.2.2.2.1]; decide)⟩

end bimap
